import Mathlib

set_option linter.unusedSectionVars false

/-! Wavetable synthesiser: oscillator and polyphonic engine.

A shallow embedding of `Source/WavetableOscillator.{h,cpp}` and
`Source/WavetableSynth.{h,cpp}`.

The sources are embedded twice.  The first embedding, below, is generic in the
type of the floating values and computes with them exactly; the second, in the
section on IEEE 754 arithmetic and the namespace `Rounded`, is the same code over
the binary32 and binary64 values with every operation rounded.  Properties that
are the code's own expressions are stated over the first; properties of the
computed numbers (ranges, sums, positions after several calls) over the second.

Conventions of the embedding.

* In the first embedding `float` and `double` values are elements of a linearly
  ordered field `F` with a floor function, and arithmetic on them is exact.  Every
  definition is computable; `F = ℚ` is used to evaluate the code on concrete inputs
  and `F = ℝ` where the `<cmath>` functions are the real `sin`, `arctan` and power.
* The `<cmath>` functions `sinf`, `atanf` and `powf` are not part of the
  sources; they are passed in as a record `CMath F`.
* `int` values are integers.  The tables handled here are far shorter than
  `2 ^ 31`, so no conversion to `int` wraps.
* Sample positions inside a block (`startSample`, `endSample`, time stamps) are
  natural numbers.
* Undefined behaviour (reading or writing a `std::vector` or a channel outside
  its bounds, `%` by zero, a reversed range handed to `std::copy`) is the
  result `none`; a function that mutates `this` returns the new state.
-/

/-! ## C++ primitives -/

/-- The conversion `static_cast<int>(x)` of a floating value: truncation toward zero. -/
def truncToInt {F : Type} [LinearOrderedField F] [FloorRing F] (x : F) : Int :=
  if 0 ≤ x then ⌊x⌋ else ⌈x⌉

/-- The function `std::fmod(x, y)`: the remainder `x - n * y` where `n` is `x / y`
with its fractional part dropped, so the result carries the sign of `x`. -/
def fmod {F : Type} [LinearOrderedField F] [FloorRing F] (x y : F) : F :=
  x - (truncToInt (x / y) : F) * y

/-- The read `v[i]` of a `std::vector` at an `int` position; outside the bounds
the behaviour is undefined. -/
def vecAt {α : Type} (v : List α) (i : Int) : Option α :=
  if 0 ≤ i then v[i.toNat]? else none

/-- The `<cmath>` functions the synthesiser calls. -/
structure CMath (F : Type) where
  sinf : F → F
  atanf : F → F
  powf : F → F → F

/-! ## `WavetableOscillator` -/

/-- The data members of `class WavetableOscillator`. -/
structure WavetableOscillator (F : Type) where
  waveTable : List F
  sampleRate : F
  index : F
  indexIncrement : F

namespace WavetableOscillator

variable {F : Type} [LinearOrderedField F] [FloorRing F]

/-- The constructor `WavetableOscillator(waveTable, sampleRate)`; `index` and
`indexIncrement` take their default member initialisers `0.f`. -/
def new (waveTable : List F) (sampleRate : F) : WavetableOscillator F :=
  ⟨waveTable, sampleRate, 0, 0⟩

/-- The method `setFrequency(frequency)`. -/
def setFrequency (o : WavetableOscillator F) (frequency : F) : WavetableOscillator F :=
  { o with indexIncrement := frequency * (o.waveTable.length : F) / o.sampleRate }

/-- The method `interpolateLinearly()`. -/
def interpolateLinearly (o : WavetableOscillator F) : Option F :=
  let truncatedIndex : Int := truncToInt o.index
  let size : Int := (o.waveTable.length : Int)
  if size = 0 then none
  else
    let nextIndex : Int := Int.tmod (truncatedIndex + 1) size
    let nextIndexWeight : F := o.index - (truncatedIndex : F)
    let truncatedIndexWeight : F := 1 - nextIndexWeight
    match vecAt o.waveTable truncatedIndex, vecAt o.waveTable nextIndex with
    | some a, some b => some (truncatedIndexWeight * a + nextIndexWeight * b)
    | _, _ => none

/-- The method `getSample()`: the returned sample and the oscillator afterwards. -/
def getSample (o : WavetableOscillator F) : Option (F × WavetableOscillator F) :=
  match o.interpolateLinearly with
  | none => none
  | some sample =>
    let index := o.index + o.indexIncrement
    let index := fmod index (o.waveTable.length : F)
    some (sample, { o with index := index })

/-- Successive calls of `getSample()` on one oscillator run alone, `count` of them:
the samples returned, in call order, and the oscillator afterwards. -/
def getSamples (o : WavetableOscillator F) : Nat → Option (List F × WavetableOscillator F)
  | 0 => some ([], o)
  | count + 1 =>
    match o.getSample with
    | none => none
    | some (value, o1) =>
      match getSamples o1 count with
      | none => none
      | some (values, o2) => some (value :: values, o2)

/-- The samples an oscillator produces when run alone by `count` successive
`getSample()` calls from its current state (no samples if a call is undefined). -/
def soloSamples (o : WavetableOscillator F) (count : Nat) : List F :=
  match getSamples o count with
  | none => []
  | some (values, _) => values

/-- The oscillator after `count` successive `getSample()` calls (itself if a call is
undefined). -/
def afterSamples (o : WavetableOscillator F) (count : Nat) : WavetableOscillator F :=
  match getSamples o count with
  | none => o
  | some (_, o1) => o1

/-- The method `stop()`. -/
def stop (o : WavetableOscillator F) : WavetableOscillator F :=
  { o with index := 0, indexIncrement := 0 }

/-- The method `isPlaying()`. -/
def isPlaying (o : WavetableOscillator F) : Bool :=
  decide (o.indexIncrement ≠ 0)

/-- The state the engine keeps its oscillators in: a non-empty table, `index` inside
`[0, waveTable.size())` and a non-negative `indexIncrement`. -/
def InRange (o : WavetableOscillator F) : Prop :=
  0 < o.waveTable.length ∧ 0 ≤ o.index ∧ o.index < (o.waveTable.length : F) ∧
    0 ≤ o.indexIncrement

instance (o : WavetableOscillator F) : Decidable (InRange o) := by
  unfold InRange
  infer_instance

end WavetableOscillator

/-- A call of one of the public mutating methods of `WavetableOscillator`. -/
inductive OscillatorCall (F : Type) where
  | setFrequency (frequency : F)
  | getSample
  | stop

namespace OscillatorCall

variable {F : Type} [LinearOrderedField F] [FloorRing F]

/-- The oscillator after one call. -/
def run (o : WavetableOscillator F) : OscillatorCall F → Option (WavetableOscillator F)
  | .setFrequency frequency => some (o.setFrequency frequency)
  | .getSample =>
    match o.getSample with
    | none => none
    | some (_, o1) => some o1
  | .stop => some o.stop

/-- The oscillator after a sequence of calls, made from left to right. -/
def runAll (o : WavetableOscillator F) : List (OscillatorCall F) → Option (WavetableOscillator F)
  | [] => some o
  | call :: rest =>
    match run o call with
    | none => none
    | some o1 => runAll o1 rest

end OscillatorCall

/-! ## JUCE collaborators -/

/-- What `handleMidiEvent` asks of a `juce::MidiMessage`: which of `isNoteOn()`,
`isNoteOff()`, `isAllNotesOff()` holds (or none of them) and, for the first
two, `getNoteNumber()`. -/
inductive MidiKind where
  | noteOn (noteNumber : Nat) (velocity : Nat)
  | noteOff (noteNumber : Nat)
  | allNotesOff
  | other
  deriving DecidableEq, Repr

/-- A `juce::MidiMessage` taken out of the `juce::MidiBuffer`: `getTimeStamp()`,
a sample position inside the block, and the kind of message. -/
structure MidiMessage where
  timeStamp : Nat
  kind : MidiKind
  deriving DecidableEq, Repr

/-- A `juce::AudioBuffer<float>`: `getNumSamples()` and one sample sequence per
channel (`getNumChannels()` is the number of sequences, `getWritePointer(c)` is
the `c`-th one). -/
structure AudioBuffer (F : Type) where
  numSamples : Nat
  channels : List (List F)

namespace AudioBuffer

/-- Every channel of the buffer holds `getNumSamples()` samples. -/
def WellFormed {F : Type} (buffer : AudioBuffer F) : Prop :=
  ∀ channel ∈ buffer.channels, channel.length = buffer.numSamples

instance {F : Type} (buffer : AudioBuffer F) : Decidable (WellFormed buffer) := by
  unfold WellFormed
  infer_instance

/-- The sample `getReadPointer(channel)[index]`, when both positions exist. -/
def sample? {F : Type} (buffer : AudioBuffer F) (channel index : Nat) : Option F :=
  match buffer.channels[channel]? with
  | none => none
  | some samples => samples[index]?

end AudioBuffer

/-- The call `std::copy(src + startSample, src + endSample, dst + startSample)`: the
destination with the positions of `[startSample, endSample)` overwritten from the
source.  Both sequences must reach to `endSample` and the range must not be reversed. -/
def copyRange {F : Type} (src dst : List F) (startSample endSample : Nat) :
    Option (List F) :=
  if startSample ≤ endSample ∧ endSample ≤ src.length ∧ endSample ≤ dst.length then
    some (dst.take startSample ++ (src.drop startSample).take (endSample - startSample)
      ++ dst.drop endSample)
  else none

/-! ## `WavetableSynth` -/

/-- The data members of `class WavetableSynth`. -/
structure WavetableSynth (F : Type) where
  sampleRate : F
  oscillators : List (WavetableOscillator F)

namespace WavetableSynth

variable {F : Type} [LinearOrderedField F] [FloorRing F]

/-- The constant `WAVETABLE_LENGTH` of `generateSineWaveTable`. -/
def WAVETABLE_LENGTH : Nat := 64

/-- The constant `OSCILLATOR_COUNT` of `initializeOscillators`. -/
def OSCILLATOR_COUNT : Nat := 128

/-- The method `generateSineWaveTable()`: a vector of `WAVETABLE_LENGTH` zeros whose
entries are then assigned one after the other. -/
def generateSineWaveTable (m : CMath F) (_self : WavetableSynth F) : List F :=
  let PI : F := m.atanf 1 * 4
  (List.range WAVETABLE_LENGTH).foldl
    (fun sineWaveTable i =>
      sineWaveTable.set i (m.sinf (2 * PI * (i : F) / (WAVETABLE_LENGTH : F))))
    (List.replicate WAVETABLE_LENGTH 0)

/-- The method `initializeOscillators()`: `clear()` followed by `OSCILLATOR_COUNT`
calls of `emplace_back`. -/
def initializeOscillators (m : CMath F) (self : WavetableSynth F) : WavetableSynth F :=
  let waveTable := generateSineWaveTable m self
  { self with
    oscillators := (List.range OSCILLATOR_COUNT).foldl
      (fun oscillators _ => oscillators ++ [WavetableOscillator.new waveTable self.sampleRate])
      [] }

/-- The method `prepareToPlay(sampleRate)`. -/
def prepareToPlay (m : CMath F) (self : WavetableSynth F) (sampleRate : F) :
    WavetableSynth F :=
  initializeOscillators m { self with sampleRate := sampleRate }

/-- The state `initializeOscillators` sets up and every other method keeps:
`OSCILLATOR_COUNT` oscillators, each over a table of `WAVETABLE_LENGTH` entries and
constructed with the sample rate of the engine.  The members are private, so these
are the states an engine with `OSCILLATOR_COUNT` oscillators can be in. -/
def Prepared (self : WavetableSynth F) : Prop :=
  self.oscillators.length = OSCILLATOR_COUNT ∧
    ∀ o ∈ self.oscillators,
      o.waveTable.length = WAVETABLE_LENGTH ∧ o.sampleRate = self.sampleRate

instance (self : WavetableSynth F) : Decidable (Prepared self) := by
  unfold Prepared
  infer_instance

/-- The method `midiNoteNumberToFrequency(midiNoteNumber)`. -/
def midiNoteNumberToFrequency (m : CMath F) (midiNoteNumber : Int) : F :=
  440 * m.powf 2 (((midiNoteNumber : F) - 69) / 12)

/-- The method `handleMidiEvent(midiEvent)`. -/
def handleMidiEvent (m : CMath F) (self : WavetableSynth F) (midiEvent : MidiMessage) :
    Option (WavetableSynth F) :=
  match midiEvent.kind with
  | .noteOn oscillatorID _ =>
    let frequency := midiNoteNumberToFrequency m (oscillatorID : Int)
    match self.oscillators[oscillatorID]? with
    | none => none
    | some o =>
      some { self with oscillators := self.oscillators.set oscillatorID (o.setFrequency frequency) }
  | .noteOff oscillatorID =>
    match self.oscillators[oscillatorID]? with
    | none => none
    | some o => some { self with oscillators := self.oscillators.set oscillatorID o.stop }
  | .allNotesOff =>
    some { self with oscillators := self.oscillators.map WavetableOscillator.stop }
  | .other => some self

/-- The inner loop of `render` for one oscillator,
`for (sample = startSample; sample < endSample; ++sample) firstChannel[sample] += oscillator.getSample();`
with `count` iterations left and `sample` the loop variable. -/
def sampleLoop (oscillator : WavetableOscillator F) (firstChannel : List F) (sample : Nat) :
    Nat → Option (WavetableOscillator F × List F)
  | 0 => some (oscillator, firstChannel)
  | count + 1 =>
    match oscillator.getSample, firstChannel[sample]? with
    | some (value, oscillator1), some old =>
      sampleLoop oscillator1 (firstChannel.set sample (old + value)) (sample + 1) count
    | _, _ => none

/-- The loop `for (auto& oscillator : oscillators)` of `render`. -/
def oscillatorLoop (firstChannel : List F) (startSample endSample : Nat) :
    List (WavetableOscillator F) → Option (List (WavetableOscillator F) × List F)
  | [] => some ([], firstChannel)
  | oscillator :: rest =>
    match (if oscillator.isPlaying then
        sampleLoop oscillator firstChannel startSample (endSample - startSample)
      else some (oscillator, firstChannel)) with
    | none => none
    | some (oscillator1, firstChannel1) =>
      match oscillatorLoop firstChannel1 startSample endSample rest with
      | none => none
      | some (rest1, firstChannel2) => some (oscillator1 :: rest1, firstChannel2)

/-- The loop `for (channel = 1; channel < buffer.getNumChannels(); ++channel)` of
`render`, over the channels after the first. -/
def copyLoop (firstChannel : List F) (startSample endSample : Nat) :
    List (List F) → Option (List (List F))
  | [] => some []
  | channel :: rest =>
    match copyRange firstChannel channel startSample endSample with
    | none => none
    | some channel1 =>
      match copyLoop firstChannel startSample endSample rest with
      | none => none
      | some rest1 => some (channel1 :: rest1)

/-- The method `render(buffer, startSample, endSample)`.  `getWritePointer(0)` needs
channel 0 to exist. -/
def render (self : WavetableSynth F) (buffer : AudioBuffer F) (startSample endSample : Nat) :
    Option (WavetableSynth F × AudioBuffer F) :=
  match buffer.channels with
  | [] => none
  | firstChannel :: others =>
    match oscillatorLoop firstChannel startSample endSample self.oscillators with
    | none => none
    | some (oscillators1, firstChannel1) =>
      match copyLoop firstChannel1 startSample endSample others with
      | none => none
      | some others1 =>
        some ({ self with oscillators := oscillators1 },
          { buffer with channels := firstChannel1 :: others1 })

/-- The loop `for (const auto midiMessage : midiMessages)` of `processBlock`; the
result carries the final `currentSample`. -/
def eventLoop (m : CMath F) (self : WavetableSynth F) (buffer : AudioBuffer F)
    (currentSample : Nat) :
    List MidiMessage → Option (WavetableSynth F × AudioBuffer F × Nat)
  | [] => some (self, buffer, currentSample)
  | midiEvent :: rest =>
    let midiEventSample := midiEvent.timeStamp
    match render self buffer currentSample midiEventSample with
    | none => none
    | some (self1, buffer1) =>
      match handleMidiEvent m self1 midiEvent with
      | none => none
      | some self2 => eventLoop m self2 buffer1 midiEventSample rest

/-- The method `processBlock(buffer, midiMessages)`. -/
def processBlock (m : CMath F) (self : WavetableSynth F) (buffer : AudioBuffer F)
    (midiMessages : List MidiMessage) : Option (WavetableSynth F × AudioBuffer F) :=
  match eventLoop m self buffer 0 midiMessages with
  | none => none
  | some (self1, buffer1, currentSample) =>
    render self1 buffer1 currentSample buffer1.numSamples

end WavetableSynth

/-! ## The steps of a block -/

/-- One step of the work `processBlock` does on a block: rendering a sub-range or
applying an event. -/
inductive BlockStep where
  | render (startSample endSample : Nat)
  | handle (midiEvent : MidiMessage)
  deriving DecidableEq, Repr

namespace BlockStep

variable {F : Type} [LinearOrderedField F] [FloorRing F]

/-- Performing one step on the engine and the buffer. -/
def run (m : CMath F) : BlockStep → WavetableSynth F × AudioBuffer F →
    Option (WavetableSynth F × AudioBuffer F)
  | .render startSample endSample, (self, buffer) =>
    WavetableSynth.render self buffer startSample endSample
  | .handle midiEvent, (self, buffer) =>
    match WavetableSynth.handleMidiEvent m self midiEvent with
    | none => none
    | some self1 => some (self1, buffer)

/-- Performing a sequence of steps from left to right. -/
def runAll (m : CMath F) : List BlockStep → WavetableSynth F × AudioBuffer F →
    Option (WavetableSynth F × AudioBuffer F)
  | [], state => some state
  | step :: rest, state =>
    match run m step state with
    | none => none
    | some state1 => runAll m rest state1

/-- The sub-range a step renders, if it is a rendering step. -/
def range? : BlockStep → Option (Nat × Nat)
  | .render startSample endSample => some (startSample, endSample)
  | .handle _ => none

/-- The event a step applies, if it applies one. -/
def event? : BlockStep → Option MidiMessage
  | .render _ _ => none
  | .handle midiEvent => some midiEvent

end BlockStep

/-- The sub-ranges of a block of `blockLength` samples cut at the time stamps
`t1, ..., tk`: `[0, t1), [t1, t2), ..., [t(k-1), tk), [tk, blockLength)`. -/
def subRanges (blockLength : Nat) (timeStamps : List Nat) : List (Nat × Nat) :=
  List.zip (0 :: timeStamps) (timeStamps ++ [blockLength])

/-- Sub-ranges and events in alternation, starting and ending with a sub-range:
`r0, e1, r1, e2, ..., ek, rk`. -/
def alternate : List (Nat × Nat) → List MidiMessage → List BlockStep
  | [], _ => []
  | r :: _, [] => [BlockStep.render r.1 r.2]
  | r :: rs, e :: es => BlockStep.render r.1 r.2 :: BlockStep.handle e :: alternate rs es

/-- The sequence of steps the specification prescribes for a block:
render `[0, t1)`, apply `e1`, render `[t1, t2)`, apply `e2`, ..., apply `ek`,
render `[tk, blockLength)`. -/
def blockSteps (blockLength : Nat) (events : List MidiMessage) : List BlockStep :=
  alternate (subRanges blockLength (events.map (fun e => e.timeStamp))) events

/-! ## Reachable engine states -/

namespace MidiKind

/-- The messages of the contract: a note number is at most 127. -/
def InContract : MidiKind → Prop
  | .noteOn noteNumber _ => noteNumber < 128
  | .noteOff noteNumber => noteNumber < 128
  | .allNotesOff => True
  | .other => True

instance (kind : MidiKind) : Decidable (InContract kind) := by
  cases kind <;> unfold InContract <;> infer_instance

end MidiKind

namespace WavetableSynth

/-- The engine states reached from a `prepareToPlay` call with a sample rate above 0
by events of the contract and by `render` calls. -/
inductive Reachable {F : Type} [LinearOrderedField F] [FloorRing F] (m : CMath F) :
    WavetableSynth F → Prop where
  | prepare (self : WavetableSynth F) (sampleRate : F) (h : 0 < sampleRate) :
    Reachable m (prepareToPlay m self sampleRate)
  | event (self self1 : WavetableSynth F) (midiEvent : MidiMessage)
    (before : Reachable m self) (contract : midiEvent.kind.InContract)
    (h : handleMidiEvent m self midiEvent = some self1) : Reachable m self1
  | render (self self1 : WavetableSynth F) (buffer buffer1 : AudioBuffer F)
    (startSample endSample : Nat) (before : Reachable m self)
    (h : render self buffer startSample endSample = some (self1, buffer1)) :
    Reachable m self1

end WavetableSynth

/-! ## Concrete engines and buffers over `ℚ` -/

/-- Stand-ins over `ℚ` for the `<cmath>` functions, to run the engine on concrete
inputs: `powf x y` is `x` to the integer part of `y`. -/
def demoMath : CMath ℚ :=
  ⟨fun _ => 0, fun _ => 0, fun x y => x ^ ⌊y⌋.toNat⟩

/-- A bank of three oscillators over the table `[0, 1]`: two playing, one stopped. -/
def demoSynth : WavetableSynth ℚ :=
  ⟨4, [⟨[0, 1], 4, 0, 1⟩, ⟨[0, 1], 4, 1 / 2, 1 / 2⟩, ⟨[0, 1], 4, 0, 0⟩]⟩

/-- A buffer of two channels and four samples. -/
def demoBuffer : AudioBuffer ℚ :=
  ⟨4, [[10, 20, 30, 40], [1, 2, 3, 4]]⟩

/-! ## IEEE 754 arithmetic

The second embedding of the same sources: the values of `float` and `double` are the
values of the IEEE 754 formats binary32 and binary64 and every arithmetic operation of
the C++ text rounds its exact result to the format of the expression, to nearest with
ties to even.  It is used where a property depends on the rounding, on an overflow or
on a NaN.

* A value is a rational number, an infinity or a NaN (`Ieee`).  The sign of a zero is
  not kept: the only operation of the sources that can tell the two zeros apart is a
  division by a zero, which gives the infinity with the sign of the dividend here.
* Every operation is evaluated in the format of its C++ type and rounded once
  (`FLT_EVAL_METHOD` 0, no contraction of a product and a sum into one operation).
* `std::fmod` is exact, as the C standard requires; a conversion to `int` of a NaN, of
  an infinity or of a value outside the range of `int` is undefined behaviour.
-/

/-- The nearest integer to `x`, the even one when `x` is half way between two. -/
def roundHalfEven (x : ℚ) : Int :=
  if x - (⌊x⌋ : ℚ) < 1 / 2 then ⌊x⌋
  else if 1 / 2 < x - (⌊x⌋ : ℚ) then ⌊x⌋ + 1
  else if ⌊x⌋ % 2 = 0 then ⌊x⌋ else ⌊x⌋ + 1

/-- A value of a binary floating-point type. -/
inductive Ieee where
  | finite (value : ℚ)
  | inf (negative : Bool)
  | nan
  deriving DecidableEq

/-- A binary floating-point format: the number of significand bits and the least and
greatest exponent of a normal number. -/
structure FloatFormat where
  precision : Nat
  emin : Int
  emax : Int

/-- The type `float`. -/
def binary32 : FloatFormat := ⟨24, -126, 127⟩

/-- The type `double`. -/
def binary64 : FloatFormat := ⟨53, -1022, 1023⟩

namespace FloatFormat

/-- The exponent of the unit in the last place of the numbers of the size of `x`:
`x` lies in `[2 ^ e, 2 ^ (e + 1))` for `e = Int.log 2 |x|`, and below `2 ^ emin` the
spacing is the one of the subnormal numbers. -/
def ulpExponent (fmt : FloatFormat) (x : ℚ) : Int :=
  max (Int.log 2 |x|) fmt.emin - ((fmt.precision : Int) - 1)

/-- Rounding of an exact result to the format: to the nearest multiple of the unit in
the last place, ties to even, and to an infinity when that multiple is beyond the
largest finite number. -/
def round (fmt : FloatFormat) (x : ℚ) : Ieee :=
  let ulp : ℚ := 2 ^ fmt.ulpExponent x
  let y : ℚ := (roundHalfEven (x / ulp) : ℚ) * ulp
  if (2 : ℚ) ^ (fmt.emax + 1) ≤ |y| then Ieee.inf (decide (x < 0)) else Ieee.finite y

/-- The largest finite number of the format (`FLT_MAX`, `DBL_MAX`). -/
def maxFinite (fmt : FloatFormat) : ℚ :=
  (2 ^ fmt.precision - 1) * 2 ^ (fmt.emax - ((fmt.precision : Int) - 1))

end FloatFormat

namespace Ieee

/-- The comparison `a < b`; it is false when an operand is a NaN. -/
def lt : Ieee → Ieee → Bool
  | finite x, finite y => decide (x < y)
  | finite _, inf negative => !negative
  | inf negative, finite _ => negative
  | inf negative, inf negative1 => negative && !negative1
  | nan, _ => false
  | _, nan => false

/-- The comparison `a <= b`; it is false when an operand is a NaN. -/
def le : Ieee → Ieee → Bool
  | finite x, finite y => decide (x ≤ y)
  | finite _, inf negative => !negative
  | inf negative, finite _ => negative
  | inf negative, inf negative1 => negative || !negative1
  | nan, _ => false
  | _, nan => false

/-- The function `std::isfinite(a)`. -/
def isFinite : Ieee → Bool
  | finite _ => true
  | inf _ => false
  | nan => false

/-- The comparison `a != 0.f`; it is true of a NaN. -/
def isNonzero : Ieee → Bool
  | finite x => decide (x ≠ 0)
  | inf _ => true
  | nan => true

/-- The operation `-a`. -/
def neg : Ieee → Ieee
  | finite x => finite (-x)
  | inf negative => inf (!negative)
  | nan => nan

/-- The operation `a + b` in a format. -/
def add (fmt : FloatFormat) : Ieee → Ieee → Ieee
  | finite x, finite y => fmt.round (x + y)
  | finite _, inf negative => inf negative
  | inf negative, finite _ => inf negative
  | inf negative, inf negative1 => if negative = negative1 then inf negative else nan
  | nan, _ => nan
  | _, nan => nan

/-- The operation `a - b` in a format. -/
def sub (fmt : FloatFormat) (a b : Ieee) : Ieee :=
  add fmt a (neg b)

/-- The operation `a * b` in a format. -/
def mul (fmt : FloatFormat) : Ieee → Ieee → Ieee
  | finite x, finite y => fmt.round (x * y)
  | finite x, inf negative => if x = 0 then nan else inf (decide (x < 0) != negative)
  | inf negative, finite y => if y = 0 then nan else inf (negative != decide (y < 0))
  | inf negative, inf negative1 => inf (negative != negative1)
  | nan, _ => nan
  | _, nan => nan

/-- The operation `a / b` in a format. -/
def div (fmt : FloatFormat) : Ieee → Ieee → Ieee
  | finite x, finite y =>
    if y = 0 then (if x = 0 then nan else inf (decide (x < 0))) else fmt.round (x / y)
  | finite _, inf _ => finite 0
  | inf negative, finite y => inf (negative != decide (y < 0))
  | inf _, inf _ => nan
  | nan, _ => nan
  | _, nan => nan

/-- The function `std::fmod(a, b)`: the exact remainder `a - n * b`, `n` being `a / b`
with its fractional part dropped; a NaN for an infinite `a` or a zero `b`. -/
def fmod : Ieee → Ieee → Ieee
  | finite x, finite y =>
    if y = 0 then nan else finite (x - ((truncToInt (x / y) : Int) : ℚ) * y)
  | finite x, inf _ => finite x
  | finite _, nan => nan
  | inf _, _ => nan
  | nan, _ => nan

/-- The conversion `static_cast<int>(a)`: truncation toward zero, undefined for a NaN,
an infinity and a value outside the range of a 32-bit `int`. -/
def toInt : Ieee → Option Int
  | finite x =>
    if -2 ^ 31 ≤ truncToInt x ∧ truncToInt x < 2 ^ 31 then some (truncToInt x) else none
  | inf _ => none
  | nan => none

/-- The conversion of an integer to a format, as `static_cast<float>(n)`. -/
def ofInt (fmt : FloatFormat) (n : Int) : Ieee :=
  fmt.round (n : ℚ)

/-- The conversion of a value to a format, as the assignment of a `double` to a
`float`. -/
def convert (fmt : FloatFormat) : Ieee → Ieee
  | finite x => fmt.round x
  | inf negative => inf negative
  | nan => nan

end Ieee

/-! ## The sources in IEEE 754 arithmetic -/

namespace Rounded

/-- The constructor `WavetableOscillator(waveTable, sampleRate)`; `index` and
`indexIncrement` take their default member initialisers `0.f`. -/
def new (waveTable : List Ieee) (sampleRate : Ieee) : WavetableOscillator Ieee :=
  ⟨waveTable, sampleRate, Ieee.finite 0, Ieee.finite 0⟩

/-- The method `setFrequency(frequency)`: the product of two `float` values is a
`float`, the quotient by the `double` member `sampleRate` is a `double` (the promotion
of the product to `double` is exact), and the assignment to the `float` member
`indexIncrement` rounds it to `float`. -/
def setFrequency (o : WavetableOscillator Ieee) (frequency : Ieee) :
    WavetableOscillator Ieee :=
  { o with
    indexIncrement := Ieee.convert binary32
      (Ieee.div binary64
        (Ieee.mul binary32 frequency (Ieee.ofInt binary32 (o.waveTable.length : Int)))
        o.sampleRate) }

/-- The method `interpolateLinearly()`. -/
def interpolateLinearly (o : WavetableOscillator Ieee) : Option Ieee :=
  match Ieee.toInt o.index with
  | none => none
  | some truncatedIndex =>
    let size : Int := (o.waveTable.length : Int)
    if size = 0 then none
    else
      let nextIndex : Int := Int.tmod (truncatedIndex + 1) size
      let nextIndexWeight : Ieee :=
        Ieee.sub binary32 o.index (Ieee.ofInt binary32 truncatedIndex)
      let truncatedIndexWeight : Ieee := Ieee.sub binary32 (Ieee.finite 1) nextIndexWeight
      match vecAt o.waveTable truncatedIndex, vecAt o.waveTable nextIndex with
      | some a, some b =>
        some (Ieee.add binary32 (Ieee.mul binary32 truncatedIndexWeight a)
          (Ieee.mul binary32 nextIndexWeight b))
      | _, _ => none

/-- The method `getSample()`: the returned sample and the oscillator afterwards. -/
def getSample (o : WavetableOscillator Ieee) : Option (Ieee × WavetableOscillator Ieee) :=
  match interpolateLinearly o with
  | none => none
  | some sample =>
    let index := Ieee.add binary32 o.index o.indexIncrement
    let index := Ieee.fmod index (Ieee.ofInt binary32 (o.waveTable.length : Int))
    some (sample, { o with index := index })

/-- Successive calls of `getSample()` on one oscillator run alone, `count` of them:
the samples returned, in call order, and the oscillator afterwards. -/
def getSamples (o : WavetableOscillator Ieee) :
    Nat → Option (List Ieee × WavetableOscillator Ieee)
  | 0 => some ([], o)
  | count + 1 =>
    match getSample o with
    | none => none
    | some (value, o1) =>
      match getSamples o1 count with
      | none => none
      | some (values, o2) => some (value :: values, o2)

/-- The samples an oscillator produces when run alone by `count` successive
`getSample()` calls from its current state (no samples if a call is undefined). -/
def soloSamples (o : WavetableOscillator Ieee) (count : Nat) : List Ieee :=
  match getSamples o count with
  | none => []
  | some (values, _) => values

/-- The oscillator after `count` successive `getSample()` calls (itself if a call is
undefined). -/
def afterSamples (o : WavetableOscillator Ieee) (count : Nat) : WavetableOscillator Ieee :=
  match getSamples o count with
  | none => o
  | some (_, o1) => o1

/-- The method `stop()`. -/
def stop (o : WavetableOscillator Ieee) : WavetableOscillator Ieee :=
  { o with index := Ieee.finite 0, indexIncrement := Ieee.finite 0 }

/-- The method `isPlaying()`. -/
def isPlaying (o : WavetableOscillator Ieee) : Bool :=
  Ieee.isNonzero o.indexIncrement

/-- The oscillator after one call of a public mutating method. -/
def run (o : WavetableOscillator Ieee) : OscillatorCall Ieee → Option (WavetableOscillator Ieee)
  | .setFrequency frequency => some (setFrequency o frequency)
  | .getSample =>
    match getSample o with
    | none => none
    | some (_, o1) => some o1
  | .stop => some (stop o)

/-- The oscillator after a sequence of calls, made from left to right. -/
def runAll (o : WavetableOscillator Ieee) :
    List (OscillatorCall Ieee) → Option (WavetableOscillator Ieee)
  | [] => some o
  | call :: rest =>
    match run o call with
    | none => none
    | some o1 => runAll o1 rest

/-- The state the engine keeps its oscillators in: a non-empty table, a finite
`index` inside `[0, waveTable.size())` and a finite `indexIncrement` from 0 to
`FLT_MAX`. -/
def InRange (o : WavetableOscillator Ieee) : Prop :=
  match o.index, o.indexIncrement with
  | Ieee.finite index, Ieee.finite indexIncrement =>
    0 < o.waveTable.length ∧ 0 ≤ index ∧ index < (o.waveTable.length : ℚ) ∧
      0 ≤ indexIncrement ∧ indexIncrement ≤ binary32.maxFinite
  | _, _ => False

instance (o : WavetableOscillator Ieee) : Decidable (InRange o) := by
  unfold InRange
  split <;> infer_instance

/-- The method `generateSineWaveTable()`: a vector of `WAVETABLE_LENGTH` zeros whose
entries are then assigned one after the other; the `int` operands `4`, `2` and `i` are
converted to `float`. -/
def generateSineWaveTable (m : CMath Ieee) (_self : WavetableSynth Ieee) : List Ieee :=
  let PI : Ieee := Ieee.mul binary32 (m.atanf (Ieee.finite 1)) (Ieee.finite 4)
  (List.range WavetableSynth.WAVETABLE_LENGTH).foldl
    (fun sineWaveTable i =>
      sineWaveTable.set i
        (m.sinf
          (Ieee.div binary32
            (Ieee.mul binary32 (Ieee.mul binary32 (Ieee.finite 2) PI)
              (Ieee.ofInt binary32 (i : Int)))
            (Ieee.ofInt binary32 (WavetableSynth.WAVETABLE_LENGTH : Int)))))
    (List.replicate WavetableSynth.WAVETABLE_LENGTH (Ieee.finite 0))

/-- The method `initializeOscillators()`: `clear()` followed by `OSCILLATOR_COUNT`
calls of `emplace_back`. -/
def initializeOscillators (m : CMath Ieee) (self : WavetableSynth Ieee) :
    WavetableSynth Ieee :=
  let waveTable := generateSineWaveTable m self
  { self with
    oscillators := (List.range WavetableSynth.OSCILLATOR_COUNT).foldl
      (fun oscillators _ => oscillators ++ [new waveTable self.sampleRate])
      [] }

/-- The method `prepareToPlay(sampleRate)`; the sample rate is a `double`. -/
def prepareToPlay (m : CMath Ieee) (self : WavetableSynth Ieee) (sampleRate : Ieee) :
    WavetableSynth Ieee :=
  initializeOscillators m { self with sampleRate := sampleRate }

/-- The method `midiNoteNumberToFrequency(midiNoteNumber)`: the `int` argument is
converted to `float` for the subtraction. -/
def midiNoteNumberToFrequency (m : CMath Ieee) (midiNoteNumber : Int) : Ieee :=
  Ieee.mul binary32 (Ieee.finite 440)
    (m.powf (Ieee.finite 2)
      (Ieee.div binary32
        (Ieee.sub binary32 (Ieee.ofInt binary32 midiNoteNumber) (Ieee.finite 69))
        (Ieee.finite 12)))

/-- The method `handleMidiEvent(midiEvent)`. -/
def handleMidiEvent (m : CMath Ieee) (self : WavetableSynth Ieee) (midiEvent : MidiMessage) :
    Option (WavetableSynth Ieee) :=
  match midiEvent.kind with
  | .noteOn oscillatorID _ =>
    let frequency := midiNoteNumberToFrequency m (oscillatorID : Int)
    match self.oscillators[oscillatorID]? with
    | none => none
    | some o =>
      some { self with oscillators := self.oscillators.set oscillatorID (setFrequency o frequency) }
  | .noteOff oscillatorID =>
    match self.oscillators[oscillatorID]? with
    | none => none
    | some o => some { self with oscillators := self.oscillators.set oscillatorID (stop o) }
  | .allNotesOff =>
    some { self with oscillators := self.oscillators.map stop }
  | .other => some self

/-- The inner loop of `render` for one oscillator,
`for (sample = startSample; sample < endSample; ++sample) firstChannel[sample] += oscillator.getSample();`
with `count` iterations left and `sample` the loop variable. -/
def sampleLoop (oscillator : WavetableOscillator Ieee) (firstChannel : List Ieee)
    (sample : Nat) : Nat → Option (WavetableOscillator Ieee × List Ieee)
  | 0 => some (oscillator, firstChannel)
  | count + 1 =>
    match getSample oscillator, firstChannel[sample]? with
    | some (value, oscillator1), some old =>
      sampleLoop oscillator1 (firstChannel.set sample (Ieee.add binary32 old value))
        (sample + 1) count
    | _, _ => none

/-- The loop `for (auto& oscillator : oscillators)` of `render`. -/
def oscillatorLoop (firstChannel : List Ieee) (startSample endSample : Nat) :
    List (WavetableOscillator Ieee) → Option (List (WavetableOscillator Ieee) × List Ieee)
  | [] => some ([], firstChannel)
  | oscillator :: rest =>
    match (if isPlaying oscillator then
        sampleLoop oscillator firstChannel startSample (endSample - startSample)
      else some (oscillator, firstChannel)) with
    | none => none
    | some (oscillator1, firstChannel1) =>
      match oscillatorLoop firstChannel1 startSample endSample rest with
      | none => none
      | some (rest1, firstChannel2) => some (oscillator1 :: rest1, firstChannel2)

/-- The loop `for (channel = 1; channel < buffer.getNumChannels(); ++channel)` of
`render`, over the channels after the first. -/
def copyLoop (firstChannel : List Ieee) (startSample endSample : Nat) :
    List (List Ieee) → Option (List (List Ieee))
  | [] => some []
  | channel :: rest =>
    match copyRange firstChannel channel startSample endSample with
    | none => none
    | some channel1 =>
      match copyLoop firstChannel startSample endSample rest with
      | none => none
      | some rest1 => some (channel1 :: rest1)

/-- The method `render(buffer, startSample, endSample)`.  `getWritePointer(0)` needs
channel 0 to exist. -/
def render (self : WavetableSynth Ieee) (buffer : AudioBuffer Ieee)
    (startSample endSample : Nat) : Option (WavetableSynth Ieee × AudioBuffer Ieee) :=
  match buffer.channels with
  | [] => none
  | firstChannel :: others =>
    match oscillatorLoop firstChannel startSample endSample self.oscillators with
    | none => none
    | some (oscillators1, firstChannel1) =>
      match copyLoop firstChannel1 startSample endSample others with
      | none => none
      | some others1 =>
        some ({ self with oscillators := oscillators1 },
          { buffer with channels := firstChannel1 :: others1 })

/-- The loop `for (const auto midiMessage : midiMessages)` of `processBlock`; the
result carries the final `currentSample`. -/
def eventLoop (m : CMath Ieee) (self : WavetableSynth Ieee) (buffer : AudioBuffer Ieee)
    (currentSample : Nat) :
    List MidiMessage → Option (WavetableSynth Ieee × AudioBuffer Ieee × Nat)
  | [] => some (self, buffer, currentSample)
  | midiEvent :: rest =>
    let midiEventSample := midiEvent.timeStamp
    match render self buffer currentSample midiEventSample with
    | none => none
    | some (self1, buffer1) =>
      match handleMidiEvent m self1 midiEvent with
      | none => none
      | some self2 => eventLoop m self2 buffer1 midiEventSample rest

/-- The method `processBlock(buffer, midiMessages)`. -/
def processBlock (m : CMath Ieee) (self : WavetableSynth Ieee) (buffer : AudioBuffer Ieee)
    (midiMessages : List MidiMessage) : Option (WavetableSynth Ieee × AudioBuffer Ieee) :=
  match eventLoop m self buffer 0 midiMessages with
  | none => none
  | some (self1, buffer1, currentSample) =>
    render self1 buffer1 currentSample buffer1.numSamples

/-- The state `initializeOscillators` sets up and every other method keeps:
`OSCILLATOR_COUNT` oscillators, each over a table of `WAVETABLE_LENGTH` entries and
constructed with the sample rate of the engine. -/
def Prepared (self : WavetableSynth Ieee) : Prop :=
  self.oscillators.length = WavetableSynth.OSCILLATOR_COUNT ∧
    ∀ o ∈ self.oscillators,
      o.waveTable.length = WavetableSynth.WAVETABLE_LENGTH ∧ o.sampleRate = self.sampleRate

instance (self : WavetableSynth Ieee) : Decidable (Prepared self) := by
  unfold Prepared
  infer_instance

/-- The invariant of the engine: 128 oscillators, each over a table of 64 entries, with
the sample rate of the engine and in range. -/
def Invariant (self : WavetableSynth Ieee) : Prop :=
  self.oscillators.length = 128 ∧
    ∀ o ∈ self.oscillators,
      o.waveTable.length = 64 ∧ o.sampleRate = self.sampleRate ∧ InRange o

/-- The engine states reached from a `prepareToPlay` call with a sample rate above 0
by events of the contract and by `render` calls. -/
inductive Reachable (m : CMath Ieee) : WavetableSynth Ieee → Prop where
  | prepare (self : WavetableSynth Ieee) (sampleRate : Ieee)
    (h : Ieee.lt (Ieee.finite 0) sampleRate = true) :
    Reachable m (prepareToPlay m self sampleRate)
  | event (self self1 : WavetableSynth Ieee) (midiEvent : MidiMessage)
    (before : Reachable m self) (contract : midiEvent.kind.InContract)
    (h : handleMidiEvent m self midiEvent = some self1) : Reachable m self1
  | render (self self1 : WavetableSynth Ieee) (buffer buffer1 : AudioBuffer Ieee)
    (startSample endSample : Nat) (before : Reachable m self)
    (h : render self buffer startSample endSample = some (self1, buffer1)) :
    Reachable m self1

/-- Stand-ins for the `<cmath>` functions, to run the engine on concrete inputs:
`powf` is 1, its value at the exponent 0 of the note 69. -/
def demoMath : CMath Ieee :=
  ⟨fun _ => Ieee.finite 0, fun _ => Ieee.finite 0, fun _ _ => Ieee.finite 1⟩

/-- Stand-ins for the `<cmath>` functions with the shape of a sine cycle, in numbers that
are exact in `float`: `atanf` is 1, so that `PI` is 4 and the argument of the table entry
`i` is `i / 8`; `sinf` is the triangle wave of period 8 that is 0 at 0, 1 at 2, 0 at 4
and -1 at 6; `powf` is 1, its value at the exponent 0 of the note 69. -/
def triangleMath : CMath Ieee :=
  ⟨fun y =>
      match y with
      | Ieee.finite q =>
        Ieee.finite (if q ≤ 4 then 1 - |q - 2| / 2 else -(1 - |q - 6| / 2))
      | Ieee.inf _ => Ieee.nan
      | Ieee.nan => Ieee.nan,
    fun _ => Ieee.finite 1, fun _ _ => Ieee.finite 1⟩

/-- A bank of three oscillators over the table `[0, 1]`: two playing, one stopped. -/
def demoSynth : WavetableSynth Ieee :=
  ⟨Ieee.finite 4,
    [⟨[Ieee.finite 0, Ieee.finite 1], Ieee.finite 4, Ieee.finite 0, Ieee.finite 1⟩,
      ⟨[Ieee.finite 0, Ieee.finite 1], Ieee.finite 4, Ieee.finite (1 / 2), Ieee.finite (1 / 2)⟩,
      ⟨[Ieee.finite 0, Ieee.finite 1], Ieee.finite 4, Ieee.finite 0, Ieee.finite 0⟩]⟩

/-- A buffer of two channels and four samples. -/
def demoBuffer : AudioBuffer Ieee :=
  ⟨4, [[Ieee.finite 10, Ieee.finite 20, Ieee.finite 30, Ieee.finite 40],
    [Ieee.finite 1, Ieee.finite 2, Ieee.finite 3, Ieee.finite 4]]⟩

/-- An oscillator over the table `[1, 1]` at position 0 with increment 1: its next sample
is 1. -/
def unitVoice : WavetableOscillator Ieee :=
  ⟨[Ieee.finite 1, Ieee.finite 1], Ieee.finite 48000, Ieee.finite 0, Ieee.finite 1⟩

end Rounded

/-! ## Facts about the C++ primitives -/

section Primitives

variable {F : Type} [LinearOrderedField F] [FloorRing F]

theorem truncToInt_of_nonneg {x : F} (hx : 0 ≤ x) : truncToInt x = ⌊x⌋ := by
  simp [truncToInt, hx]

theorem truncToInt_zero : truncToInt (0 : F) = 0 := by
  simp [truncToInt]

theorem fmod_zero_left (y : F) : fmod 0 y = 0 := by
  simp [fmod, truncToInt_zero]

theorem fmod_nonneg {x y : F} (hx : 0 ≤ x) (hy : 0 < y) : 0 ≤ fmod x y := by
  have hq : 0 ≤ x / y := div_nonneg hx hy.le
  have h1 : ((⌊x / y⌋ : Int) : F) ≤ x / y := Int.floor_le _
  have h2 : ((⌊x / y⌋ : Int) : F) * y ≤ x := (le_div_iff₀ hy).mp h1
  simp only [fmod, truncToInt_of_nonneg hq]
  linarith

theorem fmod_lt {x y : F} (hx : 0 ≤ x) (hy : 0 < y) : fmod x y < y := by
  have hq : 0 ≤ x / y := div_nonneg hx hy.le
  have h1 : x / y < ((⌊x / y⌋ : Int) : F) + 1 := Int.lt_floor_add_one _
  have h2 : x < (((⌊x / y⌋ : Int) : F) + 1) * y := (div_lt_iff₀ hy).mp h1
  simp only [fmod, truncToInt_of_nonneg hq]
  linarith

theorem vecAt_natCast {α : Type} (v : List α) (i : Nat) : vecAt v (i : Int) = v[i]? := by
  simp [vecAt]

end Primitives

/-! ## Facts about the oscillator -/

namespace WavetableOscillator

variable {F : Type} [LinearOrderedField F] [FloorRing F]

/-- The shape of `interpolateLinearly` on a non-empty table at a position inside it. -/
theorem interpolateLinearly_of_inside (o : WavetableOscillator F)
    (hL : 0 < o.waveTable.length) (h0 : 0 ≤ o.index)
    (h1 : o.index < (o.waveTable.length : F)) :
    ∃ a b : F,
      o.waveTable[⌊o.index⌋.toNat]? = some a ∧
      o.waveTable[(⌊o.index⌋.toNat + 1) % o.waveTable.length]? = some b ∧
      o.interpolateLinearly =
        some ((1 - (o.index - (⌊o.index⌋ : F))) * a + (o.index - (⌊o.index⌋ : F)) * b) := by
  have hfl0 : 0 ≤ ⌊o.index⌋ := Int.floor_nonneg.mpr h0
  have hflt : ⌊o.index⌋ < (o.waveTable.length : Int) := by
    rw [Int.floor_lt]; exact_mod_cast h1
  have hi0 : ⌊o.index⌋.toNat < o.waveTable.length := (Int.toNat_lt hfl0).mpr hflt
  have hi1 : (⌊o.index⌋.toNat + 1) % o.waveTable.length < o.waveTable.length :=
    Nat.mod_lt _ hL
  have hcast : (⌊o.index⌋ : Int) = ((⌊o.index⌋.toNat : Nat) : Int) :=
    (Int.toNat_of_nonneg hfl0).symm
  have hnext : Int.tmod (⌊o.index⌋ + 1) (o.waveTable.length : Int)
      = (((⌊o.index⌋.toNat + 1) % o.waveTable.length : Nat) : Int) := by
    rw [Int.tmod_eq_emod (by omega) (by omega), Int.natCast_mod, Nat.cast_add,
      Int.toNat_of_nonneg hfl0, Nat.cast_one]
  refine ⟨o.waveTable[⌊o.index⌋.toNat], o.waveTable[(⌊o.index⌋.toNat + 1) % o.waveTable.length],
    List.getElem?_eq_getElem hi0, List.getElem?_eq_getElem hi1, ?_⟩
  have hne : ¬ ((o.waveTable.length : Int) = 0) := by omega
  have ha : vecAt o.waveTable ⌊o.index⌋ = some o.waveTable[⌊o.index⌋.toNat] := by
    simp [vecAt, hfl0, List.getElem?_eq_getElem hi0]
  have hb : vecAt o.waveTable (((⌊o.index⌋.toNat + 1) % o.waveTable.length : Nat) : Int)
      = some o.waveTable[(⌊o.index⌋.toNat + 1) % o.waveTable.length] := by
    rw [vecAt_natCast]; exact List.getElem?_eq_getElem hi1
  simp only [interpolateLinearly, truncToInt_of_nonneg h0, hne, if_false, hnext, ha, hb]

end WavetableOscillator

namespace WavetableOscillator

variable {F : Type} [LinearOrderedField F] [FloorRing F]

/-- The shape of `getSample` on a non-empty table at a position inside it. -/
theorem getSample_of_inside (o : WavetableOscillator F)
    (hL : 0 < o.waveTable.length) (h0 : 0 ≤ o.index)
    (h1 : o.index < (o.waveTable.length : F)) :
    ∃ a b : F,
      o.waveTable[⌊o.index⌋.toNat]? = some a ∧
      o.waveTable[(⌊o.index⌋.toNat + 1) % o.waveTable.length]? = some b ∧
      o.getSample = some
        ((1 - (o.index - (⌊o.index⌋ : F))) * a + (o.index - (⌊o.index⌋ : F)) * b,
          { o with index := fmod (o.index + o.indexIncrement) (o.waveTable.length : F) }) := by
  obtain ⟨a, b, ha, hb, h⟩ := interpolateLinearly_of_inside o hL h0 h1
  exact ⟨a, b, ha, hb, by simp only [getSample, h]⟩

/-- A stopped oscillator with a non-empty table returns its first entry and stays put. -/
theorem getSample_stop (o : WavetableOscillator F) (hL : 0 < o.waveTable.length) :
    ∃ t0 : F, o.waveTable[0]? = some t0 ∧ o.stop.interpolateLinearly = some t0 ∧
      o.stop.getSample = some (t0, o.stop) := by
  have hL1 : (0 : F) < ((o.stop).waveTable.length : F) := by
    simpa [stop] using hL
  obtain ⟨a, b, ha, hb, h⟩ := interpolateLinearly_of_inside o.stop (by simpa [stop] using hL)
    (by simp [stop]) (by simpa [stop] using hL)
  have hidx : o.stop.index = 0 := rfl
  have hinc : o.stop.indexIncrement = 0 := rfl
  have htab : o.stop.waveTable = o.waveTable := rfl
  simp only [hidx, Int.floor_zero, Int.toNat_zero, Int.cast_zero, sub_zero, one_mul, zero_mul,
    add_zero, htab] at ha h
  refine ⟨a, ha, h, ?_⟩
  simp only [getSample, h, hidx, hinc, add_zero, fmod_zero_left]
  rfl

theorem getSamples_stop (o : WavetableOscillator F) (hL : 0 < o.waveTable.length) (t0 : F)
    (h0 : o.waveTable[0]? = some t0) (n : Nat) :
    o.stop.getSamples n = some (List.replicate n t0, o.stop) := by
  obtain ⟨t, ht, -, hg⟩ := getSample_stop o hL
  have htt : t = t0 := by rw [ht] at h0; exact Option.some.inj h0
  subst htt
  induction n with
  | zero => rfl
  | succ k ih => simp only [getSamples, hg, ih, List.replicate_succ]

end WavetableOscillator

/-! ## Facts about table generation -/

/-- Assigning `f i` at every position `i < n` of a list, one position after the other. -/
theorem foldl_set_range_getElem? {α : Type} (f : Nat → α) (n : Nat) (init : List α) (j : Nat) :
    ((List.range n).foldl (fun t i => t.set i (f i)) init)[j]?
      = if j < n ∧ j < init.length then some (f j) else init[j]? := by
  induction n with
  | zero => simp
  | succ k ih =>
    rw [List.range_succ, List.foldl_append]
    simp only [List.foldl_cons, List.foldl_nil, List.getElem?_set]
    have hlen : ((List.range k).foldl (fun t i => t.set i (f i)) init).length = init.length := by
      clear ih
      induction k with
      | zero => simp
      | succ k ih2 => rw [List.range_succ, List.foldl_append]; simp [ih2]
    rw [hlen, ih]
    by_cases hkj : k = j
    · subst hkj
      by_cases hk : k < init.length
      · simp [hk]
      · have : init[k]? = none := List.getElem?_eq_none (by omega)
        simp [hk, this]
    · by_cases hj : j < init.length
      · by_cases hjk : j < k
        · have : j < k + 1 := by omega
          simp [hkj, hj, hjk, this]
        · have : ¬ j < k + 1 := by omega
          simp [hkj, hj, hjk, this]
      · simp [hkj, hj]

theorem foldl_set_range_length {α : Type} (f : Nat → α) (n : Nat) (init : List α) :
    ((List.range n).foldl (fun t i => t.set i (f i)) init).length = init.length := by
  induction n with
  | zero => simp
  | succ k ih => rw [List.range_succ, List.foldl_append]; simp [ih]

namespace WavetableSynth

variable {F : Type} [LinearOrderedField F] [FloorRing F]

theorem generateSineWaveTable_length (m : CMath F) (s : WavetableSynth F) :
    (generateSineWaveTable m s).length = WAVETABLE_LENGTH := by
  simp only [generateSineWaveTable, foldl_set_range_length, List.length_replicate,
    WAVETABLE_LENGTH]

theorem generateSineWaveTable_getElem? (m : CMath F) (s : WavetableSynth F) (i : Nat)
    (hi : i < 64) :
    (generateSineWaveTable m s)[i]?
      = some (m.sinf (2 * (m.atanf 1 * 4) * (i : F) / (WAVETABLE_LENGTH : F))) := by
  simp only [generateSineWaveTable]
  rw [foldl_set_range_getElem?
    (fun i => m.sinf (2 * (m.atanf 1 * 4) * (i : F) / (WAVETABLE_LENGTH : F)))]
  simp [WAVETABLE_LENGTH, hi]

end WavetableSynth

/-! ## The range invariant of an oscillator -/

namespace WavetableOscillator

variable {F : Type} [LinearOrderedField F] [FloorRing F]

theorem new_waveTable (waveTable : List F) (sampleRate : F) :
    (new waveTable sampleRate).waveTable = waveTable := rfl

theorem new_sampleRate (waveTable : List F) (sampleRate : F) :
    (new waveTable sampleRate).sampleRate = sampleRate := rfl

theorem new_index (waveTable : List F) (sampleRate : F) :
    (new waveTable sampleRate).index = 0 := rfl

theorem new_indexIncrement (waveTable : List F) (sampleRate : F) :
    (new waveTable sampleRate).indexIncrement = 0 := rfl

theorem inRange_new (waveTable : List F) (sampleRate : F) (hL : 0 < waveTable.length) :
    InRange (new waveTable sampleRate) := by
  refine ⟨hL, le_refl _, ?_, le_refl _⟩
  show (0 : F) < (waveTable.length : F)
  exact_mod_cast hL

theorem inRange_stop (o : WavetableOscillator F) (hL : 0 < o.waveTable.length) :
    InRange o.stop := by
  refine ⟨hL, le_refl _, ?_, le_refl _⟩
  show (0 : F) < (o.waveTable.length : F)
  exact_mod_cast hL

theorem inRange_setFrequency (o : WavetableOscillator F) (h : InRange o) (f : F)
    (hf : 0 ≤ f) (hsr : 0 < o.sampleRate) : InRange (o.setFrequency f) := by
  obtain ⟨hL, h0, h1, -⟩ := h
  refine ⟨hL, h0, h1, ?_⟩
  show 0 ≤ f * (o.waveTable.length : F) / o.sampleRate
  exact div_nonneg (mul_nonneg hf (Nat.cast_nonneg _)) hsr.le

/-- In range, `getSample` returns a sample, and the oscillator afterwards is in range
again with the same table, sample rate and increment. -/
theorem getSample_of_inRange (o : WavetableOscillator F) (h : InRange o) :
    ∃ value o1, o.getSample = some (value, o1) ∧ InRange o1 ∧
      o1.waveTable = o.waveTable ∧ o1.sampleRate = o.sampleRate ∧
      o1.indexIncrement = o.indexIncrement := by
  obtain ⟨hL, h0, h1, hinc⟩ := h
  obtain ⟨a, b, -, -, hg⟩ := getSample_of_inside o hL h0 h1
  have hLF : (0 : F) < (o.waveTable.length : F) := by exact_mod_cast hL
  have hsum : 0 ≤ o.index + o.indexIncrement := add_nonneg h0 hinc
  exact ⟨_, _, hg, ⟨hL, fmod_nonneg hsum hLF, fmod_lt hsum hLF, hinc⟩, rfl, rfl, rfl⟩

end WavetableOscillator

/-! ## The engine: preparation and events -/

namespace WavetableSynth

variable {F : Type} [LinearOrderedField F] [FloorRing F]

/-- Appending the same element `n` times to the empty list. -/
theorem foldl_append_range_eq_replicate {α : Type} (a : α) (n : Nat) :
    (List.range n).foldl (fun acc _ => acc ++ [a]) [] = List.replicate n a := by
  induction n with
  | zero => rfl
  | succ k ih =>
    rw [List.range_succ, List.foldl_append, ih]
    simp [List.replicate_succ']

theorem initializeOscillators_oscillators (m : CMath F) (s : WavetableSynth F) :
    (initializeOscillators m s).oscillators
      = List.replicate OSCILLATOR_COUNT
          (WavetableOscillator.new (generateSineWaveTable m s) s.sampleRate) := by
  simp only [initializeOscillators, foldl_append_range_eq_replicate]

theorem prepareToPlay_sampleRate (m : CMath F) (s : WavetableSynth F) (sampleRate : F) :
    (prepareToPlay m s sampleRate).sampleRate = sampleRate := rfl

/-- The table does not depend on the engine it is generated from. -/
theorem generateSineWaveTable_self (m : CMath F) (s s1 : WavetableSynth F) :
    generateSineWaveTable m s = generateSineWaveTable m s1 := by
  simp only [generateSineWaveTable]

theorem prepareToPlay_oscillators (m : CMath F) (s : WavetableSynth F) (sampleRate : F) :
    (prepareToPlay m s sampleRate).oscillators
      = List.replicate OSCILLATOR_COUNT
          (WavetableOscillator.new (generateSineWaveTable m s) sampleRate) := by
  unfold prepareToPlay
  rw [initializeOscillators_oscillators]
  exact congrArg (fun t => List.replicate OSCILLATOR_COUNT (WavetableOscillator.new t sampleRate))
    (generateSineWaveTable_self m _ s)

theorem prepared_prepareToPlay (m : CMath F) (s : WavetableSynth F) (sampleRate : F) :
    Prepared (prepareToPlay m s sampleRate) := by
  refine ⟨?_, ?_⟩
  · rw [prepareToPlay_oscillators, List.length_replicate]
  · intro o ho
    rw [prepareToPlay_oscillators] at ho
    rw [List.eq_of_mem_replicate ho, WavetableOscillator.new_waveTable,
      WavetableOscillator.new_sampleRate, prepareToPlay_sampleRate]
    exact ⟨generateSineWaveTable_length m s, rfl⟩

/-- Replacing one oscillator by one with the same table and sample rate keeps the
engine prepared. -/
theorem prepared_set (s : WavetableSynth F) (hs : Prepared s) (n : Nat)
    (o1 : WavetableOscillator F) (ht : o1.waveTable.length = WAVETABLE_LENGTH)
    (hr : o1.sampleRate = s.sampleRate) :
    Prepared { s with oscillators := s.oscillators.set n o1 } := by
  refine ⟨by simpa using hs.1, ?_⟩
  intro o ho
  rcases List.mem_or_eq_of_mem_set ho with h | h
  · exact hs.2 o h
  · subst h; exact ⟨ht, hr⟩

/-- Events keep the engine prepared. -/
theorem prepared_handleMidiEvent (m : CMath F) (s s1 : WavetableSynth F)
    (midiEvent : MidiMessage) (hs : Prepared s)
    (h : handleMidiEvent m s midiEvent = some s1) : Prepared s1 := by
  unfold handleMidiEvent at h
  split at h
  · next n v hk =>
    split at h
    · exact absurd h (by simp)
    · next o ho =>
      have hmem : o ∈ s.oscillators := List.getElem?_mem ho
      rw [← Option.some.inj h]
      exact prepared_set s hs n _ (hs.2 o hmem).1 (hs.2 o hmem).2
  · next n hk =>
    split at h
    · exact absurd h (by simp)
    · next o ho =>
      have hmem : o ∈ s.oscillators := List.getElem?_mem ho
      rw [← Option.some.inj h]
      exact prepared_set s hs n _ (hs.2 o hmem).1 (hs.2 o hmem).2
  · rw [← Option.some.inj h]
    refine ⟨by simpa using hs.1, ?_⟩
    intro o ho
    simp only [List.mem_map] at ho
    obtain ⟨o0, hm, rfl⟩ := ho
    exact hs.2 o0 hm
  · rw [← Option.some.inj h]; exact hs

end WavetableSynth

/-! ## Rendering -/

namespace WavetableOscillator

variable {F : Type} [LinearOrderedField F] [FloorRing F]

theorem getSamples_succ_eq_some (o o2 : WavetableOscillator F) (n : Nat) (xs : List F)
    (h : o.getSamples (n + 1) = some (xs, o2)) :
    ∃ x o1 xs1, o.getSample = some (x, o1) ∧ o1.getSamples n = some (xs1, o2) ∧
      xs = x :: xs1 := by
  simp only [getSamples] at h
  split at h
  · exact absurd h (by simp)
  · next x o1 hg =>
    split at h
    · exact absurd h (by simp)
    · next xs1 o3 hr =>
      simp only [Option.some.injEq, Prod.mk.injEq] at h
      obtain ⟨rfl, rfl⟩ := h
      exact ⟨x, o1, xs1, hg, hr, rfl⟩

theorem getSamples_length (n : Nat) :
    ∀ (o o2 : WavetableOscillator F) (xs : List F),
      o.getSamples n = some (xs, o2) → xs.length = n := by
  induction n with
  | zero =>
    intro o o2 xs h
    simp only [getSamples, Option.some.injEq, Prod.mk.injEq] at h
    rw [← h.1]; rfl
  | succ k ih =>
    intro o o2 xs h
    obtain ⟨x, o1, xs1, -, hr, rfl⟩ := getSamples_succ_eq_some o o2 k xs h
    simp [ih o1 o2 xs1 hr]

/-- In range, any number of successive `getSample` calls is defined and ends in range. -/
theorem getSamples_of_inRange (n : Nat) :
    ∀ o : WavetableOscillator F, InRange o →
      ∃ xs o1, o.getSamples n = some (xs, o1) ∧ InRange o1 ∧
        o1.waveTable = o.waveTable ∧ o1.sampleRate = o.sampleRate ∧
        o1.indexIncrement = o.indexIncrement := by
  induction n with
  | zero => intro o h; exact ⟨[], o, rfl, h, rfl, rfl, rfl⟩
  | succ k ih =>
    intro o h
    obtain ⟨x, o1, hg, h1, ht1, hs1, hi1⟩ := getSample_of_inRange o h
    obtain ⟨xs, o2, hr, h2, ht2, hs2, hi2⟩ := ih o1 h1
    exact ⟨x :: xs, o2, by simp only [getSamples, hg, hr], h2, ht2.trans ht1,
      hs2.trans hs1, hi2.trans hi1⟩

end WavetableOscillator

namespace WavetableSynth

variable {F : Type} [LinearOrderedField F] [FloorRing F]

theorem getD_set_zero (ch : List F) (a i : Nat) (v : F) (ha : a < ch.length) :
    (ch.set a v).getD i 0 = if i = a then v else ch.getD i 0 := by
  simp only [List.getD_eq_getElem?_getD, List.getElem?_set]
  by_cases h : a = i
  · subst h; simp [ha]
  · have h2 : ¬ i = a := fun e => h e.symm
    simp [h, h2]

/-- The inner loop of `render` adds, position by position, the samples the oscillator
produces when run alone, and leaves the oscillator where that run ends. -/
theorem sampleLoop_spec (n : Nat) :
    ∀ (o o2 : WavetableOscillator F) (ch : List F) (a : Nat) (xs : List F),
      a + n ≤ ch.length → o.getSamples n = some (xs, o2) →
      ∃ ch1, sampleLoop o ch a n = some (o2, ch1) ∧ ch1.length = ch.length ∧
        ∀ i, ch1.getD i 0
          = ch.getD i 0 + (if a ≤ i ∧ i < a + n then xs.getD (i - a) 0 else 0) := by
  induction n with
  | zero =>
    intro o o2 ch a xs _ h
    simp only [WavetableOscillator.getSamples, Option.some.injEq, Prod.mk.injEq] at h
    obtain ⟨-, rfl⟩ := h
    refine ⟨ch, rfl, rfl, fun i => ?_⟩
    have : ¬ (a ≤ i ∧ i < a + 0) := by omega
    simp [this]
  | succ k ih =>
    intro o o2 ch a xs hlen h
    obtain ⟨x, o1, xs1, hg, hr, rfl⟩ :=
      WavetableOscillator.getSamples_succ_eq_some o o2 k xs h
    have ha : a < ch.length := by omega
    have hold : ch[a]? = some ch[a] := List.getElem?_eq_getElem ha
    obtain ⟨ch1, hl, hlen1, hpt⟩ := ih o1 o2 (ch.set a (ch[a] + x)) (a + 1) xs1
      (by rw [List.length_set]; omega) hr
    refine ⟨ch1, by simp only [sampleLoop, hg, hold, hl], by rw [hlen1, List.length_set], ?_⟩
    intro i
    rw [hpt i, getD_set_zero ch a i _ ha]
    have hgd : ch.getD a 0 = ch[a] := by
      simp [List.getD_eq_getElem?_getD, hold]
    by_cases hia : i = a
    · subst hia
      have h1 : ¬ (i + 1 ≤ i ∧ i < i + 1 + k) := by omega
      have h2 : i ≤ i ∧ i < i + (k + 1) := by omega
      rw [if_neg h1, if_pos h2, if_pos rfl, hgd, Nat.sub_self]
      simp
    · rw [if_neg hia]
      by_cases hlt : i < a
      · have h1 : ¬ (a + 1 ≤ i ∧ i < a + 1 + k) := by omega
        have h2 : ¬ (a ≤ i ∧ i < a + (k + 1)) := by omega
        rw [if_neg h1, if_neg h2]
      · obtain ⟨j, rfl⟩ : ∃ j, i = a + 1 + j := ⟨i - (a + 1), by omega⟩
        have h3 : a + 1 + j - a = j + 1 := by omega
        have h4 : a + 1 + j - (a + 1) = j := by omega
        by_cases hr2 : j < k
        · have h1 : a + 1 ≤ a + 1 + j ∧ a + 1 + j < a + 1 + k := by omega
          have h2 : a ≤ a + 1 + j ∧ a + 1 + j < a + (k + 1) := by omega
          rw [if_pos h1, if_pos h2, h3, h4]
          simp
        · have h1 : ¬ (a + 1 ≤ a + 1 + j ∧ a + 1 + j < a + 1 + k) := by omega
          have h2 : ¬ (a ≤ a + 1 + j ∧ a + 1 + j < a + (k + 1)) := by omega
          rw [if_neg h1, if_neg h2]

end WavetableSynth

namespace WavetableSynth

variable {F : Type} [LinearOrderedField F] [FloorRing F]

/-- The loop over the oscillators of `render`: every playing oscillator adds its solo
samples over `[a, b)` and ends where its solo run ends; the others are untouched. -/
theorem oscillatorLoop_spec (a b : Nat) (hab : a ≤ b) (oscs : List (WavetableOscillator F)) :
    ∀ ch : List F, b ≤ ch.length →
      (∀ o ∈ oscs, o.isPlaying = true → ∃ r, o.getSamples (b - a) = some r) →
      ∃ ch1, oscillatorLoop ch a b oscs
          = some (oscs.map (fun o => if o.isPlaying then o.afterSamples (b - a) else o), ch1) ∧
        ch1.length = ch.length ∧
        ∀ i, ch1.getD i 0
          = ch.getD i 0 + (if a ≤ i ∧ i < b then
              ((oscs.filter (fun o => o.isPlaying)).map
                (fun o => (o.soloSamples (b - a)).getD (i - a) 0)).sum
            else 0) := by
  induction oscs with
  | nil =>
    intro ch _ _
    refine ⟨ch, rfl, rfl, fun i => ?_⟩
    simp
  | cons o rest ih =>
    intro ch hlen hsolo
    have hrest : ∀ o1 ∈ rest, o1.isPlaying = true → ∃ r, o1.getSamples (b - a) = some r :=
      fun o1 hm => hsolo o1 (List.mem_cons_of_mem _ hm)
    by_cases hp : o.isPlaying = true
    · obtain ⟨⟨xs, o2⟩, hr⟩ := hsolo o (List.mem_cons_self _ _) hp
      obtain ⟨ch1, hl, hlen1, hpt1⟩ := sampleLoop_spec (b - a) o o2 ch a xs (by omega) hr
      obtain ⟨ch2, hl2, hlen2, hpt2⟩ := ih ch1 (by omega) hrest
      have hafter : o.afterSamples (b - a) = o2 := by
        simp only [WavetableOscillator.afterSamples, hr]
      have hsoloEq : o.soloSamples (b - a) = xs := by
        simp only [WavetableOscillator.soloSamples, hr]
      refine ⟨ch2, ?_, hlen2.trans hlen1, ?_⟩
      · simp only [oscillatorLoop, hp, if_true, hl, hl2, List.map_cons, hafter]
      · intro i
        rw [hpt2 i, hpt1 i, List.filter_cons_of_pos hp, List.map_cons, List.sum_cons, hsoloEq]
        have hba : a + (b - a) = b := by omega
        rw [hba]
        by_cases hi : a ≤ i ∧ i < b
        · simp only [if_pos hi]; ring
        · simp only [if_neg hi]; ring
    · obtain ⟨ch2, hl2, hlen2, hpt2⟩ := ih ch hlen hrest
      refine ⟨ch2, ?_, hlen2, ?_⟩
      · rw [oscillatorLoop, if_neg hp]
        simp only [hl2, List.map_cons, if_neg hp]
      · intro i
        rw [hpt2 i, List.filter_cons_of_neg hp]

end WavetableSynth

/-- What `std::copy` over `[a, b)` leaves in the destination. -/
theorem copyRange_spec {F : Type} (src dst : List F) (a b : Nat) (hab : a ≤ b)
    (hs : b ≤ src.length) (hd : b ≤ dst.length) :
    ∃ dst1, copyRange src dst a b = some dst1 ∧ dst1.length = dst.length ∧
      ∀ i, dst1[i]? = if a ≤ i ∧ i < b then src[i]? else dst[i]? := by
  refine ⟨_, if_pos ⟨hab, hs, hd⟩, ?_, ?_⟩
  · simp only [List.length_append, List.length_take, List.length_drop]
    omega
  · intro i
    simp only [List.getElem?_append, List.length_append, List.length_take, List.length_drop,
      List.getElem?_take, List.getElem?_drop]
    have e1 : min a dst.length = a := by omega
    have e2 : min (b - a) (src.length - a) = b - a := by omega
    rw [e1, e2]
    by_cases h1 : i < a
    · have h6 : i < a + (b - a) := by omega
      have h2 : ¬ (a ≤ i ∧ i < b) := by omega
      simp [h1, h6, h2]
    · by_cases h3 : i < b
      · have h6 : i < a + (b - a) := by omega
        have h2 : a ≤ i ∧ i < b := by omega
        have h4 : i - a < b - a := by omega
        have h5 : a + (i - a) = i := by omega
        simp [h1, h6, h2, h4, h5]
      · have h6 : ¬ i < a + (b - a) := by omega
        have h2 : ¬ (a ≤ i ∧ i < b) := by omega
        have h5 : b + (i - (a + (b - a))) = i := by omega
        simp [h1, h6, h2, h5]

namespace WavetableSynth

variable {F : Type} [LinearOrderedField F] [FloorRing F]

/-- The copy loop of `render`: every later channel takes over `[a, b)` from the first
channel and keeps the rest of its samples. -/
theorem copyLoop_spec (src : List F) (a b : Nat) (hab : a ≤ b) (hs : b ≤ src.length)
    (others : List (List F)) :
    (∀ ch ∈ others, b ≤ ch.length) →
      ∃ others1, copyLoop src a b others = some others1 ∧ others1.length = others.length ∧
        ∀ (c : Nat) (ch : List F), others[c]? = some ch →
          ∃ ch1 : List F, others1[c]? = some ch1 ∧ ch1.length = ch.length ∧
            ∀ i : Nat, ch1[i]? = if a ≤ i ∧ i < b then src[i]? else ch[i]? := by
  induction others with
  | nil =>
    intro _
    exact ⟨[], rfl, rfl, fun c ch h => absurd h (by simp)⟩
  | cons dst rest ih =>
    intro hlen
    obtain ⟨dst1, hc, hl1, hp1⟩ :=
      copyRange_spec src dst a b hab hs (hlen dst (List.mem_cons_self _ _))
    obtain ⟨rest1, hr, hl2, hp2⟩ := ih (fun ch hm => hlen ch (List.mem_cons_of_mem _ hm))
    refine ⟨dst1 :: rest1, by simp only [copyLoop, hc, hr], by simp [hl2], ?_⟩
    intro c ch hget
    cases c with
    | zero =>
      simp only [List.getElem?_cons_zero, Option.some.injEq] at hget
      subst hget
      exact ⟨dst1, by simp, hl1, hp1⟩
    | succ c1 =>
      simp only [List.getElem?_cons_succ] at hget
      obtain ⟨ch1, h1, h2, h3⟩ := hp2 c1 ch hget
      exact ⟨ch1, by simpa using h1, h2, h3⟩

/-- The whole of `render` on a buffer whose channels reach to `b`, when every playing
oscillator can produce `b - a` samples. -/
theorem render_spec (s : WavetableSynth F) (buffer : AudioBuffer F) (first : List F)
    (others : List (List F)) (a b : Nat) (hch : buffer.channels = first :: others)
    (hab : a ≤ b) (hfirst : b ≤ first.length) (hothers : ∀ ch ∈ others, b ≤ ch.length)
    (hsolo : ∀ o ∈ s.oscillators, o.isPlaying = true → ∃ r, o.getSamples (b - a) = some r) :
    ∃ first1 others1,
      render s buffer a b
        = some ({ s with oscillators :=
                    s.oscillators.map (fun o => if o.isPlaying then o.afterSamples (b - a) else o) },
                { buffer with channels := first1 :: others1 }) ∧
      first1.length = first.length ∧
      (∀ i, first1.getD i 0
          = first.getD i 0 + (if a ≤ i ∧ i < b then
              ((s.oscillators.filter (fun o => o.isPlaying)).map
                (fun o => (o.soloSamples (b - a)).getD (i - a) 0)).sum
            else 0)) ∧
      others1.length = others.length ∧
      ∀ (c : Nat) (ch : List F), others[c]? = some ch →
        ∃ ch1 : List F, others1[c]? = some ch1 ∧ ch1.length = ch.length ∧
          ∀ i : Nat, ch1[i]? = if a ≤ i ∧ i < b then first1[i]? else ch[i]? := by
  obtain ⟨first1, hl, hlen1, hpt⟩ := oscillatorLoop_spec a b hab s.oscillators first hfirst hsolo
  obtain ⟨others1, hc, hlen2, hcp⟩ :=
    copyLoop_spec first1 a b hab (by omega) others hothers
  refine ⟨first1, others1, ?_, hlen1, hpt, hlen2, hcp⟩
  simp only [render, hch, hl, hc]

end WavetableSynth

theorem getElem?_eq_some_getD_zero {F : Type} [Zero F] (ch : List F) (i : Nat)
    (hi : i < ch.length) : ch[i]? = some (ch.getD i 0) := by
  rw [List.getD_eq_getElem?_getD, List.getElem?_eq_getElem hi]
  rfl

namespace AudioBuffer

theorem sample?_zero {F : Type} (buffer : AudioBuffer F) (first : List F)
    (others : List (List F)) (h : buffer.channels = first :: others) (i : Nat) :
    buffer.sample? 0 i = first[i]? := by
  simp only [sample?, h, List.getElem?_cons_zero]

theorem sample?_succ {F : Type} (buffer : AudioBuffer F) (first : List F)
    (others : List (List F)) (h : buffer.channels = first :: others) (c i : Nat)
    (ch : List F) (hc : others[c]? = some ch) :
    buffer.sample? (c + 1) i = ch[i]? := by
  simp only [sample?, h, List.getElem?_cons_succ, hc]

end AudioBuffer

namespace WavetableSynth

variable {F : Type} [LinearOrderedField F] [FloorRing F]

/-- When the inner loop of `render` is defined, so is the solo run of its oscillator. -/
theorem getSamples_of_sampleLoop (n : Nat) :
    ∀ (o : WavetableOscillator F) (ch : List F) (a : Nat)
      (r : WavetableOscillator F × List F),
      sampleLoop o ch a n = some r → ∃ r1, o.getSamples n = some r1 := by
  induction n with
  | zero => intro o ch a r _; exact ⟨([], o), rfl⟩
  | succ k ih =>
    intro o ch a r h
    simp only [sampleLoop] at h
    split at h
    · next x o1 old hg hold =>
      obtain ⟨⟨xs, o2⟩, hr⟩ := ih o1 _ _ r h
      exact ⟨(x :: xs, o2), by simp only [WavetableOscillator.getSamples, hg, hr]⟩
    · exact absurd h (by simp)

/-- When the loop over the oscillators is defined, every playing oscillator can be run
alone over the range. -/
theorem getSamples_of_oscillatorLoop (a b : Nat) (oscs : List (WavetableOscillator F)) :
    ∀ (ch : List F) (r : List (WavetableOscillator F) × List F),
      oscillatorLoop ch a b oscs = some r →
      ∀ o ∈ oscs, o.isPlaying = true → ∃ r1, o.getSamples (b - a) = some r1 := by
  induction oscs with
  | nil => intro ch r _ o ho; exact absurd ho (List.not_mem_nil o)
  | cons o0 rest ih =>
    intro ch r h o ho hp
    simp only [oscillatorLoop] at h
    split at h
    · exact absurd h (by simp)
    · next o1 ch1 hfirst =>
      split at h
      · exact absurd h (by simp)
      · next rest1 ch2 hrest =>
        rcases List.mem_cons.mp ho with rfl | hmem
        · rw [if_pos hp] at hfirst
          exact getSamples_of_sampleLoop (b - a) o ch a _ hfirst
        · exact ih ch1 _ hrest o hmem hp

/-- On a well-formed buffer with a channel 0 and a range inside the block, `render` is
defined exactly when every playing oscillator can be run alone over the range. -/
theorem render_defined_iff (s : WavetableSynth F) (buffer : AudioBuffer F) (a b : Nat)
    (hwf : buffer.WellFormed) (hch : 0 < buffer.channels.length) (hab : a ≤ b)
    (hb : b ≤ buffer.numSamples) :
    (∃ r, render s buffer a b = some r) ↔
      ∀ o ∈ s.oscillators, o.isPlaying = true → ∃ r1, o.getSamples (b - a) = some r1 := by
  constructor
  · rintro ⟨r, hr⟩
    unfold render at hr
    split at hr
    · exact absurd hr (by simp)
    · next first others hc =>
      split at hr
      · exact absurd hr (by simp)
      · next oscs1 first1 hl =>
        exact getSamples_of_oscillatorLoop a b s.oscillators first _ hl
  · intro hsolo
    obtain ⟨first, others, hc⟩ : ∃ first others, buffer.channels = first :: others := by
      cases hcs : buffer.channels with
      | nil => rw [hcs] at hch; exact absurd hch (by simp)
      | cons first others => exact ⟨first, others, rfl⟩
    have hflen : first.length = buffer.numSamples := hwf first (by rw [hc]; simp)
    have holen : ∀ ch ∈ others, b ≤ ch.length := by
      intro ch hm
      rw [hwf ch (by rw [hc]; exact List.mem_cons_of_mem _ hm)]
      exact hb
    obtain ⟨first1, others1, hr, -⟩ :=
      render_spec s buffer first others a b hc hab (by omega) holen hsolo
    exact ⟨_, hr⟩

end WavetableSynth

namespace WavetableSynth

variable {F : Type} [LinearOrderedField F] [FloorRing F]

/-- A defined `getSample` changes nothing but `index`. -/
theorem getSample_members (o o1 : WavetableOscillator F) (x : F)
    (h : o.getSample = some (x, o1)) :
    o1.waveTable = o.waveTable ∧ o1.sampleRate = o.sampleRate ∧
      o1.indexIncrement = o.indexIncrement := by
  unfold WavetableOscillator.getSample at h
  split at h
  · exact absurd h (by simp)
  · simp only [Option.some.injEq, Prod.mk.injEq] at h
    rw [← h.2]
    exact ⟨rfl, rfl, rfl⟩

theorem sampleLoop_members (n : Nat) :
    ∀ (o o1 : WavetableOscillator F) (ch ch1 : List F) (a : Nat),
      sampleLoop o ch a n = some (o1, ch1) →
      o1.waveTable = o.waveTable ∧ o1.sampleRate = o.sampleRate ∧
        o1.indexIncrement = o.indexIncrement := by
  induction n with
  | zero =>
    intro o o1 ch ch1 a h
    simp only [sampleLoop, Option.some.injEq, Prod.mk.injEq] at h
    rw [← h.1]
    exact ⟨rfl, rfl, rfl⟩
  | succ k ih =>
    intro o o1 ch ch1 a h
    simp only [sampleLoop] at h
    split at h
    · next x o2 old hg hold =>
      obtain ⟨h1, h2, h3⟩ := ih o2 o1 _ ch1 _ h
      obtain ⟨g1, g2, g3⟩ := getSample_members o o2 x hg
      exact ⟨h1.trans g1, h2.trans g2, h3.trans g3⟩
    · exact absurd h (by simp)

/-- The loop over the oscillators keeps their number and, slot by slot, their tables,
sample rates and increments. -/
theorem oscillatorLoop_members (a b : Nat) (oscs : List (WavetableOscillator F)) :
    ∀ (ch ch1 : List F) (oscs1 : List (WavetableOscillator F)),
      oscillatorLoop ch a b oscs = some (oscs1, ch1) →
      List.Forall₂ (fun o o1 : WavetableOscillator F =>
        o1.waveTable = o.waveTable ∧ o1.sampleRate = o.sampleRate ∧
          o1.indexIncrement = o.indexIncrement) oscs oscs1 := by
  induction oscs with
  | nil =>
    intro ch ch1 oscs1 h
    simp only [oscillatorLoop, Option.some.injEq, Prod.mk.injEq] at h
    rw [← h.1]
    exact List.Forall₂.nil
  | cons o rest ih =>
    intro ch ch1 oscs1 h
    simp only [oscillatorLoop] at h
    split at h
    · exact absurd h (by simp)
    · next o1 ch2 hfirst =>
      split at h
      · exact absurd h (by simp)
      · next rest1 ch3 hrest =>
        simp only [Option.some.injEq, Prod.mk.injEq] at h
        rw [← h.1]
        refine List.Forall₂.cons ?_ (ih ch2 ch3 rest1 hrest)
        by_cases hp : o.isPlaying = true
        · rw [if_pos hp] at hfirst
          exact sampleLoop_members _ o o1 ch ch2 a hfirst
        · rw [if_neg hp] at hfirst
          simp only [Option.some.injEq, Prod.mk.injEq] at hfirst
          rw [← hfirst.1]
          exact ⟨rfl, rfl, rfl⟩

theorem render_members (s s1 : WavetableSynth F) (buffer buffer1 : AudioBuffer F)
    (a b : Nat) (h : render s buffer a b = some (s1, buffer1)) :
    s1.sampleRate = s.sampleRate ∧
      List.Forall₂ (fun o o1 : WavetableOscillator F =>
        o1.waveTable = o.waveTable ∧ o1.sampleRate = o.sampleRate ∧
          o1.indexIncrement = o.indexIncrement) s.oscillators s1.oscillators := by
  unfold render at h
  split at h
  · exact absurd h (by simp)
  · next first others hc =>
    split at h
    · exact absurd h (by simp)
    · next oscs1 first1 hl =>
      split at h
      · exact absurd h (by simp)
      · simp only [Option.some.injEq, Prod.mk.injEq] at h
        rw [← h.1]
        exact ⟨rfl, oscillatorLoop_members a b s.oscillators first first1 oscs1 hl⟩

/-- Rendering keeps the engine prepared. -/
theorem prepared_render (s s1 : WavetableSynth F) (buffer buffer1 : AudioBuffer F)
    (a b : Nat) (hs : Prepared s) (h : render s buffer a b = some (s1, buffer1)) :
    Prepared s1 := by
  obtain ⟨hrate, hall⟩ := render_members s s1 buffer buffer1 a b h
  refine ⟨hall.length_eq.symm.trans hs.1, ?_⟩
  intro o1 ho1
  obtain ⟨n, hn⟩ := List.getElem?_of_mem ho1
  have hn1 : n < s1.oscillators.length := by
    rcases List.getElem?_eq_some.mp hn with ⟨hlt, -⟩
    exact hlt
  have hn0 : n < s.oscillators.length := by rw [hall.length_eq]; exact hn1
  have hrel := List.Forall₂.get hall hn0 hn1
  have ho1eq : s1.oscillators.get ⟨n, hn1⟩ = o1 := by
    rcases List.getElem?_eq_some.mp hn with ⟨_, he⟩
    exact he
  rw [ho1eq] at hrel
  obtain ⟨ht, hr, -⟩ := hrel
  obtain ⟨ht0, hr0⟩ := hs.2 (s.oscillators.get ⟨n, hn0⟩) (List.get_mem _ _ _)
  exact ⟨by rw [ht]; exact ht0, (hr.trans hr0).trans hrate.symm⟩

end WavetableSynth

/-! ## The block loop -/

namespace WavetableSynth

variable {F : Type} [LinearOrderedField F] [FloorRing F]

theorem render_numSamples (s s1 : WavetableSynth F) (buffer buffer1 : AudioBuffer F)
    (a b : Nat) (h : render s buffer a b = some (s1, buffer1)) :
    buffer1.numSamples = buffer.numSamples := by
  unfold render at h
  split at h
  · exact absurd h (by simp)
  · split at h
    · exact absurd h (by simp)
    · split at h
      · exact absurd h (by simp)
      · simp only [Option.some.injEq, Prod.mk.injEq] at h
        rw [← h.2]

theorem eventLoop_numSamples (m : CMath F) (events : List MidiMessage) :
    ∀ (s s1 : WavetableSynth F) (buffer buffer1 : AudioBuffer F) (c c1 : Nat),
      eventLoop m s buffer c events = some (s1, buffer1, c1) →
      buffer1.numSamples = buffer.numSamples := by
  induction events with
  | nil =>
    intro s s1 buffer buffer1 c c1 h
    simp only [eventLoop, Option.some.injEq, Prod.mk.injEq] at h
    rw [← h.2.1]
  | cons e rest ih =>
    intro s s1 buffer buffer1 c c1 h
    simp only [eventLoop] at h
    split at h
    · exact absurd h (by simp)
    · next s2 b2 hr =>
      split at h
      · exact absurd h (by simp)
      · next s3 hh =>
        rw [ih s3 s1 b2 buffer1 _ c1 h, render_numSamples s s2 buffer b2 _ _ hr]

/-- The event loop followed by the final `render` performs the alternation of
sub-ranges and events, from any starting position `c`. -/
theorem eventLoop_then_render (m : CMath F) (n : Nat) (events : List MidiMessage) :
    ∀ (s : WavetableSynth F) (buffer : AudioBuffer F) (c : Nat),
      (match eventLoop m s buffer c events with
        | none => none
        | some (s1, buffer1, c1) => render s1 buffer1 c1 n)
      = BlockStep.runAll m
          (alternate (List.zip (c :: events.map (fun e => e.timeStamp))
            (events.map (fun e => e.timeStamp) ++ [n])) events) (s, buffer) := by
  induction events with
  | nil =>
    intro s buffer c
    simp only [eventLoop, List.map_nil, List.nil_append, List.zip_cons_cons, List.zip_nil_right,
      alternate, BlockStep.runAll, BlockStep.run]
    cases render s buffer c n <;> rfl
  | cons e rest ih =>
    intro s buffer c
    simp only [eventLoop, List.map_cons, List.cons_append, List.zip_cons_cons, alternate,
      BlockStep.runAll, BlockStep.run]
    cases hr : render s buffer c e.timeStamp with
    | none => rfl
    | some r =>
      obtain ⟨s1, b1⟩ := r
      simp only []
      cases hh : handleMidiEvent m s1 e with
      | none => rfl
      | some s2 => exact ih s2 b1 e.timeStamp

end WavetableSynth

theorem alternate_events (events : List MidiMessage) :
    ∀ ranges : List (Nat × Nat), ranges.length = events.length + 1 →
      (alternate ranges events).filterMap BlockStep.event? = events := by
  induction events with
  | nil =>
    intro ranges h
    match ranges, h with
    | [r], _ => rfl
  | cons e rest ih =>
    intro ranges h
    match ranges, h with
    | r :: rs, h =>
      simp only [alternate, List.filterMap_cons, BlockStep.event?]
      rw [ih rs (by simpa using h)]

theorem alternate_ranges (events : List MidiMessage) :
    ∀ ranges : List (Nat × Nat), ranges.length = events.length + 1 →
      (alternate ranges events).filterMap BlockStep.range? = ranges := by
  induction events with
  | nil =>
    intro ranges h
    match ranges, h with
    | [r], _ => rfl
  | cons e rest ih =>
    intro ranges h
    match ranges, h with
    | r :: rs, h =>
      simp only [alternate, List.filterMap_cons, BlockStep.range?]
      rw [ih rs (by simpa using h)]

theorem subRanges_length (n : Nat) (ts : List Nat) : (subRanges n ts).length = ts.length + 1 := by
  simp [subRanges]

/-- Sub-ranges cut at non-decreasing positions between `c` and `n` lie between `c` and
`n`, do not overlap, and cover `[c, n)`. -/
theorem zip_ranges_spec (n : Nat) (ts : List Nat) :
    ∀ c : Nat, List.Pairwise (fun x y => x ≤ y) (c :: ts) → (∀ t ∈ c :: ts, t ≤ n) →
      (∀ r ∈ List.zip (c :: ts) (ts ++ [n]), c ≤ r.1 ∧ r.1 ≤ r.2 ∧ r.2 ≤ n) ∧
      List.Pairwise (fun r1 r2 : Nat × Nat => ∀ x, ¬ (r1.1 ≤ x ∧ x < r1.2 ∧ r2.1 ≤ x ∧ x < r2.2))
        (List.zip (c :: ts) (ts ++ [n])) ∧
      (∀ x, c ≤ x → x < n → ∃ r ∈ List.zip (c :: ts) (ts ++ [n]), r.1 ≤ x ∧ x < r.2) := by
  induction ts with
  | nil =>
    intro c _ hb
    have hcn : c ≤ n := hb c (List.mem_cons_self _ _)
    refine ⟨?_, ?_, ?_⟩
    · intro r hr
      simp only [List.nil_append, List.zip_cons_cons, List.zip_nil_right,
        List.mem_singleton] at hr
      subst hr
      exact ⟨le_refl _, hcn, le_refl _⟩
    · simp
    · intro x hcx hxn
      exact ⟨(c, n), by simp, hcx, hxn⟩
  | cons t rest ih =>
    intro c hs hb
    have hct : c ≤ t := (List.pairwise_cons.mp hs).1 t (List.mem_cons_self _ _)
    have hs1 : List.Pairwise (fun x y => x ≤ y) (t :: rest) := (List.pairwise_cons.mp hs).2
    have hb1 : ∀ u ∈ t :: rest, u ≤ n := fun u hu => hb u (List.mem_cons_of_mem _ hu)
    obtain ⟨h1, h2, h3⟩ := ih t hs1 hb1
    have hz : List.zip (c :: t :: rest) ((t :: rest) ++ [n])
        = (c, t) :: List.zip (t :: rest) (rest ++ [n]) := rfl
    rw [hz]
    refine ⟨?_, ?_, ?_⟩
    · intro r hr
      rcases List.mem_cons.mp hr with rfl | hr1
      · exact ⟨le_refl _, hct, hb1 t (List.mem_cons_self _ _)⟩
      · obtain ⟨ha, hb2, hc2⟩ := h1 r hr1
        exact ⟨le_trans hct ha, hb2, hc2⟩
    · refine List.pairwise_cons.mpr ⟨?_, h2⟩
      intro r hr x hx
      have := (h1 r hr).1
      simp only at hx
      omega
    · intro x hcx hxn
      by_cases hxt : x < t
      · exact ⟨(c, t), List.mem_cons_self _ _, hcx, hxt⟩
      · obtain ⟨r, hr, hx⟩ := h3 x (by omega) hxn
        exact ⟨r, List.mem_cons_of_mem _ hr, hx⟩

/-! ## A concrete run of `render` -/

/-- Rendering `[1, 3)` of the two-channel buffer with the three-oscillator bank: the
first oscillator yields `0, 1`, the second `1/2, 1`, the third is silent. -/
theorem render_demo :
    WavetableSynth.render demoSynth demoBuffer 1 3
      = some (⟨4, [⟨[0, 1], 4, 0, 1⟩, ⟨[0, 1], 4, 3 / 2, 1 / 2⟩, ⟨[0, 1], 4, 0, 0⟩]⟩,
          ⟨4, [[10, 41 / 2, 32, 40], [1, 41 / 2, 32, 4]]⟩) := by
  have t1 : Int.tmod 1 2 = 1 := rfl
  have t2 : Int.tmod 2 2 = 0 := rfl
  have f1 : ⌊(3 / 4 : ℚ)⌋ = 0 := by rw [Int.floor_eq_iff]; norm_num
  norm_num [WavetableSynth.render, demoSynth, demoBuffer, WavetableSynth.oscillatorLoop,
    WavetableSynth.sampleLoop, WavetableOscillator.isPlaying, WavetableOscillator.getSample,
    WavetableOscillator.interpolateLinearly, truncToInt, vecAt, fmod, WavetableSynth.copyLoop,
    copyRange, t1, t2, f1]

/-! ## The prepared engine in closed form -/

namespace WavetableSynth

variable {F : Type} [LinearOrderedField F] [FloorRing F]

/-- The engine `prepareToPlay` leaves behind, written out. -/
theorem prepareToPlay_eq (m : CMath F) (s : WavetableSynth F) (sampleRate : F) :
    prepareToPlay m s sampleRate
      = ⟨sampleRate, List.replicate OSCILLATOR_COUNT
          (WavetableOscillator.new (generateSineWaveTable m s) sampleRate)⟩ := by
  have h1 := prepareToPlay_sampleRate m s sampleRate
  have h2 := prepareToPlay_oscillators m s sampleRate
  cases hp : prepareToPlay m s sampleRate with
  | mk sr oscs =>
    rw [hp] at h1 h2
    simp only at h1 h2
    rw [h1, h2]

theorem handleMidiEvent_noteOn (m : CMath F) (s : WavetableSynth F) (n t v : Nat)
    (hn : n < s.oscillators.length) :
    handleMidiEvent m s ⟨t, MidiKind.noteOn n v⟩
      = some { s with oscillators := (s.oscillators.set n
          ((s.oscillators[n]).setFrequency (midiNoteNumberToFrequency m (n : Int)))) } := by
  simp only [handleMidiEvent, List.getElem?_eq_getElem hn]

theorem handleMidiEvent_noteOff (m : CMath F) (s : WavetableSynth F) (n t : Nat)
    (hn : n < s.oscillators.length) :
    handleMidiEvent m s ⟨t, MidiKind.noteOff n⟩
      = some { s with oscillators := s.oscillators.set n (s.oscillators[n]).stop } := by
  simp only [handleMidiEvent, List.getElem?_eq_getElem hn]

end WavetableSynth

/-! ## The position after several samples -/

section Wrap

variable {F : Type} [LinearOrderedField F] [FloorRing F]

theorem fmod_eq_floor {x y : F} (hx : 0 ≤ x) (hy : 0 < y) :
    fmod x y = x - ((⌊x / y⌋ : Int) : F) * y := by
  simp only [fmod, truncToInt_of_nonneg (div_nonneg hx hy.le)]

theorem fmod_of_lt {x y : F} (hx : 0 ≤ x) (hxy : x < y) : fmod x y = x := by
  have hy : 0 < y := lt_of_le_of_lt hx hxy
  have hfl : ⌊x / y⌋ = 0 := by
    rw [Int.floor_eq_iff]
    refine ⟨by simpa using div_nonneg hx hy.le, ?_⟩
    rw [Int.cast_zero, zero_add, div_lt_one hy]
    exact hxy
  rw [fmod_eq_floor hx hy, hfl]
  simp

/-- Wrapping, advancing and wrapping again is advancing and wrapping once. -/
theorem fmod_fmod_add {x d y : F} (hx : 0 ≤ x) (hd : 0 ≤ d) (hy : 0 < y) :
    fmod (fmod x y + d) y = fmod (x + d) y := by
  have h1 : 0 ≤ fmod x y + d := add_nonneg (fmod_nonneg hx hy) hd
  have h2 : 0 ≤ x + d := add_nonneg hx hd
  rw [fmod_eq_floor h1 hy, fmod_eq_floor h2 hy, fmod_eq_floor hx hy]
  have hq : (x - ((⌊x / y⌋ : Int) : F) * y + d) / y = (x + d) / y - ((⌊x / y⌋ : Int) : F) := by
    field_simp
    ring
  rw [hq, Int.floor_sub_int]
  push_cast
  ring

end Wrap

namespace WavetableOscillator

variable {F : Type} [LinearOrderedField F] [FloorRing F]

/-- In range, `k` successive `getSample` calls return the interpolated values at the
positions `fmod (index + j * indexIncrement) L`, `j < k`, and end at the position
`fmod (index + k * indexIncrement) L`. -/
theorem getSamples_positions (k : Nat) :
    ∀ o : WavetableOscillator F, InRange o →
      ∃ xs : List F,
        o.getSamples k = some (xs,
          { o with index := (fmod (o.index + (k : F) * o.indexIncrement)
              (o.waveTable.length : F)) }) ∧
        xs.length = k ∧
        ∀ j : Nat, j < k →
          xs[j]? = interpolateLinearly
            { o with index := (fmod (o.index + (j : F) * o.indexIncrement)
                (o.waveTable.length : F)) } := by
  induction k with
  | zero =>
    intro o h
    refine ⟨[], ?_, rfl, fun j hj => absurd hj (Nat.not_lt_zero j)⟩
    have h0 : fmod (o.index + ((0 : Nat) : F) * o.indexIncrement) (o.waveTable.length : F)
        = o.index := by
      rw [Nat.cast_zero, zero_mul, add_zero]
      exact fmod_of_lt h.2.1 h.2.2.1
    rw [h0]
    rfl
  | succ k ih =>
    intro o h
    obtain ⟨hL, h0, h1, hinc⟩ := h
    have hLF : (0 : F) < (o.waveTable.length : F) := by exact_mod_cast hL
    obtain ⟨a, b, -, -, hg⟩ := getSample_of_inside o hL h0 h1
    have hsum : 0 ≤ o.index + o.indexIncrement := add_nonneg h0 hinc
    have hin1 : InRange
        ({ o with index := fmod (o.index + o.indexIncrement) (o.waveTable.length : F) } :
          WavetableOscillator F) :=
      ⟨hL, fmod_nonneg hsum hLF, fmod_lt hsum hLF, hinc⟩
    obtain ⟨xs, hr, hlen, hx⟩ := ih _ hin1
    dsimp only at hr hx
    have hval : o.interpolateLinearly
        = some ((1 - (o.index - (⌊o.index⌋ : F))) * a + (o.index - (⌊o.index⌋ : F)) * b) := by
      unfold getSample at hg
      split at hg
      · exact absurd hg (by simp)
      · next v hv =>
        simp only [Option.some.injEq, Prod.mk.injEq] at hg
        rw [hv, hg.1]
    have hstep : ∀ j : Nat,
        fmod (fmod (o.index + o.indexIncrement) (o.waveTable.length : F)
            + (j : F) * o.indexIncrement) (o.waveTable.length : F)
          = fmod (o.index + ((j + 1 : Nat) : F) * o.indexIncrement)
              (o.waveTable.length : F) := by
      intro j
      rw [fmod_fmod_add hsum (mul_nonneg (Nat.cast_nonneg j) hinc) hLF]
      congr 1
      push_cast
      ring
    refine ⟨((1 - (o.index - (⌊o.index⌋ : F))) * a + (o.index - (⌊o.index⌋ : F)) * b) :: xs,
      ?_, by simp [hlen], ?_⟩
    · simp only [getSamples, hg, hr, hstep k]
    · intro j hj
      cases j with
      | zero =>
        have h00 : fmod (o.index + ((0 : Nat) : F) * o.indexIncrement)
            (o.waveTable.length : F) = o.index := by
          rw [Nat.cast_zero, zero_mul, add_zero]
          exact fmod_of_lt h0 h1
        rw [h00, List.getElem?_cons_zero]
        exact hval.symm
      | succ i =>
        rw [List.getElem?_cons_succ, hx i (by omega)]
        simp only [hstep i]

end WavetableOscillator

/-! ## The invariant of the reachable states -/

namespace WavetableSynth

variable {F : Type} [LinearOrderedField F] [FloorRing F]

/-- When the inner loop of `render` is defined, it ends where the solo run of its
oscillator ends. -/
theorem sampleLoop_final (n : Nat) :
    ∀ (o o1 : WavetableOscillator F) (ch ch1 : List F) (a : Nat),
      sampleLoop o ch a n = some (o1, ch1) → ∃ xs, o.getSamples n = some (xs, o1) := by
  induction n with
  | zero =>
    intro o o1 ch ch1 a h
    simp only [sampleLoop, Option.some.injEq, Prod.mk.injEq] at h
    rw [← h.1]
    exact ⟨[], rfl⟩
  | succ k ih =>
    intro o o1 ch ch1 a h
    simp only [sampleLoop] at h
    split at h
    · next x o2 old hg hold =>
      obtain ⟨xs, hr⟩ := ih o2 o1 _ ch1 _ h
      exact ⟨x :: xs, by simp only [WavetableOscillator.getSamples, hg, hr]⟩
    · exact absurd h (by simp)

/-- The loop over the oscillators keeps, slot by slot, the range invariant and the
rule that a silent oscillator rests at position 0. -/
theorem oscillatorLoop_invariant (a b : Nat) (oscs : List (WavetableOscillator F)) :
    ∀ (ch ch1 : List F) (oscs1 : List (WavetableOscillator F)),
      oscillatorLoop ch a b oscs = some (oscs1, ch1) →
      List.Forall₂ (fun o o1 : WavetableOscillator F =>
        (o.InRange → o1.InRange) ∧ (o.isPlaying = false → o1 = o) ∧
          o1.indexIncrement = o.indexIncrement) oscs oscs1 := by
  induction oscs with
  | nil =>
    intro ch ch1 oscs1 h
    simp only [oscillatorLoop, Option.some.injEq, Prod.mk.injEq] at h
    rw [← h.1]
    exact List.Forall₂.nil
  | cons o rest ih =>
    intro ch ch1 oscs1 h
    simp only [oscillatorLoop] at h
    split at h
    · exact absurd h (by simp)
    · next o1 ch2 hfirst =>
      split at h
      · exact absurd h (by simp)
      · next rest1 ch3 hrest =>
        simp only [Option.some.injEq, Prod.mk.injEq] at h
        rw [← h.1]
        refine List.Forall₂.cons ?_ (ih ch2 ch3 rest1 hrest)
        by_cases hp : o.isPlaying = true
        · rw [if_pos hp] at hfirst
          obtain ⟨xs, hx⟩ := sampleLoop_final _ o o1 ch ch2 a hfirst
          refine ⟨?_, ?_, (sampleLoop_members _ o o1 ch ch2 a hfirst).2.2⟩
          · intro hin
            obtain ⟨xs2, o2, hx2, hin2, -⟩ :=
              WavetableOscillator.getSamples_of_inRange (b - a) o hin
            rw [hx] at hx2
            simp only [Option.some.injEq, Prod.mk.injEq] at hx2
            rw [hx2.2]
            exact hin2
          · intro hnp
            rw [hp] at hnp
            exact absurd hnp (by simp)
        · rw [if_neg hp] at hfirst
          simp only [Option.some.injEq, Prod.mk.injEq] at hfirst
          rw [← hfirst.1]
          exact ⟨id, fun _ => rfl, rfl⟩

theorem render_invariant (s s1 : WavetableSynth F) (buffer buffer1 : AudioBuffer F)
    (a b : Nat) (h : render s buffer a b = some (s1, buffer1)) :
    List.Forall₂ (fun o o1 : WavetableOscillator F =>
      (o.InRange → o1.InRange) ∧ (o.isPlaying = false → o1 = o) ∧
        o1.indexIncrement = o.indexIncrement) s.oscillators s1.oscillators := by
  unfold render at h
  split at h
  · exact absurd h (by simp)
  · next first others hc =>
    split at h
    · exact absurd h (by simp)
    · next oscs1 first1 hl =>
      split at h
      · exact absurd h (by simp)
      · simp only [Option.some.injEq, Prod.mk.injEq] at h
        rw [← h.1]
        exact oscillatorLoop_invariant a b s.oscillators first first1 oscs1 hl

theorem handleMidiEvent_sampleRate (m : CMath F) (s s1 : WavetableSynth F)
    (midiEvent : MidiMessage) (h : handleMidiEvent m s midiEvent = some s1) :
    s1.sampleRate = s.sampleRate := by
  unfold handleMidiEvent at h
  split at h
  · split at h
    · exact absurd h (by simp)
    · rw [← Option.some.inj h]
  · split at h
    · exact absurd h (by simp)
    · rw [← Option.some.inj h]
  · rw [← Option.some.inj h]
  · rw [← Option.some.inj h]

theorem isPlaying_eq_false_iff (o : WavetableOscillator F) :
    o.isPlaying = false ↔ o.indexIncrement = 0 := by
  simp [WavetableOscillator.isPlaying]

/-- The frequency of a note is above 0 when the power function is. -/
theorem midiNoteNumberToFrequency_pos (m : CMath F) (hpow : ∀ e : F, 0 < m.powf 2 e)
    (n : Int) : 0 < midiNoteNumberToFrequency m n :=
  mul_pos (by norm_num) (hpow _)

/-- In every reachable state: the engine is prepared, its sample rate is above 0, every
oscillator is in range, and a silent oscillator rests at position 0. -/
theorem reachable_invariant (m : CMath F) (hpow : ∀ e : F, 0 < m.powf 2 e)
    (s : WavetableSynth F) (h : Reachable m s) :
    Prepared s ∧ 0 < s.sampleRate ∧
      ∀ o ∈ s.oscillators, o.InRange ∧ (o.indexIncrement = 0 → o.index = 0) := by
  induction h with
  | prepare s0 sr hsr =>
    refine ⟨prepared_prepareToPlay m s0 sr, hsr, ?_⟩
    intro o ho
    rw [prepareToPlay_oscillators] at ho
    rw [List.eq_of_mem_replicate ho]
    refine ⟨WavetableOscillator.inRange_new _ _ ?_, fun _ => rfl⟩
    rw [generateSineWaveTable_length]
    decide
  | event s0 s1 e _ hc he ih =>
    obtain ⟨hprep, hsr, hall⟩ := ih
    have hrate := handleMidiEvent_sampleRate m s0 s1 e he
    refine ⟨prepared_handleMidiEvent m s0 s1 e hprep he, by rw [hrate]; exact hsr, ?_⟩
    unfold handleMidiEvent at he
    split at he
    · next n v hk =>
      split at he
      · exact absurd he (by simp)
      · next o0 ho0 =>
        rw [← Option.some.inj he]
        intro o ho
        have hmem0 : o0 ∈ s0.oscillators := List.getElem?_mem ho0
        rcases List.mem_or_eq_of_mem_set ho with hm | rfl
        · exact hall o hm
        · have hf := midiNoteNumberToFrequency_pos m hpow (n : Int)
          have hosr : 0 < o0.sampleRate := by rw [(hprep.2 o0 hmem0).2]; exact hsr
          refine ⟨WavetableOscillator.inRange_setFrequency o0 (hall o0 hmem0).1 _ hf.le hosr,
            ?_⟩
          intro hzero
          exfalso
          have hlen : (0 : F) < (o0.waveTable.length : F) := by
            exact_mod_cast (hall o0 hmem0).1.1
          have hpos : 0 < midiNoteNumberToFrequency m (n : Int) * (o0.waveTable.length : F)
              / o0.sampleRate := div_pos (mul_pos hf hlen) hosr
          exact absurd hzero (ne_of_gt hpos)
    · next n hk =>
      split at he
      · exact absurd he (by simp)
      · next o0 ho0 =>
        rw [← Option.some.inj he]
        intro o ho
        have hmem0 : o0 ∈ s0.oscillators := List.getElem?_mem ho0
        rcases List.mem_or_eq_of_mem_set ho with hm | rfl
        · exact hall o hm
        · exact ⟨WavetableOscillator.inRange_stop o0 (hall o0 hmem0).1.1, fun _ => rfl⟩
    · rw [← Option.some.inj he]
      intro o ho
      simp only [List.mem_map] at ho
      obtain ⟨o0, hm, rfl⟩ := ho
      exact ⟨WavetableOscillator.inRange_stop o0 (hall o0 hm).1.1, fun _ => rfl⟩
    · rw [← Option.some.inj he]
      exact hall
  | render s0 s1 buffer buffer1 a b _ hr ih =>
    obtain ⟨hprep, hsr, hall⟩ := ih
    have hrate := (render_members s0 s1 buffer buffer1 a b hr).1
    refine ⟨prepared_render s0 s1 buffer buffer1 a b hprep hr, by rw [hrate]; exact hsr, ?_⟩
    have hrel := render_invariant s0 s1 buffer buffer1 a b hr
    intro o1 ho1
    obtain ⟨n, hn⟩ := List.getElem?_of_mem ho1
    have hn1 : n < s1.oscillators.length := by
      rcases List.getElem?_eq_some.mp hn with ⟨hlt, -⟩
      exact hlt
    have hn0 : n < s0.oscillators.length := by rw [hrel.length_eq]; exact hn1
    have hget := List.Forall₂.get hrel hn0 hn1
    have ho1eq : s1.oscillators.get ⟨n, hn1⟩ = o1 := by
      rcases List.getElem?_eq_some.mp hn with ⟨_, he⟩
      exact he
    rw [ho1eq] at hget
    obtain ⟨hin, hsame, hinc⟩ := hget
    obtain ⟨hin0, hrest0⟩ := hall (s0.oscillators.get ⟨n, hn0⟩) (List.get_mem _ _ _)
    refine ⟨hin hin0, ?_⟩
    intro hzero
    have hz0 : (s0.oscillators.get ⟨n, hn0⟩).indexIncrement = 0 := by rw [← hinc]; exact hzero
    rw [hsame ((isPlaying_eq_false_iff _).mpr hz0)]
    exact hrest0 hz0

end WavetableSynth


/-! ## Splitting a range -/

namespace WavetableOscillator

variable {F : Type} [LinearOrderedField F] [FloorRing F]

/-- Running `n + k` samples is running `n` samples and then `k` more. -/
theorem getSamples_add (n k : Nat) :
    ∀ o : WavetableOscillator F,
      o.getSamples (n + k)
        = match o.getSamples n with
          | none => none
          | some (xs, o1) =>
            match o1.getSamples k with
            | none => none
            | some (ys, o2) => some (xs ++ ys, o2) := by
  induction n with
  | zero =>
    intro o
    simp only [Nat.zero_add, getSamples, List.nil_append]
    cases o.getSamples k with
    | none => rfl
    | some r => rfl
  | succ n ih =>
    intro o
    rw [Nat.add_right_comm]
    simp only [getSamples]
    cases hg : o.getSample with
    | none => rfl
    | some r =>
      obtain ⟨x, o1⟩ := r
      simp only [ih o1]
      cases hn : o1.getSamples n with
      | none => rfl
      | some r1 =>
        obtain ⟨xs, o2⟩ := r1
        simp only []
        cases hk : o2.getSamples k with
        | none => rfl
        | some r2 => rfl

theorem getSamples_indexIncrement (n : Nat) :
    ∀ (o o1 : WavetableOscillator F) (xs : List F),
      o.getSamples n = some (xs, o1) → o1.indexIncrement = o.indexIncrement := by
  induction n with
  | zero =>
    intro o o1 xs h
    simp only [getSamples, Option.some.injEq, Prod.mk.injEq] at h
    rw [← h.2]
  | succ n ih =>
    intro o o1 xs h
    obtain ⟨x, o2, xs1, hg, hr, -⟩ := getSamples_succ_eq_some o o1 n xs h
    rw [ih o2 o1 xs1 hr]
    unfold getSample at hg
    split at hg
    · exact absurd hg (by simp)
    · simp only [Option.some.injEq, Prod.mk.injEq] at hg
      rw [← hg.2]

/-- A defined run of `n + k` samples splits into a run of `n` and a run of `k`. -/
theorem getSamples_add_eq_some (n k : Nat) (o o2 : WavetableOscillator F) (zs : List F)
    (h : o.getSamples (n + k) = some (zs, o2)) :
    ∃ xs ys o1, o.getSamples n = some (xs, o1) ∧ o1.getSamples k = some (ys, o2) ∧
      zs = xs ++ ys := by
  rw [getSamples_add] at h
  split at h
  · exact absurd h (by simp)
  · next xs o1 hn =>
    split at h
    · exact absurd h (by simp)
    · next ys o3 hk =>
      simp only [Option.some.injEq, Prod.mk.injEq] at h
      exact ⟨xs, ys, o1, hn, by rw [hk, h.2], h.1.symm⟩

theorem getSamples_add_of_some (n k : Nat) (o o1 o2 : WavetableOscillator F)
    (xs ys : List F) (hn : o.getSamples n = some (xs, o1))
    (hk : o1.getSamples k = some (ys, o2)) :
    o.getSamples (n + k) = some (xs ++ ys, o2) := by
  rw [getSamples_add, hn]
  simp only [hk]

theorem afterSamples_isPlaying (o : WavetableOscillator F) (n : Nat) :
    (o.afterSamples n).isPlaying = o.isPlaying := by
  unfold afterSamples
  split
  · rfl
  · next xs o1 h =>
    simp only [isPlaying, getSamples_indexIncrement n o o1 xs h]

end WavetableOscillator

/-- Two sample sequences of one length that agree position by position are equal. -/
theorem ext_getD_zero {F : Type} [Zero F] (l1 l2 : List F) (hlen : l1.length = l2.length)
    (h : ∀ i, l1.getD i 0 = l2.getD i 0) : l1 = l2 := by
  apply List.ext_getElem?
  intro i
  by_cases hi : i < l1.length
  · rw [getElem?_eq_some_getD_zero l1 i hi, getElem?_eq_some_getD_zero l2 i (by omega), h i]
  · rw [List.getElem?_eq_none (by omega), List.getElem?_eq_none (by omega)]

namespace WavetableSynth

variable {F : Type} [LinearOrderedField F] [FloorRing F]

/-- A defined `render` on a well-formed buffer leaves a well-formed buffer of the same
shape. -/
theorem render_wellFormed (s s1 : WavetableSynth F) (buffer buffer1 : AudioBuffer F)
    (a b : Nat) (hwf : buffer.WellFormed) (hch : 0 < buffer.channels.length) (hab : a ≤ b)
    (hb : b ≤ buffer.numSamples) (h : render s buffer a b = some (s1, buffer1)) :
    buffer1.WellFormed ∧ buffer1.channels.length = buffer.channels.length ∧
      buffer1.numSamples = buffer.numSamples := by
  have hsolo := (render_defined_iff s buffer a b hwf hch hab hb).mp ⟨_, h⟩
  obtain ⟨first, others, hc⟩ : ∃ first others, buffer.channels = first :: others := by
    cases hcs : buffer.channels with
    | nil => rw [hcs] at hch; exact absurd hch (by simp)
    | cons first others => exact ⟨first, others, rfl⟩
  have hflen : first.length = buffer.numSamples := hwf first (by rw [hc]; simp)
  have holen : ∀ ch ∈ others, b ≤ ch.length := by
    intro ch hm
    rw [hwf ch (by rw [hc]; exact List.mem_cons_of_mem _ hm)]
    exact hb
  obtain ⟨first1, others1, hr, hlen1, -, hlen2, hcp⟩ :=
    render_spec s buffer first others a b hc hab (by omega) holen hsolo
  rw [hr] at h
  simp only [Option.some.injEq, Prod.mk.injEq] at h
  obtain ⟨-, rfl⟩ := h
  refine ⟨?_, by simp [hc, hlen2], rfl⟩
  intro ch hm
  rcases List.mem_cons.mp hm with rfl | hm1
  · exact hlen1.trans hflen
  · obtain ⟨j, hj⟩ := List.getElem?_of_mem hm1
    have hjlt : j < others.length := by
      rcases List.getElem?_eq_some.mp hj with ⟨hlt, -⟩
      omega
    obtain ⟨ch1, h1, h2, -⟩ := hcp j others[j] (List.getElem?_eq_getElem hjlt)
    rw [hj] at h1
    rw [Option.some.inj h1, h2]
    exact hwf _ (by rw [hc]; exact List.mem_cons_of_mem _ (List.getElem_mem hjlt))

end WavetableSynth

namespace WavetableOscillator

variable {F : Type} [LinearOrderedField F] [FloorRing F]

/-- The samples of a defined run of `n + k`: those of the run of `n`, then those of the
run of `k` from where the first run ends. -/
theorem soloSamples_add (n k : Nat) (o : WavetableOscillator F)
    (h : ∃ r, o.getSamples (n + k) = some r) :
    o.soloSamples (n + k) = o.soloSamples n ++ (o.afterSamples n).soloSamples k ∧
      (o.soloSamples n).length = n ∧
      o.afterSamples (n + k) = (o.afterSamples n).afterSamples k ∧
      (∃ r, o.getSamples n = some r) ∧ ∃ r, (o.afterSamples n).getSamples k = some r := by
  obtain ⟨⟨zs, o2⟩, hz⟩ := h
  obtain ⟨xs, ys, o1, hn, hk, rfl⟩ := getSamples_add_eq_some n k o o2 zs hz
  have ha : o.afterSamples n = o1 := by simp only [afterSamples, hn]
  refine ⟨?_, ?_, ?_, ⟨_, hn⟩, ⟨_, by rw [ha]; exact hk⟩⟩
  · simp only [soloSamples, hz, hn, ha, hk]
  · simp only [soloSamples, hn]
    exact getSamples_length n o o1 xs hn
  · rw [ha]
    simp only [afterSamples, hz, hk]

end WavetableOscillator

namespace WavetableSynth

variable {F : Type} [LinearOrderedField F] [FloorRing F]

/-- The oscillators playing after a `render` are the playing ones, advanced. -/
theorem filter_isPlaying_map_advance (n : Nat) (oscs : List (WavetableOscillator F)) :
    (oscs.map (fun o => if o.isPlaying then o.afterSamples n else o)).filter
        (fun o => o.isPlaying)
      = (oscs.filter (fun o => o.isPlaying)).map (fun o => o.afterSamples n) := by
  induction oscs with
  | nil => rfl
  | cons o rest ih =>
    by_cases hp : o.isPlaying = true
    · have hp1 : (o.afterSamples n).isPlaying = true := by
        rw [WavetableOscillator.afterSamples_isPlaying]; exact hp
      simp only [List.map_cons, if_pos hp, List.filter_cons_of_pos hp1,
        List.filter_cons_of_pos hp, ih]
    · simp only [List.map_cons, if_neg hp, List.filter_cons_of_neg hp, ih]

/-- Position by position, the solo samples over `[a, c)` are those over `[a, b)` followed
by those over `[b, c)` of the advanced oscillators. -/
theorem solo_sum_split (a b c i : Nat) (hab : a ≤ b) (hbc : b ≤ c)
    (P : List (WavetableOscillator F))
    (hdef : ∀ o ∈ P, ∃ r, o.getSamples (c - a) = some r) :
    (if a ≤ i ∧ i < c then
        (P.map (fun o => (o.soloSamples (c - a)).getD (i - a) 0)).sum else 0)
      = (if a ≤ i ∧ i < b then
          (P.map (fun o => (o.soloSamples (b - a)).getD (i - a) 0)).sum else 0)
        + (if b ≤ i ∧ i < c then
          ((P.map (fun o => o.afterSamples (b - a))).map
            (fun o => (o.soloSamples (c - b)).getD (i - b) 0)).sum else 0) := by
  have hca : c - a = (b - a) + (c - b) := by omega
  have hparts : ∀ o ∈ P,
      o.soloSamples (c - a)
          = o.soloSamples (b - a) ++ (o.afterSamples (b - a)).soloSamples (c - b) ∧
        (o.soloSamples (b - a)).length = b - a := by
    intro o ho
    have hd := hdef o ho
    rw [hca] at hd
    obtain ⟨h1, h2, -⟩ := WavetableOscillator.soloSamples_add (b - a) (c - b) o hd
    rw [hca]
    exact ⟨h1, h2⟩
  by_cases h1 : a ≤ i ∧ i < b
  · have h2 : a ≤ i ∧ i < c := by omega
    have h3 : ¬ (b ≤ i ∧ i < c) := by omega
    rw [if_pos h1, if_pos h2, if_neg h3, add_zero]
    congr 1
    apply List.map_congr_left
    intro o ho
    obtain ⟨he, hl⟩ := hparts o ho
    rw [he, List.getD_append _ _ _ _ (by rw [hl]; omega)]
  · by_cases h3 : b ≤ i ∧ i < c
    · have h2 : a ≤ i ∧ i < c := by omega
      rw [if_neg h1, if_pos h2, if_pos h3, zero_add, List.map_map]
      congr 1
      apply List.map_congr_left
      intro o ho
      obtain ⟨he, hl⟩ := hparts o ho
      rw [he, List.getD_append_right _ _ _ _ (by rw [hl]; omega), hl]
      have hidx : i - a - (b - a) = i - b := by omega
      rw [hidx]
      rfl
    · have h2 : ¬ (a ≤ i ∧ i < c) := by omega
      rw [if_neg h1, if_neg h2, if_neg h3, add_zero]

end WavetableSynth

namespace WavetableSynth

variable {F : Type} [LinearOrderedField F] [FloorRing F]

/-- The oscillators `render` leaves behind, whenever it is defined on a well-formed
buffer. -/
theorem render_oscillators (s s1 : WavetableSynth F) (buffer buffer1 : AudioBuffer F)
    (a b : Nat) (hwf : buffer.WellFormed) (hch : 0 < buffer.channels.length) (hab : a ≤ b)
    (hb : b ≤ buffer.numSamples) (h : render s buffer a b = some (s1, buffer1)) :
    s1.oscillators
      = s.oscillators.map (fun o => if o.isPlaying then o.afterSamples (b - a) else o) := by
  have hsolo := (render_defined_iff s buffer a b hwf hch hab hb).mp ⟨_, h⟩
  obtain ⟨first, others, hc⟩ : ∃ first others, buffer.channels = first :: others := by
    cases hcs : buffer.channels with
    | nil => rw [hcs] at hch; exact absurd hch (by simp)
    | cons first others => exact ⟨first, others, rfl⟩
  have hflen : first.length = buffer.numSamples := hwf first (by rw [hc]; simp)
  have holen : ∀ ch ∈ others, b ≤ ch.length := by
    intro ch hm
    rw [hwf ch (by rw [hc]; exact List.mem_cons_of_mem _ hm)]
    exact hb
  obtain ⟨first1, others1, hr, -⟩ :=
    render_spec s buffer first others a b hc hab (by omega) holen hsolo
  rw [hr] at h
  simp only [Option.some.injEq, Prod.mk.injEq] at h
  rw [← h.1]

/-- Rendering `[a, b)` and then `[b, c)` is rendering `[a, c)`. -/
theorem render_split (s : WavetableSynth F) (buffer : AudioBuffer F) (a b c : Nat)
    (hwf : buffer.WellFormed) (hch : 0 < buffer.channels.length) (hab : a ≤ b)
    (hbc : b ≤ c) (hc : c ≤ buffer.numSamples) :
    (render s buffer a b).bind (fun r => render r.1 r.2 b c) = render s buffer a c := by
  have hca : c - a = (b - a) + (c - b) := by omega
  by_cases hsolo : ∀ o ∈ s.oscillators, o.isPlaying = true →
      ∃ r, o.getSamples (c - a) = some r
  · obtain ⟨first, others, hcs⟩ : ∃ first others, buffer.channels = first :: others := by
      cases hcs : buffer.channels with
      | nil => rw [hcs] at hch; exact absurd hch (by simp)
      | cons first others => exact ⟨first, others, rfl⟩
    have hflen : first.length = buffer.numSamples := hwf first (by rw [hcs]; simp)
    have holen : ∀ ch ∈ others, ch.length = buffer.numSamples := by
      intro ch hm
      exact hwf ch (by rw [hcs]; exact List.mem_cons_of_mem _ hm)
    have hparts : ∀ o ∈ s.oscillators, o.isPlaying = true →
        (∃ r, o.getSamples (b - a) = some r) ∧
        (∃ r, (o.afterSamples (b - a)).getSamples (c - b) = some r) ∧
        o.afterSamples (c - a) = (o.afterSamples (b - a)).afterSamples (c - b) := by
      intro o ho hp
      have hd := hsolo o ho hp
      rw [hca] at hd
      obtain ⟨-, -, h3, h4, h5⟩ := WavetableOscillator.soloSamples_add (b - a) (c - b) o hd
      rw [hca]
      exact ⟨h4, h5, h3⟩
    obtain ⟨first1, others1, hr1, hl1, hp1, hol1, hcp1⟩ :=
      render_spec s buffer first others a b hcs hab (by omega)
        (fun ch hm => by rw [holen ch hm]; omega) (fun o ho hp => (hparts o ho hp).1)
    have holen1 : ∀ ch ∈ others1, ch.length = buffer.numSamples := by
      intro ch hm
      obtain ⟨j, hj⟩ := List.getElem?_of_mem hm
      have hjlt : j < others.length := by
        rcases List.getElem?_eq_some.mp hj with ⟨hlt, -⟩
        omega
      obtain ⟨ch1, h1, h2, -⟩ := hcp1 j others[j] (List.getElem?_eq_getElem hjlt)
      rw [hj] at h1
      rw [Option.some.inj h1, h2]
      exact holen _ (List.getElem_mem hjlt)
    have hsolo1 : ∀ o1 ∈ s.oscillators.map
        (fun o => if o.isPlaying then o.afterSamples (b - a) else o),
        o1.isPlaying = true → ∃ r, o1.getSamples (c - b) = some r := by
      intro o1 ho1 hp1
      obtain ⟨o, ho, rfl⟩ := List.mem_map.mp ho1
      by_cases hp : o.isPlaying = true
      · rw [if_pos hp]
        exact (hparts o ho hp).2.1
      · rw [if_neg hp] at hp1
        exact absurd hp1 hp
    obtain ⟨first2, others2, hr2, hl2, hp2, hol2, hcp2⟩ :=
      render_spec
        ({ s with oscillators := (s.oscillators.map
            (fun o => if o.isPlaying then o.afterSamples (b - a) else o)) } : WavetableSynth F)
        ({ buffer with channels := first1 :: others1 } : AudioBuffer F)
        first1 others1 b c rfl hbc (by omega)
        (fun ch hm => by rw [holen1 ch hm]; exact hc) hsolo1
    obtain ⟨first3, others3, hr3, hl3, hp3, hol3, hcp3⟩ :=
      render_spec s buffer first others a c hcs (by omega) (by omega)
        (fun ch hm => by rw [holen ch hm]; exact hc) hsolo
    dsimp only at hr2 hp2
    have hosc : (s.oscillators.map
          (fun o => if o.isPlaying then o.afterSamples (b - a) else o)).map
          (fun o => if o.isPlaying then o.afterSamples (c - b) else o)
        = s.oscillators.map (fun o => if o.isPlaying then o.afterSamples (c - a) else o) := by
      rw [List.map_map]
      apply List.map_congr_left
      intro o ho
      by_cases hp : o.isPlaying = true
      · have hp1 : (o.afterSamples (b - a)).isPlaying = true := by
          rw [WavetableOscillator.afterSamples_isPlaying]; exact hp
        simp only [Function.comp, if_pos hp, if_pos hp1, (hparts o ho hp).2.2]
      · simp only [Function.comp, if_neg hp]
    have hpoint : ∀ i, first2.getD i 0 = first3.getD i 0 := by
      intro i
      rw [hp2 i, hp1 i, hp3 i, filter_isPlaying_map_advance,
        solo_sum_split a b c i hab hbc (s.oscillators.filter (fun o => o.isPlaying))
          (fun o ho => hsolo o (List.mem_of_mem_filter ho) (List.of_mem_filter ho)),
        add_assoc]
    have hfirst : first2 = first3 :=
      ext_getD_zero first2 first3 (by omega) hpoint
    have hfirst13 : ∀ i, a ≤ i → i < b → first1[i]? = first3[i]? := by
      intro i hai hib
      rw [getElem?_eq_some_getD_zero first1 i (by omega),
        getElem?_eq_some_getD_zero first3 i (by omega), ← hpoint i, hp2 i]
      have hn : ¬ (b ≤ i ∧ i < c) := by omega
      rw [if_neg hn, add_zero]
    have hothers : others2 = others3 := by
      apply List.ext_getElem?
      intro j
      by_cases hj : j < others.length
      · obtain ⟨ch1, h11, -, h13⟩ := hcp1 j others[j] (List.getElem?_eq_getElem hj)
        obtain ⟨ch2, h21, -, h23⟩ := hcp2 j ch1 h11
        obtain ⟨ch3, h31, -, h33⟩ := hcp3 j others[j] (List.getElem?_eq_getElem hj)
        rw [h21, h31]
        congr 1
        apply List.ext_getElem?
        intro i
        rw [h23 i, h33 i, h13 i, hfirst]
        by_cases hbi : b ≤ i ∧ i < c
        · have hai : a ≤ i ∧ i < c := by omega
          rw [if_pos hbi, if_pos hai]
        · rw [if_neg hbi]
          by_cases hai : a ≤ i ∧ i < b
          · have hac : a ≤ i ∧ i < c := by omega
            rw [if_pos hai, if_pos hac]
            exact hfirst13 i hai.1 hai.2
          · have hac : ¬ (a ≤ i ∧ i < c) := by omega
            rw [if_neg hai, if_neg hac]
      · rw [List.getElem?_eq_none (by omega), List.getElem?_eq_none (by omega)]
    rw [hr1, Option.some_bind]
    dsimp only
    rw [hr2, hr3, hosc, hfirst, hothers]
  · have h3 : render s buffer a c = none := by
      cases hr : render s buffer a c with
      | none => rfl
      | some r =>
        exact absurd
          ((render_defined_iff s buffer a c hwf hch (by omega) hc).mp ⟨r, hr⟩) hsolo
    rw [h3]
    cases hr1 : render s buffer a b with
    | none => rfl
    | some r1 =>
      obtain ⟨s1, b1⟩ := r1
      rw [Option.some_bind]
      dsimp only
      cases hr2 : render s1 b1 b c with
      | none => rfl
      | some r2 =>
        exfalso
        apply hsolo
        intro o ho hp
        have hsolo_ab := (render_defined_iff s buffer a b hwf hch hab (by omega)).mp ⟨_, hr1⟩
        obtain ⟨hwf1, hch1, hn1⟩ :=
          render_wellFormed s s1 buffer b1 a b hwf hch hab (by omega) hr1
        have hsolo_bc := (render_defined_iff s1 b1 b c hwf1 (by omega) hbc (by omega)).mp
          ⟨_, hr2⟩
        have hoscs := render_oscillators s s1 buffer b1 a b hwf hch hab (by omega) hr1
        obtain ⟨⟨xs, o1⟩, hx⟩ := hsolo_ab o ho hp
        have hafter : o.afterSamples (b - a) = o1 := by
          simp only [WavetableOscillator.afterSamples, hx]
        have hmem : o1 ∈ s1.oscillators := by
          rw [hoscs, List.mem_map]
          exact ⟨o, ho, by rw [if_pos hp, hafter]⟩
        have hp1 : o1.isPlaying = true := by
          rw [← hafter, WavetableOscillator.afterSamples_isPlaying]; exact hp
        obtain ⟨⟨ys, o2⟩, hy⟩ := hsolo_bc o1 hmem hp1
        rw [hca]
        exact ⟨_, WavetableOscillator.getSamples_add_of_some _ _ o o1 o2 xs ys hx hy⟩

end WavetableSynth

/-! ## A block with one `NoteOn` at its start -/

namespace WavetableSynth

variable {F : Type} [LinearOrderedField F] [FloorRing F]

theorem oscillatorLoop_empty_range (ch : List F) (a : Nat)
    (oscs : List (WavetableOscillator F)) :
    oscillatorLoop ch a a oscs = some (oscs, ch) := by
  induction oscs with
  | nil => rfl
  | cons o rest ih =>
    simp only [oscillatorLoop, Nat.sub_self, sampleLoop, ite_self, ih]

theorem copyRange_empty_range (src dst : List F) (a : Nat) (hs : a ≤ src.length)
    (hd : a ≤ dst.length) : copyRange src dst a a = some dst := by
  simp only [copyRange, le_refl, hs, hd, and_self, if_true, Nat.sub_self, List.take_zero,
    List.append_nil, List.take_append_drop]

theorem copyLoop_empty_range (src : List F) (a : Nat) (hs : a ≤ src.length)
    (others : List (List F)) (ho : ∀ ch ∈ others, a ≤ ch.length) :
    copyLoop src a a others = some others := by
  induction others with
  | nil => rfl
  | cons ch rest ih =>
    simp only [copyLoop, copyRange_empty_range src ch a hs (ho ch (List.mem_cons_self _ _)),
      ih (fun c hc => ho c (List.mem_cons_of_mem _ hc))]

/-- Rendering an empty range changes nothing. -/
theorem render_empty_range (s : WavetableSynth F) (buffer : AudioBuffer F) (a : Nat)
    (hwf : buffer.WellFormed) (hch : 0 < buffer.channels.length)
    (ha : a ≤ buffer.numSamples) : render s buffer a a = some (s, buffer) := by
  obtain ⟨n, channels⟩ := buffer
  cases channels with
  | nil => exact absurd hch (by simp)
  | cons first others =>
    have hf : a ≤ first.length := by
      rw [hwf first (List.mem_cons_self _ _)]; exact ha
    have ho : ∀ ch ∈ others, a ≤ ch.length := by
      intro ch hm
      rw [hwf ch (List.mem_cons_of_mem _ hm)]; exact ha
    simp only [render, oscillatorLoop_empty_range, copyLoop_empty_range first a hf others ho]

/-- In a bank of silent oscillators with one slot replaced by a playing one, that one is
the only one playing. -/
theorem filter_isPlaying_set_replicate (o0 o1 : WavetableOscillator F)
    (h0 : o0.isPlaying = false) (h1 : o1.isPlaying = true) (c : Nat) :
    ∀ n : Nat, n < c →
      ((List.replicate c o0).set n o1).filter (fun o => o.isPlaying) = [o1] := by
  have hnil : ∀ k : Nat, (List.replicate k o0).filter (fun o => o.isPlaying) = [] := by
    intro k
    rw [List.filter_eq_nil_iff]
    intro o ho
    rw [List.eq_of_mem_replicate ho, h0]
    simp
  induction c with
  | zero => intro n hn; exact absurd hn (Nat.not_lt_zero n)
  | succ c ih =>
    intro n hn
    have h0n : ¬ o0.isPlaying = true := by rw [h0]; simp
    cases n with
    | zero =>
      rw [List.replicate_succ, List.set_cons_zero, List.filter_cons_of_pos h1, hnil c]
    | succ n =>
      rw [List.replicate_succ, List.set_cons_succ, List.filter_cons_of_neg h0n,
        ih n (by omega)]

theorem mem_set_replicate (o0 o1 o : WavetableOscillator F) (c n : Nat)
    (h : o ∈ (List.replicate c o0).set n o1) : o = o0 ∨ o = o1 := by
  rcases List.mem_or_eq_of_mem_set h with hm | rfl
  · exact Or.inl (List.eq_of_mem_replicate hm)
  · exact Or.inr rfl

/-- One block whose only event is a `NoteOn` at time stamp 0, on a bank of silent
oscillators: channel 0 gains the solo samples of the started oscillator. -/
theorem processBlock_single_noteOn (m : CMath F) (P : WavetableSynth F)
    (o0 : WavetableOscillator F) (n v : Nat) (buffer : AudioBuffer F) (first : List F)
    (others : List (List F)) (hP : P.oscillators = List.replicate 128 o0)
    (h0 : o0.isPlaying = false) (hn : n < 128) (hwf : buffer.WellFormed)
    (hcs : buffer.channels = first :: others)
    (hplay : (o0.setFrequency (midiNoteNumberToFrequency m (n : Int))).isPlaying = true)
    (hin : (o0.setFrequency (midiNoteNumberToFrequency m (n : Int))).InRange) :
    ∃ s1 b1, processBlock m P buffer [⟨0, MidiKind.noteOn n v⟩] = some (s1, b1) ∧
      ∀ k : Nat, k < buffer.numSamples →
        b1.sample? 0 k = some (first.getD k 0
          + ((o0.setFrequency (midiNoteNumberToFrequency m (n : Int))).soloSamples
              buffer.numSamples).getD k 0) := by
  have hch : 0 < buffer.channels.length := by rw [hcs]; simp
  have hlen : n < P.oscillators.length := by rw [hP, List.length_replicate]; exact hn
  have hget : P.oscillators[n] = o0 := by
    simp only [hP, List.getElem_replicate]
  have hflen : first.length = buffer.numSamples := hwf first (by rw [hcs]; simp)
  have holen : ∀ ch ∈ others, buffer.numSamples ≤ ch.length := by
    intro ch hm
    rw [hwf ch (by rw [hcs]; exact List.mem_cons_of_mem _ hm)]
  have hsolo : ∀ o ∈ (List.replicate 128 o0).set n
        (o0.setFrequency (midiNoteNumberToFrequency m (n : Int))),
      o.isPlaying = true → ∃ r, o.getSamples (buffer.numSamples - 0) = some r := by
    intro o ho hp
    rcases mem_set_replicate _ _ o 128 n ho with rfl | rfl
    · rw [h0] at hp; exact absurd hp (by simp)
    · obtain ⟨xs, o2, hx, -⟩ :=
        WavetableOscillator.getSamples_of_inRange (buffer.numSamples - 0) _ hin
      exact ⟨(xs, o2), hx⟩
  obtain ⟨first1, others1, hr, hl1, hp1, -, -⟩ :=
    render_spec
      ({ P with oscillators := ((List.replicate 128 o0).set n
          (o0.setFrequency (midiNoteNumberToFrequency m (n : Int)))) } : WavetableSynth F)
      buffer first others 0 buffer.numSamples hcs (Nat.zero_le _) (by omega) holen hsolo
  dsimp only at hr hp1
  refine ⟨⟨P.sampleRate, ((List.replicate 128 o0).set n
      (o0.setFrequency (midiNoteNumberToFrequency m (n : Int)))).map
        (fun o => if o.isPlaying then o.afterSamples (buffer.numSamples - 0) else o)⟩,
    ⟨buffer.numSamples, first1 :: others1⟩, ?_, ?_⟩
  · simp only [processBlock, eventLoop,
      render_empty_range P buffer 0 hwf hch (Nat.zero_le _),
      handleMidiEvent_noteOn m P n 0 v hlen, hget, hP, List.getElem_replicate]
    exact hr
  · intro k hk
    rw [AudioBuffer.sample?_zero _ first1 others1 rfl,
      getElem?_eq_some_getD_zero first1 k (by omega), hp1 k,
      if_pos ⟨Nat.zero_le _, hk⟩]
    rw [filter_isPlaying_set_replicate o0 _ h0 hplay 128 n hn]
    simp

end WavetableSynth

/-! ## The sine table over the reals -/

section SineTable

theorem sin_table_zero_left : Real.sin (Real.pi * ((0 : Nat) : ℝ) / 32) = 0 := by
  simp

theorem sin_table_zero_mid : Real.sin (Real.pi * ((32 : Nat) : ℝ) / 32) = 0 := by
  have h : Real.pi * ((32 : Nat) : ℝ) / 32 = Real.pi := by
    push_cast
    ring
  rw [h, Real.sin_pi]

theorem sin_table_pos (i : Nat) (h1 : 0 < i) (h2 : i < 32) :
    0 < Real.sin (Real.pi * (i : ℝ) / 32) := by
  have hi1 : (0 : ℝ) < (i : ℝ) := by exact_mod_cast h1
  have hi2 : (i : ℝ) < 32 := by exact_mod_cast h2
  apply Real.sin_pos_of_pos_of_lt_pi
  · have := Real.pi_pos
    positivity
  · have hpi := Real.pi_pos
    rw [div_lt_iff₀ (by norm_num)]
    nlinarith

theorem sin_table_neg (i : Nat) (h1 : 32 < i) (h2 : i < 64) :
    Real.sin (Real.pi * (i : ℝ) / 32) < 0 := by
  have hi1 : (32 : ℝ) < (i : ℝ) := by exact_mod_cast h1
  have hi2 : (i : ℝ) < 64 := by exact_mod_cast h2
  have hpi := Real.pi_pos
  rw [← Real.sin_sub_two_pi]
  apply Real.sin_neg_of_neg_of_neg_pi_lt
  · have : Real.pi * (i : ℝ) / 32 < 2 * Real.pi := by
      rw [div_lt_iff₀ (by norm_num)]
      nlinarith
    linarith
  · have : Real.pi < Real.pi * (i : ℝ) / 32 := by
      rw [lt_div_iff₀ (by norm_num)]
      nlinarith
    linarith

/-- The entries of the generated table when `sinf` is the sine and `atanf(1) * 4` is π. -/
theorem sine_table_getElem? (m : CMath ℝ) (hsin : ∀ x, m.sinf x = Real.sin x)
    (hatan : m.atanf 1 * 4 = Real.pi) (s : WavetableSynth ℝ) (i : Nat) (hi : i < 64) :
    (WavetableSynth.generateSineWaveTable m s)[i]?
      = some (Real.sin (Real.pi * (i : ℝ) / 32)) := by
  rw [WavetableSynth.generateSineWaveTable_getElem? m s i hi, hsin, hatan]
  congr 2
  simp only [WavetableSynth.WAVETABLE_LENGTH]
  push_cast
  ring

end SineTable

section SineInterpolation

/-- On the sine table the interpolated value vanishes at the positions 0 and 32 only. -/
theorem sine_interpolation_eq_zero_iff (o : WavetableOscillator ℝ)
    (hlen : o.waveTable.length = 64)
    (htab : ∀ i : Nat, i < 64 → o.waveTable[i]? = some (Real.sin (Real.pi * (i : ℝ) / 32)))
    (h0 : 0 ≤ o.index) (h1 : o.index < 64) :
    ∃ x : ℝ, o.interpolateLinearly = some x ∧ (x = 0 ↔ o.index = 0 ∨ o.index = 32) := by
  have h1L : o.index < (o.waveTable.length : ℝ) := by rw [hlen]; exact_mod_cast h1
  obtain ⟨a, b, ha, hb, hv⟩ :=
    WavetableOscillator.interpolateLinearly_of_inside o (by omega) h0 h1L
  have hfl0 : 0 ≤ ⌊o.index⌋ := Int.floor_nonneg.mpr h0
  have hflt : ⌊o.index⌋ < 64 := by rw [Int.floor_lt]; exact_mod_cast h1
  obtain ⟨i, hi⟩ : ∃ i : Nat, ⌊o.index⌋ = (i : Int) := ⟨⌊o.index⌋.toNat, by omega⟩
  have hi64 : i < 64 := by omega
  obtain ⟨w, hw⟩ : ∃ w : ℝ, w = o.index - ((⌊o.index⌋ : Int) : ℝ) := ⟨_, rfl⟩
  have hw0 : 0 ≤ w := by rw [hw]; linarith [Int.floor_le o.index]
  have hw1 : w < 1 := by rw [hw]; linarith [Int.lt_floor_add_one o.index]
  have hp : o.index = (i : ℝ) + w := by
    rw [hw, hi]
    push_cast
    ring
  rw [← hw] at hv
  rw [hi, Int.toNat_natCast, htab i hi64] at ha
  rw [hi, Int.toNat_natCast, hlen, htab _ (Nat.mod_lt _ (by norm_num))] at hb
  have ha1 : a = Real.sin (Real.pi * (i : ℝ) / 32) := (Option.some.inj ha).symm
  have hb1 : b = Real.sin (Real.pi * (((i + 1) % 64 : Nat) : ℝ) / 32) :=
    (Option.some.inj hb).symm
  refine ⟨_, hv, ?_⟩
  have hcases : i = 0 ∨ (1 ≤ i ∧ i ≤ 30) ∨ i = 31 ∨ i = 32 ∨ (33 ≤ i ∧ i ≤ 62) ∨ i = 63 := by
    omega
  rcases hcases with rfl | ⟨hl, hu⟩ | rfl | rfl | ⟨hl, hu⟩ | rfl
  · have hb0 : 0 < b := by rw [hb1]; exact sin_table_pos 1 (by norm_num) (by norm_num)
    have ha0 : a = 0 := by rw [ha1]; exact sin_table_zero_left
    rw [ha0, mul_zero, zero_add, hp]
    constructor
    · intro hx
      left
      rcases mul_eq_zero.mp hx with h | h
      · simp [h]
      · exact absurd h (ne_of_gt hb0)
    · rintro (h | h)
      · have : w = 0 := by simpa using h
        rw [this, zero_mul]
      · exfalso
        norm_num at h
        linarith
  · have ha0 : 0 < a := by rw [ha1]; exact sin_table_pos i (by omega) (by omega)
    have hmod : (i + 1) % 64 = i + 1 := Nat.mod_eq_of_lt (by omega)
    have hb0 : 0 < b := by
      rw [hb1, hmod]; exact sin_table_pos (i + 1) (by omega) (by omega)
    have hi1 : (1 : ℝ) ≤ (i : ℝ) := by exact_mod_cast hl
    have hi2 : (i : ℝ) ≤ 30 := by exact_mod_cast hu
    have hx : 0 < (1 - w) * a + w * b := by
      have := mul_pos (by linarith : (0 : ℝ) < 1 - w) ha0
      have := mul_nonneg hw0 hb0.le
      linarith
    constructor
    · intro h; exact absurd h (ne_of_gt hx)
    · rintro (h | h) <;> exfalso <;> rw [hp] at h <;> linarith
  · have ha0 : 0 < a := by rw [ha1]; exact sin_table_pos 31 (by norm_num) (by norm_num)
    have hb0 : b = 0 := by rw [hb1]; exact sin_table_zero_mid
    have hx : 0 < (1 - w) * a + w * b := by
      rw [hb0, mul_zero, add_zero]
      exact mul_pos (by linarith) ha0
    constructor
    · intro h; exact absurd h (ne_of_gt hx)
    · rintro (h | h) <;> exfalso <;> rw [hp] at h <;> norm_num at h <;> linarith
  · have hb0 : b < 0 := by rw [hb1]; exact sin_table_neg 33 (by norm_num) (by norm_num)
    have ha0 : a = 0 := by rw [ha1]; exact sin_table_zero_mid
    rw [ha0, mul_zero, zero_add, hp]
    constructor
    · intro hx
      right
      rcases mul_eq_zero.mp hx with h | h
      · rw [h]; norm_num
      · exact absurd h (ne_of_lt hb0)
    · rintro (h | h)
      · exfalso
        norm_num at h
        linarith
      · have : w = 0 := by
          norm_num at h
          linarith
        rw [this, zero_mul]
  · have ha0 : a < 0 := by rw [ha1]; exact sin_table_neg i (by omega) (by omega)
    have hmod : (i + 1) % 64 = i + 1 := Nat.mod_eq_of_lt (by omega)
    have hb0 : b < 0 := by
      rw [hb1, hmod]; exact sin_table_neg (i + 1) (by omega) (by omega)
    have hi1 : (33 : ℝ) ≤ (i : ℝ) := by exact_mod_cast hl
    have hx : (1 - w) * a + w * b < 0 := by
      have := mul_neg_of_pos_of_neg (by linarith : (0 : ℝ) < 1 - w) ha0
      have := mul_nonpos_of_nonneg_of_nonpos hw0 hb0.le
      linarith
    constructor
    · intro h; exact absurd h (ne_of_lt hx)
    · rintro (h | h) <;> exfalso <;> rw [hp] at h <;> linarith
  · have ha0 : a < 0 := by rw [ha1]; exact sin_table_neg 63 (by norm_num) (by norm_num)
    have hb0 : b = 0 := by
      rw [hb1]
      exact sin_table_zero_left
    have hx : (1 - w) * a + w * b < 0 := by
      rw [hb0, mul_zero, add_zero]
      exact mul_neg_of_pos_of_neg (by linarith) ha0
    constructor
    · intro h; exact absurd h (ne_of_lt hx)
    · rintro (h | h) <;> exfalso <;> rw [hp] at h <;> norm_num at h <;> linarith

/-- The position of the 440 Hz voice at 48000 Hz after `k < 480` samples is a zero of the
interpolated sine only for `k = 0`. -/
theorem note_position_zero_iff (k : Nat) (hk : k < 480) :
    (fmod ((k : ℝ) * 440 * 64 / 48000) 64 = 0 ∨ fmod ((k : ℝ) * 440 * 64 / 48000) 64 = 32)
      ↔ k = 0 := by
  have hx : (0 : ℝ) ≤ (k : ℝ) * 440 * 64 / 48000 := by positivity
  rw [fmod_eq_floor hx (by norm_num)]
  obtain ⟨z, hz⟩ : ∃ z : Int, ⌊(k : ℝ) * 440 * 64 / 48000 / 64⌋ = z := ⟨_, rfl⟩
  rw [hz]
  constructor
  · rintro (h | h)
    · have h2 : (11 : ℝ) * (k : ℝ) = 1200 * (z : ℝ) := by linarith
      have h3 : (11 : Int) * (k : Int) = 1200 * z := by exact_mod_cast h2
      omega
    · have h2 : (11 : ℝ) * (k : ℝ) = 1200 * (z : ℝ) + 600 := by linarith
      have h3 : (11 : Int) * (k : Int) = 1200 * z + 600 := by exact_mod_cast h2
      omega
  · intro h0
    subst h0
    left
    have hz0 : z = 0 := by
      rw [← hz]
      simp
    rw [hz0]
    simp

end SineInterpolation

section NoteOnBlock

theorem getD_replicate_zero (n k : Nat) : (List.replicate n (0 : ℝ)).getD k 0 = 0 := by
  rw [List.getD_eq_getElem?_getD, List.getElem?_replicate]
  split <;> rfl

/-- The oscillator `NoteOn(69)` starts in an engine prepared at 48000 Hz, when
`powf(2, 0)` is 1: increment `440 * 64 / 48000` over a table of 64 entries. -/
theorem started_voice_eq (m : CMath ℝ) (hpow : m.powf 2 0 = 1) (table : List ℝ)
    (hlen : table.length = 64) :
    (WavetableOscillator.new table 48000).setFrequency
        (WavetableSynth.midiNoteNumberToFrequency m ((69 : Nat) : Int))
      = ⟨table, 48000, 0, 440 * 64 / 48000⟩ := by
  have harg : ((((69 : Nat) : Int) : ℝ) - 69) / 12 = 0 := by norm_num
  simp only [WavetableOscillator.setFrequency, WavetableOscillator.new,
    WavetableSynth.midiNoteNumberToFrequency, harg, hpow, hlen]
  norm_num

/-- The block of the end-to-end scenario, sample by sample: after `prepareToPlay(48000)`
one `processBlock` on 480 zero samples with `NoteOn(69)` at time stamp 0 leaves at
index `k` of channel 0 the interpolated sine at position `(k * 440 * 64 / 48000) mod 64`,
which is 0 for `k = 0` only. -/
theorem note_on_block_samples (m : CMath ℝ) (hsin : ∀ x, m.sinf x = Real.sin x)
    (hatan : m.atanf 1 * 4 = Real.pi) (hpow : m.powf 2 0 = 1) (s0 : WavetableSynth ℝ)
    (v channels : Nat) :
    ∃ s1 b1,
      WavetableSynth.processBlock m (WavetableSynth.prepareToPlay m s0 48000)
          ⟨480, List.replicate (channels + 1) (List.replicate 480 0)⟩
          [⟨0, MidiKind.noteOn 69 v⟩] = some (s1, b1) ∧
      ∀ k : Nat, k < 480 →
        ∃ x : ℝ, b1.sample? 0 k = some x ∧
          WavetableOscillator.interpolateLinearly
            ⟨WavetableSynth.generateSineWaveTable m s0, 48000,
              fmod ((k : ℝ) * 440 * 64 / 48000) 64, 440 * 64 / 48000⟩ = some x ∧
          (x = 0 ↔ k = 0) := by
  have hlen := WavetableSynth.generateSineWaveTable_length m s0
  have htab := sine_table_getElem? m hsin hatan s0
  have hP := WavetableSynth.prepareToPlay_oscillators m s0 48000
  obtain ⟨table, htable⟩ : ∃ table, table = WavetableSynth.generateSineWaveTable m s0 :=
    ⟨_, rfl⟩
  rw [← htable] at hlen htab hP ⊢
  have hlen64 : table.length = 64 := hlen
  have hvoice := started_voice_eq m hpow table hlen64
  have h0 : (WavetableOscillator.new table (48000 : ℝ)).isPlaying = false := by
    simp [WavetableOscillator.isPlaying, WavetableOscillator.new_indexIncrement]
  have hplay : (⟨table, 48000, 0, 440 * 64 / 48000⟩ : WavetableOscillator ℝ).isPlaying
      = true := by
    simp [WavetableOscillator.isPlaying]
  have hin : (⟨table, 48000, 0, 440 * 64 / 48000⟩ : WavetableOscillator ℝ).InRange := by
    refine ⟨by rw [hlen64]; norm_num, le_refl _, ?_, by norm_num⟩
    show (0 : ℝ) < (table.length : ℝ)
    rw [hlen64]
    norm_num
  have hwf : (⟨480, List.replicate (channels + 1) (List.replicate 480 0)⟩ :
      AudioBuffer ℝ).WellFormed := by
    intro ch hm
    rw [List.eq_of_mem_replicate hm, List.length_replicate]
  obtain ⟨s1, b1, hpb, hsample⟩ :=
    WavetableSynth.processBlock_single_noteOn m (WavetableSynth.prepareToPlay m s0 48000)
      (WavetableOscillator.new table 48000) 69 v
      ⟨480, List.replicate (channels + 1) (List.replicate 480 0)⟩
      (List.replicate 480 0) (List.replicate channels (List.replicate 480 0))
      hP h0 (by norm_num) hwf (List.replicate_succ _ _)
      (by rw [hvoice]; exact hplay) (by rw [hvoice]; exact hin)
  rw [hvoice] at hsample
  obtain ⟨xs, hxs, hxlen, hxpos⟩ := WavetableOscillator.getSamples_positions 480 _ hin
  dsimp only at hxs hxpos
  have hsolo : (⟨table, 48000, 0, 440 * 64 / 48000⟩ : WavetableOscillator ℝ).soloSamples 480
      = xs := by
    simp only [WavetableOscillator.soloSamples, hxs]
  refine ⟨s1, b1, hpb, ?_⟩
  intro k hk
  have hphase : fmod ((0 : ℝ) + (k : ℝ) * (440 * 64 / 48000)) ((table.length : Nat) : ℝ)
      = fmod ((k : ℝ) * 440 * 64 / 48000) 64 := by
    have e1 : (0 : ℝ) + (k : ℝ) * (440 * 64 / 48000) = (k : ℝ) * 440 * 64 / 48000 := by ring
    have e2 : ((64 : Nat) : ℝ) = 64 := by norm_num
    rw [hlen64, e1, e2]
  have hp0 : 0 ≤ fmod ((k : ℝ) * 440 * 64 / 48000) 64 :=
    fmod_nonneg (by positivity) (by norm_num)
  have hp1 : fmod ((k : ℝ) * 440 * 64 / 48000) 64 < 64 :=
    fmod_lt (by positivity) (by norm_num)
  obtain ⟨x, hx, hzero⟩ := sine_interpolation_eq_zero_iff
    (⟨table, 48000, fmod ((k : ℝ) * 440 * 64 / 48000) 64, 440 * 64 / 48000⟩ :
      WavetableOscillator ℝ) hlen64 htab hp0 hp1
  have hxk : xs[k]? = some x := by
    rw [hxpos k hk, hphase]
    exact hx
  refine ⟨x, ?_, hx, ?_⟩
  · have h := hsample k hk
    rw [h, hsolo]
    have hz : (List.replicate 480 (0 : ℝ)).getD k 0 = 0 := getD_replicate_zero 480 k
    have hg : xs.getD k 0 = x := by
      simp [List.getD_eq_getElem?_getD, hxk]
    rw [hz, hg, zero_add]
  · rw [hzero]
    exact note_position_zero_iff k hk

end NoteOnBlock

/-! ## Rounding -/

section Rounding

theorem roundHalfEven_intCast (n : Int) : roundHalfEven (n : ℚ) = n := by
  simp [roundHalfEven]

theorem floor_le_roundHalfEven (x : ℚ) : ⌊x⌋ ≤ roundHalfEven x := by
  unfold roundHalfEven
  split_ifs <;> omega

theorem roundHalfEven_le_floor_add_one (x : ℚ) : roundHalfEven x ≤ ⌊x⌋ + 1 := by
  unfold roundHalfEven
  split_ifs <;> omega

theorem roundHalfEven_mono {x y : ℚ} (h : x ≤ y) : roundHalfEven x ≤ roundHalfEven y := by
  rcases lt_or_eq_of_le (Int.floor_mono h) with hlt | heq
  · calc roundHalfEven x ≤ ⌊x⌋ + 1 := roundHalfEven_le_floor_add_one x
      _ ≤ ⌊y⌋ := hlt
      _ ≤ roundHalfEven y := floor_le_roundHalfEven y
  · have hxy : x - (⌊x⌋ : ℚ) ≤ y - (⌊y⌋ : ℚ) := by rw [heq]; linarith
    unfold roundHalfEven
    rw [heq]
    rw [heq] at hxy
    split_ifs <;> first | omega | (exfalso; linarith)

theorem roundHalfEven_nonneg {x : ℚ} (h : 0 ≤ x) : 0 ≤ roundHalfEven x := by
  have := roundHalfEven_mono h
  rwa [show ((0 : ℚ) = ((0 : Int) : ℚ)) by simp, roundHalfEven_intCast] at this

theorem roundHalfEven_le_of_le {x : ℚ} {n : Int} (h : x ≤ (n : ℚ)) : roundHalfEven x ≤ n := by
  have := roundHalfEven_mono h
  rwa [roundHalfEven_intCast] at this

theorem le_roundHalfEven_of_le {x : ℚ} {n : Int} (h : (n : ℚ) ≤ x) : n ≤ roundHalfEven x := by
  have := roundHalfEven_mono h
  rwa [roundHalfEven_intCast] at this

/-- Below the half-way point above `n` the rounding does not pass `n`. -/
theorem roundHalfEven_le_of_lt_add_half {x : ℚ} {n : Int} (h : x < (n : ℚ) + 1 / 2) :
    roundHalfEven x ≤ n := by
  by_cases hx : x ≤ (n : ℚ)
  · exact roundHalfEven_le_of_le hx
  · have hx1 : (n : ℚ) < x := lt_of_not_le hx
    have hfl : ⌊x⌋ = n := by
      rw [Int.floor_eq_iff]
      constructor
      · exact le_of_lt hx1
      · linarith
    unfold roundHalfEven
    rw [hfl, if_pos (by linarith)]

/-- A number within less than a half of the integer `n` rounds to `n`. -/
theorem roundHalfEven_eq_of_near {x : ℚ} {n : Int} (h1 : (n : ℚ) - 1 / 2 < x)
    (h2 : x < (n : ℚ) + 1 / 2) : roundHalfEven x = n := by
  apply le_antisymm (roundHalfEven_le_of_lt_add_half h2)
  by_cases hx : (n : ℚ) ≤ x
  · exact le_roundHalfEven_of_le hx
  · have hx1 : x < (n : ℚ) := lt_of_not_le hx
    have hfl : ⌊x⌋ = n - 1 := by
      rw [Int.floor_eq_iff]
      push_cast
      constructor <;> linarith
    unfold roundHalfEven
    rw [hfl]
    push_cast
    rw [if_neg (by linarith), if_pos (by linarith)]
    omega

/-- Half way above an even integer the rounding goes down to it. -/
theorem roundHalfEven_tie_even {x : ℚ} {n : Int} (h : x = (n : ℚ) + 1 / 2) (hn : n % 2 = 0) :
    roundHalfEven x = n := by
  have hfl : ⌊x⌋ = n := by
    rw [Int.floor_eq_iff]
    constructor <;> linarith
  unfold roundHalfEven
  rw [hfl, if_neg (by linarith), if_neg (by linarith), if_pos hn]

/-- Half way above an odd integer the rounding goes up to the next one. -/
theorem roundHalfEven_tie_odd {x : ℚ} {n : Int} (h : x = (n : ℚ) + 1 / 2) (hn : n % 2 = 1) :
    roundHalfEven x = n + 1 := by
  have hfl : ⌊x⌋ = n := by
    rw [Int.floor_eq_iff]
    constructor <;> linarith
  unfold roundHalfEven
  rw [hfl, if_neg (by linarith), if_neg (by linarith), if_neg (by omega)]

end Rounding

namespace FloatFormat

theorem two_zpow_pos (k : Int) : (0 : ℚ) < 2 ^ k := zpow_pos (by norm_num) k

theorem two_zpow_le {j k : Int} (h : j ≤ k) : (2 : ℚ) ^ j ≤ 2 ^ k :=
  zpow_le_zpow_right₀ (by norm_num) h

theorem two_zpow_lt {j k : Int} (h : j < k) : (2 : ℚ) ^ j < 2 ^ k :=
  zpow_lt_zpow_right₀ (by norm_num) h

/-- A power of two with a non-negative exponent is an integer. -/
theorem two_zpow_eq_intCast {k : Int} (h : 0 ≤ k) :
    (2 : ℚ) ^ k = (((2 : Int) ^ k.toNat : Int) : ℚ) := by
  obtain ⟨n, rfl⟩ := Int.eq_ofNat_of_zero_le h
  simp

theorem log_eq_of_bounds {x : ℚ} {k : Int} (h1 : (2 : ℚ) ^ k ≤ |x|)
    (h2 : |x| < (2 : ℚ) ^ (k + 1)) : Int.log 2 |x| = k := by
  have hpos : 0 < |x| := lt_of_lt_of_le (two_zpow_pos k) h1
  apply le_antisymm
  · have := (Int.lt_zpow_iff_log_lt (b := 2) (by norm_num) hpos).mp
      (by simpa using h2)
    omega
  · exact (Int.zpow_le_iff_le_log (b := 2) (by norm_num) hpos).mp (by simpa using h1)

theorem log_le_of_le {x : ℚ} {k : Int} (hpos : 0 < |x|) (h : |x| ≤ (2 : ℚ) ^ k) :
    Int.log 2 |x| ≤ k := by
  have := Int.log_mono_right (b := 2) hpos h
  rwa [show ((2 : ℚ) ^ k = ((2 : ℕ) : ℚ) ^ k) by simp, Int.log_zpow (by norm_num)] at this

theorem log_lt_of_lt {x : ℚ} {k : Int} (hpos : 0 < |x|) (h : |x| < (2 : ℚ) ^ k) :
    Int.log 2 |x| < k :=
  (Int.lt_zpow_iff_log_lt (b := 2) (by norm_num) hpos).mp (by simpa using h)

theorem le_log_of_le {x : ℚ} {k : Int} (h : (2 : ℚ) ^ k ≤ |x|) : k ≤ Int.log 2 |x| :=
  (Int.zpow_le_iff_le_log (b := 2) (by norm_num) (lt_of_lt_of_le (two_zpow_pos k) h)).mp
    (by simpa using h)

theorem round_zero (fmt : FloatFormat) : fmt.round 0 = Ieee.finite 0 := by
  have h : ¬ ((2 : ℚ) ^ (fmt.emax + 1) ≤ 0) := not_le.mpr (two_zpow_pos _)
  simp [round, roundHalfEven, h]

/-- The rounding of a number that is not negative is not negative and is no NaN. -/
theorem round_nonneg (fmt : FloatFormat) {x : ℚ} (hx : 0 ≤ x) :
    fmt.round x = Ieee.inf false ∨ ∃ y, fmt.round x = Ieee.finite y ∧ 0 ≤ y := by
  unfold round
  dsimp only
  split_ifs with h
  · left
    simp [not_lt.mpr hx]
  · right
    refine ⟨_, rfl, ?_⟩
    apply mul_nonneg
    · exact_mod_cast roundHalfEven_nonneg (div_nonneg hx (le_of_lt (two_zpow_pos _)))
    · exact le_of_lt (two_zpow_pos _)

/-- A number from 0 to a power of two inside the range of the format rounds to a
finite number from 0 to that power. -/
theorem round_le_two_zpow (fmt : FloatFormat) {x : ℚ} {k : Int} (hp : 1 ≤ fmt.precision)
    (hx : 0 ≤ x) (hxk : x ≤ (2 : ℚ) ^ k) (hk1 : fmt.emin - ((fmt.precision : Int) - 1) ≤ k)
    (hk2 : k ≤ fmt.emax) :
    ∃ y, fmt.round x = Ieee.finite y ∧ 0 ≤ y ∧ y ≤ (2 : ℚ) ^ k := by
  rcases eq_or_lt_of_le hx with h0 | hpos
  · subst h0
    exact ⟨0, round_zero fmt, le_refl _, le_of_lt (two_zpow_pos k)⟩
  · have habs : |x| = x := abs_of_pos hpos
    have hlog : Int.log 2 |x| ≤ k := log_le_of_le (by rw [habs]; exact hpos) (by rw [habs]; exact hxk)
    have hpI : (1 : Int) ≤ (fmt.precision : Int) := by exact_mod_cast hp
    have he : fmt.ulpExponent x ≤ k := by
      unfold ulpExponent
      rcases max_cases (Int.log 2 |x|) fmt.emin with ⟨h, -⟩ | ⟨h, -⟩ <;> rw [h] <;> omega
    have hy0 : 0 ≤ (roundHalfEven (x / 2 ^ fmt.ulpExponent x) : ℚ) * 2 ^ fmt.ulpExponent x := by
      apply mul_nonneg
      · exact_mod_cast roundHalfEven_nonneg (div_nonneg hx (le_of_lt (two_zpow_pos _)))
      · exact le_of_lt (two_zpow_pos _)
    have hyk : (roundHalfEven (x / 2 ^ fmt.ulpExponent x) : ℚ) * 2 ^ fmt.ulpExponent x
        ≤ (2 : ℚ) ^ k := by
      have hq : x / 2 ^ fmt.ulpExponent x ≤ (((2 : Int) ^ (k - fmt.ulpExponent x).toNat : Int) : ℚ) := by
        rw [← two_zpow_eq_intCast (k := k - fmt.ulpExponent x) (by omega),
          zpow_sub₀ (by norm_num)]
        exact div_le_div_of_nonneg_right hxk (le_of_lt (two_zpow_pos _))
      have hr := roundHalfEven_le_of_le hq
      have hr2 : (roundHalfEven (x / 2 ^ fmt.ulpExponent x) : ℚ)
          ≤ (2 : ℚ) ^ (k - fmt.ulpExponent x) := by
        rw [two_zpow_eq_intCast (k := k - fmt.ulpExponent x) (by omega)]
        exact_mod_cast hr
      calc (roundHalfEven (x / 2 ^ fmt.ulpExponent x) : ℚ) * 2 ^ fmt.ulpExponent x
          ≤ (2 : ℚ) ^ (k - fmt.ulpExponent x) * 2 ^ fmt.ulpExponent x :=
            mul_le_mul_of_nonneg_right hr2 (le_of_lt (two_zpow_pos _))
        _ = (2 : ℚ) ^ k := by rw [← zpow_add₀ (by norm_num)]; congr 1; omega
    refine ⟨_, ?_, hy0, hyk⟩
    unfold round
    dsimp only
    rw [if_neg]
    rw [abs_of_nonneg hy0, not_le]
    exact lt_of_le_of_lt hyk (two_zpow_lt (by omega))

end FloatFormat

namespace FloatFormat

theorem zpow_log_le {x : ℚ} (h : 0 < |x|) : (2 : ℚ) ^ Int.log 2 |x| ≤ |x| := by
  have := Int.zpow_log_le_self (b := 2) (r := |x|) (by norm_num) h
  simpa only [Nat.cast_ofNat] using this

theorem maxFinite_eq (fmt : FloatFormat) :
    fmt.maxFinite = (2 : ℚ) ^ (fmt.emax + 1) - 2 ^ (fmt.emax - ((fmt.precision : Int) - 1)) := by
  unfold maxFinite
  have h : (2 : ℚ) ^ (fmt.emax + 1)
      = 2 ^ fmt.precision * 2 ^ (fmt.emax - ((fmt.precision : Int) - 1)) := by
    rw [← zpow_natCast, ← zpow_add₀ (by norm_num)]
    congr 1
    omega
  rw [h]
  ring

theorem two_zpow_emax_le_maxFinite (fmt : FloatFormat) (hp : 1 ≤ fmt.precision) :
    (2 : ℚ) ^ fmt.emax ≤ fmt.maxFinite := by
  rw [maxFinite_eq]
  have hpI : (1 : Int) ≤ (fmt.precision : Int) := by exact_mod_cast hp
  have h1 : (2 : ℚ) ^ (fmt.emax + 1) = 2 * 2 ^ fmt.emax := by
    rw [zpow_add₀ (by norm_num)]
    ring
  have h2 : (2 : ℚ) ^ (fmt.emax - ((fmt.precision : Int) - 1)) ≤ 2 ^ fmt.emax :=
    two_zpow_le (by omega)
  rw [h1]
  linarith

theorem maxFinite_lt (fmt : FloatFormat) : fmt.maxFinite < (2 : ℚ) ^ (fmt.emax + 1) := by
  rw [maxFinite_eq]
  linarith [two_zpow_pos (fmt.emax - ((fmt.precision : Int) - 1))]

/-- A number from 0 to less than half a unit in the last place above the largest finite
number rounds to a finite number: there is no overflow. -/
theorem round_below_overflow (fmt : FloatFormat) {x : ℚ} (hp : 1 ≤ fmt.precision)
    (hm : fmt.emin ≤ fmt.emax) (hx : 0 ≤ x)
    (hxk : x < (2 : ℚ) ^ (fmt.emax + 1) - 2 ^ (fmt.emax - (fmt.precision : Int))) :
    ∃ y, fmt.round x = Ieee.finite y ∧ 0 ≤ y ∧ y ≤ fmt.maxFinite := by
  have hpI : (1 : Int) ≤ (fmt.precision : Int) := by exact_mod_cast hp
  by_cases hle : x ≤ (2 : ℚ) ^ fmt.emax
  · obtain ⟨y, h1, h2, h3⟩ := round_le_two_zpow fmt hp hx hle (by omega) (le_refl _)
    exact ⟨y, h1, h2, h3.trans (two_zpow_emax_le_maxFinite fmt hp)⟩
  · have hgt : (2 : ℚ) ^ fmt.emax < x := lt_of_not_le hle
    have habs : |x| = x := abs_of_nonneg hx
    have hlog : Int.log 2 |x| = fmt.emax := by
      apply log_eq_of_bounds
      · rw [habs]; exact le_of_lt hgt
      · rw [habs]
        linarith [two_zpow_pos (fmt.emax - (fmt.precision : Int))]
    have hu : fmt.ulpExponent x = fmt.emax - ((fmt.precision : Int) - 1) := by
      unfold ulpExponent
      rw [hlog, max_eq_left hm]
    have hupos := two_zpow_pos (fmt.emax - ((fmt.precision : Int) - 1))
    have hq : x / 2 ^ (fmt.emax - ((fmt.precision : Int) - 1))
        < ((((2 : Int) ^ fmt.precision - 1 : Int)) : ℚ) + 1 / 2 := by
      rw [div_lt_iff₀ hupos]
      push_cast
      have e1 : (2 : ℚ) ^ fmt.precision * 2 ^ (fmt.emax - ((fmt.precision : Int) - 1))
          = 2 ^ (fmt.emax + 1) := by
        rw [← zpow_natCast, ← zpow_add₀ (by norm_num)]
        congr 1
        omega
      have e2 : (1 / 2 : ℚ) * 2 ^ (fmt.emax - ((fmt.precision : Int) - 1))
          = 2 ^ (fmt.emax - (fmt.precision : Int)) := by
        have : fmt.emax - ((fmt.precision : Int) - 1) = (fmt.emax - (fmt.precision : Int)) + 1 := by
          omega
        rw [this, zpow_add₀ (by norm_num)]
        ring
      nlinarith [e1, e2]
    have hr := roundHalfEven_le_of_lt_add_half hq
    have hr0 : 0 ≤ roundHalfEven (x / 2 ^ (fmt.emax - ((fmt.precision : Int) - 1))) :=
      roundHalfEven_nonneg (div_nonneg hx (le_of_lt hupos))
    have hy0 : 0 ≤ (roundHalfEven (x / 2 ^ (fmt.emax - ((fmt.precision : Int) - 1))) : ℚ)
        * 2 ^ (fmt.emax - ((fmt.precision : Int) - 1)) :=
      mul_nonneg (by exact_mod_cast hr0) (le_of_lt hupos)
    have hym : (roundHalfEven (x / 2 ^ (fmt.emax - ((fmt.precision : Int) - 1))) : ℚ)
        * 2 ^ (fmt.emax - ((fmt.precision : Int) - 1)) ≤ fmt.maxFinite := by
      unfold maxFinite
      apply mul_le_mul_of_nonneg_right _ (le_of_lt hupos)
      have : ((roundHalfEven (x / 2 ^ (fmt.emax - ((fmt.precision : Int) - 1))) : Int) : ℚ)
          ≤ ((((2 : Int) ^ fmt.precision - 1 : Int)) : ℚ) := by exact_mod_cast hr
      simpa using this
    refine ⟨_, ?_, hy0, hym⟩
    unfold round
    dsimp only
    rw [hu, if_neg]
    rw [abs_of_nonneg hy0, not_le]
    exact lt_of_le_of_lt hym (maxFinite_lt fmt)

/-- A finite result of rounding a number that is not negative lies between 0 and the
largest finite number. -/
theorem round_finite_le_maxFinite (fmt : FloatFormat) {x y : ℚ} (hp : 1 ≤ fmt.precision)
    (hm : fmt.emin ≤ fmt.emax) (hx : 0 ≤ x) (h : fmt.round x = Ieee.finite y) :
    0 ≤ y ∧ y ≤ fmt.maxFinite := by
  have hpI : (1 : Int) ≤ (fmt.precision : Int) := by exact_mod_cast hp
  by_cases hle : x ≤ (2 : ℚ) ^ fmt.emax
  · obtain ⟨y1, h1, h2, h3⟩ := round_le_two_zpow fmt hp hx hle (by omega) (le_refl _)
    rw [h1] at h
    cases h
    exact ⟨h2, h3.trans (two_zpow_emax_le_maxFinite fmt hp)⟩
  · have hgt : (2 : ℚ) ^ fmt.emax < x := lt_of_not_le hle
    have habs : |x| = x := abs_of_nonneg hx
    have hlog : fmt.emax ≤ Int.log 2 |x| := le_log_of_le (by rw [habs]; exact le_of_lt hgt)
    have hu : fmt.emax - ((fmt.precision : Int) - 1) ≤ fmt.ulpExponent x := by
      unfold ulpExponent
      have := le_max_left (Int.log 2 |x|) fmt.emin
      omega
    have hupos := two_zpow_pos (fmt.ulpExponent x)
    have hr0 : 0 ≤ roundHalfEven (x / 2 ^ fmt.ulpExponent x) :=
      roundHalfEven_nonneg (div_nonneg hx (le_of_lt hupos))
    have hy0 : 0 ≤ (roundHalfEven (x / 2 ^ fmt.ulpExponent x) : ℚ) * 2 ^ fmt.ulpExponent x :=
      mul_nonneg (by exact_mod_cast hr0) (le_of_lt hupos)
    unfold round at h
    dsimp only at h
    split_ifs at h with hov
    cases h
    refine ⟨hy0, ?_⟩
    rw [abs_of_nonneg hy0, not_le] at hov
    rw [maxFinite_eq]
    by_cases hd : fmt.ulpExponent x ≤ fmt.emax + 1
    · have hlt : ((roundHalfEven (x / 2 ^ fmt.ulpExponent x) : Int) : ℚ)
          < ((((2 : Int) ^ (fmt.emax + 1 - fmt.ulpExponent x).toNat : Int)) : ℚ) := by
        rw [← two_zpow_eq_intCast (k := fmt.emax + 1 - fmt.ulpExponent x) (by omega),
          zpow_sub₀ (by norm_num), lt_div_iff₀ hupos]
        exact hov
      have hlt2 : roundHalfEven (x / 2 ^ fmt.ulpExponent x)
          < (2 : Int) ^ (fmt.emax + 1 - fmt.ulpExponent x).toNat := by exact_mod_cast hlt
      have hle2 : ((roundHalfEven (x / 2 ^ fmt.ulpExponent x) : Int) : ℚ)
          ≤ (2 : ℚ) ^ (fmt.emax + 1 - fmt.ulpExponent x) - 1 := by
        rw [two_zpow_eq_intCast (k := fmt.emax + 1 - fmt.ulpExponent x) (by omega)]
        have : roundHalfEven (x / 2 ^ fmt.ulpExponent x)
            ≤ (2 : Int) ^ (fmt.emax + 1 - fmt.ulpExponent x).toNat - 1 := by omega
        exact_mod_cast this
      have e1 : ((2 : ℚ) ^ (fmt.emax + 1 - fmt.ulpExponent x) - 1) * 2 ^ fmt.ulpExponent x
          = 2 ^ (fmt.emax + 1) - 2 ^ fmt.ulpExponent x := by
        rw [sub_mul, ← zpow_add₀ (by norm_num), one_mul]
        congr 2
        omega
      have h3 := mul_le_mul_of_nonneg_right hle2 (le_of_lt hupos)
      rw [e1] at h3
      have h4 : (2 : ℚ) ^ (fmt.emax - ((fmt.precision : Int) - 1)) ≤ 2 ^ fmt.ulpExponent x :=
        two_zpow_le hu
      linarith
    · exfalso
      have hd1 : fmt.emax + 1 < fmt.ulpExponent x := by omega
      have h5 : (2 : ℚ) ^ (fmt.emax + 1) < 2 ^ fmt.ulpExponent x := two_zpow_lt hd1
      have h6 : (2 : ℚ) ^ fmt.emax < 2 ^ (fmt.emax + 1) := two_zpow_lt (by omega)
      have hpos : 0 < x / 2 ^ fmt.ulpExponent x := div_pos (by linarith [two_zpow_pos fmt.emax]) hupos
      -- the quotient x / ulp is at least 2 ^ (precision - 1), so its rounding is at least 1
      have hlogle : (2 : ℚ) ^ Int.log 2 |x| ≤ |x| :=
        zpow_log_le (by rw [habs]; linarith [two_zpow_pos fmt.emax])
      have hmax : max (Int.log 2 |x|) fmt.emin = Int.log 2 |x| := max_eq_left (by omega)
      have hq : ((1 : Int) : ℚ) ≤ x / 2 ^ fmt.ulpExponent x := by
        rw [le_div_iff₀ hupos]
        have : (2 : ℚ) ^ fmt.ulpExponent x ≤ 2 ^ Int.log 2 |x| := by
          apply two_zpow_le
          unfold ulpExponent
          rw [hmax]
          omega
        have hlogle2 : (2 : ℚ) ^ Int.log 2 |x| ≤ x := le_trans hlogle (le_of_eq habs)
        simp only [Int.cast_one, one_mul]
        linarith
      have h1 := le_roundHalfEven_of_le hq
      have h7 : (1 : ℚ) ≤ (roundHalfEven (x / 2 ^ fmt.ulpExponent x) : ℚ) := by exact_mod_cast h1
      have h8 := mul_le_mul_of_nonneg_right h7 (le_of_lt hupos)
      linarith

/-- A number at or beyond twice the largest power of two of the format overflows. -/
theorem round_overflow (fmt : FloatFormat) {x : ℚ} (hp : 1 ≤ fmt.precision)
    (hm : fmt.emin ≤ fmt.emax) (hx : (2 : ℚ) ^ (fmt.emax + 1) ≤ x) :
    fmt.round x = Ieee.inf false := by
  have hpI : (1 : Int) ≤ (fmt.precision : Int) := by exact_mod_cast hp
  have hx0 : 0 < x := lt_of_lt_of_le (two_zpow_pos _) hx
  have habs : |x| = x := abs_of_pos hx0
  have hlog : fmt.emax + 1 ≤ Int.log 2 |x| := le_log_of_le (by rw [habs]; exact hx)
  have hmax : max (Int.log 2 |x|) fmt.emin = Int.log 2 |x| := max_eq_left (by omega)
  have hlogle : (2 : ℚ) ^ Int.log 2 |x| ≤ x :=
    le_trans (zpow_log_le (by rw [habs]; exact hx0)) (le_of_eq habs)
  have hu : fmt.ulpExponent x = Int.log 2 |x| - ((fmt.precision : Int) - 1) := by
    unfold ulpExponent
    rw [hmax]
  have hupos := two_zpow_pos (fmt.ulpExponent x)
  have hq : ((((2 : Int) ^ (fmt.precision - 1) : Int)) : ℚ) ≤ x / 2 ^ fmt.ulpExponent x := by
    rw [le_div_iff₀ hupos]
    have : ((((2 : Int) ^ (fmt.precision - 1) : Int)) : ℚ) * 2 ^ fmt.ulpExponent x
        = 2 ^ Int.log 2 |x| := by
      push_cast
      rw [← zpow_natCast, ← zpow_add₀ (by norm_num), hu]
      congr 1
      have : ((fmt.precision - 1 : Nat) : Int) = (fmt.precision : Int) - 1 := by omega
      omega
    rw [this]
    exact hlogle
  have h1 := le_roundHalfEven_of_le hq
  have h2 : (2 : ℚ) ^ Int.log 2 |x|
      ≤ (roundHalfEven (x / 2 ^ fmt.ulpExponent x) : ℚ) * 2 ^ fmt.ulpExponent x := by
    have h3 : ((((2 : Int) ^ (fmt.precision - 1) : Int)) : ℚ)
        ≤ (roundHalfEven (x / 2 ^ fmt.ulpExponent x) : ℚ) := by exact_mod_cast h1
    have h4 := mul_le_mul_of_nonneg_right h3 (le_of_lt hupos)
    have : ((((2 : Int) ^ (fmt.precision - 1) : Int)) : ℚ) * 2 ^ fmt.ulpExponent x
        = 2 ^ Int.log 2 |x| := by
      push_cast
      rw [← zpow_natCast, ← zpow_add₀ (by norm_num), hu]
      congr 1
      have : ((fmt.precision - 1 : Nat) : Int) = (fmt.precision : Int) - 1 := by omega
      omega
    rw [this] at h4
    exact h4
  have h5 : (2 : ℚ) ^ (fmt.emax + 1) ≤ 2 ^ Int.log 2 |x| := two_zpow_le hlog
  unfold round
  dsimp only
  rw [if_pos]
  · simp [not_lt.mpr (le_of_lt hx0)]
  · rw [abs_of_nonneg (le_trans (le_of_lt (two_zpow_pos _)) h2)]
    linarith

/-- A number `n * 2 ^ e` with a significand `n` of at most `precision` bits, an exponent
not below the one of the subnormal numbers and a size below the overflow threshold is a
value of the format: rounding leaves it as it is. -/
theorem round_of_representable (fmt : FloatFormat) (n e : Int)
    (hn : |n| < (2 : Int) ^ fmt.precision)
    (he : fmt.emin - ((fmt.precision : Int) - 1) ≤ e)
    (hov : |(n : ℚ) * 2 ^ e| < (2 : ℚ) ^ (fmt.emax + 1)) :
    fmt.round ((n : ℚ) * 2 ^ e) = Ieee.finite ((n : ℚ) * 2 ^ e) := by
  by_cases hn0 : n = 0
  · subst hn0
    simp [round_zero]
  · have hepos := two_zpow_pos e
    have hnpos : (0 : ℚ) < |(n : ℚ)| := abs_pos.mpr (by exact_mod_cast hn0)
    have habs : |(n : ℚ) * 2 ^ e| = |(n : ℚ)| * 2 ^ e := by
      rw [abs_mul, abs_of_pos hepos]
    have hxpos : 0 < |(n : ℚ) * 2 ^ e| := by
      rw [habs]
      exact mul_pos hnpos hepos
    have hnq : |(n : ℚ)| < (2 : ℚ) ^ (fmt.precision : Int) := by
      have : ((|n| : Int) : ℚ) < (((2 : Int) ^ fmt.precision : Int) : ℚ) := by exact_mod_cast hn
      rw [zpow_natCast]
      simpa using this
    have hlt : |(n : ℚ) * 2 ^ e| < (2 : ℚ) ^ ((fmt.precision : Int) + e) := by
      rw [habs, zpow_add₀ (by norm_num)]
      exact mul_lt_mul_of_pos_right hnq hepos
    have hlog := log_lt_of_lt hxpos hlt
    have hu : fmt.ulpExponent ((n : ℚ) * 2 ^ e) ≤ e := by
      unfold ulpExponent
      rcases max_cases (Int.log 2 |(n : ℚ) * 2 ^ e|) fmt.emin with ⟨h, -⟩ | ⟨h, -⟩ <;>
        rw [h] <;> omega
    have hupos := two_zpow_pos (fmt.ulpExponent ((n : ℚ) * 2 ^ e))
    have hq : (n : ℚ) * 2 ^ e / 2 ^ fmt.ulpExponent ((n : ℚ) * 2 ^ e)
        = ((n * (2 : Int) ^ (e - fmt.ulpExponent ((n : ℚ) * 2 ^ e)).toNat : Int) : ℚ) := by
      rw [Int.cast_mul, ← two_zpow_eq_intCast (k := e - fmt.ulpExponent ((n : ℚ) * 2 ^ e))
        (by omega), zpow_sub₀ (by norm_num)]
      ring
    have hy : (roundHalfEven ((n : ℚ) * 2 ^ e / 2 ^ fmt.ulpExponent ((n : ℚ) * 2 ^ e)) : ℚ)
        * 2 ^ fmt.ulpExponent ((n : ℚ) * 2 ^ e) = (n : ℚ) * 2 ^ e := by
      rw [hq, roundHalfEven_intCast, ← hq]
      field_simp
    unfold round
    dsimp only
    rw [hy, if_neg (not_le.mpr hov)]

/-- The evaluation of a rounding in the normal range: for `x` of a size in
`[2 ^ k, 2 ^ (k + 1))` the result is the nearest multiple `n` of
`2 ^ (k - (precision - 1))`. -/
theorem round_eq_of_normal (fmt : FloatFormat) {x : ℚ} (k n : Int)
    (h1 : (2 : ℚ) ^ k ≤ |x|) (h2 : |x| < (2 : ℚ) ^ (k + 1)) (hk : fmt.emin ≤ k)
    (hr : roundHalfEven (x / 2 ^ (k - ((fmt.precision : Int) - 1))) = n)
    (hov : |(n : ℚ) * 2 ^ (k - ((fmt.precision : Int) - 1))| < (2 : ℚ) ^ (fmt.emax + 1)) :
    fmt.round x = Ieee.finite ((n : ℚ) * 2 ^ (k - ((fmt.precision : Int) - 1))) := by
  have hu : fmt.ulpExponent x = k - ((fmt.precision : Int) - 1) := by
    unfold ulpExponent
    rw [log_eq_of_bounds h1 h2, max_eq_left hk]
  unfold round
  dsimp only
  rw [hu, hr, if_neg (not_le.mpr hov)]

end FloatFormat

/-! ## Facts about the IEEE 754 operations -/

namespace Ieee

/-- An integer of at most 24 bits is a `float`. -/
theorem ofInt_binary32_of_abs_le (t : Int) (h : |t| ≤ 2 ^ 24) :
    Ieee.ofInt binary32 t = Ieee.finite (t : ℚ) := by
  unfold Ieee.ofInt
  rcases lt_or_eq_of_le h with hlt | heq
  · have := FloatFormat.round_of_representable binary32 t 0 (by simpa [binary32] using hlt)
      (by simp [binary32])
      (by
        have h1 : |(t : ℚ)| < 2 ^ 24 := by
          have : ((|t| : Int) : ℚ) < ((2 ^ 24 : Int) : ℚ) := by exact_mod_cast hlt
          simpa using this
        simp only [zpow_zero, mul_one, binary32]
        calc |(t : ℚ)| < 2 ^ 24 := h1
          _ ≤ (2 : ℚ) ^ ((127 : Int) + 1) := by norm_num)
    simpa using this
  · rcases abs_eq (by norm_num : (0 : Int) ≤ 2 ^ 24) |>.mp heq with h1 | h1
    · subst h1
      have := FloatFormat.round_of_representable binary32 (2 ^ 23) 1 (by simp [binary32])
        (by simp [binary32]) (by norm_num [binary32])
      norm_num at this ⊢
      exact this
    · subst h1
      have := FloatFormat.round_of_representable binary32 (-2 ^ 23) 1 (by simp [binary32])
        (by simp [binary32]) (by norm_num [binary32])
      norm_num at this ⊢
      exact this

theorem ofInt_binary32_natCast (n : Nat) (h : n ≤ 2 ^ 24) :
    Ieee.ofInt binary32 (n : Int) = Ieee.finite (n : ℚ) := by
  have := ofInt_binary32_of_abs_le (n : Int) (by
    rw [abs_of_nonneg (Int.natCast_nonneg n)]
    exact_mod_cast h)
  simpa using this

end Ieee

/-! ## Facts about the oscillator in IEEE 754 arithmetic -/

namespace Rounded

theorem fmod_finite (x y : ℚ) (hy : y ≠ 0) :
    Ieee.fmod (Ieee.finite x) (Ieee.finite y) = Ieee.finite (fmod x y) := by
  simp [Ieee.fmod, fmod, hy]

theorem toInt_of_nonneg {x : ℚ} (h0 : 0 ≤ x) (h1 : x < 2 ^ 31) :
    Ieee.toInt (Ieee.finite x) = some ⌊x⌋ := by
  have hfl0 : 0 ≤ ⌊x⌋ := Int.floor_nonneg.mpr h0
  have hfl1 : ⌊x⌋ < 2 ^ 31 := by
    rw [Int.floor_lt]
    exact_mod_cast h1
  simp only [Ieee.toInt, truncToInt_of_nonneg h0]
  rw [if_pos ⟨by omega, hfl1⟩]

theorem inRange_iff (o : WavetableOscillator Ieee) :
    InRange o ↔ ∃ p d : ℚ, o.index = Ieee.finite p ∧ o.indexIncrement = Ieee.finite d ∧
      0 < o.waveTable.length ∧ 0 ≤ p ∧ p < (o.waveTable.length : ℚ) ∧
      0 ≤ d ∧ d ≤ binary32.maxFinite := by
  unfold InRange
  constructor
  · intro h
    split at h
    · next p d hp hd => exact ⟨p, d, hp, hd, h⟩
    · exact absurd h id
  · rintro ⟨p, d, hp, hd, h⟩
    rw [hp, hd]
    exact h

theorem maxFinite_binary32 : binary32.maxFinite = 2 ^ 128 - 2 ^ 104 := by
  norm_num [FloatFormat.maxFinite, binary32]

/-- The addition of the increment to a position below `2 ^ 24` does not overflow. -/
theorem add_index_increment {p d : ℚ} (hp0 : 0 ≤ p) (hp : p ≤ 2 ^ 24) (hd0 : 0 ≤ d)
    (hd : d ≤ binary32.maxFinite) :
    ∃ y, Ieee.add binary32 (Ieee.finite p) (Ieee.finite d) = Ieee.finite y ∧ 0 ≤ y := by
  rw [maxFinite_binary32] at hd
  obtain ⟨y, h1, h2, -⟩ := FloatFormat.round_below_overflow binary32 (x := p + d)
    (by simp [binary32]) (by simp [binary32]) (add_nonneg hp0 hd0)
    (by
      have : (2 : ℚ) ^ (binary32.emax + 1) - 2 ^ (binary32.emax - (binary32.precision : Int))
          = 2 ^ 128 - 2 ^ 103 := by norm_num [binary32]
      rw [this]
      have : (2 : ℚ) ^ 24 + (2 ^ 128 - 2 ^ 104) < 2 ^ 128 - 2 ^ 103 := by norm_num
      linarith)
  exact ⟨y, h1, h2⟩

/-- The shape of `interpolateLinearly` on a table of at most `2 ^ 24` entries at a finite
position inside it: both table reads are within bounds and the conversion of the
truncated position back to `float` is exact. -/
theorem interpolateLinearly_of_inside_rounded (o : WavetableOscillator Ieee) (p : ℚ)
    (hidx : o.index = Ieee.finite p) (hL : 0 < o.waveTable.length)
    (hL2 : o.waveTable.length ≤ 2 ^ 24) (h0 : 0 ≤ p) (h1 : p < (o.waveTable.length : ℚ)) :
    ∃ a b : Ieee,
      o.waveTable[⌊p⌋.toNat]? = some a ∧
      o.waveTable[(⌊p⌋.toNat + 1) % o.waveTable.length]? = some b ∧
      interpolateLinearly o =
        some (Ieee.add binary32
          (Ieee.mul binary32
            (Ieee.sub binary32 (Ieee.finite 1)
              (Ieee.sub binary32 (Ieee.finite p) (Ieee.finite (⌊p⌋ : ℚ)))) a)
          (Ieee.mul binary32
            (Ieee.sub binary32 (Ieee.finite p) (Ieee.finite (⌊p⌋ : ℚ))) b)) := by
  have hfl0 : 0 ≤ ⌊p⌋ := Int.floor_nonneg.mpr h0
  have hflt : ⌊p⌋ < (o.waveTable.length : Int) := by
    rw [Int.floor_lt]; exact_mod_cast h1
  have hi0 : ⌊p⌋.toNat < o.waveTable.length := (Int.toNat_lt hfl0).mpr hflt
  have hi1 : (⌊p⌋.toNat + 1) % o.waveTable.length < o.waveTable.length :=
    Nat.mod_lt _ hL
  have hnext : Int.tmod (⌊p⌋ + 1) (o.waveTable.length : Int)
      = (((⌊p⌋.toNat + 1) % o.waveTable.length : Nat) : Int) := by
    rw [Int.tmod_eq_emod (by omega) (by omega), Int.natCast_mod, Nat.cast_add,
      Int.toNat_of_nonneg hfl0, Nat.cast_one]
  refine ⟨o.waveTable[⌊p⌋.toNat], o.waveTable[(⌊p⌋.toNat + 1) % o.waveTable.length],
    List.getElem?_eq_getElem hi0, List.getElem?_eq_getElem hi1, ?_⟩
  have hne : ¬ ((o.waveTable.length : Int) = 0) := by omega
  have ha : vecAt o.waveTable ⌊p⌋ = some o.waveTable[⌊p⌋.toNat] := by
    simp [vecAt, hfl0, List.getElem?_eq_getElem hi0]
  have hb : vecAt o.waveTable (((⌊p⌋.toNat + 1) % o.waveTable.length : Nat) : Int)
      = some o.waveTable[(⌊p⌋.toNat + 1) % o.waveTable.length] := by
    rw [vecAt_natCast]; exact List.getElem?_eq_getElem hi1
  have hLq : ((o.waveTable.length : Nat) : ℚ) ≤ 2 ^ 24 := by exact_mod_cast hL2
  have hto : Ieee.toInt (Ieee.finite p) = some ⌊p⌋ :=
    toInt_of_nonneg h0 (by
      have : (2 : ℚ) ^ 24 < 2 ^ 31 := by norm_num
      linarith)
  have hof : Ieee.ofInt binary32 ⌊p⌋ = Ieee.finite (⌊p⌋ : ℚ) :=
    Ieee.ofInt_binary32_of_abs_le ⌊p⌋ (by
      rw [abs_of_nonneg hfl0]
      have : (o.waveTable.length : Int) ≤ 2 ^ 24 := by exact_mod_cast hL2
      omega)
  simp only [interpolateLinearly, hidx, hto, hne, if_false, hnext, ha, hb, hof]

/-- The shape of `getSample` on a table of at most `2 ^ 24` entries at a finite position
inside it. -/
theorem getSample_of_inside_rounded (o : WavetableOscillator Ieee) (p : ℚ)
    (hidx : o.index = Ieee.finite p) (hL : 0 < o.waveTable.length)
    (hL2 : o.waveTable.length ≤ 2 ^ 24) (h0 : 0 ≤ p) (h1 : p < (o.waveTable.length : ℚ)) :
    ∃ a b : Ieee,
      o.waveTable[⌊p⌋.toNat]? = some a ∧
      o.waveTable[(⌊p⌋.toNat + 1) % o.waveTable.length]? = some b ∧
      getSample o =
        some (Ieee.add binary32
            (Ieee.mul binary32
              (Ieee.sub binary32 (Ieee.finite 1)
                (Ieee.sub binary32 (Ieee.finite p) (Ieee.finite (⌊p⌋ : ℚ)))) a)
            (Ieee.mul binary32
              (Ieee.sub binary32 (Ieee.finite p) (Ieee.finite (⌊p⌋ : ℚ))) b),
          { o with
            index := Ieee.fmod (Ieee.add binary32 o.index o.indexIncrement)
              (Ieee.finite (o.waveTable.length : ℚ)) }) := by
  obtain ⟨a, b, ha, hb, h⟩ := interpolateLinearly_of_inside_rounded o p hidx hL hL2 h0 h1
  refine ⟨a, b, ha, hb, ?_⟩
  have hof : Ieee.ofInt binary32 (o.waveTable.length : Int)
      = Ieee.finite (o.waveTable.length : ℚ) := Ieee.ofInt_binary32_natCast _ hL2
  simp only [getSample, h, hof]

/-- In range, `getSample` returns a sample, and the oscillator afterwards is in range
again with the same table, sample rate and increment. -/
theorem getSample_of_inRange_rounded (o : WavetableOscillator Ieee) (h : InRange o)
    (hL2 : o.waveTable.length ≤ 2 ^ 24) :
    ∃ value o1, getSample o = some (value, o1) ∧ InRange o1 ∧
      o1.waveTable = o.waveTable ∧ o1.sampleRate = o.sampleRate ∧
      o1.indexIncrement = o.indexIncrement ∧
      o1.index = Ieee.fmod (Ieee.add binary32 o.index o.indexIncrement)
        (Ieee.ofInt binary32 (o.waveTable.length : Int)) ∧
      interpolateLinearly o = some value := by
  obtain ⟨p, d, hp, hd, hL, h0, h1, hd0, hd1⟩ := (inRange_iff o).mp h
  obtain ⟨a, b, -, -, hi⟩ := interpolateLinearly_of_inside_rounded o p hp hL hL2 h0 h1
  have hLq : ((o.waveTable.length : Nat) : ℚ) ≤ 2 ^ 24 := by exact_mod_cast hL2
  have hLpos : (0 : ℚ) < (o.waveTable.length : ℚ) := by exact_mod_cast hL
  obtain ⟨y, hy, hy0⟩ := add_index_increment h0 (by linarith) hd0 hd1
  have hof : Ieee.ofInt binary32 (o.waveTable.length : Int)
      = Ieee.finite (o.waveTable.length : ℚ) := Ieee.ofInt_binary32_natCast _ hL2
  have hnew : Ieee.fmod (Ieee.add binary32 o.index o.indexIncrement)
      (Ieee.ofInt binary32 (o.waveTable.length : Int))
        = Ieee.finite (fmod y (o.waveTable.length : ℚ)) := by
    rw [hp, hd, hy, hof, fmod_finite _ _ (ne_of_gt hLpos)]
  refine ⟨_, { o with
      index := Ieee.fmod (Ieee.add binary32 o.index o.indexIncrement)
        (Ieee.ofInt binary32 (o.waveTable.length : Int)) },
    by simp only [getSample, hi], ?_, rfl, rfl, rfl, rfl, hi⟩
  rw [inRange_iff]
  refine ⟨fmod y (o.waveTable.length : ℚ), d, ?_, hd, hL, fmod_nonneg hy0 hLpos,
    fmod_lt hy0 hLpos, hd0, hd1⟩
  exact hnew

end Rounded

namespace Rounded

theorem le_zero_cases {f : Ieee} (h : Ieee.le (Ieee.finite 0) f = true) :
    (∃ x : ℚ, f = Ieee.finite x ∧ 0 ≤ x) ∨ f = Ieee.inf false := by
  cases f with
  | finite x => exact Or.inl ⟨x, rfl, by simpa [Ieee.le] using h⟩
  | inf negative =>
    right
    cases negative with
    | false => rfl
    | true => simp [Ieee.le] at h
  | nan => simp [Ieee.le] at h

theorem lt_zero_cases {f : Ieee} (h : Ieee.lt (Ieee.finite 0) f = true) :
    (∃ x : ℚ, f = Ieee.finite x ∧ 0 < x) ∨ f = Ieee.inf false := by
  cases f with
  | finite x => exact Or.inl ⟨x, rfl, by simpa [Ieee.lt] using h⟩
  | inf negative =>
    right
    cases negative with
    | false => rfl
    | true => simp [Ieee.lt] at h
  | nan => simp [Ieee.lt] at h

theorem binary32_round_nonneg {x : ℚ} (hx : 0 ≤ x) :
    binary32.round x = Ieee.inf false ∨
      ∃ y, binary32.round x = Ieee.finite y ∧ 0 ≤ y ∧ y ≤ binary32.maxFinite := by
  rcases FloatFormat.round_nonneg binary32 hx with h | ⟨y, h, -⟩
  · exact Or.inl h
  · exact Or.inr ⟨y, h, FloatFormat.round_finite_le_maxFinite binary32 (by simp [binary32])
      (by simp [binary32]) hx h⟩

/-- The increment `setFrequency` computes from a frequency that is not negative, on a
table of at most `2 ^ 24` entries and with a sample rate above 0: a NaN, the positive
infinity, or a finite number from 0 to `FLT_MAX`. -/
theorem setFrequency_increment (o : WavetableOscillator Ieee) (f : Ieee)
    (hL : 0 < o.waveTable.length) (hL2 : o.waveTable.length ≤ 2 ^ 24)
    (hf : Ieee.le (Ieee.finite 0) f = true)
    (hsr : Ieee.lt (Ieee.finite 0) o.sampleRate = true) :
    (setFrequency o f).indexIncrement = Ieee.nan ∨
      (setFrequency o f).indexIncrement = Ieee.inf false ∨
      ∃ w, (setFrequency o f).indexIncrement = Ieee.finite w ∧ 0 ≤ w ∧
        w ≤ binary32.maxFinite := by
  have hof : Ieee.ofInt binary32 (o.waveTable.length : Int)
      = Ieee.finite (o.waveTable.length : ℚ) := Ieee.ofInt_binary32_natCast _ hL2
  have hLpos : (0 : ℚ) < (o.waveTable.length : ℚ) := by exact_mod_cast hL
  have hinc : (setFrequency o f).indexIncrement
      = Ieee.convert binary32 (Ieee.div binary64
          (Ieee.mul binary32 f (Ieee.finite (o.waveTable.length : ℚ))) o.sampleRate) := by
    simp only [setFrequency, hof]
  rw [hinc]
  -- the quotient of the positive infinity by the sample rate
  have hinf : Ieee.convert binary32 (Ieee.div binary64 (Ieee.inf false) o.sampleRate) = Ieee.nan ∨
      Ieee.convert binary32 (Ieee.div binary64 (Ieee.inf false) o.sampleRate)
        = Ieee.inf false := by
    rcases lt_zero_cases hsr with ⟨s, hs, hs0⟩ | hs <;> rw [hs]
    · right
      simp [Ieee.div, Ieee.convert, not_lt.mpr (le_of_lt hs0)]
    · left
      simp [Ieee.div, Ieee.convert]
  -- the quotient of a finite product by the sample rate
  have hfin : ∀ y : ℚ, 0 ≤ y →
      Ieee.convert binary32 (Ieee.div binary64 (Ieee.finite y) o.sampleRate) = Ieee.inf false ∨
      ∃ w, Ieee.convert binary32 (Ieee.div binary64 (Ieee.finite y) o.sampleRate)
        = Ieee.finite w ∧ 0 ≤ w ∧ w ≤ binary32.maxFinite := by
    intro y hy
    rcases lt_zero_cases hsr with ⟨s, hs, hs0⟩ | hs <;> rw [hs]
    · simp only [Ieee.div, if_neg (ne_of_gt hs0)]
      rcases FloatFormat.round_nonneg binary64 (div_nonneg hy (le_of_lt hs0)) with h | ⟨z, h, hz⟩
      · left
        rw [h]
        rfl
      · rw [h]
        exact binary32_round_nonneg hz
    · right
      refine ⟨0, ?_, le_refl _, ?_⟩
      · simp [Ieee.div, Ieee.convert, FloatFormat.round_zero]
      · rw [maxFinite_binary32]
        norm_num
  rcases le_zero_cases hf with ⟨x, hx, hx0⟩ | hx <;> rw [hx]
  · simp only [Ieee.mul]
    rcases FloatFormat.round_nonneg binary32 (mul_nonneg hx0 (le_of_lt hLpos)) with h | ⟨y, h, hy⟩
    · rw [h]
      rcases hinf with h1 | h1
      · exact Or.inl h1
      · exact Or.inr (Or.inl h1)
    · rw [h]
      rcases hfin y hy with h1 | h1
      · exact Or.inr (Or.inl h1)
      · exact Or.inr (Or.inr h1)
  · have : Ieee.mul binary32 (Ieee.inf false) (Ieee.finite (o.waveTable.length : ℚ))
        = Ieee.inf false := by
      simp [Ieee.mul, ne_of_gt hLpos, not_lt.mpr (le_of_lt hLpos)]
    rw [this]
    rcases hinf with h1 | h1
    · exact Or.inl h1
    · exact Or.inr (Or.inl h1)

theorem inRange_new_rounded (waveTable : List Ieee) (sampleRate : Ieee) (hL : 0 < waveTable.length) :
    InRange (new waveTable sampleRate) := by
  rw [inRange_iff]
  refine ⟨0, 0, rfl, rfl, hL, le_refl _, ?_, le_refl _, ?_⟩
  · show (0 : ℚ) < (waveTable.length : ℚ)
    exact_mod_cast hL
  · rw [maxFinite_binary32]
    norm_num

theorem inRange_stop_rounded (o : WavetableOscillator Ieee) (hL : 0 < o.waveTable.length) :
    InRange (stop o) := by
  rw [inRange_iff]
  refine ⟨0, 0, rfl, rfl, hL, le_refl _, ?_, le_refl _, ?_⟩
  · show (0 : ℚ) < (o.waveTable.length : ℚ)
    exact_mod_cast hL
  · rw [maxFinite_binary32]
    norm_num

/-- With a frequency that is not negative and an increment that does not overflow,
`setFrequency` keeps the oscillator in range. -/
theorem inRange_setFrequency_rounded (o : WavetableOscillator Ieee) (h : InRange o)
    (hL2 : o.waveTable.length ≤ 2 ^ 24) (f : Ieee)
    (hf : Ieee.le (Ieee.finite 0) f = true)
    (hsr : Ieee.lt (Ieee.finite 0) o.sampleRate = true)
    (hfin : Ieee.isFinite (setFrequency o f).indexIncrement = true) :
    InRange (setFrequency o f) := by
  obtain ⟨p, d, hp, -, hL, h0, h1, -, -⟩ := (inRange_iff o).mp h
  rcases setFrequency_increment o f hL hL2 hf hsr with h2 | h2 | ⟨w, h2, hw0, hw1⟩
  · rw [h2] at hfin
    simp [Ieee.isFinite] at hfin
  · rw [h2] at hfin
    simp [Ieee.isFinite] at hfin
  · rw [inRange_iff]
    exact ⟨p, w, hp, h2, hL, h0, h1, hw0, hw1⟩

/-- The increment `setFrequency` computes depends on the length of the table and on the
sample rate only. -/
theorem setFrequency_increment_congr (o o1 : WavetableOscillator Ieee) (f : Ieee)
    (ht : o1.waveTable.length = o.waveTable.length) (hs : o1.sampleRate = o.sampleRate) :
    (setFrequency o1 f).indexIncrement = (setFrequency o f).indexIncrement := by
  simp only [setFrequency, ht, hs]

/-- Calls with frequencies that are not negative and whose increments do not overflow
keep an oscillator of positive sample rate in range, and each of them is defined. -/
theorem runAll_inRange_rounded (calls : List (OscillatorCall Ieee)) :
    ∀ o : WavetableOscillator Ieee, InRange o → o.waveTable.length ≤ 2 ^ 24 →
      Ieee.lt (Ieee.finite 0) o.sampleRate = true →
      (∀ f, OscillatorCall.setFrequency f ∈ calls →
        Ieee.le (Ieee.finite 0) f = true ∧
          Ieee.isFinite (setFrequency o f).indexIncrement = true) →
      ∃ o1, runAll o calls = some o1 ∧ InRange o1 ∧ o1.waveTable = o.waveTable ∧
        o1.sampleRate = o.sampleRate := by
  induction calls with
  | nil => intro o h _ _ _; exact ⟨o, rfl, h, rfl, rfl⟩
  | cons call rest ih =>
    intro o h hL2 hsr hf
    have hrest : ∀ (o1 : WavetableOscillator Ieee), o1.waveTable = o.waveTable →
        o1.sampleRate = o.sampleRate → ∀ f, OscillatorCall.setFrequency f ∈ rest →
        Ieee.le (Ieee.finite 0) f = true ∧
          Ieee.isFinite (setFrequency o1 f).indexIncrement = true := by
      intro o1 ht hs f hm
      obtain ⟨h1, h2⟩ := hf f (List.mem_cons_of_mem _ hm)
      refine ⟨h1, ?_⟩
      rw [setFrequency_increment_congr o o1 f (by rw [ht]) hs]
      exact h2
    cases call with
    | setFrequency f =>
      obtain ⟨hf0, hf1⟩ := hf f (List.mem_cons_self _ _)
      have h1 := inRange_setFrequency_rounded o h hL2 f hf0 hsr hf1
      obtain ⟨o2, hr, hin, ht, hs⟩ := ih (setFrequency o f) h1 hL2 hsr
        (hrest (setFrequency o f) rfl rfl)
      exact ⟨o2, by simp only [runAll, run, hr], hin, ht, hs⟩
    | getSample =>
      obtain ⟨v, o1, hg, hin1, ht1, hs1, -, -, -⟩ := getSample_of_inRange_rounded o h hL2
      obtain ⟨o2, hr, hin, ht, hs⟩ := ih o1 hin1 (by rw [ht1]; exact hL2)
        (by rw [hs1]; exact hsr) (hrest o1 ht1 hs1)
      exact ⟨o2, by simp only [runAll, run, hg, hr], hin, ht.trans ht1, hs.trans hs1⟩
    | stop =>
      obtain ⟨hL, -⟩ := (inRange_iff o).mp h |>.choose_spec.choose_spec.2.2
      obtain ⟨o2, hr, hin, ht, hs⟩ := ih (stop o) (inRange_stop_rounded o hL) hL2 hsr
        (hrest (stop o) rfl rfl)
      exact ⟨o2, by simp only [runAll, run, hr], hin, ht, hs⟩

end Rounded

namespace Rounded

theorem getSamples_succ_eq_some_rounded (o o2 : WavetableOscillator Ieee) (n : Nat) (xs : List Ieee)
    (h : getSamples o (n + 1) = some (xs, o2)) :
    ∃ x o1 xs1, getSample o = some (x, o1) ∧ getSamples o1 n = some (xs1, o2) ∧
      xs = x :: xs1 := by
  simp only [getSamples] at h
  split at h
  · exact absurd h (by simp)
  · next x o1 hg =>
    split at h
    · exact absurd h (by simp)
    · next xs1 o3 hr =>
      simp only [Option.some.injEq, Prod.mk.injEq] at h
      obtain ⟨rfl, rfl⟩ := h
      exact ⟨x, o1, xs1, hg, hr, rfl⟩

theorem getSamples_length_rounded (n : Nat) :
    ∀ (o o2 : WavetableOscillator Ieee) (xs : List Ieee),
      getSamples o n = some (xs, o2) → xs.length = n := by
  induction n with
  | zero =>
    intro o o2 xs h
    simp only [getSamples, Option.some.injEq, Prod.mk.injEq] at h
    rw [← h.1]; rfl
  | succ k ih =>
    intro o o2 xs h
    obtain ⟨x, o1, xs1, -, hr, rfl⟩ := getSamples_succ_eq_some_rounded o o2 k xs h
    simp [ih o1 o2 xs1 hr]

/-- In range, any number of successive `getSample` calls is defined and ends in range:
the position after them is the result of as many advances
`index = fmod(index + indexIncrement, size)`, and each call returns the interpolation at
the position it finds. -/
theorem getSamples_of_inRange_rounded (n : Nat) :
    ∀ o : WavetableOscillator Ieee, InRange o → o.waveTable.length ≤ 2 ^ 24 →
      ∃ xs, getSamples o n = some (xs,
          { o with
            index := (fun index => Ieee.fmod (Ieee.add binary32 index o.indexIncrement)
              (Ieee.ofInt binary32 (o.waveTable.length : Int)))^[n] o.index }) ∧
        xs.length = n ∧
        InRange { o with
            index := (fun index => Ieee.fmod (Ieee.add binary32 index o.indexIncrement)
              (Ieee.ofInt binary32 (o.waveTable.length : Int)))^[n] o.index } ∧
        ∀ j : Nat, j < n →
          xs[j]? = interpolateLinearly { o with
            index := (fun index => Ieee.fmod (Ieee.add binary32 index o.indexIncrement)
              (Ieee.ofInt binary32 (o.waveTable.length : Int)))^[j] o.index } := by
  induction n with
  | zero =>
    intro o h _
    exact ⟨[], rfl, rfl, h, fun j hj => absurd hj (Nat.not_lt_zero j)⟩
  | succ k ih =>
    intro o h hL2
    obtain ⟨x, o1, hg, h1, ht1, hs1, hi1, hx1, hval⟩ := getSample_of_inRange_rounded o h hL2
    obtain ⟨xs, hr, hlen, hin, hpos⟩ := ih o1 h1 (by rw [ht1]; exact hL2)
    rw [hi1, ht1, hx1, hs1] at hr hin hpos
    refine ⟨x :: xs, ?_, by simp [hlen], ?_, ?_⟩
    · simp only [getSamples, hg, hr, Function.iterate_succ_apply]
    · simpa only [Function.iterate_succ_apply] using hin
    · intro j hj
      cases j with
      | zero =>
        simp only [List.getElem?_cons_zero, Function.iterate_zero, id_eq]
        exact hval.symm
      | succ j1 =>
        simp only [List.getElem?_cons_succ, Function.iterate_succ_apply]
        exact hpos j1 (by omega)

/-- A defined `getSample` changes nothing but `index`. -/
theorem getSample_members_rounded (o o1 : WavetableOscillator Ieee) (x : Ieee)
    (h : getSample o = some (x, o1)) :
    o1.waveTable = o.waveTable ∧ o1.sampleRate = o.sampleRate ∧
      o1.indexIncrement = o.indexIncrement := by
  unfold getSample at h
  split at h
  · exact absurd h (by simp)
  · simp only [Option.some.injEq, Prod.mk.injEq] at h
    rw [← h.2]
    exact ⟨rfl, rfl, rfl⟩

end Rounded

/-! ## Facts about `render` in IEEE 754 arithmetic -/

namespace Rounded

theorem getD_set {α : Type} (ch : List α) (a i : Nat) (v d : α) (ha : a < ch.length) :
    (ch.set a v).getD i d = if i = a then v else ch.getD i d := by
  simp only [List.getD_eq_getElem?_getD, List.getElem?_set]
  by_cases h : a = i
  · subst h; simp [ha]
  · have h2 : ¬ i = a := fun e => h e.symm
    simp [h, h2]

theorem getElem?_eq_some_getD {α : Type} (ch : List α) (i : Nat) (d : α)
    (hi : i < ch.length) : ch[i]? = some (ch.getD i d) := by
  rw [List.getD_eq_getElem?_getD, List.getElem?_eq_getElem hi]
  rfl

/-- The inner loop of `render` adds, position by position and in `float`, the samples
the oscillator produces when run alone, and leaves the oscillator where that run ends. -/
theorem sampleLoop_spec_rounded (n : Nat) :
    ∀ (o o2 : WavetableOscillator Ieee) (ch : List Ieee) (a : Nat) (xs : List Ieee),
      a + n ≤ ch.length → getSamples o n = some (xs, o2) →
      ∃ ch1, sampleLoop o ch a n = some (o2, ch1) ∧ ch1.length = ch.length ∧
        ∀ i, ch1.getD i (Ieee.finite 0)
          = if a ≤ i ∧ i < a + n then
              Ieee.add binary32 (ch.getD i (Ieee.finite 0)) (xs.getD (i - a) (Ieee.finite 0))
            else ch.getD i (Ieee.finite 0) := by
  induction n with
  | zero =>
    intro o o2 ch a xs _ h
    simp only [getSamples, Option.some.injEq, Prod.mk.injEq] at h
    obtain ⟨-, rfl⟩ := h
    refine ⟨ch, rfl, rfl, fun i => ?_⟩
    have : ¬ (a ≤ i ∧ i < a + 0) := by omega
    rw [if_neg this]
  | succ k ih =>
    intro o o2 ch a xs hlen h
    obtain ⟨x, o1, xs1, hg, hr, rfl⟩ := getSamples_succ_eq_some_rounded o o2 k xs h
    have ha : a < ch.length := by omega
    have hold : ch[a]? = some ch[a] := List.getElem?_eq_getElem ha
    obtain ⟨ch1, hl, hlen1, hpt⟩ := ih o1 o2 (ch.set a (Ieee.add binary32 ch[a] x)) (a + 1) xs1
      (by rw [List.length_set]; omega) hr
    refine ⟨ch1, by simp only [sampleLoop, hg, hold, hl], by rw [hlen1, List.length_set], ?_⟩
    intro i
    rw [hpt i, getD_set ch a i _ _ ha]
    have hgd : ch.getD a (Ieee.finite 0) = ch[a] := by
      simp [List.getD_eq_getElem?_getD, hold]
    by_cases hia : i = a
    · subst hia
      have h1 : ¬ (i + 1 ≤ i ∧ i < i + 1 + k) := by omega
      have h2 : i ≤ i ∧ i < i + (k + 1) := by omega
      rw [if_neg h1, if_pos h2, if_pos rfl, hgd, Nat.sub_self]
      simp
    · rw [if_neg hia]
      by_cases hlt : i < a
      · have h1 : ¬ (a + 1 ≤ i ∧ i < a + 1 + k) := by omega
        have h2 : ¬ (a ≤ i ∧ i < a + (k + 1)) := by omega
        rw [if_neg h1, if_neg h2]
      · obtain ⟨j, rfl⟩ : ∃ j, i = a + 1 + j := ⟨i - (a + 1), by omega⟩
        have h3 : a + 1 + j - a = j + 1 := by omega
        have h4 : a + 1 + j - (a + 1) = j := by omega
        by_cases hr2 : j < k
        · have h1 : a + 1 ≤ a + 1 + j ∧ a + 1 + j < a + 1 + k := by omega
          have h2 : a ≤ a + 1 + j ∧ a + 1 + j < a + (k + 1) := by omega
          rw [if_pos h1, if_pos h2, h3, h4]
          simp
        · have h1 : ¬ (a + 1 ≤ a + 1 + j ∧ a + 1 + j < a + 1 + k) := by omega
          have h2 : ¬ (a ≤ a + 1 + j ∧ a + 1 + j < a + (k + 1)) := by omega
          rw [if_neg h1, if_neg h2]

/-- The loop over the oscillators of `render`: the playing oscillators add their solo
samples over `[a, b)` to the channel one after the other, in the order of the bank, each
addition rounded to `float`; every playing oscillator ends where its solo run ends and
the others are untouched. -/
theorem oscillatorLoop_spec_rounded (a b : Nat) (hab : a ≤ b) (oscs : List (WavetableOscillator Ieee)) :
    ∀ ch : List Ieee, b ≤ ch.length →
      (∀ o ∈ oscs, isPlaying o = true → ∃ r, getSamples o (b - a) = some r) →
      ∃ ch1, oscillatorLoop ch a b oscs
          = some (oscs.map (fun o => if isPlaying o then afterSamples o (b - a) else o), ch1) ∧
        ch1.length = ch.length ∧
        ∀ i, ch1.getD i (Ieee.finite 0)
          = if a ≤ i ∧ i < b then
              ((oscs.filter (fun o => isPlaying o)).map
                (fun o => (soloSamples o (b - a)).getD (i - a) (Ieee.finite 0))).foldl
                (Ieee.add binary32) (ch.getD i (Ieee.finite 0))
            else ch.getD i (Ieee.finite 0) := by
  induction oscs with
  | nil =>
    intro ch _ _
    refine ⟨ch, rfl, rfl, fun i => ?_⟩
    simp
  | cons o rest ih =>
    intro ch hlen hsolo
    have hrest : ∀ o1 ∈ rest, isPlaying o1 = true → ∃ r, getSamples o1 (b - a) = some r :=
      fun o1 hm => hsolo o1 (List.mem_cons_of_mem _ hm)
    by_cases hp : isPlaying o = true
    · obtain ⟨⟨xs, o2⟩, hr⟩ := hsolo o (List.mem_cons_self _ _) hp
      obtain ⟨ch1, hl, hlen1, hpt1⟩ := sampleLoop_spec_rounded (b - a) o o2 ch a xs (by omega) hr
      obtain ⟨ch2, hl2, hlen2, hpt2⟩ := ih ch1 (by omega) hrest
      have hafter : afterSamples o (b - a) = o2 := by
        simp only [afterSamples, hr]
      have hsoloEq : soloSamples o (b - a) = xs := by
        simp only [soloSamples, hr]
      refine ⟨ch2, ?_, hlen2.trans hlen1, ?_⟩
      · simp only [oscillatorLoop, hp, if_true, hl, hl2, List.map_cons, hafter]
      · intro i
        rw [hpt2 i, hpt1 i, List.filter_cons_of_pos hp, List.map_cons, List.foldl_cons, hsoloEq]
        have hba : a + (b - a) = b := by omega
        rw [hba]
        by_cases hi : a ≤ i ∧ i < b
        · simp only [if_pos hi]
        · simp only [if_neg hi]
    · obtain ⟨ch2, hl2, hlen2, hpt2⟩ := ih ch hlen hrest
      refine ⟨ch2, ?_, hlen2, ?_⟩
      · rw [oscillatorLoop, if_neg hp]
        simp only [hl2, List.map_cons, if_neg hp]
      · intro i
        rw [hpt2 i, List.filter_cons_of_neg hp]

/-- The copy loop of `render`: every later channel takes over `[a, b)` from the first
channel and keeps the rest of its samples. -/
theorem copyLoop_spec_rounded (src : List Ieee) (a b : Nat) (hab : a ≤ b) (hs : b ≤ src.length)
    (others : List (List Ieee)) :
    (∀ ch ∈ others, b ≤ ch.length) →
      ∃ others1, copyLoop src a b others = some others1 ∧ others1.length = others.length ∧
        ∀ (c : Nat) (ch : List Ieee), others[c]? = some ch →
          ∃ ch1 : List Ieee, others1[c]? = some ch1 ∧ ch1.length = ch.length ∧
            ∀ i : Nat, ch1[i]? = if a ≤ i ∧ i < b then src[i]? else ch[i]? := by
  induction others with
  | nil =>
    intro _
    exact ⟨[], rfl, rfl, fun c ch h => absurd h (by simp)⟩
  | cons dst rest ih =>
    intro hlen
    obtain ⟨dst1, hc, hl1, hp1⟩ :=
      copyRange_spec src dst a b hab hs (hlen dst (List.mem_cons_self _ _))
    obtain ⟨rest1, hr, hl2, hp2⟩ := ih (fun ch hm => hlen ch (List.mem_cons_of_mem _ hm))
    refine ⟨dst1 :: rest1, by simp only [copyLoop, hc, hr], by simp [hl2], ?_⟩
    intro c ch hget
    cases c with
    | zero =>
      simp only [List.getElem?_cons_zero, Option.some.injEq] at hget
      subst hget
      exact ⟨dst1, by simp, hl1, hp1⟩
    | succ c1 =>
      simp only [List.getElem?_cons_succ] at hget
      obtain ⟨ch1, h1, h2, h3⟩ := hp2 c1 ch hget
      exact ⟨ch1, by simpa using h1, h2, h3⟩

/-- The whole of `render` on a buffer whose channels reach to `b`, when every playing
oscillator can produce `b - a` samples. -/
theorem render_spec_rounded (s : WavetableSynth Ieee) (buffer : AudioBuffer Ieee) (first : List Ieee)
    (others : List (List Ieee)) (a b : Nat) (hch : buffer.channels = first :: others)
    (hab : a ≤ b) (hfirst : b ≤ first.length) (hothers : ∀ ch ∈ others, b ≤ ch.length)
    (hsolo : ∀ o ∈ s.oscillators, isPlaying o = true → ∃ r, getSamples o (b - a) = some r) :
    ∃ first1 others1,
      render s buffer a b
        = some ({ s with oscillators :=
                    s.oscillators.map (fun o => if isPlaying o then afterSamples o (b - a) else o) },
                { buffer with channels := first1 :: others1 }) ∧
      first1.length = first.length ∧
      (∀ i, first1.getD i (Ieee.finite 0)
          = if a ≤ i ∧ i < b then
              ((s.oscillators.filter (fun o => isPlaying o)).map
                (fun o => (soloSamples o (b - a)).getD (i - a) (Ieee.finite 0))).foldl
                (Ieee.add binary32) (first.getD i (Ieee.finite 0))
            else first.getD i (Ieee.finite 0)) ∧
      others1.length = others.length ∧
      ∀ (c : Nat) (ch : List Ieee), others[c]? = some ch →
        ∃ ch1 : List Ieee, others1[c]? = some ch1 ∧ ch1.length = ch.length ∧
          ∀ i : Nat, ch1[i]? = if a ≤ i ∧ i < b then first1[i]? else ch[i]? := by
  obtain ⟨first1, hl, hlen1, hpt⟩ := oscillatorLoop_spec_rounded a b hab s.oscillators first hfirst hsolo
  obtain ⟨others1, hc, hlen2, hcp⟩ :=
    copyLoop_spec_rounded first1 a b hab (by omega) others hothers
  refine ⟨first1, others1, ?_, hlen1, hpt, hlen2, hcp⟩
  simp only [render, hch, hl, hc]

/-- When the inner loop of `render` is defined, so is the solo run of its oscillator,
and the loop ends where that run ends. -/
theorem getSamples_of_sampleLoop_rounded (n : Nat) :
    ∀ (o o1 : WavetableOscillator Ieee) (ch ch1 : List Ieee) (a : Nat),
      sampleLoop o ch a n = some (o1, ch1) → ∃ xs, getSamples o n = some (xs, o1) := by
  induction n with
  | zero =>
    intro o o1 ch ch1 a h
    simp only [sampleLoop, Option.some.injEq, Prod.mk.injEq] at h
    rw [← h.1]
    exact ⟨[], rfl⟩
  | succ k ih =>
    intro o o1 ch ch1 a h
    simp only [sampleLoop] at h
    split at h
    · next x o2 old hg hold =>
      obtain ⟨xs, hr⟩ := ih o2 o1 _ ch1 _ h
      exact ⟨x :: xs, by simp only [getSamples, hg, hr]⟩
    · exact absurd h (by simp)

/-- When the loop over the oscillators is defined, every playing oscillator can be run
alone over the range. -/
theorem getSamples_of_oscillatorLoop_rounded (a b : Nat) (oscs : List (WavetableOscillator Ieee)) :
    ∀ (ch : List Ieee) (r : List (WavetableOscillator Ieee) × List Ieee),
      oscillatorLoop ch a b oscs = some r →
      ∀ o ∈ oscs, isPlaying o = true → ∃ r1, getSamples o (b - a) = some r1 := by
  induction oscs with
  | nil => intro ch r _ o ho; exact absurd ho (List.not_mem_nil o)
  | cons o0 rest ih =>
    intro ch r h o ho hp
    simp only [oscillatorLoop] at h
    split at h
    · exact absurd h (by simp)
    · next o1 ch1 hfirst =>
      split at h
      · exact absurd h (by simp)
      · next rest1 ch2 hrest =>
        rcases List.mem_cons.mp ho with rfl | hmem
        · rw [if_pos hp] at hfirst
          obtain ⟨xs, hx⟩ := getSamples_of_sampleLoop_rounded (b - a) o o1 ch ch1 a hfirst
          exact ⟨_, hx⟩
        · exact ih ch1 _ hrest o hmem hp

/-- On a well-formed buffer with a channel 0 and a range inside the block, `render` is
defined exactly when every playing oscillator can be run alone over the range. -/
theorem render_defined_iff_rounded (s : WavetableSynth Ieee) (buffer : AudioBuffer Ieee) (a b : Nat)
    (hwf : buffer.WellFormed) (hch : 0 < buffer.channels.length) (hab : a ≤ b)
    (hb : b ≤ buffer.numSamples) :
    (∃ r, render s buffer a b = some r) ↔
      ∀ o ∈ s.oscillators, isPlaying o = true → ∃ r1, getSamples o (b - a) = some r1 := by
  constructor
  · rintro ⟨r, hr⟩
    unfold render at hr
    split at hr
    · exact absurd hr (by simp)
    · next first others hc =>
      split at hr
      · exact absurd hr (by simp)
      · next oscs1 first1 hl =>
        exact getSamples_of_oscillatorLoop_rounded a b s.oscillators first _ hl
  · intro hsolo
    obtain ⟨first, others, hc⟩ : ∃ first others, buffer.channels = first :: others := by
      cases hcs : buffer.channels with
      | nil => rw [hcs] at hch; exact absurd hch (by simp)
      | cons first others => exact ⟨first, others, rfl⟩
    have hflen : first.length = buffer.numSamples := hwf first (by rw [hc]; simp)
    have holen : ∀ ch ∈ others, b ≤ ch.length := by
      intro ch hm
      rw [hwf ch (by rw [hc]; exact List.mem_cons_of_mem _ hm)]
      exact hb
    obtain ⟨first1, others1, hr, -⟩ :=
      render_spec_rounded s buffer first others a b hc hab (by omega) holen hsolo
    exact ⟨_, hr⟩

theorem sampleLoop_members_rounded (n : Nat) :
    ∀ (o o1 : WavetableOscillator Ieee) (ch ch1 : List Ieee) (a : Nat),
      sampleLoop o ch a n = some (o1, ch1) →
      o1.waveTable = o.waveTable ∧ o1.sampleRate = o.sampleRate ∧
        o1.indexIncrement = o.indexIncrement := by
  induction n with
  | zero =>
    intro o o1 ch ch1 a h
    simp only [sampleLoop, Option.some.injEq, Prod.mk.injEq] at h
    rw [← h.1]
    exact ⟨rfl, rfl, rfl⟩
  | succ k ih =>
    intro o o1 ch ch1 a h
    simp only [sampleLoop] at h
    split at h
    · next x o2 old hg hold =>
      obtain ⟨h1, h2, h3⟩ := ih o2 o1 _ ch1 _ h
      obtain ⟨g1, g2, g3⟩ := getSample_members_rounded o o2 x hg
      exact ⟨h1.trans g1, h2.trans g2, h3.trans g3⟩
    · exact absurd h (by simp)

/-- The loop over the oscillators keeps their number and, slot by slot, their tables,
sample rates and increments, and the range invariant on tables of at most `2 ^ 24`
entries. -/
theorem oscillatorLoop_invariant_rounded (a b : Nat) (oscs : List (WavetableOscillator Ieee)) :
    ∀ (ch ch1 : List Ieee) (oscs1 : List (WavetableOscillator Ieee)),
      oscillatorLoop ch a b oscs = some (oscs1, ch1) →
      List.Forall₂ (fun o o1 : WavetableOscillator Ieee =>
        o1.waveTable = o.waveTable ∧ o1.sampleRate = o.sampleRate ∧
          o1.indexIncrement = o.indexIncrement ∧
          (InRange o → o.waveTable.length ≤ 2 ^ 24 → InRange o1)) oscs oscs1 := by
  induction oscs with
  | nil =>
    intro ch ch1 oscs1 h
    simp only [oscillatorLoop, Option.some.injEq, Prod.mk.injEq] at h
    rw [← h.1]
    exact List.Forall₂.nil
  | cons o rest ih =>
    intro ch ch1 oscs1 h
    simp only [oscillatorLoop] at h
    split at h
    · exact absurd h (by simp)
    · next o1 ch2 hfirst =>
      split at h
      · exact absurd h (by simp)
      · next rest1 ch3 hrest =>
        simp only [Option.some.injEq, Prod.mk.injEq] at h
        rw [← h.1]
        refine List.Forall₂.cons ?_ (ih ch2 ch3 rest1 hrest)
        by_cases hp : isPlaying o = true
        · rw [if_pos hp] at hfirst
          obtain ⟨xs, hx⟩ := getSamples_of_sampleLoop_rounded _ o o1 ch ch2 a hfirst
          obtain ⟨m1, m2, m3⟩ := sampleLoop_members_rounded _ o o1 ch ch2 a hfirst
          refine ⟨m1, m2, m3, ?_⟩
          intro hin hL2
          obtain ⟨xs2, hx2, -, hin2, -⟩ := getSamples_of_inRange_rounded (b - a) o hin hL2
          rw [hx] at hx2
          simp only [Option.some.injEq, Prod.mk.injEq] at hx2
          rw [hx2.2]
          exact hin2
        · rw [if_neg hp] at hfirst
          simp only [Option.some.injEq, Prod.mk.injEq] at hfirst
          rw [← hfirst.1]
          exact ⟨rfl, rfl, rfl, fun hin _ => hin⟩

theorem render_invariant_rounded (s s1 : WavetableSynth Ieee) (buffer buffer1 : AudioBuffer Ieee)
    (a b : Nat) (h : render s buffer a b = some (s1, buffer1)) :
    s1.sampleRate = s.sampleRate ∧
      List.Forall₂ (fun o o1 : WavetableOscillator Ieee =>
        o1.waveTable = o.waveTable ∧ o1.sampleRate = o.sampleRate ∧
          o1.indexIncrement = o.indexIncrement ∧
          (InRange o → o.waveTable.length ≤ 2 ^ 24 → InRange o1))
        s.oscillators s1.oscillators := by
  unfold render at h
  split at h
  · exact absurd h (by simp)
  · next first others hc =>
    split at h
    · exact absurd h (by simp)
    · next oscs1 first1 hl =>
      split at h
      · exact absurd h (by simp)
      · simp only [Option.some.injEq, Prod.mk.injEq] at h
        rw [← h.1]
        exact ⟨rfl, oscillatorLoop_invariant_rounded a b s.oscillators first first1 oscs1 hl⟩

end Rounded

/-! ## The engine in IEEE 754 arithmetic: preparation, events, reachable states -/

namespace Rounded

theorem generateSineWaveTable_length_rounded (m : CMath Ieee) (s : WavetableSynth Ieee) :
    (generateSineWaveTable m s).length = WavetableSynth.WAVETABLE_LENGTH := by
  simp only [generateSineWaveTable, foldl_set_range_length, List.length_replicate]

theorem prepareToPlay_sampleRate_rounded (m : CMath Ieee) (s : WavetableSynth Ieee) (sampleRate : Ieee) :
    (prepareToPlay m s sampleRate).sampleRate = sampleRate := rfl

theorem prepareToPlay_oscillators_rounded (m : CMath Ieee) (s : WavetableSynth Ieee)
    (sampleRate : Ieee) :
    (prepareToPlay m s sampleRate).oscillators
      = List.replicate WavetableSynth.OSCILLATOR_COUNT
          (new (generateSineWaveTable m s) sampleRate) := by
  simp only [prepareToPlay, initializeOscillators,
    WavetableSynth.foldl_append_range_eq_replicate, generateSineWaveTable]

theorem handleMidiEvent_noteOn_rounded (m : CMath Ieee) (s : WavetableSynth Ieee) (n t v : Nat)
    (hn : n < s.oscillators.length) :
    handleMidiEvent m s ⟨t, MidiKind.noteOn n v⟩
      = some { s with oscillators := (s.oscillators.set n
          (setFrequency (s.oscillators[n]) (midiNoteNumberToFrequency m (n : Int)))) } := by
  simp only [handleMidiEvent, List.getElem?_eq_getElem hn]

theorem handleMidiEvent_noteOff_rounded (m : CMath Ieee) (s : WavetableSynth Ieee) (n t : Nat)
    (hn : n < s.oscillators.length) :
    handleMidiEvent m s ⟨t, MidiKind.noteOff n⟩
      = some { s with oscillators := s.oscillators.set n (stop (s.oscillators[n])) } := by
  simp only [handleMidiEvent, List.getElem?_eq_getElem hn]

/-- With all its slots present, the engine handles every event of the contract. -/
theorem handleMidiEvent_defined_rounded (m : CMath Ieee) (s : WavetableSynth Ieee)
    (hlen : s.oscillators.length = 128) (midiEvent : MidiMessage)
    (hc : midiEvent.kind.InContract) : ∃ s1, handleMidiEvent m s midiEvent = some s1 := by
  obtain ⟨t, kind⟩ := midiEvent
  cases kind with
  | noteOn n v =>
    exact ⟨_, handleMidiEvent_noteOn_rounded m s n t v (by rw [hlen]; exact hc)⟩
  | noteOff n =>
    exact ⟨_, handleMidiEvent_noteOff_rounded m s n t (by rw [hlen]; exact hc)⟩
  | allNotesOff => exact ⟨_, rfl⟩
  | other => exact ⟨_, rfl⟩

theorem handleMidiEvent_sampleRate_rounded (m : CMath Ieee) (s s1 : WavetableSynth Ieee)
    (midiEvent : MidiMessage) (h : handleMidiEvent m s midiEvent = some s1) :
    s1.sampleRate = s.sampleRate := by
  unfold handleMidiEvent at h
  split at h
  · split at h
    · exact absurd h (by simp)
    · rw [← Option.some.inj h]
  · split at h
    · exact absurd h (by simp)
    · rw [← Option.some.inj h]
  · rw [← Option.some.inj h]
  · rw [← Option.some.inj h]

theorem le_one_cases {f : Ieee} (h : Ieee.le (Ieee.finite 1) f = true) :
    (∃ x : ℚ, f = Ieee.finite x ∧ 1 ≤ x) ∨ f = Ieee.inf false := by
  cases f with
  | finite x => exact Or.inl ⟨x, rfl, by simpa [Ieee.le] using h⟩
  | inf negative =>
    right
    cases negative with
    | false => rfl
    | true => simp [Ieee.le] at h
  | nan => simp [Ieee.le] at h

/-- On a table of at most `2 ^ 24` entries and at a sample rate of at least 1, a
frequency `f ≥ 0` with `f * size ≤ 2 ^ k` gives an increment from 0 to `2 ^ k`: nothing
overflows. -/
theorem setFrequency_increment_of_le (o : WavetableOscillator Ieee)
    (hL2 : o.waveTable.length ≤ 2 ^ 24) (f : ℚ) (hf0 : 0 ≤ f) (k : Int) (hk1 : -149 ≤ k)
    (hk2 : k ≤ 127) (hfk : f * (o.waveTable.length : ℚ) ≤ (2 : ℚ) ^ k)
    (hsr : Ieee.le (Ieee.finite 1) o.sampleRate = true) :
    ∃ w : ℚ, (setFrequency o (Ieee.finite f)).indexIncrement = Ieee.finite w ∧ 0 ≤ w ∧
      w ≤ (2 : ℚ) ^ k := by
  have hof : Ieee.ofInt binary32 (o.waveTable.length : Int)
      = Ieee.finite (o.waveTable.length : ℚ) := Ieee.ofInt_binary32_natCast _ hL2
  have hinc : (setFrequency o (Ieee.finite f)).indexIncrement
      = Ieee.convert binary32 (Ieee.div binary64
          (Ieee.mul binary32 (Ieee.finite f) (Ieee.finite (o.waveTable.length : ℚ)))
          o.sampleRate) := by
    simp only [setFrequency, hof]
  rw [hinc]
  obtain ⟨y, hy, hy0, hy1⟩ := FloatFormat.round_le_two_zpow binary32
    (x := f * (o.waveTable.length : ℚ)) (k := k)
    (by simp [binary32]) (mul_nonneg hf0 (Nat.cast_nonneg _)) hfk
    (by simp only [binary32]; omega) (by simp only [binary32]; omega)
  have hmul : Ieee.mul binary32 (Ieee.finite f) (Ieee.finite (o.waveTable.length : ℚ))
      = Ieee.finite y := hy
  rw [hmul]
  rcases le_one_cases hsr with ⟨s, hs, hs1⟩ | hs <;> rw [hs]
  · have hs0 : 0 < s := by linarith
    obtain ⟨z, hz, hz0, hz1⟩ := FloatFormat.round_le_two_zpow binary64 (x := y / s) (k := k)
      (by simp [binary64]) (div_nonneg hy0 (le_of_lt hs0))
      (by
        have : y / s ≤ y := div_le_self hy0 hs1
        linarith)
      (by simp only [binary64]; omega) (by simp only [binary64]; omega)
    have hdiv : Ieee.div binary64 (Ieee.finite y) (Ieee.finite s) = Ieee.finite z := by
      simp only [Ieee.div, if_neg (ne_of_gt hs0)]
      exact hz
    rw [hdiv]
    obtain ⟨w, hw, hw0, hw1⟩ := FloatFormat.round_le_two_zpow binary32 (x := z) (k := k)
      (by simp [binary32]) hz0 hz1 (by simp only [binary32]; omega)
      (by simp only [binary32]; omega)
    exact ⟨w, hw, hw0, hw1⟩
  · refine ⟨0, ?_, le_refl _, le_of_lt (FloatFormat.two_zpow_pos k)⟩
    simp [Ieee.div, Ieee.convert, FloatFormat.round_zero]

/-- On a table of 64 entries and at a sample rate of at least 1, a frequency from 0 to
`2 ^ 14` gives an increment from 0 to `2 ^ 20`. -/
theorem setFrequency_increment_of_bounds (o : WavetableOscillator Ieee)
    (hL : o.waveTable.length = 64) (f : ℚ) (hf0 : 0 ≤ f) (hf1 : f ≤ 2 ^ 14)
    (hsr : Ieee.le (Ieee.finite 1) o.sampleRate = true) :
    ∃ w : ℚ, (setFrequency o (Ieee.finite f)).indexIncrement = Ieee.finite w ∧ 0 ≤ w ∧
      w ≤ 2 ^ 20 := by
  obtain ⟨w, hw, hw0, hw1⟩ := setFrequency_increment_of_le o (by rw [hL]; norm_num) f hf0 20
    (by norm_num) (by norm_num)
    (by
      rw [hL]
      have : (2 : ℚ) ^ (20 : Int) = 2 ^ 14 * ((64 : Nat) : ℚ) := by norm_num
      rw [this]
      have : (0 : ℚ) ≤ ((64 : Nat) : ℚ) := by norm_num
      nlinarith)
    hsr
  have e20 : (2 : ℚ) ^ (20 : Int) = 2 ^ 20 := by norm_num
  rw [e20] at hw1
  exact ⟨w, hw, hw0, hw1⟩

theorem generateSineWaveTable_length_eq (m : CMath Ieee) (s : WavetableSynth Ieee) :
    (generateSineWaveTable m s).length = 64 := by
  rw [generateSineWaveTable_length_rounded]
  rfl

theorem invariant_replicate (table : List Ieee) (sampleRate : Ieee)
    (ht : table.length = 64) :
    Invariant ⟨sampleRate, List.replicate WavetableSynth.OSCILLATOR_COUNT
      (new table sampleRate)⟩ := by
  refine ⟨?_, ?_⟩
  · simp only [List.length_replicate]
    rfl
  · intro o ho
    rw [List.eq_of_mem_replicate ho]
    exact ⟨ht, rfl, inRange_new_rounded table sampleRate (by rw [ht]; norm_num)⟩

/-- The engine `prepareToPlay` leaves behind, written out. -/
theorem prepareToPlay_eq_rounded (m : CMath Ieee) (s : WavetableSynth Ieee) (sampleRate : Ieee) :
    prepareToPlay m s sampleRate
      = ⟨sampleRate, List.replicate WavetableSynth.OSCILLATOR_COUNT
          (new (generateSineWaveTable m s) sampleRate)⟩ := by
  have h1 := prepareToPlay_sampleRate_rounded m s sampleRate
  have h2 := prepareToPlay_oscillators_rounded m s sampleRate
  cases hp : prepareToPlay m s sampleRate with
  | mk sr oscs =>
    rw [hp] at h1 h2
    simp only at h1 h2
    rw [h1, h2]

theorem invariant_prepareToPlay (m : CMath Ieee) (s : WavetableSynth Ieee) (sampleRate : Ieee) :
    Invariant (prepareToPlay m s sampleRate) := by
  rw [prepareToPlay_eq_rounded]
  obtain ⟨table, htable⟩ : ∃ table, generateSineWaveTable m s = table := ⟨_, rfl⟩
  rw [htable]
  exact invariant_replicate table sampleRate
    (by rw [← htable]; exact generateSineWaveTable_length_eq m s)

theorem inRange_of_increment (o : WavetableOscillator Ieee) (h : InRange o) (w : ℚ)
    (increment : Ieee) (hw : increment = Ieee.finite w) (hw0 : 0 ≤ w)
    (hw1 : w ≤ binary32.maxFinite) : InRange { o with indexIncrement := increment } := by
  obtain ⟨p, d, hp, -, hL, h0, h1, -, -⟩ := (inRange_iff o).mp h
  rw [inRange_iff]
  exact ⟨p, w, hp, hw, hL, h0, h1, hw0, hw1⟩

theorem invariant_handleMidiEvent (m : CMath Ieee)
    (hfreq : ∀ n : Nat, n < 128 →
      ∃ f : ℚ, midiNoteNumberToFrequency m (n : Int) = Ieee.finite f ∧ 0 ≤ f ∧ f ≤ 2 ^ 14)
    (s s1 : WavetableSynth Ieee) (midiEvent : MidiMessage)
    (hsr : Ieee.le (Ieee.finite 1) s.sampleRate = true) (hs : Invariant s)
    (h : handleMidiEvent m s midiEvent = some s1) : Invariant s1 := by
  obtain ⟨hlen, hall⟩ := hs
  unfold handleMidiEvent at h
  split at h
  · next n v hk =>
    split at h
    · exact absurd h (by simp)
    · next o0 ho0 =>
      rw [← Option.some.inj h]
      have hmem0 : o0 ∈ s.oscillators := List.getElem?_mem ho0
      have hn : n < 128 := by
        rw [← hlen]
        exact (List.getElem?_eq_some.mp ho0).1
      obtain ⟨ht0, hr0, hin0⟩ := hall o0 hmem0
      obtain ⟨f, hf, hf0, hf1⟩ := hfreq n hn
      obtain ⟨w, hw, hw0, hw1⟩ := setFrequency_increment_of_bounds o0 ht0 f hf0 hf1
        (by rw [hr0]; exact hsr)
      refine ⟨by simpa using hlen, ?_⟩
      intro o ho
      rcases List.mem_or_eq_of_mem_set ho with hm | rfl
      · exact hall o hm
      · refine ⟨ht0, hr0, ?_⟩
        rw [hf]
        exact inRange_of_increment o0 hin0 w _ hw hw0 (by
          rw [maxFinite_binary32]
          have : (2 : ℚ) ^ 20 ≤ 2 ^ 128 - 2 ^ 104 := by norm_num
          linarith)
  · next n hk =>
    split at h
    · exact absurd h (by simp)
    · next o0 ho0 =>
      rw [← Option.some.inj h]
      have hmem0 : o0 ∈ s.oscillators := List.getElem?_mem ho0
      obtain ⟨ht0, hr0, hin0⟩ := hall o0 hmem0
      refine ⟨by simpa using hlen, ?_⟩
      intro o ho
      rcases List.mem_or_eq_of_mem_set ho with hm | rfl
      · exact hall o hm
      · exact ⟨ht0, hr0, inRange_stop_rounded o0 (by rw [ht0]; norm_num)⟩
  · rw [← Option.some.inj h]
    refine ⟨by simpa using hlen, ?_⟩
    intro o ho
    simp only [List.mem_map] at ho
    obtain ⟨o0, hm, rfl⟩ := ho
    obtain ⟨ht0, hr0, hin0⟩ := hall o0 hm
    exact ⟨ht0, hr0, inRange_stop_rounded o0 (by rw [ht0]; norm_num)⟩
  · rw [← Option.some.inj h]
    exact ⟨hlen, hall⟩

theorem invariant_render (s s1 : WavetableSynth Ieee) (buffer buffer1 : AudioBuffer Ieee)
    (a b : Nat) (hs : Invariant s) (h : render s buffer a b = some (s1, buffer1)) :
    Invariant s1 := by
  obtain ⟨hlen, hall⟩ := hs
  obtain ⟨hrate, hrel⟩ := render_invariant_rounded s s1 buffer buffer1 a b h
  refine ⟨hrel.length_eq.symm.trans hlen, ?_⟩
  intro o1 ho1
  obtain ⟨n, hn⟩ := List.getElem?_of_mem ho1
  have hn1 : n < s1.oscillators.length := (List.getElem?_eq_some.mp hn).1
  have hn0 : n < s.oscillators.length := by rw [hrel.length_eq]; exact hn1
  have hget := List.Forall₂.get hrel hn0 hn1
  have ho1eq : s1.oscillators.get ⟨n, hn1⟩ = o1 := (List.getElem?_eq_some.mp hn).2
  rw [ho1eq] at hget
  obtain ⟨ht, hr, -, hin⟩ := hget
  obtain ⟨ht0, hr0, hin0⟩ := hall (s.oscillators.get ⟨n, hn0⟩) (List.get_mem _ _ _)
  exact ⟨by rw [ht]; exact ht0, (hr.trans hr0).trans hrate.symm,
    hin hin0 (by rw [ht0]; norm_num)⟩

/-- In every reachable state whose sample rate is at least 1, when the frequency of
every note is a finite number from 0 to `2 ^ 14`: the invariant holds. -/
theorem reachable_invariant_rounded (m : CMath Ieee)
    (hfreq : ∀ n : Nat, n < 128 →
      ∃ f : ℚ, midiNoteNumberToFrequency m (n : Int) = Ieee.finite f ∧ 0 ≤ f ∧ f ≤ 2 ^ 14)
    (s : WavetableSynth Ieee) (h : Reachable m s) :
    Ieee.le (Ieee.finite 1) s.sampleRate = true → Invariant s := by
  induction h with
  | prepare s0 sr _ => intro _; exact invariant_prepareToPlay m s0 sr
  | event s0 s1 e _ _ he ih =>
    intro hsr
    have hrate := handleMidiEvent_sampleRate_rounded m s0 s1 e he
    rw [hrate] at hsr
    exact invariant_handleMidiEvent m hfreq s0 s1 e hsr (ih hsr) he
  | render s0 s1 buffer buffer1 a b _ hr ih =>
    intro hsr
    have hrate := (render_invariant_rounded s0 s1 buffer buffer1 a b hr).1
    rw [hrate] at hsr
    exact invariant_render s0 s1 buffer buffer1 a b (ih hsr) hr

end Rounded

/-! ## Evaluating roundings to `float` -/

namespace Rounded

theorem round32_eq_of_normal {x : ℚ} (k n : Int) (h1 : (2 : ℚ) ^ k ≤ |x|)
    (h2 : |x| < (2 : ℚ) ^ (k + 1)) (hk : -126 ≤ k)
    (hr : roundHalfEven (x / 2 ^ (k - 23)) = n)
    (hov : |(n : ℚ) * 2 ^ (k - 23)| < (2 : ℚ) ^ (128 : Int)) :
    binary32.round x = Ieee.finite ((n : ℚ) * 2 ^ (k - 23)) := by
  have e : k - (((binary32.precision : Nat) : Int) - 1) = k - 23 := by simp [binary32]
  have e2 : (2 : ℚ) ^ (binary32.emax + 1) = 2 ^ (128 : Int) := by norm_num [binary32]
  have := FloatFormat.round_eq_of_normal binary32 (x := x) k n h1 h2 hk
    (by rw [e]; exact hr) (by rw [e, e2]; exact hov)
  rwa [e] at this

/-- A positive number of the normal range that is no tie rounds to the nearest multiple
of the unit in the last place. -/
theorem round32_near {x : ℚ} (k n : Int) (hk : -126 ≤ k) (h1 : (2 : ℚ) ^ k ≤ x)
    (h2 : x < (2 : ℚ) ^ (k + 1)) (h3 : (n : ℚ) - 1 / 2 < x / 2 ^ (k - 23))
    (h4 : x / 2 ^ (k - 23) < (n : ℚ) + 1 / 2)
    (hov : (n : ℚ) * 2 ^ (k - 23) < (2 : ℚ) ^ (128 : Int)) :
    binary32.round x = Ieee.finite ((n : ℚ) * 2 ^ (k - 23)) := by
  have hx : 0 < x := lt_of_lt_of_le (FloatFormat.two_zpow_pos k) h1
  have hq : 0 < x / 2 ^ (k - 23) := div_pos hx (FloatFormat.two_zpow_pos _)
  have hn : 0 ≤ n := by
    by_contra hneg
    have : (n : ℚ) ≤ -1 := by
      have : n ≤ -1 := by omega
      exact_mod_cast this
    linarith
  have hy : 0 ≤ (n : ℚ) * 2 ^ (k - 23) :=
    mul_nonneg (by exact_mod_cast hn) (le_of_lt (FloatFormat.two_zpow_pos _))
  exact round32_eq_of_normal k n (by rw [abs_of_pos hx]; exact h1)
    (by rw [abs_of_pos hx]; exact h2) hk (roundHalfEven_eq_of_near h3 h4)
    (by rw [abs_of_nonneg hy]; exact hov)

/-- A positive tie above an odd multiple of the unit in the last place rounds up. -/
theorem round32_tie_odd {x : ℚ} (k n : Int) (hk : -126 ≤ k) (h1 : (2 : ℚ) ^ k ≤ x)
    (h2 : x < (2 : ℚ) ^ (k + 1)) (h3 : x / 2 ^ (k - 23) = (n : ℚ) + 1 / 2) (hn : n % 2 = 1)
    (hn0 : 0 ≤ n) (hov : ((n + 1 : Int) : ℚ) * 2 ^ (k - 23) < (2 : ℚ) ^ (128 : Int)) :
    binary32.round x = Ieee.finite (((n + 1 : Int) : ℚ) * 2 ^ (k - 23)) := by
  have hx : 0 < x := lt_of_lt_of_le (FloatFormat.two_zpow_pos k) h1
  have hy : 0 ≤ ((n + 1 : Int) : ℚ) * 2 ^ (k - 23) :=
    mul_nonneg (by exact_mod_cast (by omega : 0 ≤ n + 1)) (le_of_lt (FloatFormat.two_zpow_pos _))
  exact round32_eq_of_normal k (n + 1)
    (by rw [abs_of_pos hx]; exact h1) (by rw [abs_of_pos hx]; exact h2) hk
    (roundHalfEven_tie_odd h3 hn) (by rw [abs_of_nonneg hy]; exact hov)

/-- A positive tie above an even multiple of the unit in the last place rounds down. -/
theorem round32_tie_even {x : ℚ} (k n : Int) (hk : -126 ≤ k) (h1 : (2 : ℚ) ^ k ≤ x)
    (h2 : x < (2 : ℚ) ^ (k + 1)) (h3 : x / 2 ^ (k - 23) = (n : ℚ) + 1 / 2) (hn : n % 2 = 0)
    (hn0 : 0 ≤ n) (hov : (n : ℚ) * 2 ^ (k - 23) < (2 : ℚ) ^ (128 : Int)) :
    binary32.round x = Ieee.finite ((n : ℚ) * 2 ^ (k - 23)) := by
  have hx : 0 < x := lt_of_lt_of_le (FloatFormat.two_zpow_pos k) h1
  have hy : 0 ≤ (n : ℚ) * 2 ^ (k - 23) :=
    mul_nonneg (by exact_mod_cast hn0) (le_of_lt (FloatFormat.two_zpow_pos _))
  exact round32_eq_of_normal k n
    (by rw [abs_of_pos hx]; exact h1) (by rw [abs_of_pos hx]; exact h2) hk
    (roundHalfEven_tie_even h3 hn) (by rw [abs_of_nonneg hy]; exact hov)

/-- A number `n * 2 ^ e` with `|n| < 2 ^ 24` and `-149 ≤ e` below the overflow
threshold is a `float`. -/
theorem round32_dyadic (x : ℚ) (n e : Int) (hx : x = (n : ℚ) * 2 ^ e) (hn : |n| < 2 ^ 24)
    (he : -149 ≤ e) (hov : |x| < (2 : ℚ) ^ (128 : Int)) :
    binary32.round x = Ieee.finite x := by
  subst hx
  have e2 : (2 : ℚ) ^ (binary32.emax + 1) = 2 ^ (128 : Int) := by norm_num [binary32]
  exact FloatFormat.round_of_representable binary32 n e (by simpa [binary32] using hn)
    (by simpa [binary32] using he) (by rw [e2]; exact hov)

end Rounded

namespace FloatFormat

/-- A value of the format that is not negative is `N * 2 ^ u` for a natural number
`N < 2 ^ precision`, `u` being the exponent of its unit in the last place. -/
theorem natural_significand (fmt : FloatFormat) {p : ℚ} (h0 : 0 ≤ p) (h : fmt.round p = Ieee.finite p) :
    ∃ N : Nat, p = (N : ℚ) * 2 ^ fmt.ulpExponent p ∧ N < 2 ^ fmt.precision := by
  have hupos := two_zpow_pos (fmt.ulpExponent p)
  have hy : (roundHalfEven (p / 2 ^ fmt.ulpExponent p) : ℚ) * 2 ^ fmt.ulpExponent p = p := by
    unfold round at h
    dsimp only at h
    split_ifs at h
    exact Ieee.finite.inj h
  have hN0 : 0 ≤ roundHalfEven (p / 2 ^ fmt.ulpExponent p) :=
    roundHalfEven_nonneg (div_nonneg h0 (le_of_lt hupos))
  obtain ⟨N, hN⟩ := Int.eq_ofNat_of_zero_le hN0
  have hpN : p = (N : ℚ) * 2 ^ fmt.ulpExponent p := by
    rw [hN] at hy
    exact_mod_cast hy.symm
  refine ⟨N, hpN, ?_⟩
  rcases eq_or_lt_of_le h0 with hz | hpos
  · have : (N : ℚ) * 2 ^ fmt.ulpExponent p = 0 := by rw [← hpN, ← hz]
    have hNz : (N : ℚ) = 0 := by
      rcases mul_eq_zero.mp this with h1 | h1
      · exact h1
      · exact absurd h1 (ne_of_gt hupos)
    have : N = 0 := by exact_mod_cast hNz
    rw [this]
    positivity
  · have habs : |p| = p := abs_of_pos hpos
    have hlt : p < (2 : ℚ) ^ (Int.log 2 |p| + 1) := by
      have := Int.lt_zpow_succ_log_self (b := 2) (by norm_num) |p|
      rw [habs] at this ⊢
      simpa using this
    have hle : (2 : ℚ) ^ (Int.log 2 |p| + 1)
        ≤ 2 ^ (fmt.ulpExponent p + (fmt.precision : Int)) := by
      apply two_zpow_le
      unfold ulpExponent
      have := le_max_left (Int.log 2 |p|) fmt.emin
      omega
    have h3 : (N : ℚ) * 2 ^ fmt.ulpExponent p
        < 2 ^ (fmt.precision : Int) * 2 ^ fmt.ulpExponent p := by
      rw [← hpN, ← zpow_add₀ (by norm_num), add_comm]
      exact lt_of_lt_of_le hlt hle
    have h4 : (N : ℚ) < 2 ^ (fmt.precision : Int) := lt_of_mul_lt_mul_right h3 (le_of_lt hupos)
    rw [zpow_natCast] at h4
    exact_mod_cast h4

/-- The fractional part of a value of the format that is not negative is a value of the
format: the subtraction `index - float(int(index))` is exact. -/
theorem round_fract (fmt : FloatFormat) {p : ℚ} (hm : 0 ≤ fmt.emax) (h0 : 0 ≤ p) (h : fmt.round p = Ieee.finite p) :
    fmt.round (p - (⌊p⌋ : ℚ)) = Ieee.finite (p - (⌊p⌋ : ℚ)) := by
  obtain ⟨N, hpN, hN⟩ := natural_significand fmt h0 h
  have hf0 : 0 ≤ p - (⌊p⌋ : ℚ) := by linarith [Int.floor_le p]
  have hf1 : p - (⌊p⌋ : ℚ) < 1 := by linarith [Int.lt_floor_add_one p]
  have hov : |p - (⌊p⌋ : ℚ)| < (2 : ℚ) ^ (fmt.emax + 1) := by
    rw [abs_of_nonneg hf0]
    have : (1 : ℚ) ≤ 2 ^ (fmt.emax + 1) := by
      have := two_zpow_le (j := 0) (k := fmt.emax + 1) (by omega)
      simpa using this
    linarith
  by_cases hu : 0 ≤ fmt.ulpExponent p
  · -- the value is an integer
    have hint : p = (((N : Int) * (2 : Int) ^ (fmt.ulpExponent p).toNat : Int) : ℚ) := by
      rw [Int.cast_mul, ← two_zpow_eq_intCast hu]
      simpa using hpN
    have hfl : (⌊p⌋ : ℚ) = p := by
      rw [hint, Int.floor_intCast]
    rw [hfl, sub_self]
    exact round_zero fmt
  · have hu1 : fmt.ulpExponent p < 0 := lt_of_not_le hu
    obtain ⟨d, hd⟩ := Int.eq_ofNat_of_zero_le (by omega : 0 ≤ -fmt.ulpExponent p)
    have hD : (2 : ℚ) ^ fmt.ulpExponent p = 1 / ((2 ^ d : Nat) : ℚ) := by
      have : fmt.ulpExponent p = -(d : Int) := by omega
      rw [this, zpow_neg, zpow_natCast]
      simp
    have hDpos : (0 : ℚ) < ((2 ^ d : Nat) : ℚ) := by positivity
    have hpq : p = (N : ℚ) / ((2 ^ d : Nat) : ℚ) := by
      rw [hpN, hD]
      ring
    have hfl : (⌊p⌋ : ℚ) = ((N / 2 ^ d : Nat) : ℚ) := by
      have : ⌊p⌋ = ((N / 2 ^ d : Nat) : Int) := by
        rw [hpq, Rat.floor_natCast_div_natCast]
        norm_cast
      rw [this, Int.cast_natCast]
    have hdm : (N : ℚ)
        = ((N / 2 ^ d : Nat) : ℚ) * ((2 ^ d : Nat) : ℚ) + ((N % 2 ^ d : Nat) : ℚ) := by
      have := Nat.div_add_mod N (2 ^ d)
      have h2 : ((2 ^ d * (N / 2 ^ d) + N % 2 ^ d : Nat) : ℚ) = (N : ℚ) := by rw [this]
      rw [← h2]
      push_cast
      ring
    have key : (N : ℚ) / ((2 ^ d : Nat) : ℚ) - ((N / 2 ^ d : Nat) : ℚ)
        = ((N % 2 ^ d : Nat) : ℚ) * (1 / ((2 ^ d : Nat) : ℚ)) := by
      rw [div_sub' _ _ _ (ne_of_gt hDpos), mul_one_div]
      congr 1
      linarith
    have hfr : p - (⌊p⌋ : ℚ) = (((N % 2 ^ d : Nat) : Int) : ℚ) * 2 ^ fmt.ulpExponent p := by
      rw [hfl, hD, Int.cast_natCast, ← key]
      congr 1
    rw [hfr]
    apply round_of_representable
    · have h1 : N % 2 ^ d ≤ N := Nat.mod_le _ _
      have h2 : ((N % 2 ^ d : Nat) : Int) < (2 : Int) ^ fmt.precision := by
        have : N % 2 ^ d < 2 ^ fmt.precision := lt_of_le_of_lt h1 hN
        exact_mod_cast this
      rw [abs_of_nonneg (Int.natCast_nonneg _)]
      exact h2
    · unfold ulpExponent
      have := le_max_right (Int.log 2 |p|) fmt.emin
      omega
    · rw [← hfr]
      exact hov

end FloatFormat

/-! ## The error of a rounding -/

theorem abs_roundHalfEven_sub_le (x : ℚ) : |(roundHalfEven x : ℚ) - x| ≤ 1 / 2 := by
  have h1 := Int.floor_le x
  have h2 := Int.lt_floor_add_one x
  unfold roundHalfEven
  rw [abs_le]
  split_ifs with ha hb hc
  · constructor <;> linarith
  · push_cast
    constructor <;> linarith
  · have : x - (⌊x⌋ : ℚ) = 1 / 2 := le_antisymm (not_lt.mp hb) (not_lt.mp ha)
    constructor <;> linarith
  · have : x - (⌊x⌋ : ℚ) = 1 / 2 := le_antisymm (not_lt.mp hb) (not_lt.mp ha)
    push_cast
    constructor <;> linarith

namespace FloatFormat

/-- The error of a rounding without overflow: at most the relative error
`2 ^ -precision` plus half the spacing of the subnormal numbers. -/
theorem round_error (fmt : FloatFormat) {x : ℚ} (hp : 2 ≤ fmt.precision)
    (hm : fmt.emin ≤ fmt.emax) (hx : |x| ≤ (2 : ℚ) ^ fmt.emax) :
    ∃ y, fmt.round x = Ieee.finite y ∧
      |y - x| ≤ |x| * 2 ^ (-(fmt.precision : Int)) + 2 ^ (fmt.emin - (fmt.precision : Int)) := by
  have hpI : (2 : Int) ≤ (fmt.precision : Int) := by exact_mod_cast hp
  by_cases hx0 : x = 0
  · subst hx0
    refine ⟨0, round_zero fmt, ?_⟩
    simp only [sub_self, abs_zero, zero_mul, zero_add]
    exact le_of_lt (two_zpow_pos _)
  · have hxpos : 0 < |x| := abs_pos.mpr hx0
    have hupos := two_zpow_pos (fmt.ulpExponent x)
    have herr0 := abs_roundHalfEven_sub_le (x / 2 ^ fmt.ulpExponent x)
    have hyx : (roundHalfEven (x / 2 ^ fmt.ulpExponent x) : ℚ) * 2 ^ fmt.ulpExponent x - x
        = ((roundHalfEven (x / 2 ^ fmt.ulpExponent x) : ℚ) - x / 2 ^ fmt.ulpExponent x)
          * 2 ^ fmt.ulpExponent x := by
      field_simp
    have herr1 : |(roundHalfEven (x / 2 ^ fmt.ulpExponent x) : ℚ) * 2 ^ fmt.ulpExponent x - x|
        ≤ 1 / 2 * 2 ^ fmt.ulpExponent x := by
      rw [hyx, abs_mul, abs_of_pos hupos]
      exact mul_le_mul_of_nonneg_right herr0 (le_of_lt hupos)
    have hhalf : (1 / 2 : ℚ) * 2 ^ fmt.ulpExponent x = 2 ^ (fmt.ulpExponent x - 1) := by
      rw [zpow_sub₀ (by norm_num), zpow_one]
      ring
    have hbound : (2 : ℚ) ^ (fmt.ulpExponent x - 1)
        ≤ |x| * 2 ^ (-(fmt.precision : Int)) + 2 ^ (fmt.emin - (fmt.precision : Int)) := by
      unfold ulpExponent
      rcases max_cases (Int.log 2 |x|) fmt.emin with ⟨h, -⟩ | ⟨h, -⟩ <;> rw [h]
      · have e : Int.log 2 |x| - ((fmt.precision : Int) - 1) - 1
            = Int.log 2 |x| + -(fmt.precision : Int) := by omega
        rw [e, zpow_add₀ (by norm_num)]
        have := mul_le_mul_of_nonneg_right (zpow_log_le hxpos)
          (le_of_lt (two_zpow_pos (-(fmt.precision : Int))))
        linarith [two_zpow_pos (fmt.emin - (fmt.precision : Int))]
      · have e : fmt.emin - ((fmt.precision : Int) - 1) - 1 = fmt.emin - (fmt.precision : Int) := by
          omega
        rw [e]
        have : 0 ≤ |x| * 2 ^ (-(fmt.precision : Int)) :=
          mul_nonneg (le_of_lt hxpos) (le_of_lt (two_zpow_pos _))
        linarith
    have herr : |(roundHalfEven (x / 2 ^ fmt.ulpExponent x) : ℚ) * 2 ^ fmt.ulpExponent x - x|
        ≤ |x| * 2 ^ (-(fmt.precision : Int)) + 2 ^ (fmt.emin - (fmt.precision : Int)) := by
      rw [hhalf] at herr1
      exact le_trans herr1 hbound
    refine ⟨_, ?_, herr⟩
    unfold round
    dsimp only
    rw [if_neg]
    rw [not_le]
    -- the result is below the overflow threshold
    have h1 : |(roundHalfEven (x / 2 ^ fmt.ulpExponent x) : ℚ) * 2 ^ fmt.ulpExponent x|
        ≤ |x| + (|x| * 2 ^ (-(fmt.precision : Int)) + 2 ^ (fmt.emin - (fmt.precision : Int))) := by
      have := abs_add ((roundHalfEven (x / 2 ^ fmt.ulpExponent x) : ℚ) * 2 ^ fmt.ulpExponent x - x) x
      rw [sub_add_cancel] at this
      linarith
    have h2 : (2 : ℚ) ^ (-(fmt.precision : Int)) ≤ 2 ^ (-2 : Int) := two_zpow_le (by omega)
    have h3 : (2 : ℚ) ^ (fmt.emin - (fmt.precision : Int)) ≤ 2 ^ (fmt.emax - 1) :=
      two_zpow_le (by omega)
    have h4 : (2 : ℚ) ^ (fmt.emax + 1) = 4 * 2 ^ (fmt.emax - 1) := by
      have : fmt.emax + 1 = 2 + (fmt.emax - 1) := by omega
      rw [this, zpow_add₀ (by norm_num)]
      norm_num
    have h5 : (2 : ℚ) ^ fmt.emax = 2 * 2 ^ (fmt.emax - 1) := by
      have : fmt.emax = 1 + (fmt.emax - 1) := by omega
      nth_rewrite 1 [this]
      rw [zpow_add₀ (by norm_num)]
      norm_num
    have h6 : |x| * 2 ^ (-(fmt.precision : Int)) ≤ |x| * 2 ^ (-2 : Int) :=
      mul_le_mul_of_nonneg_left h2 (le_of_lt hxpos)
    have h7 : (2 : ℚ) ^ (-2 : Int) = 1 / 4 := by norm_num
    have h8 := two_zpow_pos (fmt.emax - 1)
    rw [h7] at h6
    rw [h5] at hx
    rw [h4]
    linarith

end FloatFormat


namespace Rounded

/-- The error of a rounding to `float` of a number of size at most `2 ^ 127`. -/
theorem round32_error {x : ℚ} (hx : |x| ≤ 2 ^ 127) :
    ∃ y, binary32.round x = Ieee.finite y ∧ |y - x| ≤ |x| * (1 / 2 ^ 24) + 1 / 2 ^ 150 := by
  have e0 : (2 : ℚ) ^ binary32.emax = 2 ^ 127 := by
    rw [show binary32.emax = ((127 : Nat) : Int) from rfl, zpow_natCast]
  obtain ⟨y, hy, herr⟩ := FloatFormat.round_error binary32 (x := x) (by simp [binary32])
    (by simp [binary32]) (by rw [e0]; exact hx)
  refine ⟨y, hy, ?_⟩
  have e1 : (2 : ℚ) ^ (-((binary32.precision : Nat) : Int)) = 1 / 2 ^ 24 := by
    norm_num [binary32]
  have e2 : (2 : ℚ) ^ (binary32.emin - ((binary32.precision : Nat) : Int)) = 1 / 2 ^ 150 := by
    norm_num [binary32]
  rw [e1, e2] at herr
  exact herr

/-- The size of a rounded number. -/
theorem round32_abs_le {x : ℚ} (hx : |x| ≤ 2 ^ 127) :
    ∃ y, binary32.round x = Ieee.finite y ∧ |y| ≤ |x| * (1 + 1 / 2 ^ 24) + 1 / 2 ^ 150 := by
  obtain ⟨y, hy, herr⟩ := round32_error hx
  refine ⟨y, hy, ?_⟩
  have := abs_add (y - x) x
  rw [sub_add_cancel] at this
  linarith

/-- The rounded weighted sum `float(float(w0 * a) + float(w1 * b))` of two numbers of
size at most `B ≤ 2 ^ 126`, with weights of `[0, 1]` whose sum is at most
`1 + 2 ^ -24 + 2 ^ -150`: a finite number of size at most `B * (1 + 2 ^ -22) + 2 ^ -148`. -/
theorem weighted_sum_bound (w0 w1 a b B : ℚ) (hw0 : 0 ≤ w0) (hw01 : w0 ≤ 1) (hw1 : 0 ≤ w1)
    (hw11 : w1 ≤ 1) (hsum : w0 + w1 ≤ 1 + 1 / 2 ^ 24 + 1 / 2 ^ 150) (ha : |a| ≤ B)
    (hb : |b| ≤ B) (hB : B ≤ 2 ^ 126) :
    ∃ v, Ieee.add binary32 (Ieee.mul binary32 (Ieee.finite w0) (Ieee.finite a))
        (Ieee.mul binary32 (Ieee.finite w1) (Ieee.finite b)) = Ieee.finite v ∧
      |v| ≤ B * (1 + 1 / 2 ^ 22) + 1 / 2 ^ 148 := by
  have hB0 : 0 ≤ B := le_trans (abs_nonneg a) ha
  have h0 : |w0 * a| ≤ w0 * B := by
    rw [abs_mul, abs_of_nonneg hw0]
    exact mul_le_mul_of_nonneg_left ha hw0
  have h1 : |w1 * b| ≤ w1 * B := by
    rw [abs_mul, abs_of_nonneg hw1]
    exact mul_le_mul_of_nonneg_left hb hw1
  have h0B : w0 * B ≤ B := by nlinarith
  have h1B : w1 * B ≤ B := by nlinarith
  obtain ⟨p0, hp0, hp0e⟩ := round32_abs_le (x := w0 * a) (by
    have : (2 : ℚ) ^ 126 ≤ 2 ^ 127 := by norm_num
    linarith)
  obtain ⟨p1, hp1, hp1e⟩ := round32_abs_le (x := w1 * b) (by
    have : (2 : ℚ) ^ 126 ≤ 2 ^ 127 := by norm_num
    linarith)
  have hu : (0 : ℚ) ≤ 1 + 1 / 2 ^ 24 := by norm_num
  have hs : |p0 + p1| ≤ (w0 + w1) * B * (1 + 1 / 2 ^ 24) + 2 * (1 / 2 ^ 150) := by
    have := abs_add p0 p1
    have e0 : |w0 * a| * (1 + 1 / 2 ^ 24) ≤ w0 * B * (1 + 1 / 2 ^ 24) :=
      mul_le_mul_of_nonneg_right h0 hu
    have e1 : |w1 * b| * (1 + 1 / 2 ^ 24) ≤ w1 * B * (1 + 1 / 2 ^ 24) :=
      mul_le_mul_of_nonneg_right h1 hu
    nlinarith
  have hsB : (w0 + w1) * B ≤ (1 + 1 / 2 ^ 24 + 1 / 2 ^ 150) * B :=
    mul_le_mul_of_nonneg_right hsum hB0
  have hs2 : |p0 + p1| ≤ (1 + 1 / 2 ^ 24 + 1 / 2 ^ 150) * B * (1 + 1 / 2 ^ 24)
      + 2 * (1 / 2 ^ 150) := by
    have := mul_le_mul_of_nonneg_right hsB hu
    linarith
  have hsmall : (1 + 1 / 2 ^ 24 + 1 / 2 ^ 150) * B * (1 + 1 / 2 ^ 24) + 2 * (1 / 2 ^ 150)
      ≤ (2 : ℚ) ^ 127 := by
    have c : (1 + 1 / 2 ^ 24 + 1 / 2 ^ 150 : ℚ) * (1 + 1 / 2 ^ 24) ≤ 3 / 2 := by norm_num
    have : (1 + 1 / 2 ^ 24 + 1 / 2 ^ 150) * B * (1 + 1 / 2 ^ 24)
        = ((1 + 1 / 2 ^ 24 + 1 / 2 ^ 150) * (1 + 1 / 2 ^ 24)) * B := by ring
    rw [this]
    have h3 := mul_le_mul_of_nonneg_right c hB0
    have h4 : (3 / 2 : ℚ) * B ≤ 3 / 2 * 2 ^ 126 := by linarith
    have h5 : (3 / 2 : ℚ) * 2 ^ 126 + 2 * (1 / 2 ^ 150) ≤ 2 ^ 127 := by norm_num
    linarith
  obtain ⟨v, hv, hve⟩ := round32_abs_le (x := p0 + p1) (le_trans hs2 hsmall)
  refine ⟨v, by simp only [Ieee.mul, hp0, hp1, Ieee.add, hv], ?_⟩
  have h6 := mul_le_mul_of_nonneg_right hs2 hu
  have c2 : (1 + 1 / 2 ^ 24 + 1 / 2 ^ 150 : ℚ) * (1 + 1 / 2 ^ 24) * (1 + 1 / 2 ^ 24)
      ≤ 1 + 1 / 2 ^ 22 := by norm_num
  have h7 := mul_le_mul_of_nonneg_right c2 hB0
  have c3 : (2 : ℚ) * (1 / 2 ^ 150) * (1 + 1 / 2 ^ 24) + 1 / 2 ^ 150 ≤ 1 / 2 ^ 148 := by
    norm_num
  nlinarith

/-- Every entry of the generated table is a value of `sinf`. -/
theorem mem_generateSineWaveTable_rounded (m : CMath Ieee) (s : WavetableSynth Ieee) (t : Ieee)
    (ht : t ∈ generateSineWaveTable m s) : ∃ y : Ieee, t = m.sinf y := by
  obtain ⟨i, hi⟩ := List.getElem?_of_mem ht
  have hlt : i < 64 := by
    rcases List.getElem?_eq_some.mp hi with ⟨h, -⟩
    rw [generateSineWaveTable_length_eq] at h
    exact h
  simp only [generateSineWaveTable] at hi
  rw [foldl_set_range_getElem?
    (fun i => m.sinf
      (Ieee.div binary32
        (Ieee.mul binary32
          (Ieee.mul binary32 (Ieee.finite 2)
            (Ieee.mul binary32 (m.atanf (Ieee.finite 1)) (Ieee.finite 4)))
          (Ieee.ofInt binary32 (i : Int)))
        (Ieee.ofInt binary32 (WavetableSynth.WAVETABLE_LENGTH : Int))))] at hi
  rw [if_pos ⟨hlt, by simp [WavetableSynth.WAVETABLE_LENGTH, hlt]⟩] at hi
  exact ⟨_, (Option.some.inj hi).symm⟩

end Rounded

namespace Rounded

/-- An increment that overflows: on the table `[0, 1]` at sample rate 2,
`setFrequency(FLT_MAX)`, with `FLT_MAX = 2 ^ 128 - 2 ^ 104`, computes
`float(FLT_MAX * 2)`, the positive infinity, and the next `getSample` leaves
`index = fmod(0 + inf, 2)`, a NaN. -/
theorem index_is_nan_after_overflow :
    runAll (new [Ieee.finite 0, Ieee.finite 1] (Ieee.finite 2))
        [OscillatorCall.setFrequency (Ieee.finite (2 ^ 128 - 2 ^ 104)),
          OscillatorCall.getSample]
      = some ⟨[Ieee.finite 0, Ieee.finite 1], Ieee.finite 2, Ieee.nan, Ieee.inf false⟩ := by
  have key : ∀ f : ℚ, binary32.round (f * ((2 : Nat) : ℚ)) = Ieee.inf false →
      runAll (new [Ieee.finite 0, Ieee.finite 1] (Ieee.finite 2))
        [OscillatorCall.setFrequency (Ieee.finite f), OscillatorCall.getSample]
      = some ⟨[Ieee.finite 0, Ieee.finite 1], Ieee.finite 2, Ieee.nan, Ieee.inf false⟩ := by
    intro f rprod
    have hlt : decide ((2 : ℚ) < 0) = false := by norm_num
    have hinc : (setFrequency (new [Ieee.finite 0, Ieee.finite 1] (Ieee.finite 2))
        (Ieee.finite f)).indexIncrement = Ieee.inf false := by
      have hlen : (new [Ieee.finite 0, Ieee.finite 1] (Ieee.finite 2)).waveTable.length = 2 := rfl
      have hsr : (new [Ieee.finite 0, Ieee.finite 1] (Ieee.finite 2)).sampleRate
          = Ieee.finite 2 := rfl
      simp only [setFrequency, hlen, hsr, Ieee.ofInt_binary32_natCast 2 (by norm_num), Ieee.mul,
        rprod, Ieee.div, Ieee.convert, hlt]
      rfl
    obtain ⟨oOn, hoOn⟩ : ∃ oOn, setFrequency (new [Ieee.finite 0, Ieee.finite 1] (Ieee.finite 2))
        (Ieee.finite f) = oOn := ⟨_, rfl⟩
    have hOnInc : oOn.indexIncrement = Ieee.inf false := by rw [← hoOn]; exact hinc
    have hOnIdx : oOn.index = Ieee.finite 0 := by rw [← hoOn]; rfl
    have hOnTab : oOn.waveTable = [Ieee.finite 0, Ieee.finite 1] := by rw [← hoOn]; rfl
    have hOnSr : oOn.sampleRate = Ieee.finite 2 := by rw [← hoOn]; rfl
    obtain ⟨a, b, -, -, hg⟩ := getSample_of_inside_rounded oOn 0 hOnIdx
      (by rw [hOnTab]; simp) (by rw [hOnTab]; simp) (le_refl _) (by rw [hOnTab]; simp)
    have hnan : Ieee.fmod (Ieee.add binary32 oOn.index oOn.indexIncrement)
        (Ieee.finite (oOn.waveTable.length : ℚ)) = Ieee.nan := by
      rw [hOnIdx, hOnInc]
      rfl
    rw [hnan] at hg
    simp only [runAll, run, hoOn, hg, hOnTab, hOnSr, hOnInc]
  exact key _ (FloatFormat.round_overflow binary32 (by simp [binary32]) (by simp [binary32])
      (by norm_num [binary32]))

end Rounded

/-! ## A block with one `NoteOn` at its start, in IEEE 754 arithmetic -/

namespace Rounded

theorem oscillatorLoop_empty_range_rounded (ch : List Ieee) (a : Nat)
    (oscs : List (WavetableOscillator Ieee)) :
    oscillatorLoop ch a a oscs = some (oscs, ch) := by
  induction oscs with
  | nil => rfl
  | cons o rest ih =>
    simp only [oscillatorLoop, Nat.sub_self, sampleLoop, ite_self, ih]

theorem copyRange_empty_range_rounded (src dst : List Ieee) (a : Nat) (hs : a ≤ src.length)
    (hd : a ≤ dst.length) : copyRange src dst a a = some dst := by
  simp only [copyRange, le_refl, hs, hd, and_self, if_true, Nat.sub_self, List.take_zero,
    List.append_nil, List.take_append_drop]

theorem copyLoop_empty_range_rounded (src : List Ieee) (a : Nat) (hs : a ≤ src.length)
    (others : List (List Ieee)) (ho : ∀ ch ∈ others, a ≤ ch.length) :
    copyLoop src a a others = some others := by
  induction others with
  | nil => rfl
  | cons ch rest ih =>
    simp only [copyLoop,
      copyRange_empty_range_rounded src ch a hs (ho ch (List.mem_cons_self _ _)),
      ih (fun c hc => ho c (List.mem_cons_of_mem _ hc))]

/-- Rendering an empty range changes nothing. -/
theorem render_empty_range_rounded (s : WavetableSynth Ieee) (buffer : AudioBuffer Ieee)
    (a : Nat) (hwf : buffer.WellFormed) (hch : 0 < buffer.channels.length)
    (ha : a ≤ buffer.numSamples) : render s buffer a a = some (s, buffer) := by
  obtain ⟨n, channels⟩ := buffer
  cases channels with
  | nil => exact absurd hch (by simp)
  | cons first others =>
    have hf : a ≤ first.length := by
      rw [hwf first (List.mem_cons_self _ _)]; exact ha
    have ho : ∀ ch ∈ others, a ≤ ch.length := by
      intro ch hm
      rw [hwf ch (List.mem_cons_of_mem _ hm)]; exact ha
    simp only [render, oscillatorLoop_empty_range_rounded,
      copyLoop_empty_range_rounded first a hf others ho]

/-- In a bank of silent oscillators with one slot replaced by a playing one, that one is
the only one playing. -/
theorem filter_isPlaying_set_replicate_rounded (o0 o1 : WavetableOscillator Ieee)
    (h0 : isPlaying o0 = false) (h1 : isPlaying o1 = true) (c : Nat) :
    ∀ n : Nat, n < c →
      ((List.replicate c o0).set n o1).filter (fun o => isPlaying o) = [o1] := by
  have hnil : ∀ k : Nat, (List.replicate k o0).filter (fun o => isPlaying o) = [] := by
    intro k
    rw [List.filter_eq_nil_iff]
    intro o ho
    rw [List.eq_of_mem_replicate ho, h0]
    simp
  induction c with
  | zero => intro n hn; exact absurd hn (Nat.not_lt_zero n)
  | succ c ih =>
    intro n hn
    have h0n : ¬ isPlaying o0 = true := by rw [h0]; simp
    cases n with
    | zero =>
      rw [List.replicate_succ, List.set_cons_zero, List.filter_cons_of_pos h1, hnil c]
    | succ n =>
      rw [List.replicate_succ, List.set_cons_succ, List.filter_cons_of_neg h0n,
        ih n (by omega)]

theorem mem_set_replicate_rounded (o0 o1 o : WavetableOscillator Ieee) (c n : Nat)
    (h : o ∈ (List.replicate c o0).set n o1) : o = o0 ∨ o = o1 := by
  rcases List.mem_or_eq_of_mem_set h with hm | rfl
  · exact Or.inl (List.eq_of_mem_replicate hm)
  · exact Or.inr rfl

/-- One block whose only event is a `NoteOn` at time stamp 0, on a bank of silent
oscillators: every sample of channel 0 has the solo sample of the started oscillator
added to it, in `float`. -/
theorem processBlock_single_noteOn_rounded (m : CMath Ieee) (P : WavetableSynth Ieee)
    (o0 : WavetableOscillator Ieee) (n v : Nat) (buffer : AudioBuffer Ieee)
    (first : List Ieee) (others : List (List Ieee))
    (hP : P.oscillators = List.replicate 128 o0)
    (h0 : isPlaying o0 = false) (hn : n < 128) (hwf : buffer.WellFormed)
    (hcs : buffer.channels = first :: others)
    (hplay : isPlaying (setFrequency o0 (midiNoteNumberToFrequency m (n : Int))) = true)
    (hin : InRange (setFrequency o0 (midiNoteNumberToFrequency m (n : Int))))
    (hL2 : o0.waveTable.length ≤ 2 ^ 24) :
    ∃ s1 b1, processBlock m P buffer [⟨0, MidiKind.noteOn n v⟩] = some (s1, b1) ∧
      ∀ k : Nat, k < buffer.numSamples →
        b1.sample? 0 k = some (Ieee.add binary32 (first.getD k (Ieee.finite 0))
          ((soloSamples (setFrequency o0 (midiNoteNumberToFrequency m (n : Int)))
              buffer.numSamples).getD k (Ieee.finite 0))) := by
  have hch : 0 < buffer.channels.length := by rw [hcs]; simp
  have hlen : n < P.oscillators.length := by rw [hP, List.length_replicate]; exact hn
  have hget : P.oscillators[n] = o0 := by
    simp only [hP, List.getElem_replicate]
  have hflen : first.length = buffer.numSamples := hwf first (by rw [hcs]; simp)
  have holen : ∀ ch ∈ others, buffer.numSamples ≤ ch.length := by
    intro ch hm
    rw [hwf ch (by rw [hcs]; exact List.mem_cons_of_mem _ hm)]
  have hsolo : ∀ o ∈ (List.replicate 128 o0).set n
        (setFrequency o0 (midiNoteNumberToFrequency m (n : Int))),
      isPlaying o = true → ∃ r, getSamples o (buffer.numSamples - 0) = some r := by
    intro o ho hp
    rcases mem_set_replicate_rounded _ _ o 128 n ho with rfl | rfl
    · rw [h0] at hp; exact absurd hp (by simp)
    · obtain ⟨xs, hx, -⟩ :=
        getSamples_of_inRange_rounded (buffer.numSamples - 0) _ hin hL2
      exact ⟨_, hx⟩
  obtain ⟨first1, others1, hr, hl1, hp1, -, -⟩ :=
    render_spec_rounded
      ({ P with oscillators := ((List.replicate 128 o0).set n
          (setFrequency o0 (midiNoteNumberToFrequency m (n : Int)))) } : WavetableSynth Ieee)
      buffer first others 0 buffer.numSamples hcs (Nat.zero_le _) (by omega) holen hsolo
  dsimp only at hr hp1
  refine ⟨⟨P.sampleRate, ((List.replicate 128 o0).set n
      (setFrequency o0 (midiNoteNumberToFrequency m (n : Int)))).map
        (fun o => if isPlaying o then afterSamples o (buffer.numSamples - 0) else o)⟩,
    ⟨buffer.numSamples, first1 :: others1⟩, ?_, ?_⟩
  · simp only [processBlock, eventLoop,
      render_empty_range_rounded P buffer 0 hwf hch (Nat.zero_le _),
      handleMidiEvent_noteOn_rounded m P n 0 v hlen, hget, hP, List.getElem_replicate]
    exact hr
  · intro k hk
    rw [AudioBuffer.sample?_zero _ first1 others1 rfl,
      getElem?_eq_some_getD first1 k (Ieee.finite 0) (by omega), hp1 k,
      if_pos ⟨Nat.zero_le _, hk⟩]
    rw [filter_isPlaying_set_replicate_rounded o0 _ h0 hplay 128 n hn]
    simp

end Rounded

namespace Rounded

/-- A positive `double` quotient of the normal range that is no tie rounds to the nearest
multiple of the unit in the last place. -/
theorem round64_near {x : ℚ} (k n : Int) (hk : -1022 ≤ k) (h1 : (2 : ℚ) ^ k ≤ x)
    (h2 : x < (2 : ℚ) ^ (k + 1)) (h3 : (n : ℚ) - 1 / 2 < x / 2 ^ (k - 52))
    (h4 : x / 2 ^ (k - 52) < (n : ℚ) + 1 / 2)
    (hov : (n : ℚ) * 2 ^ (k - 52) < (2 : ℚ) ^ (1024 : Int)) :
    binary64.round x = Ieee.finite ((n : ℚ) * 2 ^ (k - 52)) := by
  have hx : 0 < x := lt_of_lt_of_le (FloatFormat.two_zpow_pos k) h1
  have hq : 0 < x / 2 ^ (k - 52) := div_pos hx (FloatFormat.two_zpow_pos _)
  have hn : 0 ≤ n := by
    by_contra hneg
    have : (n : ℚ) ≤ -1 := by
      have : n ≤ -1 := by omega
      exact_mod_cast this
    linarith
  have hy : 0 ≤ (n : ℚ) * 2 ^ (k - 52) :=
    mul_nonneg (by exact_mod_cast hn) (le_of_lt (FloatFormat.two_zpow_pos _))
  have e : k - (((binary64.precision : Nat) : Int) - 1) = k - 52 := by simp [binary64]
  have e2 : (2 : ℚ) ^ (binary64.emax + 1) = 2 ^ (1024 : Int) := by norm_num [binary64]
  have := FloatFormat.round_eq_of_normal binary64 (x := x) k n
    (by rw [abs_of_pos hx]; exact h1) (by rw [abs_of_pos hx]; exact h2) hk
    (by rw [e]; exact roundHalfEven_eq_of_near h3 h4)
    (by rw [e, e2, abs_of_nonneg hy]; exact hov)
  rwa [e] at this

/-- The quotient `28160 / 48000` as a `double`. -/
theorem note_increment_double :
    binary64.round (28160 / 48000) = Ieee.finite (5284223562781382 / 9007199254740992) := by
  have h := round64_near (x := 28160 / 48000) (-1) 5284223562781382 (by norm_num)
    (by norm_num) (by norm_num) (by norm_num) (by norm_num) (by norm_num)
  rw [h]
  norm_num

/-- The `double` quotient as a `float`: `9842633 / 2 ^ 24`, about `0.58666664`. -/
theorem note_increment_float :
    binary32.round (5284223562781382 / 9007199254740992)
      = Ieee.finite (9842633 / 16777216) := by
  have h := round32_near (x := 5284223562781382 / 9007199254740992) (-1) 9842633
    (by norm_num) (by norm_num) (by norm_num) (by norm_num) (by norm_num) (by norm_num)
  rw [h]
  norm_num

/-- The frequency of the note 69 when `powf(2, 0)` is 1: `440`. -/
theorem note_frequency (m : CMath Ieee)
    (hpow : m.powf (Ieee.finite 2) (Ieee.finite 0) = Ieee.finite 1) :
    midiNoteNumberToFrequency m ((69 : Nat) : Int) = Ieee.finite 440 := by
  have r0 : binary32.round 0 = Ieee.finite 0 := FloatFormat.round_zero binary32
  have r440 : binary32.round 440 = Ieee.finite 440 :=
    round32_dyadic _ 55 3 (by norm_num) (by norm_num) (by norm_num) (by norm_num [abs_lt])
  have h69 : Ieee.ofInt binary32 ((69 : Nat) : Int) = Ieee.finite 69 := by
    have := Ieee.ofInt_binary32_natCast 69 (by norm_num)
    simpa using this
  have h12 : ¬ ((12 : ℚ) = 0) := by norm_num
  simp only [midiNoteNumberToFrequency, h69, Ieee.sub, Ieee.neg, Ieee.add, add_neg_cancel, r0,
    Ieee.div, h12, if_false, zero_div, hpow, Ieee.mul, mul_one, r440]

/-- The oscillator `NoteOn(69)` starts in an engine prepared at 48000 Hz, when
`powf(2, 0)` is 1: position 0 and the increment `float(double(float(440 * 64)) / 48000)`,
which is `9842633 / 2 ^ 24`, over a table of 64 entries. -/
theorem started_voice_eq_rounded (m : CMath Ieee)
    (hpow : m.powf (Ieee.finite 2) (Ieee.finite 0) = Ieee.finite 1) (table : List Ieee)
    (hlen : table.length = 64) :
    setFrequency (new table (Ieee.finite 48000)) (midiNoteNumberToFrequency m ((69 : Nat) : Int))
      = ⟨table, Ieee.finite 48000, Ieee.finite 0, Ieee.finite (9842633 / 16777216)⟩ := by
  have r1 : binary32.round (440 * 64) = Ieee.finite 28160 := by
    have := round32_dyadic (440 * 64) 55 9 (by norm_num) (by norm_num) (by norm_num)
      (by norm_num [abs_lt])
    rw [this]
    norm_num
  have h64 : Ieee.ofInt binary32 ((64 : Nat) : Int) = Ieee.finite 64 := by
    have := Ieee.ofInt_binary32_natCast 64 (by norm_num)
    simpa using this
  have hs : ¬ ((48000 : ℚ) = 0) := by norm_num
  simp only [setFrequency, new, note_frequency m hpow, hlen, h64, Ieee.mul, r1, Ieee.div, hs,
    if_false, note_increment_double, Ieee.convert, note_increment_float]

end Rounded

namespace Rounded

/-- The positions of the voice of the note 69 at 48000 Hz: after `k` advances with the
`float` increment `9842633 / 2 ^ 24` the position is a number of `[0, 64)` that differs
from `k * 44 / 75`, up to a multiple of 64, by at most `k / 2 ^ 17`: every advance rounds
a sum below 65. -/
theorem note_positions (k : Nat) :
    ∃ (p : ℚ) (n : Int),
      (fun index => Ieee.fmod (Ieee.add binary32 index (Ieee.finite (9842633 / 16777216)))
        (Ieee.finite 64))^[k] (Ieee.finite 0) = Ieee.finite p ∧
      0 ≤ p ∧ p < 64 ∧ |p + 64 * (n : ℚ) - (k : ℚ) * (44 / 75)| ≤ (k : ℚ) / 2 ^ 17 := by
  induction k with
  | zero => exact ⟨0, 0, rfl, le_refl _, by norm_num, by simp⟩
  | succ k ih =>
    obtain ⟨p, n, hp, h0, h1, he⟩ := ih
    have hx0 : (0 : ℚ) ≤ p + 9842633 / 16777216 := by linarith
    obtain ⟨s, hs, hse⟩ := round32_error (x := p + 9842633 / 16777216)
      (by rw [abs_of_nonneg hx0]; norm_num; linarith)
    rw [abs_of_nonneg hx0] at hse
    obtain ⟨hse1, hse2⟩ := abs_le.mp hse
    obtain ⟨he1, he2⟩ := abs_le.mp he
    have hs0 : 0 ≤ s := by linarith
    refine ⟨fmod s 64, n + truncToInt (s / 64), ?_, fmod_nonneg hs0 (by norm_num),
      fmod_lt hs0 (by norm_num), ?_⟩
    · rw [Function.iterate_succ_apply', hp]
      simp only [Ieee.add, hs]
      exact fmod_finite s 64 (by norm_num)
    · simp only [fmod]
      push_cast
      rw [abs_le]
      constructor <;> linarith

end Rounded

namespace Rounded

/-- The positions of the samples 1 to 479 keep away from the zero crossings of the sine
cycle: `k * 44 / 75` is a multiple of `1 / 75` and it is a multiple of 32 only when 600
divides `k`, so a position within `479 / 2 ^ 17` of it is at least `1 / 128` away from 0,
32 and 64. -/
theorem note_position_zone (k : Nat) (hk1 : 1 ≤ k) (hk2 : k < 480) (p : ℚ) (n : Int)
    (h0 : 0 ≤ p) (h1 : p < 64)
    (he : |p + 64 * (n : ℚ) - (k : ℚ) * (44 / 75)| ≤ (k : ℚ) / 2 ^ 17) :
    (1 / 128 ≤ p ∧ p ≤ 32 - 1 / 128) ∨ (32 + 1 / 128 ≤ p ∧ p ≤ 64 - 1 / 128) := by
  have hk : (k : ℚ) ≤ 479 := by
    have : k ≤ 479 := by omega
    exact_mod_cast this
  obtain ⟨he1, he2⟩ := abs_le.mp he
  have hb : (k : ℚ) / 2 ^ 17 ≤ 479 / 2 ^ 17 := by
    apply div_le_div_of_nonneg_right hk (by norm_num)
  by_contra hcon
  push_neg at hcon
  obtain ⟨hc1, hc2⟩ := hcon
  by_cases ha : p < 1 / 128
  · have hz : ((-1 : Int) : ℚ) < ((4800 * n - 44 * (k : Int) : Int) : ℚ) ∧
        ((4800 * n - 44 * (k : Int) : Int) : ℚ) < ((1 : Int) : ℚ) := by
      push_cast
      constructor <;> linarith
    have hz2 : -1 < 4800 * n - 44 * (k : Int) ∧ 4800 * n - 44 * (k : Int) < 1 :=
      ⟨Int.cast_lt.mp hz.1, Int.cast_lt.mp hz.2⟩
    omega
  · have ha1 : 1 / 128 ≤ p := le_of_not_lt ha
    have ha2 : 32 - 1 / 128 < p := hc1 ha1
    by_cases hb2 : p < 32 + 1 / 128
    · have hz : ((-1 : Int) : ℚ) < ((4800 * n + 2400 - 44 * (k : Int) : Int) : ℚ) ∧
          ((4800 * n + 2400 - 44 * (k : Int) : Int) : ℚ) < ((1 : Int) : ℚ) := by
        push_cast
        constructor <;> linarith
      have hz2 : -1 < 4800 * n + 2400 - 44 * (k : Int) ∧
          4800 * n + 2400 - 44 * (k : Int) < 1 :=
        ⟨Int.cast_lt.mp hz.1, Int.cast_lt.mp hz.2⟩
      omega
    · have hb3 : 32 + 1 / 128 ≤ p := le_of_not_lt hb2
      have hb4 : 64 - 1 / 128 < p := hc2 hb3
      have hz : ((-1 : Int) : ℚ) < ((4800 * n + 4800 - 44 * (k : Int) : Int) : ℚ) ∧
          ((4800 * n + 4800 - 44 * (k : Int) : Int) : ℚ) < ((1 : Int) : ℚ) := by
        push_cast
        constructor <;> linarith
      have hz2 : -1 < 4800 * n + 4800 - 44 * (k : Int) ∧
          4800 * n + 4800 - 44 * (k : Int) < 1 :=
        ⟨Int.cast_lt.mp hz.1, Int.cast_lt.mp hz.2⟩
      omega

end Rounded

namespace Rounded

/-- The sign of an interpolated sample: when both table entries have the sign `σ` up to
`2 ^ -20` and one of them is at least `1 / 16` in size with a weight of at least
`1 / 256`, the weighted sum computed in `float`, and that sum added to a sample that is
0, has the sign `σ` and is at least `2 ^ -14` in size. -/
theorem interpolation_sign (σ w0 w1 qa qb : ℚ) (hσ : σ = 1 ∨ σ = -1) (hw0 : 0 ≤ w0)
    (hw01 : w0 ≤ 1) (hw1 : 0 ≤ w1) (hw11 : w1 ≤ 1) (ha : |qa| ≤ 1) (hb : |qb| ≤ 1)
    (ha2 : -(1 / 2 ^ 20) ≤ σ * qa) (hb2 : -(1 / 2 ^ 20) ≤ σ * qb)
    (hdom : (1 / 16 ≤ σ * qa ∧ 1 / 256 ≤ w0) ∨ (1 / 16 ≤ σ * qb ∧ 1 / 256 ≤ w1)) :
    ∃ v y : ℚ,
      Ieee.add binary32 (Ieee.mul binary32 (Ieee.finite w0) (Ieee.finite qa))
        (Ieee.mul binary32 (Ieee.finite w1) (Ieee.finite qb)) = Ieee.finite v ∧
      Ieee.add binary32 (Ieee.finite 0) (Ieee.finite v) = Ieee.finite y ∧
      1 / 2 ^ 14 ≤ σ * y := by
  obtain ⟨ha_l, ha_u⟩ := abs_le.mp ha
  obtain ⟨hb_l, hb_u⟩ := abs_le.mp hb
  have hp0 : |w0 * qa| ≤ 1 := by
    rw [abs_le]; constructor <;> nlinarith
  have hp1 : |w1 * qb| ≤ 1 := by
    rw [abs_le]; constructor <;> nlinarith
  obtain ⟨u0, hu0, hu0e⟩ := round32_error (x := w0 * qa) (le_trans hp0 (by norm_num))
  obtain ⟨u1, hu1, hu1e⟩ := round32_error (x := w1 * qb) (le_trans hp1 (by norm_num))
  have e0 : |u0 - w0 * qa| ≤ 1 / 2 ^ 24 + 1 / 2 ^ 150 := by
    refine le_trans hu0e ?_
    have := mul_le_mul_of_nonneg_right hp0 (by norm_num : (0 : ℚ) ≤ 1 / 2 ^ 24)
    linarith
  have e1 : |u1 - w1 * qb| ≤ 1 / 2 ^ 24 + 1 / 2 ^ 150 := by
    refine le_trans hu1e ?_
    have := mul_le_mul_of_nonneg_right hp1 (by norm_num : (0 : ℚ) ≤ 1 / 2 ^ 24)
    linarith
  obtain ⟨e0l, e0u⟩ := abs_le.mp e0
  obtain ⟨e1l, e1u⟩ := abs_le.mp e1
  obtain ⟨p0l, p0u⟩ := abs_le.mp hp0
  obtain ⟨p1l, p1u⟩ := abs_le.mp hp1
  have hsum : |u0 + u1| ≤ 3 := by
    rw [abs_le]; constructor <;> linarith
  obtain ⟨v, hv, hve⟩ := round32_error (x := u0 + u1) (le_trans hsum (by norm_num))
  have ev : |v - (u0 + u1)| ≤ 3 / 2 ^ 24 + 1 / 2 ^ 150 := by
    refine le_trans hve ?_
    have := mul_le_mul_of_nonneg_right hsum (by norm_num : (0 : ℚ) ≤ 1 / 2 ^ 24)
    linarith
  obtain ⟨evl, evu⟩ := abs_le.mp ev
  obtain ⟨sl, su⟩ := abs_le.mp hsum
  have hvabs : |v| ≤ 4 := by
    rw [abs_le]; constructor <;> linarith
  have hvabs0 : |0 + v| ≤ 4 := by rw [zero_add]; exact hvabs
  obtain ⟨y, hy, hye⟩ := round32_error (x := 0 + v) (le_trans hvabs0 (by norm_num))
  have ey : |y - v| ≤ 4 / 2 ^ 24 + 1 / 2 ^ 150 := by
    rw [zero_add] at hye
    refine le_trans hye ?_
    have := mul_le_mul_of_nonneg_right hvabs (by norm_num : (0 : ℚ) ≤ 1 / 2 ^ 24)
    linarith
  obtain ⟨eyl, eyu⟩ := abs_le.mp ey
  refine ⟨v, y, ?_, ?_, ?_⟩
  · simp only [Ieee.mul, hu0, hu1, Ieee.add, hv]
  · simp only [Ieee.add, hy]
  · have hA : -(1 / 2 ^ 20) ≤ w0 * (σ * qa) := by
      have h := mul_nonneg hw0 (by linarith : (0 : ℚ) ≤ σ * qa + 1 / 2 ^ 20)
      have e : w0 * (σ * qa + 1 / 2 ^ 20) = w0 * (σ * qa) + w0 * (1 / 2 ^ 20) := by ring
      have h2 := mul_le_mul_of_nonneg_right hw01 (by norm_num : (0 : ℚ) ≤ 1 / 2 ^ 20)
      linarith
    have hB : -(1 / 2 ^ 20) ≤ w1 * (σ * qb) := by
      have h := mul_nonneg hw1 (by linarith : (0 : ℚ) ≤ σ * qb + 1 / 2 ^ 20)
      have e : w1 * (σ * qb + 1 / 2 ^ 20) = w1 * (σ * qb) + w1 * (1 / 2 ^ 20) := by ring
      have h2 := mul_le_mul_of_nonneg_right hw11 (by norm_num : (0 : ℚ) ≤ 1 / 2 ^ 20)
      linarith
    have hD : 1 / 2 ^ 12 ≤ w0 * (σ * qa) + w1 * (σ * qb) + 1 / 2 ^ 20 := by
      rcases hdom with ⟨h1, h2⟩ | ⟨h1, h2⟩
      · have := mul_le_mul h2 h1 (by norm_num) hw0
        linarith
      · have := mul_le_mul h2 h1 (by norm_num) hw1
        linarith
    rcases hσ with rfl | rfl
    · simp only [one_mul] at hA hB hD ⊢
      linarith
    · simp only [neg_one_mul, mul_neg] at hA hB hD ⊢
      linarith

end Rounded

namespace Rounded

/-- The two weights of `interpolateLinearly` at a position `p` with `f ≤ p < f + 1`:
finite numbers of `[0, 1]`; the weight of the entry at `f` is at least `1 / 256` when `p`
is at most `f + 127 / 128`, the weight of the next entry when `p` is at least
`f + 1 / 128`. -/
theorem interpolation_weights (p : ℚ) (f : Int) (hfl : (f : ℚ) ≤ p) (hfu : p < (f : ℚ) + 1) :
    ∃ w1 w0 : ℚ,
      Ieee.sub binary32 (Ieee.finite p) (Ieee.finite (f : ℚ)) = Ieee.finite w1 ∧
      Ieee.sub binary32 (Ieee.finite 1) (Ieee.finite w1) = Ieee.finite w0 ∧
      0 ≤ w1 ∧ w1 ≤ 1 ∧ 0 ≤ w0 ∧ w0 ≤ 1 ∧
      (p - (f : ℚ) ≤ 127 / 128 → 1 / 256 ≤ w0) ∧
      (1 / 128 ≤ p - (f : ℚ) → 1 / 256 ≤ w1) := by
  have ht0 : (0 : ℚ) ≤ p + -(f : ℚ) := by linarith
  have ht1 : p + -(f : ℚ) ≤ (2 : ℚ) ^ (0 : Int) := by rw [zpow_zero]; linarith
  obtain ⟨w1, hw1, hw10, hw11⟩ := FloatFormat.round_le_two_zpow binary32 (k := 0)
    (by simp [binary32]) ht0 ht1 (by simp [binary32]) (by simp [binary32])
  rw [zpow_zero] at hw11
  obtain ⟨w1b, hw1b, hw1e⟩ := round32_error (x := p + -(f : ℚ))
    (by rw [abs_of_nonneg ht0]; linarith)
  rw [hw1] at hw1b
  have e1 : w1 = w1b := Ieee.finite.inj hw1b
  rw [← e1, abs_of_nonneg ht0] at hw1e
  have hs0 : (0 : ℚ) ≤ 1 + -w1 := by linarith
  have hs1 : 1 + -w1 ≤ (2 : ℚ) ^ (0 : Int) := by rw [zpow_zero]; linarith
  obtain ⟨w0, hw0, hw00, hw01⟩ := FloatFormat.round_le_two_zpow binary32 (k := 0)
    (by simp [binary32]) hs0 hs1 (by simp [binary32]) (by simp [binary32])
  rw [zpow_zero] at hw01
  obtain ⟨w0b, hw0b, hw0e⟩ := round32_error (x := 1 + -w1)
    (by rw [abs_of_nonneg hs0]; linarith)
  rw [hw0] at hw0b
  have e0 : w0 = w0b := Ieee.finite.inj hw0b
  rw [← e0, abs_of_nonneg hs0] at hw0e
  obtain ⟨a1, a2⟩ := abs_le.mp hw1e
  obtain ⟨b1, b2⟩ := abs_le.mp hw0e
  have c1 : (p + -(f : ℚ)) * (1 / 2 ^ 24) ≤ 1 / 2 ^ 24 := by
    have := mul_le_mul_of_nonneg_right (by linarith : p + -(f : ℚ) ≤ 1)
      (by norm_num : (0 : ℚ) ≤ 1 / 2 ^ 24)
    linarith
  have c0 : (1 + -w1) * (1 / 2 ^ 24) ≤ 1 / 2 ^ 24 := by
    have := mul_le_mul_of_nonneg_right (by linarith : 1 + -w1 ≤ (1 : ℚ))
      (by norm_num : (0 : ℚ) ≤ 1 / 2 ^ 24)
    linarith
  have tiny : (1 : ℚ) / 2 ^ 150 ≤ 1 / 2 ^ 24 := by norm_num
  refine ⟨w1, w0, ?_, ?_, hw10, hw11, hw00, hw01, ?_, ?_⟩
  · simp only [Ieee.sub, Ieee.neg, Ieee.add, hw1]
  · simp only [Ieee.sub, Ieee.neg, Ieee.add, hw0]
  · intro h
    have : (1 : ℚ) / 2 ^ 24 ≤ 1 / 1024 := by norm_num
    linarith
  · intro h
    have : (1 : ℚ) / 2 ^ 24 ≤ 1 / 1024 := by norm_num
    linarith

end Rounded

namespace Rounded

/-- On a table with the signs of a sine cycle (0 at the entry 0, at least `1 / 16` at the
entries 1 to 31, at most `2 ^ -20` in size at the entry 32, at most `-1 / 16` at the
entries 33 to 63, nowhere above 1 in size), the sample interpolated in `float` at a
position at least `1 / 128` away from 0, 32 and 64, added to a sample that is 0, is a
finite number other than 0. -/
theorem note_sample_nonzero (table : List Ieee) (sampleRate increment : Ieee) (p : ℚ)
    (hlen : table.length = 64)
    (htab : ∀ i : Nat, i < 64 → ∃ q : ℚ, table[i]? = some (Ieee.finite q) ∧ |q| ≤ 1 ∧
      (i = 0 → q = 0) ∧ (0 < i → i < 32 → 1 / 16 ≤ q) ∧ (i = 32 → |q| ≤ 1 / 2 ^ 20) ∧
      (32 < i → q ≤ -(1 / 16)))
    (hzone : (1 / 128 ≤ p ∧ p ≤ 32 - 1 / 128) ∨ (32 + 1 / 128 ≤ p ∧ p ≤ 64 - 1 / 128)) :
    ∃ (x : Ieee) (y : ℚ),
      interpolateLinearly ⟨table, sampleRate, Ieee.finite p, increment⟩ = some x ∧
      Ieee.add binary32 (Ieee.finite 0) x = Ieee.finite y ∧ y ≠ 0 := by
  have h0 : 0 ≤ p := by rcases hzone with h | h <;> linarith [h.1]
  have h1 : p < 64 := by rcases hzone with h | h <;> linarith [h.2]
  obtain ⟨a, b, ha, hb, hi⟩ := interpolateLinearly_of_inside_rounded
    ⟨table, sampleRate, Ieee.finite p, increment⟩ p rfl
    (by show 0 < table.length; rw [hlen]; norm_num)
    (by show table.length ≤ 2 ^ 24; rw [hlen]; norm_num)
    h0 (by show p < (table.length : ℚ); rw [hlen]; exact_mod_cast h1)
  have ha1 : table[⌊p⌋.toNat]? = some a := ha
  have hb1 : table[(⌊p⌋.toNat + 1) % table.length]? = some b := hb
  rw [hlen] at hb1
  have hf0 : 0 ≤ ⌊p⌋ := Int.floor_nonneg.mpr h0
  have hfl : ((⌊p⌋ : Int) : ℚ) ≤ p := Int.floor_le p
  have hfu : p < ((⌊p⌋ : Int) : ℚ) + 1 := Int.lt_floor_add_one p
  obtain ⟨i0, hi0⟩ : ∃ i0 : Nat, ⌊p⌋ = (i0 : Int) :=
    ⟨⌊p⌋.toNat, (Int.toNat_of_nonneg hf0).symm⟩
  rw [hi0] at ha1 hb1 hi hfl hfu
  rw [Int.toNat_natCast] at ha1 hb1
  have hfl2 : (i0 : ℚ) ≤ p := by exact_mod_cast hfl
  have hfu2 : p < (i0 : ℚ) + 1 := by exact_mod_cast hfu
  have hi064 : i0 < 64 := by
    have : (i0 : ℚ) < 64 := by linarith
    exact_mod_cast this
  obtain ⟨w1, w0, hw1, hw0, hw10, hw11, hw00, hw01, hW0, hW1⟩ :=
    interpolation_weights p (i0 : Int) hfl hfu
  have hW0b : p - (i0 : ℚ) ≤ 127 / 128 → 1 / 256 ≤ w0 := by
    intro h; apply hW0; exact_mod_cast h
  have hW1b : 1 / 128 ≤ p - (i0 : ℚ) → 1 / 256 ≤ w1 := by
    intro h; apply hW1; exact_mod_cast h
  obtain ⟨qa, hqa, hqa1, hqaz, hqap, hqam, hqan⟩ := htab i0 hi064
  obtain ⟨qb, hqb, hqb1, hqbz, hqbp, hqbm, hqbn⟩ :=
    htab ((i0 + 1) % 64) (Nat.mod_lt _ (by norm_num))
  rw [hqa] at ha1
  rw [hqb] at hb1
  have ea : a = Ieee.finite qa := (Option.some.inj ha1).symm
  have eb : b = Ieee.finite qb := (Option.some.inj hb1).symm
  rw [ea, eb, hw1, hw0] at hi
  have key : ∃ (σ : ℚ) (v y : ℚ),
      Ieee.add binary32 (Ieee.mul binary32 (Ieee.finite w0) (Ieee.finite qa))
        (Ieee.mul binary32 (Ieee.finite w1) (Ieee.finite qb)) = Ieee.finite v ∧
      Ieee.add binary32 (Ieee.finite 0) (Ieee.finite v) = Ieee.finite y ∧
      1 / 2 ^ 14 ≤ σ * y := by
    rcases hzone with ⟨hz1, hz2⟩ | ⟨hz1, hz2⟩
    · have hi032 : i0 < 32 := by
        have : (i0 : ℚ) < 32 := by linarith
        exact_mod_cast this
      have hj : (i0 + 1) % 64 = i0 + 1 := Nat.mod_eq_of_lt (by omega)
      rw [hj] at hqbz hqbp hqbm hqbn
      have ha2 : -(1 / 2 ^ 20) ≤ 1 * qa := by
        rw [one_mul]
        rcases Nat.eq_zero_or_pos i0 with hz | hz
        · rw [hqaz hz]; norm_num
        · have := hqap hz hi032
          linarith
      have hb2 : -(1 / 2 ^ 20) ≤ 1 * qb := by
        rw [one_mul]
        by_cases hc : i0 + 1 < 32
        · have := hqbp (by omega) hc
          linarith
        · have := hqbm (by omega)
          exact (abs_le.mp this).1
      have hdom : (1 / 16 ≤ 1 * qa ∧ 1 / 256 ≤ w0) ∨ (1 / 16 ≤ 1 * qb ∧ 1 / 256 ≤ w1) := by
        rw [one_mul, one_mul]
        by_cases hc : 1 ≤ i0 ∧ p - (i0 : ℚ) ≤ 127 / 128
        · exact Or.inl ⟨hqap (by omega) hi032, hW0b hc.2⟩
        · right
          rcases Nat.eq_zero_or_pos i0 with hz | hz
          · have hz2 : (i0 : ℚ) = 0 := by exact_mod_cast hz
            refine ⟨hqbp (by omega) (by omega), hW1b ?_⟩
            rw [hz2]; linarith
          · have hgt : 127 / 128 < p - (i0 : ℚ) := by
              by_contra hn
              exact hc ⟨hz, le_of_not_lt hn⟩
            have hlt : i0 < 31 := by
              have : (i0 : ℚ) < 31 := by linarith
              exact_mod_cast this
            refine ⟨hqbp (by omega) (by omega), hW1b ?_⟩
            linarith
      obtain ⟨v, y, hv, hy, hs⟩ := interpolation_sign 1 w0 w1 qa qb (Or.inl rfl) hw00 hw01
        hw10 hw11 hqa1 hqb1 ha2 hb2 hdom
      exact ⟨1, v, y, hv, hy, hs⟩
    · have hi032 : 32 ≤ i0 := by
        have : (31 : ℚ) < (i0 : ℚ) := by linarith
        have : 31 < i0 := by exact_mod_cast this
        omega
      have ha2 : -(1 / 2 ^ 20) ≤ -1 * qa := by
        rw [neg_one_mul]
        by_cases hc : i0 = 32
        · have := hqam hc
          linarith [(abs_le.mp this).2]
        · have := hqan (by omega)
          linarith
      have hb2 : -(1 / 2 ^ 20) ≤ -1 * qb := by
        rw [neg_one_mul]
        by_cases hc : i0 = 63
        · have hj : (i0 + 1) % 64 = 0 := by rw [hc]
          rw [hqbz hj]; norm_num
        · have hj : (i0 + 1) % 64 = i0 + 1 := Nat.mod_eq_of_lt (by omega)
          rw [hj] at hqbn
          have := hqbn (by omega)
          linarith
      have hdom : (1 / 16 ≤ -1 * qa ∧ 1 / 256 ≤ w0) ∨ (1 / 16 ≤ -1 * qb ∧ 1 / 256 ≤ w1) := by
        rw [neg_one_mul, neg_one_mul]
        by_cases hc : 33 ≤ i0 ∧ p - (i0 : ℚ) ≤ 127 / 128
        · have := hqan (by omega)
          exact Or.inl ⟨by linarith, hW0b hc.2⟩
        · right
          by_cases hz : i0 = 32
          · have hz2 : (i0 : ℚ) = 32 := by exact_mod_cast hz
            have hj : (i0 + 1) % 64 = i0 + 1 := Nat.mod_eq_of_lt (by omega)
            rw [hj] at hqbn
            have := hqbn (by omega)
            refine ⟨by linarith, hW1b ?_⟩
            rw [hz2]; linarith
          · have hgt : 127 / 128 < p - (i0 : ℚ) := by
              by_contra hn
              exact hc ⟨by omega, le_of_not_lt hn⟩
            have hlt : i0 < 63 := by
              have : (i0 : ℚ) < 63 := by linarith
              exact_mod_cast this
            have hj : (i0 + 1) % 64 = i0 + 1 := Nat.mod_eq_of_lt (by omega)
            rw [hj] at hqbn
            have := hqbn (by omega)
            refine ⟨by linarith, hW1b ?_⟩
            linarith
      obtain ⟨v, y, hv, hy, hs⟩ := interpolation_sign (-1) w0 w1 qa qb (Or.inr rfl) hw00
        hw01 hw10 hw11 hqa1 hqb1 ha2 hb2 hdom
      exact ⟨-1, v, y, hv, hy, hs⟩
  obtain ⟨σ, v, y, hv, hy, hs⟩ := key
  refine ⟨_, y, hi, ?_, ?_⟩
  · rw [hv]; exact hy
  · intro hy0
    rw [hy0, mul_zero] at hs
    norm_num at hs

end Rounded

namespace Rounded

/-- At the position 0, on a table whose entry 0 is 0 and whose entry 1 is finite, the
sample interpolated in `float` is 0, and so is its sum with a sample that is 0. -/
theorem note_sample_zero (table : List Ieee) (sampleRate increment : Ieee) (q1 : ℚ)
    (hlen : table.length = 64) (ht0 : table[0]? = some (Ieee.finite 0))
    (ht1 : table[1]? = some (Ieee.finite q1)) :
    interpolateLinearly ⟨table, sampleRate, Ieee.finite 0, increment⟩
      = some (Ieee.finite 0) ∧
    Ieee.add binary32 (Ieee.finite 0) (Ieee.finite 0) = Ieee.finite 0 := by
  have r0 : binary32.round 0 = Ieee.finite 0 := FloatFormat.round_zero binary32
  have r1 : binary32.round 1 = Ieee.finite 1 :=
    round32_dyadic _ 1 0 (by norm_num) (by norm_num) (by norm_num) (by norm_num [abs_lt])
  obtain ⟨a, b, ha, hb, hi⟩ := interpolateLinearly_of_inside_rounded
    ⟨table, sampleRate, Ieee.finite 0, increment⟩ 0 rfl
    (by show 0 < table.length; rw [hlen]; norm_num)
    (by show table.length ≤ 2 ^ 24; rw [hlen]; norm_num)
    (le_refl _) (by show (0 : ℚ) < (table.length : ℚ); rw [hlen]; norm_num)
  have ha1 : table[⌊(0 : ℚ)⌋.toNat]? = some a := ha
  have hb1 : table[(⌊(0 : ℚ)⌋.toNat + 1) % table.length]? = some b := hb
  rw [hlen] at hb1
  simp only [Int.floor_zero, Int.toNat_zero, zero_add, Nat.one_mod] at ha1 hb1
  rw [ht0] at ha1
  rw [ht1] at hb1
  have ea : a = Ieee.finite 0 := (Option.some.inj ha1).symm
  have eb : b = Ieee.finite q1 := (Option.some.inj hb1).symm
  refine ⟨?_, ?_⟩
  · rw [hi, ea, eb]
    simp only [Int.floor_zero, Int.cast_zero, Ieee.sub, Ieee.neg, Ieee.add, Ieee.mul, neg_zero,
      add_zero, r0, r1, mul_zero, zero_mul]
  · simp only [Ieee.add, add_zero, r0]

/-- The entry `i` of the generated table: `sinf(2 * PI * i / 64)`, every operation in
`float`. -/
theorem generateSineWaveTable_getElem?_rounded (m : CMath Ieee) (s : WavetableSynth Ieee)
    (i : Nat) (hi : i < 64) :
    (generateSineWaveTable m s)[i]?
      = some (m.sinf
          (Ieee.div binary32
            (Ieee.mul binary32
              (Ieee.mul binary32 (Ieee.finite 2)
                (Ieee.mul binary32 (m.atanf (Ieee.finite 1)) (Ieee.finite 4)))
              (Ieee.ofInt binary32 (i : Int)))
            (Ieee.ofInt binary32 (WavetableSynth.WAVETABLE_LENGTH : Int)))) := by
  simp only [generateSineWaveTable]
  rw [foldl_set_range_getElem?
    (fun i => m.sinf
      (Ieee.div binary32
        (Ieee.mul binary32
          (Ieee.mul binary32 (Ieee.finite 2)
            (Ieee.mul binary32 (m.atanf (Ieee.finite 1)) (Ieee.finite 4)))
          (Ieee.ofInt binary32 (i : Int)))
        (Ieee.ofInt binary32 (WavetableSynth.WAVETABLE_LENGTH : Int))))]
  simp [WavetableSynth.WAVETABLE_LENGTH, hi]

/-- The table generated with the triangle stand-ins: the entry `i` is the triangle wave
at `i / 8`, which has the signs and the sizes of a sine cycle. -/
theorem triangle_table (s : WavetableSynth Ieee) (i : Nat) (hi : i < 64) :
    ∃ q : ℚ, (generateSineWaveTable triangleMath s)[i]? = some (Ieee.finite q) ∧ |q| ≤ 1 ∧
      (i = 0 → q = 0) ∧ (0 < i → i < 32 → 1 / 16 ≤ q) ∧ (i = 32 → |q| ≤ 1 / 2 ^ 20) ∧
      (32 < i → q ≤ -(1 / 16)) := by
  have r4 : binary32.round (1 * 4) = Ieee.finite 4 := by
    have := round32_dyadic (1 * 4) 1 2 (by norm_num) (by norm_num) (by norm_num)
      (by norm_num [abs_lt])
    rw [this]; norm_num
  have r8 : binary32.round (2 * 4) = Ieee.finite 8 := by
    have := round32_dyadic (2 * 4) 1 3 (by norm_num) (by norm_num) (by norm_num)
      (by norm_num [abs_lt])
    rw [this]; norm_num
  have hiq : (i : ℚ) < 64 := by exact_mod_cast hi
  have hi0 : (0 : ℚ) ≤ (i : ℚ) := Nat.cast_nonneg i
  have r8i : binary32.round (8 * (i : ℚ)) = Ieee.finite (8 * (i : ℚ)) :=
    round32_dyadic _ (8 * (i : Int)) 0 (by push_cast; ring)
      (by rw [abs_of_nonneg (by omega)]; omega) (by norm_num)
      (by rw [abs_of_nonneg (by linarith)]; norm_num; linarith)
  have rq : binary32.round (8 * (i : ℚ) / 64) = Ieee.finite ((i : ℚ) / 8) := by
    have := round32_dyadic (8 * (i : ℚ) / 64) (i : Int) (-3)
      (by push_cast; norm_num; ring)
      (by rw [abs_of_nonneg (by omega)]; omega) (by norm_num)
      (by rw [abs_of_nonneg (by positivity)]; norm_num; linarith)
    rw [this]
    congr 1
    ring
  have h64 : Ieee.ofInt binary32 (WavetableSynth.WAVETABLE_LENGTH : Int) = Ieee.finite 64 := by
    have := Ieee.ofInt_binary32_natCast 64 (by norm_num)
    simpa [WavetableSynth.WAVETABLE_LENGTH] using this
  have h64n : ¬ ((64 : ℚ) = 0) := by norm_num
  have harg : Ieee.div binary32
      (Ieee.mul binary32
        (Ieee.mul binary32 (Ieee.finite 2)
          (Ieee.mul binary32 (triangleMath.atanf (Ieee.finite 1)) (Ieee.finite 4)))
        (Ieee.ofInt binary32 (i : Int)))
      (Ieee.ofInt binary32 (WavetableSynth.WAVETABLE_LENGTH : Int))
      = Ieee.finite ((i : ℚ) / 8) := by
    rw [h64, Ieee.ofInt_binary32_natCast i (by omega)]
    simp only [triangleMath, Ieee.mul, r4, r8, r8i, Ieee.div, h64n, if_false, rq]
  refine ⟨if (i : ℚ) / 8 ≤ 4 then 1 - |(i : ℚ) / 8 - 2| / 2 else -(1 - |(i : ℚ) / 8 - 6| / 2),
    ?_, ?_, ?_, ?_, ?_, ?_⟩
  · rw [generateSineWaveTable_getElem?_rounded triangleMath s i hi, harg]
    rfl
  · split_ifs with h
    · have h2 : |(i : ℚ) / 8 - 2| ≤ 2 := by rw [abs_le]; constructor <;> linarith
      have h3 := abs_nonneg ((i : ℚ) / 8 - 2)
      rw [abs_le]; constructor <;> linarith
    · have h2 : |(i : ℚ) / 8 - 6| ≤ 2 := by
        rw [abs_le]; constructor <;> linarith [not_le.mp h]
      have h3 := abs_nonneg ((i : ℚ) / 8 - 6)
      rw [abs_le]; constructor <;> linarith
  · intro hz
    have : (i : ℚ) = 0 := by exact_mod_cast hz
    rw [this]
    norm_num
  · intro h1 h2
    have h1q : (1 : ℚ) ≤ (i : ℚ) := by exact_mod_cast h1
    have h2q : (i : ℚ) ≤ 31 := by
      have : i ≤ 31 := by omega
      exact_mod_cast this
    rw [if_pos (by linarith)]
    have h3 : |(i : ℚ) / 8 - 2| ≤ 15 / 8 := by rw [abs_le]; constructor <;> linarith
    linarith
  · intro hz
    have : (i : ℚ) = 32 := by exact_mod_cast hz
    rw [this]
    norm_num
  · intro h1
    have h1q : (33 : ℚ) ≤ (i : ℚ) := by
      have : 33 ≤ i := by omega
      exact_mod_cast this
    have h2q : (i : ℚ) ≤ 63 := by
      have : i ≤ 63 := by omega
      exact_mod_cast this
    rw [if_neg (by linarith)]
    have h3 : |(i : ℚ) / 8 - 6| ≤ 15 / 8 := by rw [abs_le]; constructor <;> linarith
    linarith

end Rounded

/-! ## The properties of the specification -/

section Properties

variable {F : Type} [LinearOrderedField F] [FloorRing F]

/-- C7: on a table of length `L ≥ 2`, after `stop()` the interpolated value is the one
at position 0, which is `table[0]`; each of `n` successive `getSample` calls (any `n`)
returns it, and after them the oscillator is still the stopped one: `index = 0`,
`indexIncrement = 0` and `isPlaying()` false. -/
theorem getSample_after_stop_is_constant (o : WavetableOscillator F)
    (hL : 2 ≤ o.waveTable.length) (n : Nat) :
    ∃ t0 : F, o.waveTable[0]? = some t0 ∧
      o.stop.interpolateLinearly = some t0 ∧
      o.stop.getSamples n = some (List.replicate n t0, o.stop) ∧
      o.stop.index = 0 ∧ o.stop.indexIncrement = 0 ∧ o.stop.isPlaying = false := by
  obtain ⟨t0, h0, hi, -⟩ := WavetableOscillator.getSample_stop o (by omega)
  refine ⟨t0, h0, hi, WavetableOscillator.getSamples_stop o (by omega) t0 h0 n, rfl, rfl, ?_⟩
  simp [WavetableOscillator.isPlaying, WavetableOscillator.stop]

/-- C7 on the table `[7, 9]` for an oscillator stopped in full flight: three calls
return `7, 7, 7` and leave position and increment at 0. -/
theorem getSample_after_stop_is_constant_witness :
    ((⟨[7, 9], 44100, 3 / 2, 1 / 4⟩ : WavetableOscillator ℚ).stop).getSamples 3
      = some ([7, 7, 7], ⟨[7, 9], 44100, 0, 0⟩) := by
  obtain ⟨t0, h0, -, h, -⟩ := getSample_after_stop_is_constant
    (⟨[7, 9], 44100, 3 / 2, 1 / 4⟩ : WavetableOscillator ℚ) (by simp) 3
  have ht : t0 = 7 := by simpa using h0.symm
  subst ht
  rw [h]
  rfl

/-- C2 fails as stated: on a fresh oscillator over the table `[0, 1]` at sample rate 2,
`setFrequency(-1)` followed by one `getSample()` leaves `index = fmod(-1, 2) = -1`,
which is below 0. -/
theorem phase_negative_after_negative_frequency :
    OscillatorCall.runAll (WavetableOscillator.new ([0, 1] : List ℚ) 2)
        [OscillatorCall.setFrequency (-1), OscillatorCall.getSample]
      = some ⟨[0, 1], 2, -1, -1⟩ ∧
    ¬ (0 ≤ (⟨[0, 1], 2, -1, -1⟩ : WavetableOscillator ℚ).index) := by
  constructor
  · have hc : ⌈(-(1 / 2) : ℚ)⌉ = 0 := by rw [Int.ceil_eq_iff]; norm_num
    have hm : Int.tmod 1 2 = 1 := rfl
    norm_num [OscillatorCall.runAll, OscillatorCall.run, WavetableOscillator.new,
      WavetableOscillator.setFrequency, WavetableOscillator.getSample,
      WavetableOscillator.interpolateLinearly, truncToInt, vecAt, fmod, hc, hm]
  · norm_num

/-- C2, amended: in IEEE 754 arithmetic, on a table of `2 ≤ L ≤ 2 ^ 24` entries and with
a sample rate above 0, for every sequence of `setFrequency`, `getSample` and `stop`
calls on a freshly constructed oscillator in which every frequency passed to
`setFrequency` is `≥ 0` and gives an increment that does not overflow (it is finite),
every call is defined and `index` is a finite number with `0 ≤ index < L` after every
call (after the first `k` calls, for every `k`). -/
theorem phase_stays_in_table (waveTable : List Ieee) (sampleRate : Ieee)
    (calls : List (OscillatorCall Ieee)) (k : Nat)
    (hL : 2 ≤ waveTable.length) (hL2 : waveTable.length ≤ 2 ^ 24)
    (hsr : Ieee.lt (Ieee.finite 0) sampleRate = true)
    (hf : ∀ f, OscillatorCall.setFrequency f ∈ calls →
      Ieee.le (Ieee.finite 0) f = true ∧
        Ieee.isFinite (Rounded.setFrequency (Rounded.new waveTable sampleRate) f).indexIncrement
          = true) :
    ∃ (o : WavetableOscillator Ieee) (index : ℚ),
      Rounded.runAll (Rounded.new waveTable sampleRate) (calls.take k) = some o ∧
      o.index = Ieee.finite index ∧ 0 ≤ index ∧ index < (waveTable.length : ℚ) := by
  obtain ⟨o, hr, hin, ht, -⟩ := Rounded.runAll_inRange_rounded (calls.take k)
    (Rounded.new waveTable sampleRate)
    (Rounded.inRange_new_rounded waveTable sampleRate (by omega)) hL2 hsr
    (fun f hm => hf f (List.mem_of_mem_take hm))
  obtain ⟨p, d, hp, -, -, h0, h1, -, -⟩ := (Rounded.inRange_iff o).mp hin
  refine ⟨o, p, hr, hp, h0, ?_⟩
  rw [ht] at h1
  exact h1

/-- C2, amended, on the table `[0, 1]` at sample rate 2: after `setFrequency(3)` and two
`getSample()` calls (increment 3, so the position wraps) the position is in `[0, 2)`. -/
theorem phase_stays_in_table_witness :
    ∃ (o : WavetableOscillator Ieee) (index : ℚ),
      Rounded.runAll (Rounded.new [Ieee.finite 0, Ieee.finite 1] (Ieee.finite 2))
        ([OscillatorCall.setFrequency (Ieee.finite 3), OscillatorCall.getSample,
          OscillatorCall.getSample, OscillatorCall.stop].take 3) = some o ∧
      o.index = Ieee.finite index ∧ 0 ≤ index ∧
      index < (([Ieee.finite 0, Ieee.finite 1] : List Ieee).length : ℚ) :=
  phase_stays_in_table [Ieee.finite 0, Ieee.finite 1] (Ieee.finite 2)
    [OscillatorCall.setFrequency (Ieee.finite 3), OscillatorCall.getSample,
      OscillatorCall.getSample, OscillatorCall.stop] 3 (by simp) (by simp)
    (by simp [Ieee.lt])
    (by
      intro f hm
      simp only [List.mem_cons, OscillatorCall.setFrequency.injEq, List.mem_singleton,
        reduceCtorEq, or_false, List.not_mem_nil] at hm
      rw [hm]
      refine ⟨by simp [Ieee.le], ?_⟩
      obtain ⟨w, hw, -, -⟩ := Rounded.setFrequency_increment_of_le
        (Rounded.new [Ieee.finite 0, Ieee.finite 1] (Ieee.finite 2)) (by simp [Rounded.new])
        3 (by norm_num) 3 (by norm_num) (by norm_num) (by norm_num [Rounded.new])
        (by simp [Rounded.new, Ieee.le])
      rw [hw]
      rfl)

/-- C3: for a block of `N` samples and events whose time stamps are non-decreasing and
at most `N`, `processBlock` performs exactly the steps render `[0, t1)`, apply `e1`,
render `[t1, t2)`, apply `e2`, ..., apply `ek`, render `[tk, N)`: the events applied are
the submitted ones in submission order, the rendered sub-ranges are those cut at the
time stamps, they are pairwise disjoint and cover `[0, N)` exactly; for the time stamps
`[10, 10, 30]` they are `[0, 10)`, `[10, 10)`, `[10, 30)`, `[30, N)`. -/
theorem processBlock_follows_block_steps (m : CMath F) (s : WavetableSynth F)
    (buffer : AudioBuffer F) (events : List MidiMessage)
    (hsorted : List.Pairwise (fun x y => x ≤ y) (events.map (fun e => e.timeStamp)))
    (hbound : ∀ e ∈ events, e.timeStamp ≤ buffer.numSamples) :
    WavetableSynth.processBlock m s buffer events
        = BlockStep.runAll m (blockSteps buffer.numSamples events) (s, buffer) ∧
      (blockSteps buffer.numSamples events).filterMap BlockStep.event? = events ∧
      (blockSteps buffer.numSamples events).filterMap BlockStep.range?
        = subRanges buffer.numSamples (events.map (fun e => e.timeStamp)) ∧
      List.Pairwise
        (fun r1 r2 : Nat × Nat => ∀ x, ¬ (r1.1 ≤ x ∧ x < r1.2 ∧ r2.1 ≤ x ∧ x < r2.2))
        (subRanges buffer.numSamples (events.map (fun e => e.timeStamp))) ∧
      (∀ x : Nat, x < buffer.numSamples ↔
        ∃ r ∈ subRanges buffer.numSamples (events.map (fun e => e.timeStamp)),
          r.1 ≤ x ∧ x < r.2) ∧
      (events.map (fun e => e.timeStamp) = [10, 10, 30] →
        subRanges buffer.numSamples (events.map (fun e => e.timeStamp))
          = [(0, 10), (10, 10), (10, 30), (30, buffer.numSamples)]) := by
  have hlen : (subRanges buffer.numSamples (events.map (fun e => e.timeStamp))).length
      = events.length + 1 := by
    rw [subRanges_length, List.length_map]
  have hs0 : List.Pairwise (fun x y => x ≤ y) (0 :: events.map (fun e => e.timeStamp)) :=
    List.pairwise_cons.mpr ⟨fun _ _ => Nat.zero_le _, hsorted⟩
  have hb0 : ∀ t ∈ 0 :: events.map (fun e => e.timeStamp), t ≤ buffer.numSamples := by
    intro t ht
    rcases List.mem_cons.mp ht with rfl | ht1
    · exact Nat.zero_le _
    · obtain ⟨e, he, rfl⟩ := List.mem_map.mp ht1
      exact hbound e he
  obtain ⟨h1, h2, h3⟩ :=
    zip_ranges_spec buffer.numSamples (events.map (fun e => e.timeStamp)) 0 hs0 hb0
  refine ⟨?_, alternate_events events _ hlen, alternate_ranges events _ hlen, h2, ?_, ?_⟩
  · rw [blockSteps, subRanges,
      ← WavetableSynth.eventLoop_then_render m buffer.numSamples events s buffer 0]
    unfold WavetableSynth.processBlock
    cases he : WavetableSynth.eventLoop m s buffer 0 events with
    | none => rfl
    | some r =>
      obtain ⟨s1, b1, c1⟩ := r
      simp only []
      rw [WavetableSynth.eventLoop_numSamples m events s s1 buffer b1 0 c1 he]
  · intro x
    constructor
    · intro hx
      exact h3 x (Nat.zero_le _) hx
    · rintro ⟨r, hr, -, hx2⟩
      exact lt_of_lt_of_le hx2 (h1 r hr).2.2
  · intro hts
    rw [hts]
    rfl

/-- C3 on a block of 32 samples with a `NoteOn`, a `NoteOff` and an `AllNotesOff` at the
time stamps 10, 10 and 30. -/
theorem processBlock_follows_block_steps_witness :
    WavetableSynth.processBlock demoMath demoSynth
        (⟨32, [List.replicate 32 0]⟩ : AudioBuffer ℚ)
        [⟨10, MidiKind.noteOn 1 100⟩, ⟨10, MidiKind.noteOff 0⟩, ⟨30, MidiKind.allNotesOff⟩]
      = BlockStep.runAll demoMath
          [BlockStep.render 0 10, BlockStep.handle ⟨10, MidiKind.noteOn 1 100⟩,
            BlockStep.render 10 10, BlockStep.handle ⟨10, MidiKind.noteOff 0⟩,
            BlockStep.render 10 30, BlockStep.handle ⟨30, MidiKind.allNotesOff⟩,
            BlockStep.render 30 32]
          (demoSynth, (⟨32, [List.replicate 32 0]⟩ : AudioBuffer ℚ)) :=
  (processBlock_follows_block_steps demoMath demoSynth
    (⟨32, [List.replicate 32 0]⟩ : AudioBuffer ℚ)
    [⟨10, MidiKind.noteOn 1 100⟩, ⟨10, MidiKind.noteOff 0⟩, ⟨30, MidiKind.allNotesOff⟩]
    (by decide) (by decide)).1

/-- C4 fails as stated: in IEEE 754 arithmetic, with two playing oscillators that each
produce the sample 1 and channel 0 at `16777216 = 2 ^ 24`, `render` adds the two
samples one after the other, `float(float(16777216 + 1) + 1)`, and both additions round
back to `16777216`; the previous value plus the sum of the two solo outputs is
`float(16777216 + float(1 + 1)) = 16777218`. -/
theorem render_result_is_not_previous_plus_sum :
    Rounded.render ⟨Ieee.finite 48000, [Rounded.unitVoice, Rounded.unitVoice]⟩
        ⟨1, [[Ieee.finite 16777216]]⟩ 0 1
      = some (⟨Ieee.finite 48000,
            [{ Rounded.unitVoice with index := Ieee.finite 1 },
              { Rounded.unitVoice with index := Ieee.finite 1 }]⟩,
          ⟨1, [[Ieee.finite 16777216]]⟩) ∧
    Rounded.soloSamples Rounded.unitVoice 1 = [Ieee.finite 1] ∧
    Ieee.add binary32 (Ieee.finite 16777216)
        (Ieee.add binary32 (Ieee.finite 1) (Ieee.finite 1))
      = Ieee.finite 16777218 ∧
    (Ieee.finite 16777216 : Ieee) ≠ Ieee.finite 16777218 := by
  have r0 : binary32.round 0 = Ieee.finite 0 := FloatFormat.round_zero binary32
  have r1 : binary32.round 1 = Ieee.finite 1 :=
    Rounded.round32_dyadic _ 1 0 (by norm_num) (by norm_num) (by norm_num)
      (by norm_num [abs_lt])
  have r2 : binary32.round 2 = Ieee.finite 2 :=
    Rounded.round32_dyadic _ 1 1 (by norm_num) (by norm_num) (by norm_num)
      (by norm_num [abs_lt])
  have rt : binary32.round 16777217 = Ieee.finite 16777216 := by
    have := Rounded.round32_tie_even (x := 16777217) 24 8388608 (by norm_num)
      (by norm_num) (by norm_num) (by norm_num) (by decide) (by norm_num) (by norm_num)
    norm_num at this
    exact this
  have r3 : binary32.round 16777218 = Ieee.finite 16777218 :=
    Rounded.round32_dyadic _ 8388609 1 (by norm_num) (by norm_num) (by norm_num)
      (by norm_num [abs_lt])
  have hg : Rounded.getSample Rounded.unitVoice
      = some (Ieee.finite 1, { Rounded.unitVoice with index := Ieee.finite 1 }) := by
    obtain ⟨a, b, ha, hb, h⟩ := Rounded.getSample_of_inside_rounded Rounded.unitVoice 0 rfl
      (by simp [Rounded.unitVoice]) (by simp [Rounded.unitVoice]) (le_refl _)
      (by simp [Rounded.unitVoice])
    simp only [Int.floor_zero, Int.toNat_zero, Rounded.unitVoice, List.getElem?_cons_zero,
      Option.some.injEq, List.length_cons, List.length_nil, Nat.reduceAdd, zero_add,
      Nat.reduceMod, List.getElem?_cons_succ] at ha hb
    subst ha hb
    rw [h]
    have hm : fmod (1 : ℚ) 2 = 1 := fmod_of_lt (by norm_num) (by norm_num)
    simp [Rounded.unitVoice, Ieee.sub, Ieee.neg, Ieee.add, Ieee.mul, r0, r1,
      Rounded.fmod_finite, hm]
  have hplay : Rounded.isPlaying Rounded.unitVoice = true := by
    simp [Rounded.isPlaying, Rounded.unitVoice, Ieee.isNonzero]
  refine ⟨?_, ?_, ?_, ?_⟩
  · have e : (16777216 : ℚ) + 1 = 16777217 := by norm_num
    simp only [Rounded.render, Rounded.oscillatorLoop, hplay, if_true, Nat.sub_zero,
      Rounded.sampleLoop, hg, List.getElem?_cons_zero, List.set_cons_zero, Ieee.add, e, rt,
      Rounded.copyLoop]
  · simp only [Rounded.soloSamples, Rounded.getSamples, hg]
  · have e : (1 : ℚ) + 1 = 2 := by norm_num
    have e2 : (16777216 : ℚ) + 2 = 16777218 := by norm_num
    simp only [Ieee.add, e, r2, e2, r3]
  · intro h
    have := Ieee.finite.inj h
    norm_num at this

/-- C4, amended: in IEEE 754 arithmetic, on a buffer with a channel 0 whose channels hold
`blockLength` samples and for a range `start ≤ end ≤ blockLength`, `render` is defined
exactly when every playing oscillator can be run alone for `end - start` samples, and it
then leaves channel 0 at every index `i` in `[start, end)` equal to the result of adding
to its previous value, one after the other in the order of the bank and each addition
rounded to `float`, the `(i - start)`-th sample of every oscillator playing on entry run
alone by successive `getSample` calls (each such run has `end - start` samples).
Oscillators that are not playing add nothing and keep their state; with a bank of two
playing oscillators each sample is `float(float(previous + first) + second)`. -/
theorem render_adds_solo_outputs_in_bank_order (s : WavetableSynth Ieee)
    (buffer : AudioBuffer Ieee) (a b : Nat) (hwf : buffer.WellFormed)
    (hch : 0 < buffer.channels.length) (hab : a ≤ b) (hb : b ≤ buffer.numSamples) :
    ((∃ r, Rounded.render s buffer a b = some r) ↔
      ∀ o ∈ s.oscillators, Rounded.isPlaying o = true →
        ∃ r1, Rounded.getSamples o (b - a) = some r1) ∧
    ∀ (s1 : WavetableSynth Ieee) (buffer1 : AudioBuffer Ieee),
      Rounded.render s buffer a b = some (s1, buffer1) →
      (∀ i : Nat, a ≤ i → i < b →
        ∃ old : Ieee, buffer.sample? 0 i = some old ∧
          buffer1.sample? 0 i = some
            (((s.oscillators.filter (fun o => Rounded.isPlaying o)).map
              (fun o => (Rounded.soloSamples o (b - a)).getD (i - a) (Ieee.finite 0))).foldl
              (Ieee.add binary32) old)) ∧
      (∀ o ∈ s.oscillators, Rounded.isPlaying o = true →
        (Rounded.soloSamples o (b - a)).length = b - a) ∧
      s1.oscillators.length = s.oscillators.length ∧
      (∀ (j : Nat) (o : WavetableOscillator Ieee), s.oscillators[j]? = some o →
        Rounded.isPlaying o = false → s1.oscillators[j]? = some o) ∧
      (∀ o1 o2 : WavetableOscillator Ieee, s.oscillators = [o1, o2] →
        Rounded.isPlaying o1 = true → Rounded.isPlaying o2 = true →
        ∀ i : Nat, a ≤ i → i < b →
          ∃ old : Ieee, buffer.sample? 0 i = some old ∧
            buffer1.sample? 0 i = some
              (Ieee.add binary32
                (Ieee.add binary32 old
                  ((Rounded.soloSamples o1 (b - a)).getD (i - a) (Ieee.finite 0)))
                ((Rounded.soloSamples o2 (b - a)).getD (i - a) (Ieee.finite 0)))) := by
  refine ⟨Rounded.render_defined_iff_rounded s buffer a b hwf hch hab hb, ?_⟩
  intro s1 buffer1 hdef
  have hsolo := (Rounded.render_defined_iff_rounded s buffer a b hwf hch hab hb).mp ⟨_, hdef⟩
  obtain ⟨first, others, hc⟩ : ∃ first others, buffer.channels = first :: others := by
    cases hcs : buffer.channels with
    | nil => rw [hcs] at hch; exact absurd hch (by simp)
    | cons first others => exact ⟨first, others, rfl⟩
  have hflen : first.length = buffer.numSamples := hwf first (by rw [hc]; simp)
  have holen : ∀ ch ∈ others, b ≤ ch.length := by
    intro ch hm
    rw [hwf ch (by rw [hc]; exact List.mem_cons_of_mem _ hm)]
    exact hb
  obtain ⟨first1, others1, hr, hlen1, hpt, -, -⟩ :=
    Rounded.render_spec_rounded s buffer first others a b hc hab (by omega) holen hsolo
  rw [hr] at hdef
  simp only [Option.some.injEq, Prod.mk.injEq] at hdef
  obtain ⟨rfl, rfl⟩ := hdef
  have hmain : ∀ i : Nat, a ≤ i → i < b →
      ∃ old : Ieee, buffer.sample? 0 i = some old ∧
        (⟨buffer.numSamples, first1 :: others1⟩ : AudioBuffer Ieee).sample? 0 i = some
          (((s.oscillators.filter (fun o => Rounded.isPlaying o)).map
            (fun o => (Rounded.soloSamples o (b - a)).getD (i - a) (Ieee.finite 0))).foldl
            (Ieee.add binary32) old) := by
    intro i hai hib
    refine ⟨first.getD i (Ieee.finite 0), ?_, ?_⟩
    · rw [AudioBuffer.sample?_zero buffer first others hc]
      exact Rounded.getElem?_eq_some_getD first i _ (by omega)
    · rw [AudioBuffer.sample?_zero _ first1 others1 rfl,
        Rounded.getElem?_eq_some_getD first1 i (Ieee.finite 0) (by omega), hpt i,
        if_pos ⟨hai, hib⟩]
  refine ⟨hmain, ?_, by simp, ?_, ?_⟩
  · intro o ho hp
    obtain ⟨⟨xs, o2⟩, hx⟩ := hsolo o ho hp
    simp only [Rounded.soloSamples, hx]
    exact Rounded.getSamples_length_rounded (b - a) o o2 xs hx
  · intro j o hj hp
    simp only [List.getElem?_map, hj, Option.map_some', hp]
    simp
  · intro o1 o2 hs h1 h2 i hai hib
    obtain ⟨old, ho, hn⟩ := hmain i hai hib
    refine ⟨old, ho, ?_⟩
    rw [hn, hs]
    simp [h1, h2]

/-- C4, amended, on the three-oscillator bank and the two-channel buffer, over `[1, 3)`:
`render` is defined and every new sample of channel 0 is the old one with the solo
samples of the two playing oscillators added in the order of the bank. -/
theorem render_adds_solo_outputs_in_bank_order_witness :
    (∃ r, Rounded.render Rounded.demoSynth Rounded.demoBuffer 1 3 = some r) ∧
    ∀ (s1 : WavetableSynth Ieee) (buffer1 : AudioBuffer Ieee),
      Rounded.render Rounded.demoSynth Rounded.demoBuffer 1 3 = some (s1, buffer1) →
      ∀ i : Nat, 1 ≤ i → i < 3 →
        ∃ old : Ieee, Rounded.demoBuffer.sample? 0 i = some old ∧
          buffer1.sample? 0 i = some
            (((Rounded.demoSynth.oscillators.filter (fun o => Rounded.isPlaying o)).map
              (fun o => (Rounded.soloSamples o (3 - 1)).getD (i - 1) (Ieee.finite 0))).foldl
              (Ieee.add binary32) old) := by
  have h := render_adds_solo_outputs_in_bank_order Rounded.demoSynth Rounded.demoBuffer 1 3
    (by decide) (by decide) (by decide) (by decide)
  refine ⟨h.1.mpr ?_, fun s1 buffer1 hr => (h.2 s1 buffer1 hr).1⟩
  intro o ho _
  have hin : Rounded.InRange o ∧ o.waveTable.length ≤ 2 ^ 24 := by
    simp only [Rounded.demoSynth, List.mem_cons, List.mem_singleton, List.not_mem_nil,
      or_false] at ho
    rcases ho with rfl | rfl | rfl <;>
      refine ⟨?_, by simp⟩ <;> rw [Rounded.inRange_iff] <;>
      refine ⟨_, _, rfl, rfl, by simp, ?_, ?_, ?_, ?_⟩ <;>
      first
        | (rw [Rounded.maxFinite_binary32]; norm_num)
        | norm_num
  obtain ⟨xs, hx, -⟩ := Rounded.getSamples_of_inRange_rounded (3 - 1) o hin.1 hin.2
  exact ⟨_, hx⟩

/-- C5: on a buffer with at least one channel whose channels hold `blockLength` samples
and for a range `start ≤ end ≤ blockLength`, `render(buffer, start, end)` is defined
exactly when every playing oscillator can be run for `end - start` samples, and after it
the buffer has the channels it had and every channel `c ≥ 1` holds at every index of
`[start, end)` exactly the value channel 0 holds there. -/
theorem render_copies_first_channel (s : WavetableSynth F) (buffer : AudioBuffer F)
    (a b : Nat) (hwf : buffer.WellFormed) (hch : 0 < buffer.channels.length)
    (hab : a ≤ b) (hb : b ≤ buffer.numSamples) :
    ((∃ r, WavetableSynth.render s buffer a b = some r) ↔
      ∀ o ∈ s.oscillators, o.isPlaying = true → ∃ r1, o.getSamples (b - a) = some r1) ∧
    ∀ (s1 : WavetableSynth F) (buffer1 : AudioBuffer F),
      WavetableSynth.render s buffer a b = some (s1, buffer1) →
      buffer1.channels.length = buffer.channels.length ∧
      ∀ c i : Nat, 1 ≤ c → c < buffer.channels.length → a ≤ i → i < b →
        ∃ v : F, buffer1.sample? c i = some v ∧ buffer1.sample? 0 i = some v := by
  refine ⟨WavetableSynth.render_defined_iff s buffer a b hwf hch hab hb, ?_⟩
  intro s1 buffer1 hdef
  have hsolo := (WavetableSynth.render_defined_iff s buffer a b hwf hch hab hb).mp ⟨_, hdef⟩
  obtain ⟨first, others, hc⟩ : ∃ first others, buffer.channels = first :: others := by
    cases hcs : buffer.channels with
    | nil => rw [hcs] at hch; exact absurd hch (by simp)
    | cons first others => exact ⟨first, others, rfl⟩
  have hflen : first.length = buffer.numSamples := hwf first (by rw [hc]; simp)
  have holen : ∀ ch ∈ others, b ≤ ch.length := by
    intro ch hm
    rw [hwf ch (by rw [hc]; exact List.mem_cons_of_mem _ hm)]
    exact hb
  obtain ⟨first1, others1, hr, hlen1, -, hlen2, hcp⟩ :=
    WavetableSynth.render_spec s buffer first others a b hc hab (by omega) holen hsolo
  rw [hr] at hdef
  simp only [Option.some.injEq, Prod.mk.injEq] at hdef
  obtain ⟨rfl, rfl⟩ := hdef
  refine ⟨by simp [hc, hlen2], ?_⟩
  intro c i hc1 hclt hai hib
  obtain ⟨c1, rfl⟩ : ∃ c1, c = c1 + 1 := ⟨c - 1, by omega⟩
  have hc1lt : c1 < others.length := by
    rw [hc] at hclt
    simpa using hclt
  obtain ⟨ch1, hg1, -, hv⟩ := hcp c1 others[c1] (List.getElem?_eq_getElem hc1lt)
  refine ⟨first1.getD i 0, ?_, ?_⟩
  · rw [AudioBuffer.sample?_succ _ first1 others1 rfl c1 i ch1 hg1, hv i, if_pos ⟨hai, hib⟩]
    exact getElem?_eq_some_getD_zero first1 i (by omega)
  · rw [AudioBuffer.sample?_zero _ first1 others1 rfl]
    exact getElem?_eq_some_getD_zero first1 i (by omega)

/-- C5 on the three-oscillator bank and the two-channel buffer, over `[1, 3)`: channel 1
goes from `1, 2, 3, 4` to `1, 41/2, 32, 4` and agrees with channel 0 at the indices 1
and 2. -/
theorem render_copies_first_channel_witness :
    WavetableSynth.render demoSynth demoBuffer 1 3
        = some (⟨4, [⟨[0, 1], 4, 0, 1⟩, ⟨[0, 1], 4, 3 / 2, 1 / 2⟩, ⟨[0, 1], 4, 0, 0⟩]⟩,
            ⟨4, [[10, 41 / 2, 32, 40], [1, 41 / 2, 32, 4]]⟩) ∧
      ∀ c i : Nat, 1 ≤ c → c < demoBuffer.channels.length → 1 ≤ i → i < 3 →
        ∃ v : ℚ,
          (⟨4, [[10, 41 / 2, 32, 40], [1, 41 / 2, 32, 4]]⟩ : AudioBuffer ℚ).sample? c i
            = some v ∧
          (⟨4, [[10, 41 / 2, 32, 40], [1, 41 / 2, 32, 4]]⟩ : AudioBuffer ℚ).sample? 0 i
            = some v :=
  ⟨render_demo,
    ((render_copies_first_channel demoSynth demoBuffer 1 3
      (by decide) (by decide) (by decide) (by decide)).2 _ _ render_demo).2⟩

/-- C12 fails as stated: the constructor has no failing path.  From the empty table it
returns an oscillator like from any other table; the missing samples only show at the
first `getSample()`, which is undefined. -/
theorem constructor_accepts_empty_table :
    WavetableOscillator.new ([] : List ℚ) 44100 = ⟨[], 44100, 0, 0⟩ ∧
      ([] : List ℚ).length < 2 ∧
      (WavetableOscillator.new ([] : List ℚ) 44100).getSample = none := by
  refine ⟨rfl, by decide, ?_⟩
  simp [WavetableOscillator.getSample, WavetableOscillator.interpolateLinearly,
    WavetableOscillator.new]

/-- C12, amended: constructing an oscillator from a wavetable of length less than 2
signals no error.  For every table of length 0 or 1 and every sample rate the
constructor returns the oscillator holding that table and that sample rate with
`index = 0` and `indexIncrement = 0`; on a table of length 0 its `getSample()` is
undefined, on a table of length 1 its `getSample()` returns the one entry and leaves
the oscillator as it is. -/
theorem constructor_validates_nothing (waveTable : List F) (sampleRate : F)
    (hL : waveTable.length < 2) :
    WavetableOscillator.new waveTable sampleRate = ⟨waveTable, sampleRate, 0, 0⟩ ∧
      (waveTable.length = 0 →
        (WavetableOscillator.new waveTable sampleRate).getSample = none) ∧
      (∀ t0 : F, waveTable = [t0] →
        (WavetableOscillator.new waveTable sampleRate).getSample
          = some (t0, WavetableOscillator.new waveTable sampleRate)) := by
  refine ⟨rfl, ?_, ?_⟩
  · intro h0
    simp [WavetableOscillator.getSample, WavetableOscillator.interpolateLinearly,
      WavetableOscillator.new, h0]
  · intro t0 ht
    subst ht
    have hstop : WavetableOscillator.new [t0] sampleRate
        = (WavetableOscillator.new [t0] sampleRate).stop := rfl
    obtain ⟨t, h0, -, hg⟩ :=
      WavetableOscillator.getSample_stop (WavetableOscillator.new [t0] sampleRate)
        (by simp [WavetableOscillator.new])
    have ht : t = t0 := by
      simpa [WavetableOscillator.new] using h0.symm
    rw [← hstop, ht] at hg
    exact hg

/-- C12, amended, on the one-entry table `[5]`: the constructor returns an oscillator,
and its `getSample()` returns 5. -/
theorem constructor_validates_nothing_witness :
    WavetableOscillator.new ([5] : List ℚ) 44100 = ⟨[5], 44100, 0, 0⟩ ∧
      (WavetableOscillator.new ([5] : List ℚ) 44100).getSample
        = some (5, WavetableOscillator.new ([5] : List ℚ) 44100) :=
  have h := constructor_validates_nothing ([5] : List ℚ) 44100 (by decide)
  ⟨h.1, h.2.2 5 rfl⟩

/-- C14: from every prior engine state and for every sample rate `sr`, after
`prepareToPlay(sr)` the sample rate of the engine is `sr` and the bank holds exactly 128
oscillators, each carrying the same table of 64 entries `sinf(2 * PI * i / 64)` and the
sample rate `sr`, with `index = 0` and `indexIncrement = 0`, so none is playing; the
result is the same whatever the engine held before. -/
theorem prepareToPlay_rebuilds_bank (m : CMath F) (s : WavetableSynth F) (sr : F)
    (i : Fin 64) :
    (WavetableSynth.prepareToPlay m s sr).sampleRate = sr ∧
      (WavetableSynth.prepareToPlay m s sr).oscillators.length = 128 ∧
      (∀ o ∈ (WavetableSynth.prepareToPlay m s sr).oscillators,
        o = ⟨WavetableSynth.generateSineWaveTable m s, sr, 0, 0⟩ ∧ o.isPlaying = false) ∧
      (WavetableSynth.generateSineWaveTable m s).length = 64 ∧
      (WavetableSynth.generateSineWaveTable m s)[i.val]?
        = some (m.sinf (2 * (m.atanf 1 * 4) * (i.val : F) / 64)) ∧
      ∀ s0 : WavetableSynth F,
        WavetableSynth.prepareToPlay m s0 sr = WavetableSynth.prepareToPlay m s sr := by
  refine ⟨rfl, ?_, ?_, WavetableSynth.generateSineWaveTable_length m s, ?_, ?_⟩
  · rw [WavetableSynth.prepareToPlay_oscillators, List.length_replicate]
    rfl
  · intro o ho
    rw [WavetableSynth.prepareToPlay_oscillators] at ho
    rw [List.eq_of_mem_replicate ho]
    refine ⟨rfl, ?_⟩
    simp [WavetableOscillator.isPlaying, WavetableOscillator.new_indexIncrement]
  · rw [WavetableSynth.generateSineWaveTable_getElem? m s i.val i.isLt]
    simp [WavetableSynth.WAVETABLE_LENGTH]
  · intro s0
    rw [WavetableSynth.prepareToPlay_eq, WavetableSynth.prepareToPlay_eq,
      WavetableSynth.generateSineWaveTable_self m s0 s]

/-- C16: in an engine state with 128 oscillators and for a note number `n ≤ 127`,
`NoteOn(n)` and `NoteOff(n)` are defined, keep the number of oscillators and the sample
rate, leave the oscillator at every slot other than `n` as it was, and replace the
oscillator at slot `n` by the result of `setFrequency` or of `stop()` on it. -/
theorem handleMidiEvent_touches_one_slot (m : CMath F) (s : WavetableSynth F)
    (n t v : Nat) (hlen : s.oscillators.length = 128) (hn : n < 128) :
    (∃ s1 o, WavetableSynth.handleMidiEvent m s ⟨t, MidiKind.noteOn n v⟩ = some s1 ∧
        s1.oscillators.length = 128 ∧ s1.sampleRate = s.sampleRate ∧
        (∀ j : Nat, j ≠ n → s1.oscillators[j]? = s.oscillators[j]?) ∧
        s.oscillators[n]? = some o ∧
        s1.oscillators[n]?
          = some (o.setFrequency (WavetableSynth.midiNoteNumberToFrequency m (n : Int)))) ∧
    (∃ s1 o, WavetableSynth.handleMidiEvent m s ⟨t, MidiKind.noteOff n⟩ = some s1 ∧
        s1.oscillators.length = 128 ∧ s1.sampleRate = s.sampleRate ∧
        (∀ j : Nat, j ≠ n → s1.oscillators[j]? = s.oscillators[j]?) ∧
        s.oscillators[n]? = some o ∧
        s1.oscillators[n]? = some o.stop) := by
  have hlt : n < s.oscillators.length := by rw [hlen]; exact hn
  have hget : s.oscillators[n]? = some s.oscillators[n] := List.getElem?_eq_getElem hlt
  refine ⟨⟨_, s.oscillators[n], WavetableSynth.handleMidiEvent_noteOn m s n t v hlt, ?_, rfl,
      ?_, hget, ?_⟩,
    ⟨_, s.oscillators[n], WavetableSynth.handleMidiEvent_noteOff m s n t hlt, ?_, rfl,
      ?_, hget, ?_⟩⟩
  · simp [hlen]
  · intro j hj
    simp [List.getElem?_set, Ne.symm hj]
  · simp [hlt]
  · simp [hlen]
  · intro j hj
    simp [List.getElem?_set, Ne.symm hj]
  · simp [hlt]

/-- C16 on the engine prepared at 44100 Hz, for the note 69: slot 68 is untouched by
`NoteOn(69)`. -/
theorem handleMidiEvent_touches_one_slot_witness :
    ∃ s1, WavetableSynth.handleMidiEvent demoMath
          (WavetableSynth.prepareToPlay demoMath demoSynth 44100) ⟨0, MidiKind.noteOn 69 100⟩
        = some s1 ∧
      s1.oscillators.length = 128 ∧
      s1.oscillators[68]?
        = (WavetableSynth.prepareToPlay demoMath demoSynth 44100).oscillators[68]? := by
  obtain ⟨⟨s1, o, h1, h2, -, h3, -⟩, -⟩ :=
    handleMidiEvent_touches_one_slot demoMath
      (WavetableSynth.prepareToPlay demoMath demoSynth 44100) 69 0 100
      (by rw [WavetableSynth.prepareToPlay_oscillators, List.length_replicate]; rfl)
      (by decide)
  exact ⟨s1, h1, h2, h3 68 (by decide)⟩

/-- C19 fails as stated: in IEEE 754 arithmetic, on the table `[0, 1]` from the position
0 with the increment `0.1f = 13421773 / 2 ^ 27`, seven `getSample` calls leave the
position `2936013 / 2 ^ 22`.  The closed form `(p0 + 7 * inc) mod 2` is
`93952411 / 2 ^ 27` in exact arithmetic and `11744051 / 2 ^ 24` when the product and
the sum are rounded to `float`; the position reached by seven rounded additions is
neither. -/
theorem accumulated_position_is_not_closed_form :
    (∃ xs : List Ieee,
      Rounded.getSamples
          ⟨[Ieee.finite 0, Ieee.finite 1], Ieee.finite 48000, Ieee.finite 0,
            Ieee.finite (13421773 / 134217728)⟩ 7
        = some (xs,
            ⟨[Ieee.finite 0, Ieee.finite 1], Ieee.finite 48000,
              Ieee.finite (2936013 / 4194304), Ieee.finite (13421773 / 134217728)⟩)) ∧
    fmod ((0 : ℚ) + 7 * (13421773 / 134217728)) 2 = 93952411 / 134217728 ∧
    Ieee.fmod
        (Ieee.add binary32 (Ieee.finite 0)
          (Ieee.mul binary32 (Ieee.finite 7) (Ieee.finite (13421773 / 134217728))))
        (Ieee.finite 2)
      = Ieee.finite (11744051 / 16777216) ∧
    (2936013 / 4194304 : ℚ) ≠ 93952411 / 134217728 ∧
    (2936013 / 4194304 : ℚ) ≠ 11744051 / 16777216 := by
  have hof : Ieee.ofInt binary32 ((2 : Nat) : Int) = Ieee.finite 2 := by
    have := Ieee.ofInt_binary32_natCast 2 (by norm_num)
    simpa using this
  -- one advance of the position: a rounded addition and an exact remainder
  have hstep : ∀ x y : ℚ, binary32.round (x + 13421773 / 134217728) = Ieee.finite y →
      0 ≤ y → y < 2 →
      Ieee.fmod (Ieee.add binary32 (Ieee.finite x) (Ieee.finite (13421773 / 134217728)))
        (Ieee.ofInt binary32 ((2 : Nat) : Int)) = Ieee.finite y := by
    intro x y h h0 h2
    rw [hof]
    simp only [Ieee.add, h]
    rw [Rounded.fmod_finite _ _ (by norm_num), fmod_of_lt h0 h2]
  have r1 : binary32.round ((0 : ℚ) + 13421773 / 134217728)
      = Ieee.finite (13421773 / 134217728) := by
    rw [zero_add]
    exact Rounded.round32_dyadic _ 13421773 (-27) (by norm_num) (by norm_num) (by norm_num)
      (by norm_num [abs_lt])
  have r2 : binary32.round ((13421773 / 134217728 : ℚ) + 13421773 / 134217728)
      = Ieee.finite (13421773 / 67108864) := by
    have e : (13421773 / 134217728 : ℚ) + 13421773 / 134217728 = 13421773 / 67108864 := by
      norm_num
    rw [e]
    exact Rounded.round32_dyadic _ 13421773 (-26) (by norm_num) (by norm_num) (by norm_num)
      (by norm_num [abs_lt])
  have r3 : binary32.round ((13421773 / 67108864 : ℚ) + 13421773 / 134217728)
      = Ieee.finite (5033165 / 16777216) := by
    have := Rounded.round32_near (x := (13421773 / 67108864 : ℚ) + 13421773 / 134217728)
      (-2) 10066330 (by norm_num) (by norm_num) (by norm_num) (by norm_num) (by norm_num)
      (by norm_num)
    norm_num at this ⊢
    exact this
  have r4 : binary32.round ((5033165 / 16777216 : ℚ) + 13421773 / 134217728)
      = Ieee.finite (13421773 / 33554432) := by
    have := Rounded.round32_near (x := (5033165 / 16777216 : ℚ) + 13421773 / 134217728)
      (-2) 13421773 (by norm_num) (by norm_num) (by norm_num) (by norm_num) (by norm_num)
      (by norm_num)
    norm_num at this ⊢
    exact this
  have r5 : binary32.round ((13421773 / 33554432 : ℚ) + 13421773 / 134217728)
      = Ieee.finite (1 / 2) := by
    have := Rounded.round32_near (x := (13421773 / 33554432 : ℚ) + 13421773 / 134217728)
      (-1) 8388608 (by norm_num) (by norm_num) (by norm_num) (by norm_num) (by norm_num)
      (by norm_num)
    norm_num at this ⊢
    exact this
  have r6 : binary32.round ((1 / 2 : ℚ) + 13421773 / 134217728)
      = Ieee.finite (5033165 / 8388608) := by
    have := Rounded.round32_near (x := (1 / 2 : ℚ) + 13421773 / 134217728)
      (-1) 10066330 (by norm_num) (by norm_num) (by norm_num) (by norm_num) (by norm_num)
      (by norm_num)
    norm_num at this ⊢
    exact this
  have r7 : binary32.round ((5033165 / 8388608 : ℚ) + 13421773 / 134217728)
      = Ieee.finite (2936013 / 4194304) := by
    have := Rounded.round32_near (x := (5033165 / 8388608 : ℚ) + 13421773 / 134217728)
      (-1) 11744052 (by norm_num) (by norm_num) (by norm_num) (by norm_num) (by norm_num)
      (by norm_num)
    norm_num at this ⊢
    exact this
  refine ⟨?_, ?_, ?_, by norm_num, by norm_num⟩
  · obtain ⟨xs, hx, -, -, -⟩ := Rounded.getSamples_of_inRange_rounded 7
      ⟨[Ieee.finite 0, Ieee.finite 1], Ieee.finite 48000, Ieee.finite 0,
        Ieee.finite (13421773 / 134217728)⟩
      (by
        rw [Rounded.inRange_iff]
        refine ⟨0, 13421773 / 134217728, rfl, rfl, by simp, le_refl _, by simp,
          by norm_num, ?_⟩
        rw [Rounded.maxFinite_binary32]
        norm_num)
      (by simp)
    refine ⟨xs, ?_⟩
    rw [hx]
    simp only [Function.iterate_succ_apply, Function.iterate_zero, id_eq, List.length_cons,
      List.length_nil, Nat.reduceAdd]
    rw [hstep 0 _ r1 (by norm_num) (by norm_num), hstep _ _ r2 (by norm_num) (by norm_num),
      hstep _ _ r3 (by norm_num) (by norm_num), hstep _ _ r4 (by norm_num) (by norm_num),
      hstep _ _ r5 (by norm_num) (by norm_num), hstep _ _ r6 (by norm_num) (by norm_num),
      hstep _ _ r7 (by norm_num) (by norm_num)]
  · have e : (0 : ℚ) + 7 * (13421773 / 134217728) = 93952411 / 134217728 := by norm_num
    rw [e]
    exact fmod_of_lt (by norm_num) (by norm_num)
  · have m : binary32.round ((7 : ℚ) * (13421773 / 134217728))
        = Ieee.finite (11744051 / 16777216) := by
      have := Rounded.round32_near (x := (7 : ℚ) * (13421773 / 134217728))
        (-1) 11744051 (by norm_num) (by norm_num) (by norm_num) (by norm_num) (by norm_num)
        (by norm_num)
      norm_num at this ⊢
      exact this
    have a : binary32.round ((0 : ℚ) + 11744051 / 16777216)
        = Ieee.finite (11744051 / 16777216) := by
      rw [zero_add]
      exact Rounded.round32_dyadic _ 11744051 (-24) (by norm_num) (by norm_num) (by norm_num)
        (by norm_num [abs_lt])
    simp only [Ieee.mul, m, Ieee.add, a]
    rw [Rounded.fmod_finite _ _ (by norm_num), fmod_of_lt (by norm_num) (by norm_num)]

/-- C19, amended: in IEEE 754 arithmetic, on a table of `1 ≤ L ≤ 2 ^ 24` entries, with a
finite increment `inc ≥ 0` and a finite position `p0` in `[0, L)`, `k` successive
`getSample` calls are defined; the position after them is the result of `k` advances
`index = fmod(index + inc, L)`, each with its addition rounded to `float`, and the
`j`-th call (counted from 0) returns the linear interpolation of the table at the
position after `j` advances.  Every such position is a finite number of `[0, L)`. -/
theorem getSample_positions_follow_advances (o : WavetableOscillator Ieee) (k : Nat)
    (p0 inc : ℚ) (hL : 1 ≤ o.waveTable.length) (hL2 : o.waveTable.length ≤ 2 ^ 24)
    (hidx : o.index = Ieee.finite p0) (hinc : o.indexIncrement = Ieee.finite inc)
    (hinc0 : 0 ≤ inc) (hinc1 : inc ≤ binary32.maxFinite) (h0 : 0 ≤ p0)
    (h1 : p0 < (o.waveTable.length : ℚ)) :
    ∃ xs : List Ieee,
      Rounded.getSamples o k = some (xs,
        ⟨o.waveTable, o.sampleRate,
          (fun index => Ieee.fmod (Ieee.add binary32 index o.indexIncrement)
            (Ieee.ofInt binary32 (o.waveTable.length : Int)))^[k] o.index,
          o.indexIncrement⟩) ∧
      xs.length = k ∧
      (∀ j : Nat, j < k →
        xs[j]? = Rounded.interpolateLinearly
          ⟨o.waveTable, o.sampleRate,
            (fun index => Ieee.fmod (Ieee.add binary32 index o.indexIncrement)
              (Ieee.ofInt binary32 (o.waveTable.length : Int)))^[j] o.index,
            o.indexIncrement⟩) ∧
      ∀ j : Nat, ∃ p : ℚ,
        (fun index => Ieee.fmod (Ieee.add binary32 index o.indexIncrement)
          (Ieee.ofInt binary32 (o.waveTable.length : Int)))^[j] o.index = Ieee.finite p ∧
        0 ≤ p ∧ p < (o.waveTable.length : ℚ) := by
  have hin : Rounded.InRange o := by
    rw [Rounded.inRange_iff]
    exact ⟨p0, inc, hidx, hinc, hL, h0, h1, hinc0, hinc1⟩
  obtain ⟨xs, hx, hlen, -, hpos⟩ := Rounded.getSamples_of_inRange_rounded k o hin hL2
  refine ⟨xs, hx, hlen, hpos, fun j => ?_⟩
  obtain ⟨-, -, -, hinj, -⟩ := Rounded.getSamples_of_inRange_rounded j o hin hL2
  obtain ⟨p, d, hp, -, -, hp0, hp1, -, -⟩ := (Rounded.inRange_iff _).mp hinj
  exact ⟨p, hp, hp0, hp1⟩

/-- C19, amended, on the table `[0, 1, 0, -1]` from the position `1/2` with the increment
`3/2`: three calls are defined and return three samples. -/
theorem getSample_positions_follow_advances_witness :
    ∃ xs : List Ieee,
      Rounded.getSamples
          ⟨[Ieee.finite 0, Ieee.finite 1, Ieee.finite 0, Ieee.finite (-1)], Ieee.finite 4,
            Ieee.finite (1 / 2), Ieee.finite (3 / 2)⟩ 3
        = some (xs,
          ⟨[Ieee.finite 0, Ieee.finite 1, Ieee.finite 0, Ieee.finite (-1)], Ieee.finite 4,
            (fun index => Ieee.fmod (Ieee.add binary32 index (Ieee.finite (3 / 2)))
              (Ieee.ofInt binary32
                (([Ieee.finite 0, Ieee.finite 1, Ieee.finite 0, Ieee.finite (-1)] :
                  List Ieee).length : Int)))^[3] (Ieee.finite (1 / 2)),
            Ieee.finite (3 / 2)⟩) ∧
      xs.length = 3 := by
  obtain ⟨xs, h1, h2, -⟩ := getSample_positions_follow_advances
    ⟨[Ieee.finite 0, Ieee.finite 1, Ieee.finite 0, Ieee.finite (-1)], Ieee.finite 4,
      Ieee.finite (1 / 2), Ieee.finite (3 / 2)⟩ 3 (1 / 2) (3 / 2) (by simp) (by simp) rfl rfl
    (by norm_num) (by rw [Rounded.maxFinite_binary32]; norm_num) (by norm_num)
    (by norm_num)
  exact ⟨xs, h1, h2⟩


/-- C20 fails as stated: in IEEE 754 arithmetic, on the table `[t, t]` with
`t = 11683163 / 2 ^ 23` at the position `3203503 / 2 ^ 22`, `getSample` returns
`t + 2 ^ -23`: the two rounded products `w0 * t` and `w1 * t` add up to a tie that
rounds upward, so the sample lies above both table entries and above the largest
absolute value in the table. -/
theorem interpolated_sample_exceeds_table :
    (∃ o1 : WavetableOscillator Ieee,
      Rounded.getSample
          ⟨[Ieee.finite (11683163 / 8388608), Ieee.finite (11683163 / 8388608)],
            Ieee.finite 48000, Ieee.finite (3203503 / 4194304), Ieee.finite 0⟩
        = some (Ieee.finite (2920791 / 2097152), o1)) ∧
    max (11683163 / 8388608 : ℚ) (11683163 / 8388608) < 2920791 / 2097152 ∧
    (∀ t ∈ ([11683163 / 8388608, 11683163 / 8388608] : List ℚ), |t| ≤ 11683163 / 8388608) ∧
    ¬ |(2920791 / 2097152 : ℚ)| ≤ 11683163 / 8388608 := by
  refine ⟨?_, by norm_num, ?_, by norm_num [abs_le]⟩
  · obtain ⟨a, b, ha, hb, hg⟩ := Rounded.getSample_of_inside_rounded
      ⟨[Ieee.finite (11683163 / 8388608), Ieee.finite (11683163 / 8388608)],
        Ieee.finite 48000, Ieee.finite (3203503 / 4194304), Ieee.finite 0⟩
      (3203503 / 4194304) rfl (by simp) (by simp) (by norm_num) (by norm_num)
    have hfl : ⌊(3203503 / 4194304 : ℚ)⌋ = 0 := by
      rw [Int.floor_eq_iff]
      norm_num
    rw [hfl] at ha hb hg
    simp only [Int.toNat_zero, List.getElem?_cons_zero, Option.some.injEq, List.length_cons,
      List.length_nil, Nat.reduceAdd, Nat.reduceMod, List.getElem?_cons_succ] at ha hb
    subst ha hb
    have w1 : binary32.round ((3203503 / 4194304 : ℚ) + -((0 : Int) : ℚ))
        = Ieee.finite (3203503 / 4194304) := by
      have e : (3203503 / 4194304 : ℚ) + -((0 : Int) : ℚ) = 3203503 / 4194304 := by norm_num
      rw [e]
      exact Rounded.round32_dyadic _ 3203503 (-22) (by norm_num) (by norm_num) (by norm_num)
        (by norm_num [abs_lt])
    have w0 : binary32.round ((1 : ℚ) + -(3203503 / 4194304))
        = Ieee.finite (990801 / 4194304) := by
      have e : (1 : ℚ) + -(3203503 / 4194304) = 990801 / 4194304 := by norm_num
      rw [e]
      exact Rounded.round32_dyadic _ 990801 (-22) (by norm_num) (by norm_num) (by norm_num)
        (by norm_num [abs_lt])
    have m0 : binary32.round ((990801 / 4194304 : ℚ) * (11683163 / 8388608))
        = Ieee.finite (5519719 / 16777216) := by
      have := Rounded.round32_near (x := (990801 / 4194304 : ℚ) * (11683163 / 8388608))
        (-2) 11039438 (by norm_num) (by norm_num) (by norm_num) (by norm_num) (by norm_num)
        (by norm_num)
      norm_num at this ⊢
      exact this
    have m1 : binary32.round ((3203503 / 4194304 : ℚ) * (11683163 / 8388608))
        = Ieee.finite (1115413 / 1048576) := by
      have := Rounded.round32_near (x := (3203503 / 4194304 : ℚ) * (11683163 / 8388608))
        0 8923304 (by norm_num) (by norm_num) (by norm_num) (by norm_num) (by norm_num)
        (by norm_num)
      norm_num at this ⊢
      exact this
    have s : binary32.round ((5519719 / 16777216 : ℚ) + 1115413 / 1048576)
        = Ieee.finite (2920791 / 2097152) := by
      have := Rounded.round32_tie_odd (x := (5519719 / 16777216 : ℚ) + 1115413 / 1048576)
        0 11683163 (by norm_num) (by norm_num) (by norm_num) (by norm_num) (by decide)
        (by norm_num) (by norm_num)
      norm_num at this ⊢
      exact this
    rw [hg]
    simp only [Ieee.sub, Ieee.neg, Ieee.add, Ieee.mul, w1, w0, m0, m1, s]
    exact ⟨_, rfl⟩
  · intro t ht
    simp only [List.mem_cons, List.mem_singleton, List.not_mem_nil, or_false, or_self] at ht
    rw [ht]
    norm_num [abs_le]

/-- C20, amended: in IEEE 754 arithmetic, on a table of `1 ≤ L ≤ 2 ^ 24` entries at a
finite position `p` in `[0, L)`, `getSample` returns
`float(float(w0 * table[i0]) + float(w1 * table[i1]))` for the two entries at
`i0 = floor(p)` and `i1 = (i0 + 1) mod L`, both inside the table, with the weights
`w1 = float(p - i0)` and `w0 = float(1 - w1)`, both finite numbers of `[0, 1]`; when `p`
is a `float`, `w1` is exactly `p - floor(p) < 1`.  The products and the sum are rounded,
so the sample need not lie between the two entries; when both are finite and of
absolute value at most `B ≤ 2 ^ 126`, the sample is finite and of absolute value at
most `B * (1 + 2 ^ -22) + 2 ^ -148`, which is `1 + 2 ^ -22 + 2 ^ -148` on the generated
table when `sinf` is finite and bounded by 1. -/
theorem getSample_is_rounded_weighted_sum (o : WavetableOscillator Ieee) (p : ℚ)
    (hidx : o.index = Ieee.finite p) (hL : 1 ≤ o.waveTable.length)
    (hL2 : o.waveTable.length ≤ 2 ^ 24) (h0 : 0 ≤ p) (h1 : p < (o.waveTable.length : ℚ)) :
    ∃ (x : Ieee) (o1 : WavetableOscillator Ieee) (a b : Ieee) (w1 w0 : ℚ),
      Rounded.getSample o = some (x, o1) ∧
      o.waveTable[⌊p⌋.toNat]? = some a ∧
      o.waveTable[(⌊p⌋.toNat + 1) % o.waveTable.length]? = some b ∧
      Ieee.sub binary32 o.index (Ieee.ofInt binary32 ⌊p⌋) = Ieee.finite w1 ∧
      Ieee.sub binary32 (Ieee.finite 1) (Ieee.finite w1) = Ieee.finite w0 ∧
      0 ≤ w1 ∧ w1 ≤ 1 ∧ 0 ≤ w0 ∧ w0 ≤ 1 ∧
      (binary32.round p = Ieee.finite p → w1 = p - (⌊p⌋ : ℚ) ∧ w1 < 1) ∧
      x = Ieee.add binary32 (Ieee.mul binary32 (Ieee.finite w0) a)
        (Ieee.mul binary32 (Ieee.finite w1) b) ∧
      (∀ B : ℚ, B ≤ 2 ^ 126 →
        (∀ t ∈ o.waveTable, ∃ q : ℚ, t = Ieee.finite q ∧ |q| ≤ B) →
        ∃ v : ℚ, x = Ieee.finite v ∧ |v| ≤ B * (1 + 1 / 2 ^ 22) + 1 / 2 ^ 148) ∧
      (∀ (m : CMath Ieee) (s : WavetableSynth Ieee),
        (∀ y : Ieee, ∃ q : ℚ, m.sinf y = Ieee.finite q ∧ |q| ≤ 1) →
        o.waveTable = Rounded.generateSineWaveTable m s →
        ∃ v : ℚ, x = Ieee.finite v ∧ |v| ≤ 1 + 1 / 2 ^ 22 + 1 / 2 ^ 148) := by
  obtain ⟨a, b, ha, hb, hg⟩ := Rounded.getSample_of_inside_rounded o p hidx hL hL2 h0 h1
  have hfl0 : 0 ≤ ⌊p⌋ := Int.floor_nonneg.mpr h0
  have hLq : ((o.waveTable.length : Nat) : ℚ) ≤ 2 ^ 24 := by exact_mod_cast hL2
  have hof : Ieee.ofInt binary32 ⌊p⌋ = Ieee.finite (⌊p⌋ : ℚ) :=
    Ieee.ofInt_binary32_of_abs_le ⌊p⌋ (by
      rw [abs_of_nonneg hfl0]
      have h3 : (⌊p⌋ : ℚ) ≤ p := Int.floor_le p
      have h4 : (⌊p⌋ : ℚ) ≤ ((2 ^ 24 : Int) : ℚ) := by
        push_cast
        linarith
      exact_mod_cast h4)
  have hf0 : 0 ≤ p - (⌊p⌋ : ℚ) := by linarith [Int.floor_le p]
  have hf1 : p - (⌊p⌋ : ℚ) < 1 := by linarith [Int.lt_floor_add_one p]
  obtain ⟨w1, hw1, hw10, hw11⟩ := FloatFormat.round_le_two_zpow binary32
    (x := p + -(⌊p⌋ : ℚ)) (k := 0) (by simp [binary32]) (by linarith)
    (by simp only [zpow_zero]; linarith) (by simp [binary32]) (by simp [binary32])
  simp only [zpow_zero] at hw11
  obtain ⟨w0, hw0, hw00, hw01⟩ := FloatFormat.round_le_two_zpow binary32
    (x := 1 + -w1) (k := 0) (by simp [binary32]) (by linarith)
    (by simp only [zpow_zero]; linarith) (by simp [binary32]) (by simp [binary32])
  simp only [zpow_zero] at hw01
  have hs1 : Ieee.sub binary32 (Ieee.finite p) (Ieee.finite (⌊p⌋ : ℚ)) = Ieee.finite w1 := hw1
  have hs0 : Ieee.sub binary32 (Ieee.finite 1) (Ieee.finite w1) = Ieee.finite w0 := hw0
  -- the two weights add up to 1 but for the rounding of `1 - w1`
  have hsum : w0 + w1 ≤ 1 + 1 / 2 ^ 24 + 1 / 2 ^ 150 := by
    obtain ⟨y, hy, herr⟩ := Rounded.round32_error (x := 1 + -w1) (by
      rw [abs_of_nonneg (by linarith)]
      have : (1 : ℚ) ≤ 2 ^ 127 := by norm_num
      linarith)
    rw [hw0] at hy
    have hyw : w0 = y := Ieee.finite.inj hy
    rw [← hyw, abs_of_nonneg (by linarith : (0 : ℚ) ≤ 1 + -w1)] at herr
    have h3 := (abs_le.mp herr).2
    have h4 : (1 + -w1) * (1 / 2 ^ 24 : ℚ) ≤ 1 * (1 / 2 ^ 24) :=
      mul_le_mul_of_nonneg_right (by linarith) (by norm_num)
    linarith
  have hbound : ∀ B : ℚ, B ≤ 2 ^ 126 →
      (∀ t ∈ o.waveTable, ∃ q : ℚ, t = Ieee.finite q ∧ |q| ≤ B) →
      ∃ v : ℚ, Ieee.add binary32
          (Ieee.mul binary32
            (Ieee.sub binary32 (Ieee.finite 1)
              (Ieee.sub binary32 (Ieee.finite p) (Ieee.finite (⌊p⌋ : ℚ)))) a)
          (Ieee.mul binary32
            (Ieee.sub binary32 (Ieee.finite p) (Ieee.finite (⌊p⌋ : ℚ))) b) = Ieee.finite v ∧
        |v| ≤ B * (1 + 1 / 2 ^ 22) + 1 / 2 ^ 148 := by
    intro B hB htab
    obtain ⟨qa, hqa, hqaB⟩ := htab a (List.getElem?_mem ha)
    obtain ⟨qb, hqb, hqbB⟩ := htab b (List.getElem?_mem hb)
    rw [hs1, hs0, hqa, hqb]
    exact Rounded.weighted_sum_bound w0 w1 qa qb B hw00 hw01 hw10 hw11 hsum hqaB hqbB hB
  refine ⟨_, _, a, b, w1, w0, hg, ha, hb, by rw [hidx, hof]; exact hs1, hs0, hw10, hw11,
    hw00, hw01, ?_, by rw [hs1, hs0], hbound, ?_⟩
  · intro hrep
    have hfr := FloatFormat.round_fract binary32 (by simp [binary32]) h0 hrep
    have e : p + -(⌊p⌋ : ℚ) = p - (⌊p⌋ : ℚ) := by ring
    rw [e, hfr] at hw1
    have hw : w1 = p - (⌊p⌋ : ℚ) := (Ieee.finite.inj hw1).symm
    exact ⟨hw, by rw [hw]; exact hf1⟩
  · intro m s hsin htab
    obtain ⟨v, hv, hvb⟩ := hbound 1 (by norm_num) (by
      intro t ht
      rw [htab] at ht
      obtain ⟨y, rfl⟩ := Rounded.mem_generateSineWaveTable_rounded m s t ht
      exact hsin y)
    refine ⟨v, hv, ?_⟩
    linarith

/-- C20, amended, on the table `[1, 3, 5]` at the position `5/2`, a `float`: the sample is
defined and its weight `w1` is `5/2 - 2 = 1/2`. -/
theorem getSample_is_rounded_weighted_sum_witness :
    ∃ (x : Ieee) (o1 : WavetableOscillator Ieee) (w1 : ℚ),
      Rounded.getSample
          ⟨[Ieee.finite 1, Ieee.finite 3, Ieee.finite 5], Ieee.finite 44100,
            Ieee.finite (5 / 2), Ieee.finite 1⟩ = some (x, o1) ∧
      0 ≤ w1 ∧ w1 ≤ 1 ∧ w1 = 5 / 2 - ((⌊(5 / 2 : ℚ)⌋ : Int) : ℚ) := by
  obtain ⟨x, o1, a, b, w1, w0, h1, -, -, -, -, h2, h3, -, -, h4, -, -, -⟩ :=
    getSample_is_rounded_weighted_sum
      ⟨[Ieee.finite 1, Ieee.finite 3, Ieee.finite 5], Ieee.finite 44100,
        Ieee.finite (5 / 2), Ieee.finite 1⟩ (5 / 2) rfl (by simp) (by simp) (by norm_num)
      (by norm_num)
  refine ⟨x, o1, w1, h1, h2, h3, (h4 ?_).1⟩
  exact Rounded.round32_dyadic _ 5 (-1) (by norm_num) (by norm_num) (by norm_num)
    (by norm_num [abs_lt])

/-- C13: in every engine state reached from `prepareToPlay` (sample rate above 0) by
events with note numbers at most 127 and by `render` calls, with a power function that
is above 0, `NoteOff(n)` for a note `n ≤ 127` whose oscillator is not playing (be it
stopped or never started) is defined and returns the engine state unchanged. -/
theorem noteOff_on_silent_note_is_no_op (m : CMath F) (s : WavetableSynth F)
    (n t : Nat) (o : WavetableOscillator F)
    (hpow : ∀ e : F, 0 < m.powf 2 e) (hs : WavetableSynth.Reachable m s)
    (_hn : n < 128) (ho : s.oscillators[n]? = some o) (hsilent : o.isPlaying = false) :
    WavetableSynth.handleMidiEvent m s ⟨t, MidiKind.noteOff n⟩ = some s := by
  obtain ⟨-, -, hall⟩ := WavetableSynth.reachable_invariant m hpow s hs
  obtain ⟨hlt, hget⟩ := List.getElem?_eq_some.mp ho
  have hmem : o ∈ s.oscillators := List.getElem?_mem ho
  have hinc : o.indexIncrement = 0 := (WavetableSynth.isPlaying_eq_false_iff o).mp hsilent
  have hidx : o.index = 0 := (hall o hmem).2 hinc
  have hstop : o.stop = o := by
    cases o with
    | mk tab sr idx inc =>
      simp only at hinc hidx
      simp only [WavetableOscillator.stop, hinc, hidx]
  rw [WavetableSynth.handleMidiEvent_noteOff m s n t hlt, hget, hstop]
  have hset : s.oscillators.set n o = s.oscillators := by
    apply List.ext_getElem?
    intro j
    rw [List.getElem?_set]
    by_cases hj : n = j
    · subst hj
      simp [hlt, ho]
    · simp [hj]
  rw [hset]

/-- C13 on the engine prepared at 44100 Hz: `NoteOff(69)` for the note 69, which never
received a `NoteOn`, returns the engine unchanged. -/
theorem noteOff_on_silent_note_is_no_op_witness :
    WavetableSynth.handleMidiEvent demoMath
        (WavetableSynth.prepareToPlay demoMath demoSynth 44100) ⟨7, MidiKind.noteOff 69⟩
      = some (WavetableSynth.prepareToPlay demoMath demoSynth 44100) :=
  noteOff_on_silent_note_is_no_op demoMath
    (WavetableSynth.prepareToPlay demoMath demoSynth 44100) 69 7
    (WavetableOscillator.new (WavetableSynth.generateSineWaveTable demoMath demoSynth) 44100)
    (by intro e; simp only [demoMath]; positivity)
    (WavetableSynth.Reachable.prepare demoSynth 44100 (by norm_num))
    (by decide)
    (by
      rw [WavetableSynth.prepareToPlay_oscillators, List.getElem?_replicate]
      simp [WavetableSynth.OSCILLATOR_COUNT])
    (by simp [WavetableOscillator.isPlaying, WavetableOscillator.new_indexIncrement])

/-- C18 fails as stated: in IEEE 754 arithmetic, after `prepareToPlay(2 ^ -114)`, a
sample rate above 0, the event `NoteOn(69)` computes the increment
`float(28160 / 2 ^ -114)`, which overflows to the positive infinity; rendering one
sample then leaves `index = fmod(0 + inf, 64)`, a NaN.  This reachable state has an
oscillator whose `index` is no number of `[0, 64)`, and its next `getSample` converts the
NaN to `int`, which is undefined. -/
theorem index_is_nan_after_overflowing_note_on :
    Ieee.lt (Ieee.finite 0) (Ieee.finite (1 / 2 ^ 114)) = true ∧
    ∃ (s1 s2 : WavetableSynth Ieee) (buffer2 : AudioBuffer Ieee)
      (o : WavetableOscillator Ieee),
      Rounded.handleMidiEvent Rounded.demoMath
          (Rounded.prepareToPlay Rounded.demoMath ⟨Ieee.finite 0, []⟩
            (Ieee.finite (1 / 2 ^ 114)))
          ⟨0, MidiKind.noteOn 69 100⟩ = some s1 ∧
      Rounded.render s1 ⟨1, [[Ieee.finite 0]]⟩ 0 1 = some (s2, buffer2) ∧
      Rounded.Reachable Rounded.demoMath s2 ∧
      s2.oscillators[69]? = some o ∧
      o.indexIncrement = Ieee.inf false ∧ o.index = Ieee.nan ∧
      Rounded.getSample o = none := by
  refine ⟨by simp [Ieee.lt], ?_⟩
  obtain ⟨table, htable⟩ : ∃ table,
      Rounded.generateSineWaveTable Rounded.demoMath ⟨Ieee.finite 0, []⟩ = table := ⟨_, rfl⟩
  have hlen : table.length = 64 := by
    rw [← htable]
    exact Rounded.generateSineWaveTable_length_eq _ _
  have hP : Rounded.prepareToPlay Rounded.demoMath ⟨Ieee.finite 0, []⟩
      (Ieee.finite (1 / 2 ^ 114))
        = ⟨Ieee.finite (1 / 2 ^ 114), List.replicate 128
            (Rounded.new table (Ieee.finite (1 / 2 ^ 114)))⟩ := by
    rw [Rounded.prepareToPlay_eq_rounded, htable]
    rfl
  -- the frequency of the note 69 and the increment it gives
  have r440 : binary32.round ((440 : ℚ) * 1) = Ieee.finite 440 := by
    rw [mul_one]
    exact Rounded.round32_dyadic _ 55 3 (by norm_num) (by norm_num) (by norm_num)
      (by norm_num [abs_lt])
  have hfreq : Rounded.midiNoteNumberToFrequency Rounded.demoMath ((69 : Nat) : Int)
      = Ieee.finite 440 := by
    simp only [Rounded.midiNoteNumberToFrequency, Rounded.demoMath, Ieee.mul, r440]
  have hof : Ieee.ofInt binary32 ((table.length : Nat) : Int) = Ieee.finite 64 := by
    rw [hlen]
    have := Ieee.ofInt_binary32_natCast 64 (by norm_num)
    simpa using this
  have rprod : binary32.round ((440 : ℚ) * 64) = Ieee.finite 28160 := by
    have e : (440 : ℚ) * 64 = 28160 := by norm_num
    rw [e]
    exact Rounded.round32_dyadic _ 55 9 (by norm_num) (by norm_num) (by norm_num)
      (by norm_num [abs_lt])
  have rquot : binary64.round ((28160 : ℚ) / (1 / 2 ^ 114)) = Ieee.finite (55 * 2 ^ 123) := by
    have e : (28160 : ℚ) / (1 / 2 ^ 114) = ((55 : Int) : ℚ) * 2 ^ (123 : Int) := by norm_num
    rw [e]
    have := FloatFormat.round_of_representable binary64 55 123 (by norm_num [binary64])
      (by norm_num [binary64]) (by norm_num [binary64, abs_lt])
    rw [this]
    norm_num
  have rnarrow : binary32.round ((55 : ℚ) * 2 ^ 123) = Ieee.inf false :=
    FloatFormat.round_overflow binary32 (by simp [binary32]) (by simp [binary32])
      (by norm_num [binary32])
  have hinc : (Rounded.setFrequency (Rounded.new table (Ieee.finite (1 / 2 ^ 114)))
      (Ieee.finite 440)).indexIncrement = Ieee.inf false := by
    have hne : ¬ ((1 : ℚ) / 2 ^ 114 = 0) := by norm_num
    simp only [Rounded.setFrequency, Rounded.new, hof, Ieee.mul, rprod, Ieee.div, hne,
      if_false, rquot, Ieee.convert, rnarrow]
  -- the oscillator of the note after the event, and after one sample
  obtain ⟨oOn, hoOn⟩ : ∃ oOn, Rounded.setFrequency
      (Rounded.new table (Ieee.finite (1 / 2 ^ 114))) (Ieee.finite 440) = oOn := ⟨_, rfl⟩
  have hOnInc : oOn.indexIncrement = Ieee.inf false := by rw [← hoOn]; exact hinc
  have hOnIdx : oOn.index = Ieee.finite 0 := by rw [← hoOn]; rfl
  have hOnTab : oOn.waveTable = table := by rw [← hoOn]; rfl
  have hs1 : Rounded.handleMidiEvent Rounded.demoMath
      ⟨Ieee.finite (1 / 2 ^ 114), List.replicate 128
        (Rounded.new table (Ieee.finite (1 / 2 ^ 114)))⟩ ⟨0, MidiKind.noteOn 69 100⟩
        = some ⟨Ieee.finite (1 / 2 ^ 114), (List.replicate 128
            (Rounded.new table (Ieee.finite (1 / 2 ^ 114)))).set 69 oOn⟩ := by
    rw [Rounded.handleMidiEvent_noteOn_rounded _ _ 69 0 100 (by simp)]
    simp only [List.getElem_replicate, hfreq, hoOn]
  obtain ⟨a, b, -, -, hg⟩ := Rounded.getSample_of_inside_rounded oOn 0 hOnIdx
    (by rw [hOnTab, hlen]; norm_num) (by rw [hOnTab, hlen]; norm_num) (le_refl _)
    (by rw [hOnTab, hlen]; norm_num)
  have hnan : Ieee.fmod (Ieee.add binary32 oOn.index oOn.indexIncrement)
      (Ieee.finite (oOn.waveTable.length : ℚ)) = Ieee.nan := by
    rw [hOnIdx, hOnInc]
    rfl
  rw [hnan] at hg
  obtain ⟨x, hx⟩ : ∃ x, Rounded.getSample oOn = some (x, { oOn with index := Ieee.nan }) :=
    ⟨_, hg⟩
  have hsolo : Rounded.getSamples oOn 1 = some ([x], { oOn with index := Ieee.nan }) := by
    simp only [Rounded.getSamples, hx]
  have hplayOn : Rounded.isPlaying oOn = true := by
    simp [Rounded.isPlaying, hOnInc, Ieee.isNonzero]
  have hplayNew : Rounded.isPlaying (Rounded.new table (Ieee.finite (1 / 2 ^ 114))) = false := by
    simp [Rounded.isPlaying, Rounded.new, Ieee.isNonzero]
  obtain ⟨first1, others1, hr, -⟩ := Rounded.render_spec_rounded
    ⟨Ieee.finite (1 / 2 ^ 114), (List.replicate 128
      (Rounded.new table (Ieee.finite (1 / 2 ^ 114)))).set 69 oOn⟩
    ⟨1, [[Ieee.finite 0]]⟩ [Ieee.finite 0] [] 0 1 rfl (by norm_num) (by simp)
    (by simp)
    (by
      intro o ho hp
      rcases List.mem_or_eq_of_mem_set ho with hm | rfl
      · rw [List.eq_of_mem_replicate hm, hplayNew] at hp
        exact absurd hp (by simp)
      · exact ⟨_, hsolo⟩)
  have hreach : Rounded.Reachable Rounded.demoMath
      ⟨Ieee.finite (1 / 2 ^ 114), ((List.replicate 128
        (Rounded.new table (Ieee.finite (1 / 2 ^ 114)))).set 69 oOn).map
          (fun o => if Rounded.isPlaying o then Rounded.afterSamples o (1 - 0) else o)⟩ := by
    refine Rounded.Reachable.render _ _ _ _ 0 1 ?_ hr
    refine Rounded.Reachable.event _ _ ⟨0, MidiKind.noteOn 69 100⟩ ?_ (by decide) hs1
    rw [← hP]
    exact Rounded.Reachable.prepare _ _ (by simp [Ieee.lt])
  refine ⟨_, _, _, { oOn with index := Ieee.nan }, by rw [hP]; exact hs1, hr, hreach, ?_,
    hOnInc, rfl, ?_⟩
  · simp only [List.getElem?_map]
    rw [List.getElem?_set_self (by simp)]
    simp only [Option.map_some', hplayOn, if_true, Rounded.afterSamples, hsolo]
  · simp [Rounded.getSample, Rounded.interpolateLinearly, Ieee.toInt]

/-- C18, amended: in IEEE 754 arithmetic, in every engine state reached from
`prepareToPlay` by events with note numbers at most 127 and by `render` calls, when the
sample rate is at least 1 and the frequency of every note is a finite number from 0 to
`2 ^ 14` (as with the real power function, from 8.18 Hz to 12543.85 Hz), the bank has
exactly 128 oscillators, each over a table of 64 entries with a finite
`indexIncrement ≥ 0` and a finite `index` with `0 ≤ index < 64`.  So every slot
`n ≤ 127` exists, the conversion of `index` to `int` is defined, both table positions
`interpolateLinearly` reads lie in `[0, 64)` and `getSample` is defined, every event of
the contract is handled, and `render` is defined on every buffer with a channel 0 whose
channels hold `blockLength` samples and every range inside the block. -/
theorem reachable_states_stay_in_bounds (m : CMath Ieee) (s : WavetableSynth Ieee)
    (hfreq : ∀ n : Nat, n < 128 →
      ∃ f : ℚ, Rounded.midiNoteNumberToFrequency m (n : Int) = Ieee.finite f ∧ 0 ≤ f ∧
        f ≤ 2 ^ 14)
    (hsr : Ieee.le (Ieee.finite 1) s.sampleRate = true) (hs : Rounded.Reachable m s) :
    s.oscillators.length = 128 ∧
      (∀ o ∈ s.oscillators,
        ∃ (index indexIncrement : ℚ) (truncatedIndex : Int),
          o.index = Ieee.finite index ∧ o.indexIncrement = Ieee.finite indexIncrement ∧
          0 ≤ indexIncrement ∧ 0 ≤ index ∧ index < 64 ∧ o.waveTable.length = 64 ∧
          Ieee.toInt o.index = some truncatedIndex ∧
          0 ≤ truncatedIndex ∧ truncatedIndex < 64 ∧
          0 ≤ Int.tmod (truncatedIndex + 1) 64 ∧ Int.tmod (truncatedIndex + 1) 64 < 64 ∧
          (∃ a b : Ieee, vecAt o.waveTable truncatedIndex = some a ∧
            vecAt o.waveTable (Int.tmod (truncatedIndex + 1) 64) = some b) ∧
          ∃ (x : Ieee) (o1 : WavetableOscillator Ieee), Rounded.getSample o = some (x, o1)) ∧
      (∀ n : Nat, n < 128 → ∃ o, s.oscillators[n]? = some o) ∧
      (∀ midiEvent : MidiMessage, midiEvent.kind.InContract →
        ∃ s1, Rounded.handleMidiEvent m s midiEvent = some s1) ∧
      (∀ (buffer : AudioBuffer Ieee) (a b : Nat), buffer.WellFormed →
        0 < buffer.channels.length → a ≤ b → b ≤ buffer.numSamples →
        ∃ r, Rounded.render s buffer a b = some r) := by
  obtain ⟨hlen, hall⟩ := Rounded.reachable_invariant_rounded m hfreq s hs hsr
  refine ⟨hlen, ?_, ?_, Rounded.handleMidiEvent_defined_rounded m s hlen, ?_⟩
  · intro o ho
    obtain ⟨hL, -, hin⟩ := hall o ho
    obtain ⟨p, d, hp, hd, -, h0, h1, hd0, -⟩ := (Rounded.inRange_iff o).mp hin
    have h64 : p < 64 := by
      rw [hL] at h1
      exact_mod_cast h1
    have hfl0 : 0 ≤ ⌊p⌋ := Int.floor_nonneg.mpr h0
    have hflt : ⌊p⌋ < 64 := by
      rw [Int.floor_lt]; exact_mod_cast h64
    have hto : Ieee.toInt o.index = some ⌊p⌋ := by
      rw [hp]
      exact Rounded.toInt_of_nonneg h0 (by linarith)
    have ht : 0 ≤ Int.tmod (⌊p⌋ + 1) 64 ∧ Int.tmod (⌊p⌋ + 1) 64 < 64 := by
      rw [Int.tmod_eq_emod (by omega) (by omega)]
      omega
    obtain ⟨x, o1, hg, -⟩ := Rounded.getSample_of_inRange_rounded o hin (by rw [hL]; norm_num)
    refine ⟨p, d, ⌊p⌋, hp, hd, hd0, h0, h64, hL, hto, hfl0, hflt, ht.1, ht.2, ?_, x, o1, hg⟩
    have hk0 : (⌊p⌋).toNat < o.waveTable.length := by rw [hL]; omega
    have hk1 : (Int.tmod (⌊p⌋ + 1) 64).toNat < o.waveTable.length := by rw [hL]; omega
    refine ⟨o.waveTable[(⌊p⌋).toNat], o.waveTable[(Int.tmod (⌊p⌋ + 1) 64).toNat], ?_, ?_⟩
    · simp only [vecAt, hfl0, if_true]
      exact List.getElem?_eq_getElem hk0
    · simp only [vecAt, ht.1, if_true]
      exact List.getElem?_eq_getElem hk1
  · intro n hn
    have hk : n < s.oscillators.length := by rw [hlen]; exact hn
    exact ⟨s.oscillators[n], List.getElem?_eq_getElem hk⟩
  · intro buffer a b hwf hch hab hb
    rw [Rounded.render_defined_iff_rounded s buffer a b hwf hch hab hb]
    intro o ho _
    obtain ⟨hL, -, hin⟩ := hall o ho
    obtain ⟨xs, hx, -⟩ := Rounded.getSamples_of_inRange_rounded (b - a) o hin (by rw [hL]; norm_num)
    exact ⟨_, hx⟩

/-- C18, amended, on the engine prepared at 44100 Hz after `NoteOn(69)`: 128 oscillators,
the slot 69 exists, and rendering `[1, 3)` of the two-channel buffer is defined. -/
theorem reachable_states_stay_in_bounds_witness :
    ∃ s1 : WavetableSynth Ieee,
      Rounded.handleMidiEvent Rounded.demoMath
          (Rounded.prepareToPlay Rounded.demoMath Rounded.demoSynth (Ieee.finite 44100))
          ⟨0, MidiKind.noteOn 69 100⟩
        = some s1 ∧
      s1.oscillators.length = 128 ∧ (∃ o, s1.oscillators[69]? = some o) ∧
      ∃ r, Rounded.render s1 Rounded.demoBuffer 1 3 = some r := by
  obtain ⟨s1, h1⟩ := Rounded.handleMidiEvent_defined_rounded Rounded.demoMath
    (Rounded.prepareToPlay Rounded.demoMath Rounded.demoSynth (Ieee.finite 44100))
    (by rw [Rounded.prepareToPlay_oscillators_rounded, List.length_replicate]; rfl)
    ⟨0, MidiKind.noteOn 69 100⟩ (by decide)
  have hrate : s1.sampleRate = Ieee.finite 44100 :=
    Rounded.handleMidiEvent_sampleRate_rounded _ _ _ _ h1
  have h := reachable_states_stay_in_bounds Rounded.demoMath s1
    (by
      intro n _
      refine ⟨440, ?_, by norm_num, by norm_num⟩
      have r440 : binary32.round ((440 : ℚ) * 1) = Ieee.finite 440 := by
        rw [mul_one]
        exact Rounded.round32_dyadic _ 55 3 (by norm_num) (by norm_num) (by norm_num)
          (by norm_num [abs_lt])
      simp only [Rounded.midiNoteNumberToFrequency, Rounded.demoMath, Ieee.mul, r440])
    (by rw [hrate]; simp [Ieee.le])
    (Rounded.Reachable.event _ s1 ⟨0, MidiKind.noteOn 69 100⟩
      (Rounded.Reachable.prepare Rounded.demoSynth (Ieee.finite 44100) (by simp [Ieee.lt]))
      (by decide) h1)
  exact ⟨s1, h1, h.1, h.2.2.1 69 (by decide),
    h.2.2.2.2 Rounded.demoBuffer 1 3 (by decide) (by decide) (by decide) (by decide)⟩

/-- C17: on a buffer with a channel 0 whose channels hold `blockLength` samples and for
`a ≤ b ≤ c ≤ blockLength`, `render(a, b)` followed by `render(b, c)` gives what the one
call `render(a, c)` gives: the same contents in every channel and the same oscillator
states (and it is undefined exactly when that call is, that is when some playing
oscillator cannot be run alone for `c - a` samples). -/
theorem render_does_not_depend_on_split (s : WavetableSynth F) (buffer : AudioBuffer F)
    (a b c : Nat) (hwf : buffer.WellFormed) (hch : 0 < buffer.channels.length)
    (hab : a ≤ b) (hbc : b ≤ c) (hc : c ≤ buffer.numSamples) :
    (WavetableSynth.render s buffer a b).bind
        (fun r => WavetableSynth.render r.1 r.2 b c)
      = WavetableSynth.render s buffer a c ∧
    ((∃ r, WavetableSynth.render s buffer a c = some r) ↔
      ∀ o ∈ s.oscillators, o.isPlaying = true → ∃ r1, o.getSamples (c - a) = some r1) :=
  ⟨WavetableSynth.render_split s buffer a b c hwf hch hab hbc hc,
    WavetableSynth.render_defined_iff s buffer a c hwf hch (by omega) hc⟩

/-- C17 on the three-oscillator bank and the two-channel buffer: rendering `[1, 2)` and
then `[2, 3)` gives the result of rendering `[1, 3)`. -/
theorem render_does_not_depend_on_split_witness :
    (WavetableSynth.render demoSynth demoBuffer 1 2).bind
        (fun r => WavetableSynth.render r.1 r.2 2 3)
      = some (⟨4, [⟨[0, 1], 4, 0, 1⟩, ⟨[0, 1], 4, 3 / 2, 1 / 2⟩, ⟨[0, 1], 4, 0, 0⟩]⟩,
          ⟨4, [[10, 41 / 2, 32, 40], [1, 41 / 2, 32, 4]]⟩) :=
  (render_does_not_depend_on_split demoSynth demoBuffer 1 2 3
    (by decide) (by decide) (by decide) (by decide) (by decide)).1.trans render_demo

/-- C11 fails as stated: with the real sine, arctangent and power, after
`prepareToPlay(48000)` and one `processBlock` on a zero-filled buffer of 480 samples
whose only event is `NoteOn(69)` at time stamp 0, the first sample of channel 0 is the
table read at position 0, which is `sin 0 = 0`. -/
theorem first_sample_of_note_on_block_is_zero :
    ∃ s1 b1,
      WavetableSynth.processBlock (⟨Real.sin, Real.arctan, fun x y => x ^ y⟩ : CMath ℝ)
          (WavetableSynth.prepareToPlay (⟨Real.sin, Real.arctan, fun x y => x ^ y⟩ : CMath ℝ)
            ⟨0, []⟩ 48000)
          ⟨480, [List.replicate 480 0]⟩
          [⟨0, MidiKind.noteOn 69 100⟩] = some (s1, b1) ∧
      b1.sample? 0 0 = some 0 := by
  obtain ⟨s1, b1, hpb, hs⟩ := note_on_block_samples
    (⟨Real.sin, Real.arctan, fun x y => x ^ y⟩ : CMath ℝ) (fun _ => rfl)
    (by show Real.arctan 1 * 4 = Real.pi; rw [Real.arctan_one]; ring)
    (Real.rpow_zero 2) ⟨0, []⟩ 100 0
  obtain ⟨x, hx, -, hz⟩ := hs 0 (by norm_num)
  refine ⟨s1, b1, hpb, ?_⟩
  rw [hx, hz.mpr rfl]

/-- C11, amended: in IEEE 754 arithmetic, when `powf(2, 0)` is 1, after
`prepareToPlay(48000)` and one `processBlock` call on a buffer of 480 samples
(zero-filled beforehand, any number of channels from one up) whose only event is
`NoteOn(69)` at time stamp 0, the increment of the voice is
`float(double(float(440 * 64)) / 48000) = 9842633 / 2 ^ 24`, the call is defined and, for
every `k < 480`, sample `k` of channel 0 is `float(0 + x)` for the linear interpolation
`x` of the generated table at the position reached from 0 by `k` advances
`index = fmod(float(index + increment), 64)`, a finite number of `[0, 64)`.  When the
generated table has the signs of a sine cycle (the entry 0 is 0, the entries 1 to 31 are
at least `1 / 16`, the entry 32 is at most `2 ^ -20` in size, the entries 33 to 63 are at
most `-1 / 16`, none is above 1 in size), every sample is a finite number, sample 0 is 0
and every one of the samples 1 to 479 is nonzero. -/
theorem note_on_block_is_interpolated_sine (m : CMath Ieee) (s0 : WavetableSynth Ieee)
    (v channels : Nat) (hpow : m.powf (Ieee.finite 2) (Ieee.finite 0) = Ieee.finite 1) :
    (Rounded.setFrequency
        (Rounded.new (Rounded.generateSineWaveTable m s0) (Ieee.finite 48000))
        (Rounded.midiNoteNumberToFrequency m 69)).indexIncrement
      = Ieee.finite (9842633 / 16777216) ∧
    ∃ s1 b1,
      Rounded.processBlock m (Rounded.prepareToPlay m s0 (Ieee.finite 48000))
          ⟨480, List.replicate (channels + 1) (List.replicate 480 (Ieee.finite 0))⟩
          [⟨0, MidiKind.noteOn 69 v⟩] = some (s1, b1) ∧
      ∀ k : Fin 480,
        ∃ (x : Ieee) (p : ℚ),
          (fun index =>
              Ieee.fmod (Ieee.add binary32 index (Ieee.finite (9842633 / 16777216)))
                (Ieee.ofInt binary32 64))^[k.val] (Ieee.finite 0) = Ieee.finite p ∧
          0 ≤ p ∧ p < 64 ∧
          Rounded.interpolateLinearly
              ⟨Rounded.generateSineWaveTable m s0, Ieee.finite 48000, Ieee.finite p,
                Ieee.finite (9842633 / 16777216)⟩ = some x ∧
          b1.sample? 0 k.val = some (Ieee.add binary32 (Ieee.finite 0) x) ∧
          ((∀ i : Nat, i < 64 →
              ∃ q : ℚ, (Rounded.generateSineWaveTable m s0)[i]? = some (Ieee.finite q) ∧
                |q| ≤ 1 ∧ (i = 0 → q = 0) ∧ (0 < i → i < 32 → 1 / 16 ≤ q) ∧
                (i = 32 → |q| ≤ 1 / 2 ^ 20) ∧ (32 < i → q ≤ -(1 / 16))) →
            ∃ y : ℚ, Ieee.add binary32 (Ieee.finite 0) x = Ieee.finite y ∧
              (y = 0 ↔ k.val = 0)) := by
  have hlen64 := Rounded.generateSineWaveTable_length_eq m s0
  have hP := Rounded.prepareToPlay_oscillators_rounded m s0 (Ieee.finite 48000)
  obtain ⟨table, htable⟩ : ∃ table, table = Rounded.generateSineWaveTable m s0 := ⟨_, rfl⟩
  rw [← htable] at hlen64 hP ⊢
  have hvoice := Rounded.started_voice_eq_rounded m hpow table hlen64
  have h64 : Ieee.ofInt binary32 64 = Ieee.finite 64 := by
    have := Ieee.ofInt_binary32_natCast 64 (by norm_num)
    simpa using this
  have h0 : Rounded.isPlaying (Rounded.new table (Ieee.finite 48000)) = false := by
    simp [Rounded.isPlaying, Rounded.new, Ieee.isNonzero]
  have hplay : Rounded.isPlaying
      (⟨table, Ieee.finite 48000, Ieee.finite 0, Ieee.finite (9842633 / 16777216)⟩ :
        WavetableOscillator Ieee) = true := by
    simp [Rounded.isPlaying, Ieee.isNonzero]
  have hin : Rounded.InRange
      (⟨table, Ieee.finite 48000, Ieee.finite 0, Ieee.finite (9842633 / 16777216)⟩ :
        WavetableOscillator Ieee) := by
    rw [Rounded.inRange_iff]
    refine ⟨0, 9842633 / 16777216, rfl, rfl, ?_, le_refl _, ?_, by norm_num, ?_⟩
    · show 0 < table.length
      rw [hlen64]; norm_num
    · show (0 : ℚ) < (table.length : ℚ)
      rw [hlen64]; norm_num
    · rw [Rounded.maxFinite_binary32]; norm_num
  have hwf : (⟨480, List.replicate (channels + 1) (List.replicate 480 (Ieee.finite 0))⟩ :
      AudioBuffer Ieee).WellFormed := by
    intro ch hm
    rw [List.eq_of_mem_replicate hm, List.length_replicate]
  have hL2 : (Rounded.new table (Ieee.finite 48000)).waveTable.length ≤ 2 ^ 24 := by
    show table.length ≤ 2 ^ 24
    rw [hlen64]; norm_num
  obtain ⟨s1, b1, hpb, hsample⟩ :=
    Rounded.processBlock_single_noteOn_rounded m
      (Rounded.prepareToPlay m s0 (Ieee.finite 48000))
      (Rounded.new table (Ieee.finite 48000)) 69 v
      ⟨480, List.replicate (channels + 1) (List.replicate 480 (Ieee.finite 0))⟩
      (List.replicate 480 (Ieee.finite 0))
      (List.replicate channels (List.replicate 480 (Ieee.finite 0)))
      hP h0 (by norm_num) hwf (List.replicate_succ _ _)
      (by rw [hvoice]; exact hplay) (by rw [hvoice]; exact hin) hL2
  rw [hvoice] at hsample
  obtain ⟨xs, hxs, hxlen, -, hxpos⟩ := Rounded.getSamples_of_inRange_rounded 480 _ hin
    (by show table.length ≤ 2 ^ 24; rw [hlen64]; norm_num)
  dsimp only at hxs hxpos
  have hsolo : Rounded.soloSamples
      (⟨table, Ieee.finite 48000, Ieee.finite 0, Ieee.finite (9842633 / 16777216)⟩ :
        WavetableOscillator Ieee) 480 = xs := by
    simp only [Rounded.soloSamples, hxs]
  have hfun : (fun index =>
        Ieee.fmod (Ieee.add binary32 index (Ieee.finite (9842633 / 16777216)))
          (Ieee.ofInt binary32 ((table.length : Nat) : Int)))
      = (fun index =>
        Ieee.fmod (Ieee.add binary32 index (Ieee.finite (9842633 / 16777216)))
          (Ieee.finite 64)) := by
    funext index
    rw [hlen64]
    exact congrArg _ h64
  rw [hfun] at hxpos
  refine ⟨congrArg WavetableOscillator.indexIncrement hvoice, s1, b1, hpb, ?_⟩
  intro k
  obtain ⟨p, n, hp, hp0, hp1, hpe⟩ := Rounded.note_positions k.val
  have hxk := hxpos k.val k.isLt
  rw [hp] at hxk
  have hlt : k.val < xs.length := by rw [hxlen]; exact k.isLt
  obtain ⟨x, hx⟩ : ∃ x, xs[k.val]? = some x :=
    ⟨_, Rounded.getElem?_eq_some_getD xs k.val (Ieee.finite 0) hlt⟩
  rw [hx] at hxk
  refine ⟨x, p, ?_, hp0, hp1, hxk.symm, ?_, ?_⟩
  · rw [h64]; exact hp
  · have h := hsample k.val k.isLt
    rw [h, hsolo]
    have hz : (List.replicate 480 (Ieee.finite 0)).getD k.val (Ieee.finite 0)
        = Ieee.finite 0 := by
      rw [List.getD_eq_getElem?_getD, List.getElem?_replicate]
      split <;> rfl
    have hg : xs.getD k.val (Ieee.finite 0) = x := by
      simp [List.getD_eq_getElem?_getD, hx]
    rw [hz, hg]
  · intro htab
    by_cases hk : k.val = 0
    · rw [hk] at hp
      have hp00 : p = 0 := (Ieee.finite.inj hp).symm
      obtain ⟨q0, hq0, -, hq0z, -⟩ := htab 0 (by norm_num)
      obtain ⟨q1, hq1, -⟩ := htab 1 (by norm_num)
      rw [hq0z rfl] at hq0
      obtain ⟨hz1, hz2⟩ := Rounded.note_sample_zero table (Ieee.finite 48000)
        (Ieee.finite (9842633 / 16777216)) q1 hlen64 hq0 hq1
      rw [hp00, hz1] at hxk
      rw [Option.some.inj hxk, hz2]
      exact ⟨0, rfl, by simp [hk]⟩
    · have hzone := Rounded.note_position_zone k.val (by omega) k.isLt p n hp0 hp1 hpe
      obtain ⟨x2, y, hx2, hy, hy0⟩ := Rounded.note_sample_nonzero table (Ieee.finite 48000)
        (Ieee.finite (9842633 / 16777216)) p hlen64 htab hzone
      rw [← hxk] at hx2
      rw [Option.some.inj hx2, hy]
      exact ⟨y, rfl, by simp [hy0, hk]⟩

/-- C11, amended, with the triangle stand-ins for the `<cmath>` functions, on a stereo
buffer: the block is defined, every sample of channel 0 is a finite number, sample 0 is 0
and the samples 1 to 479 are nonzero. -/
theorem note_on_block_is_interpolated_sine_witness :
    Rounded.triangleMath.powf (Ieee.finite 2) (Ieee.finite 0) = Ieee.finite 1 ∧
    ∃ s1 b1,
      Rounded.processBlock Rounded.triangleMath
          (Rounded.prepareToPlay Rounded.triangleMath ⟨Ieee.finite 0, []⟩ (Ieee.finite 48000))
          ⟨480, List.replicate (1 + 1) (List.replicate 480 (Ieee.finite 0))⟩
          [⟨0, MidiKind.noteOn 69 100⟩] = some (s1, b1) ∧
      ∀ k : Fin 480,
        ∃ y : ℚ, b1.sample? 0 k.val = some (Ieee.finite y) ∧ (y = 0 ↔ k.val = 0) := by
  refine ⟨rfl, ?_⟩
  obtain ⟨-, s1, b1, hpb, hs⟩ := note_on_block_is_interpolated_sine Rounded.triangleMath
    ⟨Ieee.finite 0, []⟩ 100 1 rfl
  refine ⟨s1, b1, hpb, fun k => ?_⟩
  obtain ⟨x, p, -, -, -, -, hb, hz⟩ := hs k
  obtain ⟨y, hy, hyz⟩ := hz (Rounded.triangle_table ⟨Ieee.finite 0, []⟩)
  exact ⟨y, by rw [hb, hy], hyz⟩

end Properties
